import Mathlib

/-! # Left-leaning red-black tree over a shared index arena (`redBlackTree.h`)

Shallow embedding of `RedBlackTree<KeyType,ValueType>`.

* The static parallel arrays `left`, `right`, `counts`, `heights`, `colors`, `keys`, `values`
  together with `nTrees`, `freeListHead` and `capacity` form the record `Arena`.  A column is a
  function on indices; every subscript `col[i]` of the source is a guarded access that fails with
  `Err.undefinedBehaviour` unless `i < capacity` (an out-of-bounds subscript in C++).
* `uint32_t` arithmetic is arithmetic on `Nat` reduced modulo `UINT32 = 2^32`.
* Recursive member functions and loops take a fuel argument; running out of fuel is the error
  `Err.outOfFuel`.  The public operations supply `capacity + 1` units of fuel.
* `std::domain_error` is `Err.notFound`, `std::logic_error` is `Err.invariant`.
* A reference `ValueType &` into `values` is modelled by the index of the slot it denotes.
-/

namespace RedBlackTree

/-! ## Constants and errors -/

/-- Colour code of a black node. -/
def NODE_BLACK : Nat := 0

/-- Colour code of a red node. -/
def NODE_RED : Nat := 1

/-- The distinguished handle `0xffffffff` meaning "no node". -/
def NULL_INDEX : Nat := 4294967295

/-- Capacity used when the constructor is called without an argument. -/
def DEFAULT_INIT_CAPACITY : Nat := 16

/-- Number of values of a `uint32_t`. -/
def UINT32 : Nat := 4294967296

/-- The rule whose violation `prvIsValid` / `isValidRBTree` reports. -/
inductive Violation where
  | leafDepth
  | redRule
  | leftNotLess
  | rightNotLarger
  | tooTall
  deriving DecidableEq, Repr

/-- Ways in which a member function can fail to return normally. -/
inductive Err where
  | notFound
  | invariant (v : Violation)
  | undefinedBehaviour
  | outOfFuel
  deriving DecidableEq, Repr

/-! ## The arena -/

/-- The static storage shared by all trees of one key/value type pair. -/
structure Arena (K V : Type) where
  left : Nat → Nat
  right : Nat → Nat
  counts : Nat → Nat
  heights : Nat → Nat
  colors : Nat → Nat
  keys : Nat → K
  values : Nat → V
  nTrees : Nat
  freeListHead : Nat
  capacity : Nat

/-- Pointwise update of a column. -/
def upd {α : Type} (f : Nat → α) (i : Nat) (x : α) : Nat → α :=
  fun j => if j = i then x else f j

variable {K V : Type}

namespace Arena

/-- The static initialisers at the end of the header: null columns, zero counters.  A column of
the model is a total function; what it holds outside `[0, capacity)` stands for what the
storage handed out by a later `new T[n]` holds before anything is written to it. -/
def static0 [Inhabited K] [Inhabited V] : Arena K V :=
  { left := fun _ => 0, right := fun _ => 0, counts := fun _ => 0, heights := fun _ => 0,
    colors := fun _ => 0, keys := fun _ => default, values := fun _ => default,
    nTrees := 0, freeListHead := 0, capacity := 0 }

/-- Guarded subscript read `col[i]`. -/
def read {α : Type} (a : Arena K V) (col : Nat → α) (i : Nat) : Except Err α :=
  if i < a.capacity then .ok (col i) else .error .undefinedBehaviour

/-- Guarded write `left[i] = x`. -/
def setLeft (a : Arena K V) (i x : Nat) : Except Err (Arena K V) :=
  if i < a.capacity then .ok { a with left := upd a.left i x } else .error .undefinedBehaviour

/-- Guarded write `right[i] = x`. -/
def setRight (a : Arena K V) (i x : Nat) : Except Err (Arena K V) :=
  if i < a.capacity then .ok { a with right := upd a.right i x } else .error .undefinedBehaviour

/-- Guarded write `counts[i] = x`. -/
def setCount (a : Arena K V) (i x : Nat) : Except Err (Arena K V) :=
  if i < a.capacity then .ok { a with counts := upd a.counts i x } else .error .undefinedBehaviour

/-- Guarded write `heights[i] = x`. -/
def setHeight (a : Arena K V) (i x : Nat) : Except Err (Arena K V) :=
  if i < a.capacity then .ok { a with heights := upd a.heights i x }
  else .error .undefinedBehaviour

/-- Guarded write `colors[i] = x`. -/
def setColor (a : Arena K V) (i x : Nat) : Except Err (Arena K V) :=
  if i < a.capacity then .ok { a with colors := upd a.colors i x } else .error .undefinedBehaviour

/-- Guarded write `keys[i] = x`. -/
def setKey (a : Arena K V) (i : Nat) (x : K) : Except Err (Arena K V) :=
  if i < a.capacity then .ok { a with keys := upd a.keys i x } else .error .undefinedBehaviour

/-- Guarded write `values[i] = x`. -/
def setValue (a : Arena K V) (i : Nat) (x : V) : Except Err (Arena K V) :=
  if i < a.capacity then .ok { a with values := upd a.values i x } else .error .undefinedBehaviour

/-- Macro `GET_COUNT(n)`. -/
def GET_COUNT (a : Arena K V) (n : Nat) : Except Err Nat :=
  if n = NULL_INDEX then .ok 0 else a.read a.counts n

/-- Macro `GET_HEIGHT(n)`. -/
def GET_HEIGHT (a : Arena K V) (n : Nat) : Except Err Nat :=
  if n = NULL_INDEX then .ok 0 else a.read a.heights n

/-- Macro `IS_RED(n)`. -/
def IS_RED (a : Arena K V) (n : Nat) : Except Err Bool :=
  if n = NULL_INDEX then .ok false else do
    let c ← a.read a.colors n
    pure (decide (c = NODE_RED))

/-- The C++ expression `!colors[i]` stored back into a `uint8_t`. -/
def notColor (c : Nat) : Nat := if c = 0 then 1 else 0

/-- The growth branch of `prvAllocate`: doubled columns, old entries copied, the added range
linked into the free list.  The copy loop and the relinking loop write out of bounds when
`2*capacity` wraps or when `capacity` is zero.  The new arrays come from `new T[2*capacity]`
and only `left` is written in the added range: every other column, `keys` and `values`
included, holds there whatever the storage held. -/
def grow [Inhabited K] [Inhabited V] (a : Arena K V) : Except Err (Arena K V) :=
  let newCap := (2 * a.capacity) % UINT32
  if a.capacity = 0 ∨ newCap < a.capacity then .error .undefinedBehaviour
  else .ok
    { a with
      left := fun i =>
        if i < a.capacity then a.left i else if i + 1 < newCap then i + 1 else NULL_INDEX
      freeListHead := a.capacity
      capacity := newCap }

/-- Member `prvAllocate`. -/
def prvAllocate [Inhabited K] [Inhabited V] (a : Arena K V) : Except Err (Arena K V × Nat) := do
  let a ← (if a.freeListHead = NULL_INDEX then a.grow else pure a)
  let tmp := a.freeListHead
  let nxt ← a.read a.left tmp
  let a := { a with freeListHead := nxt }
  let a ← a.setRight tmp NULL_INDEX
  let a ← a.setLeft tmp NULL_INDEX
  let a ← a.setHeight tmp 1
  let a ← a.setCount tmp 1
  let a ← a.setColor tmp NODE_RED
  pure (a, tmp)

/-- Member `prvFree`. -/
def prvFree (a : Arena K V) (r : Nat) : Except Err (Arena K V) := do
  let a ← a.setLeft r a.freeListHead
  pure { a with freeListHead := r }

/-- Member `prvClear`. -/
def prvClear : Nat → Arena K V → Nat → Except Err (Arena K V)
  | 0, _, _ => .error .outOfFuel
  | fuel + 1, a, r =>
    if r ≠ NULL_INDEX then do
      let l ← a.read a.left r
      let a ← prvClear fuel a l
      let rt ← a.read a.right r
      let a ← prvClear fuel a rt
      a.prvFree r
    else pure a

/-- Member `prvMap`; the visitor `fp` receives the key and the value of a node and may rewrite
the value; `σ` is whatever state the visitor keeps outside the arena. -/
def prvMap {σ : Type} (fp : σ → K → V → σ × V) :
    Nat → Arena K V → Nat → σ → Except Err (Arena K V × σ)
  | 0, _, _, _ => .error .outOfFuel
  | fuel + 1, a, r, s =>
    if r ≠ NULL_INDEX then do
      let l ← a.read a.left r
      let (a, s) ← prvMap fp fuel a l s
      let k ← a.read a.keys r
      let v ← a.read a.values r
      let (s, v) := fp s k v
      let a ← a.setValue r v
      let rt ← a.read a.right r
      prvMap fp fuel a rt s
    else pure (a, s)

/-- Member `prvAdjust`. -/
def prvAdjust (a : Arena K V) (r : Nat) : Except Err (Arena K V) := do
  let l ← a.read a.left r
  let lc ← a.GET_COUNT l
  let rt ← a.read a.right r
  let rc ← a.GET_COUNT rt
  let lh ← a.GET_HEIGHT l
  let rh ← a.GET_HEIGHT rt
  let a ← a.setCount r ((1 + lc + rc) % UINT32)
  a.setHeight r ((1 + (if lh > rh then lh else rh)) % UINT32)

/-- Member `prvRotateLeft`. -/
def prvRotateLeft (a : Arena K V) (r : Nat) : Except Err (Arena K V × Nat) := do
  let s ← a.read a.right r
  let sl ← a.read a.left s
  let a ← a.setRight r sl
  let a ← a.setLeft s r
  let cr ← a.read a.colors r
  let a ← a.setColor s cr
  let a ← a.setColor r NODE_RED
  let a ← a.prvAdjust r
  let a ← a.prvAdjust s
  pure (a, s)

/-- Member `prvRotateRight`. -/
def prvRotateRight (a : Arena K V) (r : Nat) : Except Err (Arena K V × Nat) := do
  let q ← a.read a.left r
  let qr ← a.read a.right q
  let a ← a.setLeft r qr
  let a ← a.setRight q r
  let cr ← a.read a.colors r
  let a ← a.setColor q cr
  let a ← a.setColor r NODE_RED
  let a ← a.prvAdjust r
  let a ← a.prvAdjust q
  pure (a, q)

/-- Member `prvFlipColors`. -/
def prvFlipColors (a : Arena K V) (r : Nat) : Except Err (Arena K V) := do
  let c ← a.read a.colors r
  let a ← a.setColor r (notColor c)
  let l ← a.read a.left r
  let cl ← a.read a.colors l
  let a ← a.setColor l (notColor cl)
  let rt ← a.read a.right r
  let cr ← a.read a.colors rt
  a.setColor rt (notColor cr)

/-- The test `IS_RED(right[r]) && !IS_RED(left[r])` of `prvBalance`. -/
def rightLeaning (a : Arena K V) (r : Nat) : Except Err Bool := do
  let rt ← a.read a.right r
  let c ← a.IS_RED rt
  if c then do
    let l ← a.read a.left r
    let b ← a.IS_RED l
    pure (!b)
  else pure false

/-- The test `IS_RED(left[r]) && IS_RED(left[left[r]])` of `prvBalance`. -/
def leftLeftRed (a : Arena K V) (r : Nat) : Except Err Bool := do
  let l ← a.read a.left r
  let c ← a.IS_RED l
  if c then do
    let ll ← a.read a.left l
    a.IS_RED ll
  else pure false

/-- The test `IS_RED(left[r]) && IS_RED(right[r])` of `prvBalance`. -/
def bothRed (a : Arena K V) (r : Nat) : Except Err Bool := do
  let l ← a.read a.left r
  let c ← a.IS_RED l
  if c then do
    let rt ← a.read a.right r
    a.IS_RED rt
  else pure false

/-- Member `prvBalance`. -/
def prvBalance (a : Arena K V) (r : Nat) : Except Err (Arena K V × Nat) := do
  let c ← a.rightLeaning r
  let (a, r) ← (if c then a.prvRotateLeft r else pure (a, r))
  let c ← a.leftLeftRed r
  let (a, r) ← (if c then a.prvRotateRight r else pure (a, r))
  let c ← a.bothRed r
  let a ← (if c then a.prvFlipColors r else pure a)
  let a ← a.prvAdjust r
  pure (a, r)

/-- The test `IS_RED(left[right[r]])` of `prvMoveRedLeft`. -/
def rightLeftRed (a : Arena K V) (r : Nat) : Except Err Bool := do
  let rt ← a.read a.right r
  let rl ← a.read a.left rt
  a.IS_RED rl

/-- The test `IS_RED(left[left[r]])` of `prvMoveRedRight`. -/
def leftLeftChildRed (a : Arena K V) (r : Nat) : Except Err Bool := do
  let l ← a.read a.left r
  let ll ← a.read a.left l
  a.IS_RED ll

/-- Member `prvMoveRedLeft`. -/
def prvMoveRedLeft (a : Arena K V) (r : Nat) : Except Err (Arena K V × Nat) := do
  let a ← a.prvFlipColors r
  let c ← a.rightLeftRed r
  if c then do
    let rt ← a.read a.right r
    let (a, x) ← a.prvRotateRight rt
    let a ← a.setRight r x
    let (a, r) ← a.prvRotateLeft r
    let a ← a.prvFlipColors r
    pure (a, r)
  else pure (a, r)

/-- Member `prvMoveRedRight`. -/
def prvMoveRedRight (a : Arena K V) (r : Nat) : Except Err (Arena K V × Nat) := do
  let a ← a.prvFlipColors r
  let c ← a.leftLeftChildRed r
  if c then do
    let (a, r) ← a.prvRotateRight r
    let a ← a.prvFlipColors r
    pure (a, r)
  else pure (a, r)

/-- The test `!IS_RED(left[r]) && !IS_RED(left[left[r]])` of `prvRemove` and `prvRemoveMin`
(with `&&` short-circuiting). -/
def leftIsTwoNode (a : Arena K V) (r : Nat) : Except Err Bool := do
  let l ← a.read a.left r
  let b ← a.IS_RED l
  if b then pure false else do
    let ll ← a.read a.left l
    let b ← a.IS_RED ll
    pure (!b)

/-- The test `!IS_RED(right[r]) && !IS_RED(left[right[r]])` of `prvRemove`. -/
def rightIsTwoNode (a : Arena K V) (r : Nat) : Except Err Bool := do
  let rt ← a.read a.right r
  let b ← a.IS_RED rt
  if b then pure false else do
    let rl ← a.read a.left rt
    let b ← a.IS_RED rl
    pure (!b)

/-- Member `prvInsert`. -/
def prvInsert [Inhabited K] [Inhabited V] [LinearOrder K] (k : K) :
    Nat → Arena K V → Nat → Except Err (Arena K V × Nat)
  | 0, _, _ => .error .outOfFuel
  | fuel + 1, a, r =>
    if r = NULL_INDEX then do
      let (a, tmp) ← a.prvAllocate
      let a ← a.setKey tmp k
      pure (a, tmp)
    else do
      let kr ← a.read a.keys r
      if k = kr then pure (a, r)
      else if k < kr then do
        let l ← a.read a.left r
        let (a, tmp) ← prvInsert k fuel a l
        let a ← a.setLeft r tmp
        a.prvBalance r
      else do
        let rt ← a.read a.right r
        let (a, tmp) ← prvInsert k fuel a rt
        let a ← a.setRight r tmp
        a.prvBalance r

/-- Member `prvRemoveMin`; the out-parameter `ntbd` is the second component of the result. -/
def prvRemoveMin : Nat → Arena K V → Nat → Except Err (Arena K V × Nat × Nat)
  | 0, _, _ => .error .outOfFuel
  | fuel + 1, a, r => do
    let l ← a.read a.left r
    if l = NULL_INDEX then pure (a, NULL_INDEX, r)
    else do
      let c ← a.leftIsTwoNode r
      let (a, r) ← (if c then a.prvMoveRedLeft r else pure (a, r))
      let l ← a.read a.left r
      let (a, x, ntbd) ← prvRemoveMin fuel a l
      let a ← a.setLeft r x
      let (a, r) ← a.prvBalance r
      pure (a, r, ntbd)

/-- The loop `while (left[tmp] != NULL_INDEX) tmp = left[tmp];` of `prvRemove`. -/
def minLoop : Nat → Arena K V → Nat → Except Err Nat
  | 0, _, _ => .error .outOfFuel
  | fuel + 1, a, tmp => do
    let l ← a.read a.left tmp
    if l ≠ NULL_INDEX then minLoop fuel a l else pure tmp

/-- Member `prvRemove`; the out-parameter `ntbd` is the second component of the result. -/
def prvRemove [LinearOrder K] (k : K) :
    Nat → Arena K V → Nat → Except Err (Arena K V × Nat × Nat)
  | 0, _, _ => .error .outOfFuel
  | fuel + 1, a, r => do
    let kr ← a.read a.keys r
    if k < kr then do
      let c ← a.leftIsTwoNode r
      let (a, r) ← (if c then a.prvMoveRedLeft r else pure (a, r))
      let l ← a.read a.left r
      let (a, x, ntbd) ← prvRemove k fuel a l
      let a ← a.setLeft r x
      let (a, r) ← a.prvBalance r
      pure (a, r, ntbd)
    else do
      let l ← a.read a.left r
      let c ← a.IS_RED l
      let (a, r) ← (if c then a.prvRotateRight r else pure (a, r))
      let kr ← a.read a.keys r
      let rt ← a.read a.right r
      if k = kr ∧ rt = NULL_INDEX then pure (a, NULL_INDEX, r)
      else do
        let c ← a.rightIsTwoNode r
        let (a, r) ← (if c then a.prvMoveRedRight r else pure (a, r))
        let kr ← a.read a.keys r
        if k = kr then do
          let rt ← a.read a.right r
          let tmp ← minLoop fuel a rt
          let kt ← a.read a.keys tmp
          let a ← a.setKey r kt
          let vt ← a.read a.values tmp
          let a ← a.setValue r vt
          let rt ← a.read a.right r
          let (a, x, ntbd) ← prvRemoveMin fuel a rt
          let a ← a.setRight r x
          let (a, r) ← a.prvBalance r
          pure (a, r, ntbd)
        else do
          let rt ← a.read a.right r
          let (a, x, ntbd) ← prvRemove k fuel a rt
          let a ← a.setRight r x
          let (a, r) ← a.prvBalance r
          pure (a, r, ntbd)

/-- The test `IS_RED(r) && (IS_RED(left[r])) || IS_RED(right[r])` of `prvIsValid`. -/
def redViolation (a : Arena K V) (r : Nat) : Except Err Bool := do
  let c ← a.IS_RED r
  let c1 ← (if c then do
      let l ← a.read a.left r
      a.IS_RED l
    else pure false)
  if c1 then pure true else do
    let rt ← a.read a.right r
    a.IS_RED rt

/-- The test `left[r] != NULL_INDEX && keys[left[r]] >= keys[r]` of `prvIsValid`. -/
def leftNotLess [LinearOrder K] (a : Arena K V) (r : Nat) : Except Err Bool := do
  let l ← a.read a.left r
  if l ≠ NULL_INDEX then do
    let kl ← a.read a.keys l
    let kr ← a.read a.keys r
    pure (decide (kr ≤ kl))
  else pure false

/-- The test `right[r] != NULL_INDEX && keys[right[r]] <= keys[r]` of `prvIsValid`. -/
def rightNotLarger [LinearOrder K] (a : Arena K V) (r : Nat) : Except Err Bool := do
  let rt ← a.read a.right r
  if rt ≠ NULL_INDEX then do
    let kt ← a.read a.keys rt
    let kr ← a.read a.keys r
    pure (decide (kt ≤ kr))
  else pure false

/-- The argument `curDepth+(IS_RED(r) ? 0 : 1)` of the recursive calls of `prvIsValid`. -/
def childDepth (a : Arena K V) (r curDepth : Nat) : Except Err Nat := do
  let c ← a.IS_RED r
  pure ((curDepth + (if c then 0 else 1)) % UINT32)

/-- Member `prvIsValid`; the reference parameter `leafDepth` is threaded through the result. -/
def prvIsValid [LinearOrder K] :
    Nat → Arena K V → Nat → Nat → Nat → Except Err Nat
  | 0, _, _, _, _ => .error .outOfFuel
  | fuel + 1, a, r, leafDepth, curDepth =>
    if r = NULL_INDEX then
      let leafDepth := if leafDepth = NULL_INDEX then curDepth else leafDepth
      if leafDepth ≠ curDepth then .error (.invariant .leafDepth) else pure leafDepth
    else do
      let c ← a.redViolation r
      if c then .error (.invariant .redRule)
      else do
        let c ← a.leftNotLess r
        if c then .error (.invariant .leftNotLess)
        else do
          let c ← a.rightNotLarger r
          if c then .error (.invariant .rightNotLarger)
          else do
            let l ← a.read a.left r
            let d ← a.childDepth r curDepth
            let leafDepth ← prvIsValid fuel a l leafDepth d
            let rt ← a.read a.right r
            let d ← a.childDepth r curDepth
            prvIsValid fuel a rt leafDepth d

/-- The search loop shared by `search` and `operator[]`. -/
def searchLoop [LinearOrder K] (k : K) : Nat → Arena K V → Nat → Except Err Nat
  | 0, _, _ => .error .outOfFuel
  | fuel + 1, a, r =>
    if r ≠ NULL_INDEX then do
      let kr ← a.read a.keys r
      if k = kr then pure r
      else if k < kr then do
        let l ← a.read a.left r
        searchLoop k fuel a l
      else do
        let rt ← a.read a.right r
        searchLoop k fuel a rt
    else .error .notFound

end Arena

/-! ## A tree instance -/

/-- One `RedBlackTree` object together with the static storage it works on. -/
structure RBT (K V : Type) where
  arena : Arena K V
  root : Nat

/-- Constructor `RedBlackTree(_cap)` run on the static state `a`.  With `nTrees == 0` and
`_cap == 0` the initialisation loop `REPI(i,0,capacity-1)` runs past the empty arrays.  The
arrays come from `new T[_cap]` and only `left` is written: `keys`, `values` and the other
columns hold whatever the storage held. -/
def construct [Inhabited K] [Inhabited V] (a : Arena K V) (_cap : Nat) : Except Err (RBT K V) :=
  if a.nTrees = 0 then
    if _cap = 0 then .error .undefinedBehaviour
    else .ok
      { arena :=
          { a with
            left := fun i => if i + 1 < _cap then i + 1 else NULL_INDEX
            capacity := _cap
            freeListHead := 0
            nTrees := 1 }
        root := NULL_INDEX }
  else .ok { arena := { a with nTrees := (a.nTrees + 1) % UINT32 }, root := NULL_INDEX }

/-- The first tree of the program: the constructor run on the static initial state. -/
def empty [Inhabited K] [Inhabited V] (_cap : Nat) : Except Err (RBT K V) :=
  construct Arena.static0 _cap

namespace RBT

/-- Fuel handed to the recursive members: more than the number of slots of the arena. -/
def fuel (t : RBT K V) : Nat := t.arena.capacity + 1

/-- Destructor `~RedBlackTree()`; the result is the static state left behind.  When the last
tree goes the arrays are deleted and the static variables keep their stale contents, which no
member reads before the next constructor call replaces them. -/
def destroy (t : RBT K V) : Except Err (Arena K V) :=
  let a := { t.arena with nTrees := (t.arena.nTrees + UINT32 - 1) % UINT32 }
  if a.nTrees = 0 then .ok a
  else a.prvClear t.fuel t.root

/-- Member `clear`. -/
def clear (t : RBT K V) : Except Err (RBT K V) := do
  let a ← t.arena.prvClear t.fuel t.root
  pure { arena := a, root := NULL_INDEX }

/-- Member `size`. -/
def size (t : RBT K V) : Except Err Nat := t.arena.GET_COUNT t.root

/-- Member `height`. -/
def height (t : RBT K V) : Except Err Nat := t.arena.GET_HEIGHT t.root

/-- Member `isEmpty`. -/
def isEmpty (t : RBT K V) : Bool := decide (t.root = NULL_INDEX)

/-- Member `search`; the result is the slot of `values` the returned reference denotes. -/
def search [LinearOrder K] (t : RBT K V) (k : K) : Except Err Nat :=
  Arena.searchLoop k t.fuel t.arena t.root

/-- Member `operator[]`; returns the slot the returned reference denotes and the new state. -/
def upsert [Inhabited K] [Inhabited V] [LinearOrder K] (t : RBT K V) (k : K) :
    Except Err (Nat × RBT K V) := do
  let (a, r) ← Arena.prvInsert k t.fuel t.arena t.root
  let a ← a.setColor r NODE_BLACK
  let h ← Arena.searchLoop k (a.capacity + 1) a r
  pure (h, { arena := a, root := r })

/-- Writing `x` through a reference into `values` that denotes slot `h`. -/
def write (t : RBT K V) (h : Nat) (x : V) : Except Err (RBT K V) := do
  let a ← t.arena.setValue h x
  pure { t with arena := a }

/-- The statement `t[k] = x`. -/
def assign [Inhabited K] [Inhabited V] [LinearOrder K] (t : RBT K V) (k : K) (x : V) :
    Except Err (RBT K V) := do
  let (h, t) ← t.upsert k
  t.write h x

/-- Member `map` with a visitor that keeps its own state `σ` and does not touch the arena. -/
def map {σ : Type} (t : RBT K V) (fp : σ → K → V → σ × V) (s : σ) :
    Except Err (RBT K V × σ) := do
  let (a, s) ← Arena.prvMap fp t.fuel t.arena t.root s
  pure ({ t with arena := a }, s)

/-- The test `!IS_RED(left[root]) && !IS_RED(right[root])` of `remove`. -/
def rootIsTwoNode (a : Arena K V) (r : Nat) : Except Err Bool := do
  let l ← a.read a.left r
  let cl ← a.IS_RED l
  if cl then pure false else do
    let rt ← a.read a.right r
    let cr ← a.IS_RED rt
    pure (!cr)

/-- Member `remove`. -/
def remove [LinearOrder K] (t : RBT K V) (k : K) : Except Err (RBT K V) :=
  match t.search k with
  | .error e => .error e
  | .ok _ => do
    let c ← rootIsTwoNode t.arena t.root
    let a ← (if c then t.arena.setColor t.root NODE_RED else pure t.arena)
    let (a, r, ntbd) ← Arena.prvRemove k t.fuel a t.root
    let a ← a.prvFree ntbd
    let a ← (if r ≠ NULL_INDEX then a.setColor r NODE_BLACK else pure a)
    pure { arena := a, root := r }

/-- The value `ceil(log2(n))` for `1 <= n <= 2^32` (the least `e` with `n <= 2^e`), which is
what the double-precision expression of `isValidRBTree` yields on such `n`. -/
def ceilLog2Loop (n : Nat) : Nat → Nat → Nat
  | 0, e => e
  | f + 1, e => if n ≤ 2 ^ e then e else ceilLog2Loop n f (e + 1)

/-- Ceiling of the binary logarithm on the `uint32_t` range. -/
def ceilLog2 (n : Nat) : Nat := ceilLog2Loop n 32 0

/-- Member `isValidRBTree`.  `GET_COUNT(root)+1` is `uint32_t` arithmetic; when it wraps to zero
`log2` is minus infinity and the comparison succeeds for every height. -/
def isValidRBTree [LinearOrder K] (t : RBT K V) : Except Err Unit :=
  if t.root = NULL_INDEX then pure ()
  else do
    let _ ← Arena.prvIsValid t.fuel t.arena t.root NULL_INDEX 0
    let h ← t.arena.GET_HEIGHT t.root
    let c ← t.arena.GET_COUNT t.root
    let n := (c + 1) % UINT32
    if n = 0 ∨ h > 2 * ceilLog2 n then .error (.invariant .tooTall) else pure ()

end RBT

/-! ## The tree a handle denotes

`Tree` is the shape read off the arena from a handle: every node carries its handle and the
contents of its columns.  The functions below restate the member functions on this shape; a
result `none` marks an access through `NULL_INDEX`. -/

/-- Shape of the part of the arena reachable from a handle. -/
inductive Tree (K V : Type) where
  | nil : Tree K V
  | node (h : Nat) (l r : Tree K V) (cnt ht : Nat) (red : Bool) (k : K) (v : V) : Tree K V

namespace Tree

/-- Handle of the top node. -/
def root : Tree K V → Nat
  | nil => NULL_INDEX
  | node h _ _ _ _ _ _ _ => h

/-- Whether the shape is empty (the handle is `NULL_INDEX`). -/
def isNil : Tree K V → Bool
  | nil => true
  | node _ _ _ _ _ _ _ _ => false

/-- Left subtree. -/
def left : Tree K V → Tree K V
  | nil => nil
  | node _ l _ _ _ _ _ _ => l

/-- Right subtree. -/
def right : Tree K V → Tree K V
  | nil => nil
  | node _ _ r _ _ _ _ _ => r

/-- Stored count, as read by `GET_COUNT`. -/
def cnt : Tree K V → Nat
  | nil => 0
  | node _ _ _ c _ _ _ _ => c

/-- Stored height, as read by `GET_HEIGHT`. -/
def ht : Tree K V → Nat
  | nil => 0
  | node _ _ _ _ x _ _ _ => x

/-- Colour test, as computed by `IS_RED`. -/
def isRed : Tree K V → Bool
  | nil => false
  | node _ _ _ _ _ c _ _ => c

/-- Handles of the nodes, in order. -/
def handles : Tree K V → List Nat
  | nil => []
  | node h l r _ _ _ _ _ => l.handles ++ h :: r.handles

/-- Entries in order. -/
def toList : Tree K V → List (K × V)
  | nil => []
  | node _ l r _ _ _ k v => l.toList ++ (k, v) :: r.toList

/-- Number of nodes. -/
def size : Tree K V → Nat
  | nil => 0
  | node _ l r _ _ _ _ _ => l.size + r.size + 1

/-- Number of nodes on the longest downward path. -/
def depth : Tree K V → Nat
  | nil => 0
  | node _ l r _ _ _ _ _ => max l.depth r.depth + 1

/-- A node whose count and height are computed from its children the way `prvAdjust` does. -/
def mk (h : Nat) (l r : Tree K V) (red : Bool) (k : K) (v : V) : Tree K V :=
  node h l r ((1 + l.cnt + r.cnt) % UINT32)
    ((1 + (if l.ht > r.ht then l.ht else r.ht)) % UINT32) red k v

/-- Shape after `prvAdjust`. -/
def adjust : Tree K V → Option (Tree K V)
  | nil => none
  | node h l r _ _ c k v => some (mk h l r c k v)

/-- Shape after `prvRotateLeft`. -/
def rotateLeft : Tree K V → Option (Tree K V)
  | node h l (node s sl sr _ _ _ sk sv) _ _ c k v => some (mk s (mk h l sl true k v) sr c sk sv)
  | _ => none

/-- Shape after `prvRotateRight`. -/
def rotateRight : Tree K V → Option (Tree K V)
  | node h (node q ql qr _ _ _ qk qv) r _ _ c k v => some (mk q ql (mk h qr r true k v) c qk qv)
  | _ => none

/-- Shape after `prvFlipColors`. -/
def flipColors : Tree K V → Option (Tree K V)
  | node h (node lh ll lr lc lt lcol lk lv) (node rh rl rr rc rt rcol rk rv) c t col k v =>
    some (node h (node lh ll lr lc lt (!lcol) lk lv) (node rh rl rr rc rt (!rcol) rk rv)
      c t (!col) k v)
  | _ => none

/-- Shape after `prvBalance`. -/
def balance (t : Tree K V) : Option (Tree K V) :=
  (if t.right.isRed && !t.left.isRed then t.rotateLeft else some t).bind fun t1 =>
  (if t1.left.isRed && t1.left.left.isRed then t1.rotateRight else some t1).bind fun t2 =>
  (if t2.left.isRed && t2.right.isRed then t2.flipColors else some t2).bind fun t3 =>
  t3.adjust

/-- Replace the left subtree (the assignment `left[r] = x`). -/
def setLeft : Tree K V → Tree K V → Option (Tree K V)
  | nil, _ => none
  | node h _ r c t col k v, x => some (node h x r c t col k v)

/-- Replace the right subtree (the assignment `right[r] = x`). -/
def setRight : Tree K V → Tree K V → Option (Tree K V)
  | nil, _ => none
  | node h l _ c t col k v, x => some (node h l x c t col k v)

/-- Shape after `prvMoveRedLeft`. -/
def moveRedLeft (t : Tree K V) : Option (Tree K V) :=
  t.flipColors.bind fun t1 =>
  if t1.right.left.isRed then
    t1.right.rotateRight.bind fun x =>
    (t1.setRight x).bind fun t2 =>
    t2.rotateLeft.bind fun t3 =>
    t3.flipColors
  else some t1

/-- Shape after `prvMoveRedRight`. -/
def moveRedRight (t : Tree K V) : Option (Tree K V) :=
  t.flipColors.bind fun t1 =>
  if t1.left.left.isRed then
    t1.rotateRight.bind fun t2 =>
    t2.flipColors
  else some t1

/-- Shape after `prvInsert`, where `nh` is the handle `prvAllocate` hands out and `nv` the
content of `values[nh]` at that moment. -/
def insert [LinearOrder K] (nh : Nat) (nv : V) (k : K) : Nat → Tree K V → Option (Tree K V)
  | 0, _ => none
  | _ + 1, nil => some (node nh nil nil 1 1 true k nv)
  | fuel + 1, node h l r c t col kr v =>
    if k = kr then some (node h l r c t col kr v)
    else if k < kr then
      (insert nh nv k fuel l).bind fun x => balance (node h x r c t col kr v)
    else
      (insert nh nv k fuel r).bind fun x => balance (node h l x c t col kr v)

/-- Shape after `prvRemoveMin`, with the handle stored in `ntbd`. -/
def removeMin : Nat → Tree K V → Option (Tree K V × Nat)
  | 0, _ => none
  | _ + 1, nil => none
  | fuel + 1, node h l r c t col k v =>
    if l.isNil then some (nil, h)
    else
      (if !l.isRed && !l.left.isRed then (node h l r c t col k v).moveRedLeft
        else some (node h l r c t col k v)).bind fun t1 =>
      (removeMin fuel t1.left).bind fun p =>
      (t1.setLeft p.1).bind fun t2 =>
      t2.balance.bind fun t3 =>
      some (t3, p.2)

/-- Entry of the leftmost node (the node the loop of `prvRemove` stops at). -/
def minEntry : Nat → Tree K V → Option (K × V)
  | 0, _ => none
  | _ + 1, nil => none
  | fuel + 1, node _ l _ _ _ _ k v => if l.isNil then some (k, v) else minEntry fuel l

/-- Overwrite key and value of the top node. -/
def setEntry : Tree K V → K × V → Option (Tree K V)
  | nil, _ => none
  | node h l r c t col _ _, e => some (node h l r c t col e.1 e.2)

/-- Key of the top node. -/
def key? : Tree K V → Option K
  | nil => none
  | node _ _ _ _ _ _ k _ => some k

/-- Shape after `prvRemove`, with the handle stored in `ntbd`. -/
def remove [LinearOrder K] (k : K) : Nat → Tree K V → Option (Tree K V × Nat)
  | 0, _ => none
  | _ + 1, nil => none
  | fuel + 1, node h l r c t col kr v =>
    if k < kr then
      if l.isNil then none
      else
        (if !l.isRed && !l.left.isRed then (node h l r c t col kr v).moveRedLeft
          else some (node h l r c t col kr v)).bind fun t1 =>
        (remove k fuel t1.left).bind fun p =>
        (t1.setLeft p.1).bind fun t2 =>
        t2.balance.bind fun t3 =>
        some (t3, p.2)
    else
      (if l.isRed then (node h l r c t col kr v).rotateRight
        else some (node h l r c t col kr v)).bind fun t1 =>
      t1.key?.bind fun k1 =>
      if k = k1 ∧ t1.right.isNil then some (nil, t1.root)
      else if t1.right.isNil then none
      else
        (if !t1.right.isRed && !t1.right.left.isRed then t1.moveRedRight else some t1).bind
          fun t2 =>
        t2.key?.bind fun k2 =>
        if k = k2 then
          (t2.right.minEntry fuel).bind fun e =>
          (t2.setEntry e).bind fun t3 =>
          (removeMin fuel t3.right).bind fun p =>
          (t3.setRight p.1).bind fun t4 =>
          t4.balance.bind fun t5 =>
          some (t5, p.2)
        else
          (remove k fuel t2.right).bind fun p =>
          (t2.setRight p.1).bind fun t4 =>
          t4.balance.bind fun t5 =>
          some (t5, p.2)

/-- Slot reached by the search loop. -/
def search [LinearOrder K] (k : K) : Tree K V → Option Nat
  | nil => none
  | node h l r _ _ _ kr _ =>
    if k = kr then some h else if k < kr then search k l else search k r

/-- Shape after `prvMap`, with the final visitor state. -/
def mapT {σ : Type} (fp : σ → K → V → σ × V) : Tree K V → σ → Tree K V × σ
  | nil, s => (nil, s)
  | node h l r c t col k v, s =>
    let (l1, s1) := mapT fp l s
    let (s2, v2) := fp s1 k v
    let (r1, s3) := mapT fp r s2
    (node h l1 r1 c t col k v2, s3)

/-- Handles in the order in which `prvClear` pushes them onto the free list, last pushed
first. -/
def freed : Tree K V → List Nat
  | nil => []
  | node h l r _ _ _ _ _ => h :: (r.freed ++ l.freed)

/-- The top key is at least `k` (false for the empty shape). -/
def keyGE [LinearOrder K] (k : K) : Tree K V → Bool
  | nil => false
  | node _ _ _ _ _ _ kl _ => decide (k ≤ kl)

/-- The top key is at most `k` (false for the empty shape). -/
def keyLE [LinearOrder K] (k : K) : Tree K V → Bool
  | nil => false
  | node _ _ _ _ _ _ kt _ => decide (kt ≤ k)

/-- Result of `prvIsValid` on the shape, with `leafDepth` threaded through. -/
def check [LinearOrder K] : Tree K V → Nat → Nat → Except Err Nat
  | nil, leafDepth, curDepth =>
    let leafDepth := if leafDepth = NULL_INDEX then curDepth else leafDepth
    if leafDepth ≠ curDepth then .error (.invariant .leafDepth) else .ok leafDepth
  | node _ l r _ _ red k _, leafDepth, curDepth =>
    if (red && l.isRed) || r.isRed then .error (.invariant .redRule)
    else if l.keyGE k then .error (.invariant .leftNotLess)
    else if r.keyLE k then .error (.invariant .rightNotLarger)
    else
      (check l leafDepth ((curDepth + (if red then 0 else 1)) % UINT32)).bind fun ld =>
      check r ld ((curDepth + (if red then 0 else 1)) % UINT32)

end Tree

/-! ## Invariants of the data model, stated on shapes -/

namespace Tree

/-- Number of black nodes on the leftmost path. -/
def bh : Tree K V → Nat
  | nil => 0
  | node _ l _ _ _ red _ _ => l.bh + (if red then 0 else 1)

/-- Colour invariants below and at a node: no red right child, no red node with a red left
child, equal black height on both sides. -/
def Ok : Tree K V → Prop
  | nil => True
  | node _ l r _ _ red _ _ =>
    r.isRed = false ∧ (red = true → l.isRed = false) ∧ l.bh = r.bh ∧ Ok l ∧ Ok r

/-- Keys in order. -/
def keys (t : Tree K V) : List K := t.toList.map Prod.fst

/-- Binary-search order: the keys read in order are strictly increasing. -/
def Bst [LinearOrder K] (t : Tree K V) : Prop := t.keys.Sorted (· < ·)

/-- Every node stores the size and the depth of its subtree. -/
def Cons : Tree K V → Prop
  | nil => True
  | node h l r cnt ht red k v =>
    cnt = (node h l r cnt ht red k v).size ∧ ht = (node h l r cnt ht red k v).depth ∧
    Cons l ∧ Cons r

/-- Value found by the search descent. -/
def find [LinearOrder K] (k : K) : Tree K V → Option V
  | nil => none
  | node _ l r _ _ _ kr v =>
    if k = kr then some v else if k < kr then find k l else find k r

end Tree

/-! ## Laying a shape out in the arena -/

/-- Colour code stored for a node. -/
def colorCode (red : Bool) : Nat := if red then NODE_RED else NODE_BLACK

/-- Every node of the shape sits at its handle with exactly the recorded column contents. -/
def Heap (a : Arena K V) : Tree K V → Prop
  | .nil => True
  | .node h l r cnt ht red k v =>
    h < a.capacity ∧ a.left h = l.root ∧ a.right h = r.root ∧ a.counts h = cnt ∧
    a.heights h = ht ∧ a.colors h = colorCode red ∧ a.keys h = k ∧ a.values h = v ∧
    Heap a l ∧ Heap a r

/-- The free list starting at handle `h` runs through exactly the handles `fl`. -/
def FreeList (a : Arena K V) : Nat → List Nat → Prop
  | h, [] => h = NULL_INDEX
  | h, x :: xs => h = x ∧ x < a.capacity ∧ FreeList a (a.left x) xs

/-! ## Predicates and list-level operations used in the statements -/

/-- Two arenas hold the same node contents at index `i`. -/
def Agree (a a' : Arena K V) (i : Nat) : Prop :=
  a'.left i = a.left i ∧ a'.right i = a.right i ∧ a'.counts i = a.counts i ∧
  a'.heights i = a.heights i ∧ a'.colors i = a.colors i ∧ a'.keys i = a.keys i ∧
  a'.values i = a.values i

/-- The arena `a'` differs from `a` at most in the node contents at the handles in `S`. -/
structure Frame (S : List Nat) (a a' : Arena K V) : Prop where
  capacity : a'.capacity = a.capacity
  freeListHead : a'.freeListHead = a.freeListHead
  nTrees : a'.nTrees = a.nTrees
  agree : ∀ i, i ∉ S → Agree a a' i

/-- The columns hold the given contents at handle `h`. -/
def NodeAt (a : Arena K V) (h lr rr cnt ht : Nat) (red : Bool) (k : K) (v : V) : Prop :=
  h < a.capacity ∧ a.left h = lr ∧ a.right h = rr ∧ a.counts h = cnt ∧ a.heights h = ht ∧
  a.colors h = colorCode red ∧ a.keys h = k ∧ a.values h = v

/-- What `prvClear` leaves of the arena: only `left` and the free-list head change. -/
structure Cleared (a a' : Arena K V) : Prop where
  capacity : a'.capacity = a.capacity
  nTrees : a'.nTrees = a.nTrees
  right : a'.right = a.right
  counts : a'.counts = a.counts
  heights : a'.heights = a.heights
  colors : a'.colors = a.colors
  keys : a'.keys = a.keys
  values : a'.values = a.values

/-- Outcome of a successful `prvAllocate` on an arena whose free list is `fl`. -/
structure Allocated [Inhabited K] [Inhabited V] (a a' : Arena K V) (fl fl' : List Nat)
    (nh : Nat) : Prop where
  freelist : FreeList a' a'.freeListHead fl'
  nodup : fl'.Nodup
  fresh : nh ∉ fl'
  src : (nh ∈ fl ∧ a'.capacity = a.capacity ∧ fl = nh :: fl') ∨
    (fl = [] ∧ nh = a.capacity ∧ a'.capacity = 2 * a.capacity ∧
      fl' = List.range' (a.capacity + 1) (a.capacity - 1))
  lt : nh < a'.capacity
  cap_null : a'.capacity ≤ NULL_INDEX
  nTrees : a'.nTrees = a.nTrees
  node : NodeAt a' nh NULL_INDEX NULL_INDEX 1 1 true (a'.keys nh) (a'.values nh)
  agree : ∀ i, i < a.capacity → i ≠ nh → Agree a a' i
  value : a'.values = a.values
  key : a'.keys = a.keys

/-- Count stored by `prvAdjust` above children `l` and `r`. -/
def Tree.mkCnt (l r : Tree K V) : Nat := (1 + l.cnt + r.cnt) % UINT32

/-- Height stored by `prvAdjust` above children `l` and `r`. -/
def Tree.mkHt (l r : Tree K V) : Nat := (1 + (if l.ht > r.ht then l.ht else r.ht)) % UINT32

/-- What the deletion recursion returns in place of `t`. -/
def Tree.Post (t x : Tree K V) : Prop :=
  x.Ok ∧ x.bh = t.bh ∧ (t.isRed = false → x.isRed = false)

/-- Reattaching a left subtree and rebalancing gives a legal replacement for `t`. -/
def Tree.CtxL (t t1 : Tree K V) : Prop :=
  ∀ x : Tree K V, Tree.Post t1.left x →
    ∃ t2 t3, t1.setLeft x = some t2 ∧ t2.balance = some t3 ∧ Tree.Post t t3

/-- Overwriting the entry of the top node, reattaching a right subtree and rebalancing gives a
legal replacement for `t`. -/
def Tree.CtxR (t t1 : Tree K V) : Prop :=
  ∀ (x : Tree K V) (e : K × V), Tree.Post t1.right x →
    ∃ t2 t3 t4, t1.setEntry e = some t2 ∧ t2.setRight x = some t3 ∧ t3.balance = some t4 ∧
      Tree.Post t t4

/-- Shape of a node the deletion recursion may be entered at: a red node with black children,
or a black node with exactly one red child. -/
def Tree.Del : Tree K V → Prop
  | .nil => False
  | .node _ l r _ _ red _ _ =>
    l.Ok ∧ r.Ok ∧ l.bh = r.bh ∧
    ((red = true ∧ l.isRed = false ∧ r.isRed = false) ∨
      (red = false ∧ l.isRed = true ∧ r.isRed = false) ∨
      (red = false ∧ l.isRed = false ∧ r.isRed = true))

/-- Entries in strictly increasing key order. -/
def SortedK [LinearOrder K] (xs : List (K × V)) : Prop := xs.Pairwise (fun a b => a.1 < b.1)

/-- A red node whose left child is red as well, the one defect `prvInsert` hands upwards. -/
def Tree.InsR : Tree K V → Prop
  | .nil => False
  | .node _ l r _ _ red _ _ =>
    red = true ∧ l.isRed = true ∧ r.isRed = false ∧ l.bh = r.bh ∧ l.Ok ∧ r.Ok

/-- What `prvInsert` returns for the subtree `t`. -/
def Tree.InsPost (t x : Tree K V) : Prop :=
  x ≠ .nil ∧ x.bh = t.bh ∧ (t.isRed = false → x.Ok) ∧
    (t.isRed = true → x.isRed = true ∧ (x.Ok ∨ x.InsR))

/-- Entries after `operator[]` on key `k`, where `nv` is what the new slot holds. -/
def insL [LinearOrder K] (k : K) (nv : V) : List (K × V) → List (K × V)
  | [] => [(k, nv)]
  | a :: xs =>
    if k = a.1 then a :: xs else if k < a.1 then (k, nv) :: a :: xs else a :: insL k nv xs

/-- Both subtrees store correct counts and heights. -/
def Tree.Kids (t : Tree K V) : Prop := t.left.Cons ∧ t.right.Cons

/-- Same handles, links, counts, heights, colours and keys; values may differ. -/
def Tree.Skel : Tree K V → Tree K V → Prop
  | .nil, .nil => True
  | .node h l r c g red k _, .node h' l' r' c' g' red' k' _ =>
    h = h' ∧ c = c' ∧ g = g' ∧ red = red' ∧ k = k' ∧ Tree.Skel l l' ∧ Tree.Skel r r'
  | _, _ => False

/-- Shape after storing `x` through the reference that `search(k)` returns. -/
def Tree.put [LinearOrder K] (k : K) (x : V) : Tree K V → Tree K V
  | .nil => .nil
  | .node h l r c g red kr v =>
    if k = kr then .node h l r c g red kr x
    else if k < kr then .node h (Tree.put k x l) r c g red kr v
    else .node h l (Tree.put k x r) c g red kr v

/-- Entries after storing `x` under the key `k`. -/
def setL [DecidableEq K] (k : K) (x : V) (es : List (K × V)) : List (K × V) :=
  es.map fun e => if e.1 = k then (e.1, x) else e

/-- Entries and visitor state after `map`: the visitor is run on the entries from left to
right. -/
def mapL {σ : Type} (fp : σ → K → V → σ × V) : List (K × V) → σ → List (K × V) × σ
  | [], s => ([], s)
  | e :: es, s =>
    let p := fp s e.1 e.2
    let q := mapL fp es p.1
    ((e.1, p.2) :: q.1, q.2)

/-- The object `t` stores the balanced search tree `tr`, and `fl` is its free list. -/
structure Inv [LinearOrder K] (t : RBT K V) (tr : Tree K V) (fl : List Nat) : Prop where
  heap : Heap t.arena tr
  root : t.root = tr.root
  free : FreeList t.arena t.arena.freeListHead fl
  nodup : (tr.handles ++ fl).Nodup
  cap_pos : 0 < t.arena.capacity
  cap_le : t.arena.capacity ≤ NULL_INDEX
  ok : tr.Ok
  black : tr.isRed = false
  bst : SortedK tr.toList
  cons : tr.Cons

/-- The states `t` a program can bring one tree into, starting from the constructor, together
with the entries `es` the operations performed so far have left in it: `operator[]` adds the
key with whatever the new slot holds unless the key is there, a write through a fresh reference
replaces the value, `remove` deletes the pair, `clear` deletes all, `map` rewrites the values.
Only calls that return count as steps (a call that runs into undefined behaviour, such as
doubling an arena of `2^31` slots, ends the run).  The run starts with the constructor called
with any `uint32_t` argument while no tree exists, on storage that holds anything. -/
inductive Reach [Inhabited K] [Inhabited V] [LinearOrder K] : RBT K V → List (K × V) → Prop
  | init {cap : Nat} {a : Arena K V} {t : RBT K V} : a.nTrees = 0 → cap ≤ NULL_INDEX →
    construct a cap = .ok t → Reach t []
  | upsert {t t' : RBT K V} {es : List (K × V)} {k : K} {i : Nat} :
    Reach t es → t.upsert k = .ok (i, t') → Reach t' (insL k (t'.arena.values i) es)
  | write {t t' : RBT K V} {es : List (K × V)} {k : K} {i : Nat} {x : V} :
    Reach t es → t.search k = .ok i → t.write i x = .ok t' → Reach t' (setL k x es)
  | remove {t t' : RBT K V} {es : List (K × V)} {k : K} :
    Reach t es → t.remove k = .ok t' → Reach t' (es.filter fun e => decide (e.1 ≠ k))
  | clear {t t' : RBT K V} {es : List (K × V)} : Reach t es → t.clear = .ok t' → Reach t' []
  | map {σ : Type} {t t' : RBT K V} {es : List (K × V)} {fp : σ → K → V → σ × V} {s s' : σ} :
    Reach t es → t.map fp s = .ok (t', s') → Reach t' (mapL fp es s).1

/-- Member `remove` together with the state it leaves the object in.  When the initial
`search` throws, `remove` rethrows before it has executed any write, so the state is the one
it was entered with.  (Any other error of the model stands for undefined behaviour.) -/
def RBT.removeSt [LinearOrder K] (t : RBT K V) (k : K) : RBT K V × Except Err Unit :=
  match t.search k with
  | .error e => (t, .error e)
  | .ok _ =>
    match t.remove k with
    | .ok t' => (t', .ok ())
    | .error e => (t, .error e)

/-- The pairs `map` hands to a visitor that appends each of them to a list. -/
def RBT.entries (t : RBT K V) : Except Err (List (K × V)) :=
  match t.map (fun (s : List (K × V)) k v => (s ++ [(k, v)], v)) [] with
  | .ok p => .ok p.2
  | .error e => .error e

/-- The keys `map` hands to a visitor that appends each of them to a list. -/
def RBT.visited (t : RBT K V) : Except Err (List K) :=
  match t.map (fun (s : List K) k v => (s ++ [k], v)) [] with
  | .ok p => .ok p.2
  | .error e => .error e

/-- The statements `t[k]` for the keys of a list, from left to right. -/
def RBT.upsertAll [Inhabited K] [Inhabited V] [LinearOrder K] :
    RBT K V → List K → Except Err (RBT K V)
  | t, [] => .ok t
  | t, k :: ks =>
    match t.upsert k with
    | .ok p => RBT.upsertAll p.2 ks
    | .error e => .error e

/-- Sequences of `operator[]`, writes through a fresh reference and successful `remove`, none
of them on the key `k`. -/
inductive Steps [Inhabited K] [Inhabited V] [LinearOrder K] (k : K) :
    RBT K V → RBT K V → Prop
  | refl (t : RBT K V) : Steps k t t
  | upsert {t t1 t2 : RBT K V} {q : K} {i : Nat} :
    Steps k t t1 → q ≠ k → t1.upsert q = .ok (i, t2) → Steps k t t2
  | write {t t1 t2 : RBT K V} {q : K} {i : Nat} {x : V} :
    Steps k t t1 → q ≠ k → t1.search q = .ok i → t1.write i x = .ok t2 → Steps k t t2
  | remove {t t1 t2 : RBT K V} {q : K} :
    Steps k t t1 → q ≠ k → t1.remove q = .ok t2 → Steps k t t2

/-- Result of a run, or `d` when the run fails. -/
def orElse {α : Type} (d : α) : Except Err α → α
  | .ok x => x
  | .error _ => d

/-- A state used only as the fallback of `orElse`. -/
def blank : RBT Nat Nat := { arena := Arena.static0, root := NULL_INDEX }

/-- A freshly constructed tree with four slots. -/
def run0 : RBT Nat Nat := orElse blank (empty 4)

/-- Then `t[1]`. -/
def run1 : Nat × RBT Nat Nat := orElse (0, blank) (run0.upsert 1)

/-- Then `10` is stored through the reference. -/
def run2 : RBT Nat Nat := orElse blank (run1.2.write run1.1 10)

/-- Then `remove(1)`. -/
def run3 : RBT Nat Nat := orElse blank (run2.remove 1)

/-- Then `t[1]` again. -/
def run4 : Nat × RBT Nat Nat := orElse (0, blank) (run3.upsert 1)

/-- Instead, `clear()` after the write. -/
def run5 : RBT Nat Nat := orElse blank run2.clear

/-- Then `t[1]` on the cleared tree. -/
def run6 : Nat × RBT Nat Nat := orElse (0, blank) (run5.upsert 1)

/-- After the write: `t[2]`. -/
def run7 : Nat × RBT Nat Nat := orElse (0, blank) (run2.upsert 2)

/-- Then `t[3]`. -/
def run8 : Nat × RBT Nat Nat := orElse (0, blank) (run7.2.upsert 3)

/-- Then `remove(2)`, on the node that has two children. -/
def run9 : RBT Nat Nat := orElse blank (run8.2.remove 2)

/-- Two fresh keys put into a fresh tree. -/
def run10 : RBT Nat Nat := orElse blank (run0.upsertAll [5, 6])

/-- The statements `t[k] = x` for the pairs of a list, from left to right. -/
def RBT.assignAll [Inhabited K] [Inhabited V] [LinearOrder K] :
    RBT K V → List (K × V) → Except Err (RBT K V)
  | t, [] => .ok t
  | t, e :: es =>
    match t.assign e.1 e.2 with
    | .ok t' => RBT.assignAll t' es
    | .error err => .error err

/-- The scenario `t[5]=50, t[3]=30, t[8]=80, t[1]=10, t[4]=40, t[7]=70, t[9]=90` on a tree
constructed with `cap` slots. -/
def scenario (cap : Nat) : Except Err (RBT Nat Nat) :=
  match empty cap with
  | .ok t => t.assignAll [(5, 50), (3, 30), (8, 80), (1, 10), (4, 40), (7, 70), (9, 90)]
  | .error err => .error err

/-- State after the seven assignments on a default-constructed tree. -/
def scen7 : RBT Nat Nat := orElse blank (scenario DEFAULT_INIT_CAPACITY)

/-- State after `remove(5)`. -/
def scen6 : RBT Nat Nat := orElse blank (scen7.remove 5)

/-- State after the seven assignments on a tree constructed with one slot, which makes the
arena grow three times. -/
def grow7 : RBT Nat Nat := orElse blank (scenario 1)

/-- State after `remove(5)` on it. -/
def grow6 : RBT Nat Nat := orElse blank (grow7.remove 5)

/-- Node `h` lies in the subtree that hangs below the handle `r` in the arena `a`. -/
inductive Arena.Reaches (a : Arena K V) : Nat → Nat → Prop
  | here {r : Nat} : r ≠ NULL_INDEX → Arena.Reaches a r r
  | left {r h : Nat} : r ≠ NULL_INDEX → Arena.Reaches a (a.left r) h → Arena.Reaches a r h
  | right {r h : Nat} : r ≠ NULL_INDEX → Arena.Reaches a (a.right r) h → Arena.Reaches a r h

/-- Slot `h` is on the list that starts at `f` and is linked through `left`. -/
inductive Arena.OnFreeList (a : Arena K V) : Nat → Nat → Prop
  | here {f : Nat} : f ≠ NULL_INDEX → Arena.OnFreeList a f f
  | next {f h : Nat} : f ≠ NULL_INDEX → Arena.OnFreeList a (a.left f) h →
    Arena.OnFreeList a f h

/-- The equations `counts[h] == 1 + GET_COUNT(left[h]) + GET_COUNT(right[h])` and
`heights[h] == 1 + max(GET_HEIGHT(left[h]), GET_HEIGHT(right[h]))` that `prvAdjust`
establishes. -/
def Arena.nodeConsistent (a : Arena K V) (h : Nat) : Bool :=
  match a.GET_COUNT (a.left h), a.GET_COUNT (a.right h), a.GET_HEIGHT (a.left h),
    a.GET_HEIGHT (a.right h) with
  | .ok cl, .ok cr, .ok hl, .ok hr =>
    decide (a.counts h = 1 + cl + cr) && decide (a.heights h = 1 + max hl hr)
  | _, _, _, _ => false

/-- The calls `remove(k)` for the keys of a list, from left to right. -/
def RBT.removeAll [LinearOrder K] : RBT K V → List K → Except Err (RBT K V)
  | t, [] => .ok t
  | t, k :: ks =>
    match t.remove k with
    | .ok t' => RBT.removeAll t' ks
    | .error err => .error err

/-- Node `h` is ordered against its two children: the only order `prvIsValid` looks at. -/
def Arena.locallyOrdered [LinearOrder K] (a : Arena K V) (h : Nat) : Prop :=
  (a.left h ≠ NULL_INDEX → a.keys (a.left h) < a.keys h) ∧
  (a.right h ≠ NULL_INDEX → a.keys h < a.keys (a.right h))

/-- The tree of `run8` (keys 1, 2, 3) with a wrong count stored for the left child of the root
and a wrong height stored for the right child. -/
def miscounted : RBT Nat Nat :=
  { run8.2 with
    arena :=
      { run8.2.arena with
        counts := upd run8.2.arena.counts (run8.2.arena.left run8.2.root) 5
        heights := upd run8.2.arena.heights (run8.2.arena.right run8.2.root) 9 } }

/-- Seven black nodes in a perfect tree; the key `70` sits in the left subtree of the root
`50`, as the right child of `30`. -/
def misordered : RBT Nat Nat :=
  { arena :=
      { left := fun i => if i = 0 then 1 else if i = 1 then 3 else if i = 2 then 5 else NULL_INDEX
        right := fun i => if i = 0 then 2 else if i = 1 then 4 else if i = 2 then 6 else NULL_INDEX
        counts := fun i => if i = 0 then 7 else if i = 1 then 3 else if i = 2 then 3 else 1
        heights := fun i => if i = 0 then 3 else if i = 1 then 2 else if i = 2 then 2 else 1
        colors := fun _ => NODE_BLACK
        keys := fun i =>
          if i = 0 then 50 else if i = 1 then 30 else if i = 2 then 80 else if i = 3 then 10
          else if i = 4 then 70 else if i = 5 then 60 else 90
        values := fun _ => 0
        nTrees := 1
        freeListHead := 7
        capacity := 8 }
    root := 0 }

/-- A black root with key `2` over a red left child with key `1`. -/
def shape2 : Tree Nat Nat :=
  .node 1 (.node 0 .nil .nil 1 1 true 1 10) .nil 2 2 false 2 0

/-- Two tree objects of one program: the static arena is shared, each object has its own
`root`. -/
structure Two (K V : Type) where
  arena : Arena K V
  rootA : Nat
  rootB : Nat

namespace Two

/-- The first object. -/
def A (s : Two K V) : RBT K V := { arena := s.arena, root := s.rootA }

/-- The second object. -/
def B (s : Two K V) : RBT K V := { arena := s.arena, root := s.rootB }

/-- The same program state with the two objects named the other way round. -/
def swap (s : Two K V) : Two K V := { arena := s.arena, rootA := s.rootB, rootB := s.rootA }

/-- The state after a member of the first object has left that object as `t`: the member
functions write the static arrays and the `root` of their own object only. -/
def withA (s : Two K V) (t : RBT K V) : Two K V :=
  { arena := t.arena, rootA := t.root, rootB := s.rootB }

/-- Member `operator[]` called on the first object. -/
def upsertA [Inhabited K] [Inhabited V] [LinearOrder K] (s : Two K V) (k : K) :
    Except Err (Nat × Two K V) :=
  match s.A.upsert k with
  | .ok p => .ok (p.1, s.withA p.2)
  | .error e => .error e

/-- A write through a reference obtained from the first object. -/
def writeA (s : Two K V) (h : Nat) (x : V) : Except Err (Two K V) :=
  match s.A.write h x with
  | .ok t => .ok (s.withA t)
  | .error e => .error e

/-- Member `remove` called on the first object. -/
def removeA [LinearOrder K] (s : Two K V) (k : K) : Except Err (Two K V) :=
  match s.A.remove k with
  | .ok t => .ok (s.withA t)
  | .error e => .error e

/-- Member `clear` called on the first object. -/
def clearA (s : Two K V) : Except Err (Two K V) :=
  match s.A.clear with
  | .ok t => .ok (s.withA t)
  | .error e => .error e

/-- Member `map` called on the first object. -/
def mapA {σ : Type} (s : Two K V) (fp : σ → K → V → σ × V) (x : σ) :
    Except Err (Two K V × σ) :=
  match s.A.map fp x with
  | .ok p => .ok (s.withA p.1, p.2)
  | .error e => .error e

/-- Destruction of the first object; the second object remains, on the arena the destructor
leaves. -/
def destroyA (s : Two K V) : Except Err (RBT K V) := do
  let a ← s.A.destroy
  pure { arena := a, root := s.rootB }

end Two

/-- The states of a program with two live trees: the second one is constructed at some point of
the life of the first, and from then on members of either object are called in any order
(`swap` exchanges the roles, the other steps are calls on the first object). -/
inductive Reach2 [Inhabited K] [Inhabited V] [LinearOrder K] : Two K V → Prop
  | init {tA tB : RBT K V} {es : List (K × V)} {capB : Nat} :
    Reach tA es → construct tA.arena capB = .ok tB →
    Reach2 { arena := tB.arena, rootA := tA.root, rootB := tB.root }
  | swap {s : Two K V} : Reach2 s → Reach2 s.swap
  | upsert {s s' : Two K V} {k : K} {i : Nat} :
    Reach2 s → s.upsertA k = .ok (i, s') → Reach2 s'
  | write {s s' : Two K V} {k : K} {i : Nat} {x : V} :
    Reach2 s → s.A.search k = .ok i → s.writeA i x = .ok s' → Reach2 s'
  | remove {s s' : Two K V} {k : K} : Reach2 s → s.removeA k = .ok s' → Reach2 s'
  | clear {s s' : Two K V} : Reach2 s → s.clearA = .ok s' → Reach2 s'
  | map {σ : Type} {s s' : Two K V} {fp : σ → K → V → σ × V} {x x' : σ} :
    Reach2 s → s.mapA fp x = .ok (s', x') → Reach2 s'

/-- The step from `a` to `a'` wrote only cells with an index in `S` or cells the arena did not
have before, the indices `S'` come from `S` or are new, and `S'` has as many more indices
than `S` as the arena has more slots. -/
structure Within (S S' : List Nat) (a a' : Arena K V) : Prop where
  cap_le : a.capacity ≤ a'.capacity
  nTrees : a'.nTrees = a.nTrees
  outside : ∀ i, i < a.capacity → i ∉ S → Agree a a' i
  inside : ∀ j, j ∈ S' → j ∈ S ∨ a.capacity ≤ j
  count : S'.length + a.capacity = S.length + a'.capacity

/-- Invariant of a state with two live trees: each object satisfies the invariant of a single
tree over the common free list, and the two trees have no node in common. -/
structure Inv2 [LinearOrder K] (s : Two K V) (trA trB : Tree K V) (fl : List Nat) : Prop where
  invA : Inv s.A trA fl
  invB : Inv s.B trB fl
  disj : ∀ i, i ∈ trA.handles → i ∉ trB.handles
  live : s.arena.nTrees = 2

/-- What a caller sees of a tree: `map` visits the pairs `es` in this order, `size()` is their
number and `height()` is `d`. -/
def RBT.Shows (t : RBT K V) (es : List (K × V)) (d : Nat) : Prop :=
  t.entries = .ok es ∧ t.size = .ok es.length ∧ t.height = .ok d

/-- A tree constructed with a single slot. -/
def solo0 : RBT Nat Nat := orElse blank (empty 1)

/-- Then `t[5]`, which takes the only slot. -/
def solo1 : Nat × RBT Nat Nat := orElse (0, blank) (solo0.upsert 5)

/-- Then `50` is stored through the reference. -/
def solo2 : RBT Nat Nat := orElse blank (solo1.2.write solo1.1 50)

/-- A second tree constructed while the first is alive. -/
def second : RBT Nat Nat := orElse blank (construct solo2.arena 8)

/-- The two trees right after the second constructor. -/
def pair0 : Two Nat Nat := { arena := second.arena, rootA := solo2.root, rootB := second.root }

/-- Then `u[7]` on the second tree: the arena grows from one slot to two. -/
def pair1 : Nat × Two Nat Nat := orElse (0, pair0) (pair0.swap.upsertA 7)

/-- Then `70` is stored through the reference. -/
def pair2 : Two Nat Nat := orElse pair0 (pair1.2.writeA pair1.1 70)

/-- The same state seen from the first tree: it holds `5 ↦ 50`, the other tree holds `7 ↦ 70`,
both slots of the arena are taken. -/
def pair3 : Two Nat Nat := pair2.swap

/-- The macro `IS_RED(n)` as a proposition: `n` is a node and its colour is `NODE_RED`. -/
def Arena.Red (a : Arena K V) (n : Nat) : Prop := n ≠ NULL_INDEX ∧ a.colors n = NODE_RED

/-- Some path from the handle `r` down to a null link passes exactly `n` nodes that are not
red. -/
inductive Arena.BlackPath (a : Arena K V) : Nat → Nat → Prop
  | null : Arena.BlackPath a NULL_INDEX 0
  | left {r n : Nat} : r ≠ NULL_INDEX → Arena.BlackPath a (a.left r) n →
    Arena.BlackPath a r (n + if a.colors r = NODE_RED then 0 else 1)
  | right {r n : Nat} : r ≠ NULL_INDEX → Arena.BlackPath a (a.right r) n →
    Arena.BlackPath a r (n + if a.colors r = NODE_RED then 0 else 1)

/-- The shape of `run8`: the root `2` over the leaves `1` and `3`, all black. -/
def shape3 : Tree Nat Nat :=
  .node 1 (.node 0 .nil .nil 1 1 false 1 10) (.node 2 .nil .nil 1 1 false 3 0) 3 2 false 2 0

/-- All live trees of a program: the static arena and the `root` member of each object, in the
order of construction. -/
structure Forest (K V : Type) where
  arena : Arena K V
  roots : List Nat

namespace Forest

/-- The `i`-th object. -/
def tree (s : Forest K V) (i : Nat) : RBT K V :=
  { arena := s.arena, root := s.roots.getD i NULL_INDEX }

/-- The state after a member of the `i`-th object has left that object as `t`: the member
functions write the static arrays and the `root` of their own object only. -/
def put (s : Forest K V) (i : Nat) (t : RBT K V) : Forest K V :=
  { arena := t.arena, roots := s.roots.set i t.root }

end Forest

/-- The states of a program that constructs trees (fewer than `2^32 - 1` of them, so that the
instance counter does not wrap) and calls `operator[]`, writes through fresh references,
`remove`, `clear` and `map` on them in any order.  Only calls that return count as steps. -/
inductive ReachF [Inhabited K] [Inhabited V] [LinearOrder K] : Forest K V → Prop
  | first {cap : Nat} {t : RBT K V} : cap < NULL_INDEX → empty cap = .ok t →
    ReachF { arena := t.arena, roots := [t.root] }
  | another {s : Forest K V} {cap : Nat} {t : RBT K V} : ReachF s →
    s.roots.length + 1 < UINT32 → construct s.arena cap = .ok t →
    ReachF { arena := t.arena, roots := s.roots ++ [t.root] }
  | upsert {s : Forest K V} {i : Nat} {k : K} {j : Nat} {t' : RBT K V} : ReachF s →
    i < s.roots.length → (s.tree i).upsert k = .ok (j, t') → ReachF (s.put i t')
  | write {s : Forest K V} {i : Nat} {k : K} {j : Nat} {x : V} {t' : RBT K V} : ReachF s →
    i < s.roots.length → (s.tree i).search k = .ok j → (s.tree i).write j x = .ok t' →
    ReachF (s.put i t')
  | remove {s : Forest K V} {i : Nat} {k : K} {t' : RBT K V} : ReachF s →
    i < s.roots.length → (s.tree i).remove k = .ok t' → ReachF (s.put i t')
  | clear {s : Forest K V} {i : Nat} {t' : RBT K V} : ReachF s →
    i < s.roots.length → (s.tree i).clear = .ok t' → ReachF (s.put i t')
  | map {σ : Type} {s : Forest K V} {i : Nat} {fp : σ → K → V → σ × V} {x x' : σ}
    {t' : RBT K V} : ReachF s →
    i < s.roots.length → (s.tree i).map fp x = .ok (t', x') → ReachF (s.put i t')

/-- Invariant of a state with several live trees, whose shapes are `trs`: every object
satisfies the invariant of a single tree over the common free list `fl`, no two trees share a
node, the instance counter is the number of objects, and trees and free list together have as
many nodes as the arena has slots. -/
structure InvF [LinearOrder K] (s : Forest K V) (trs : List (Tree K V)) (fl : List Nat) :
    Prop where
  roots : s.roots = trs.map Tree.root
  inv : ∀ tr, tr ∈ trs → Inv ({ arena := s.arena, root := tr.root } : RBT K V) tr fl
  pair : trs.Pairwise (fun x y => List.Disjoint x.handles y.handles)
  live : s.arena.nTrees = trs.length
  pos : trs ≠ []
  count : (trs.map fun tr => tr.handles.length).sum + fl.length = s.arena.capacity

/-- A second tree constructed on the arena of the fresh tree `run0`. -/
def twin : RBT Nat Nat := orElse blank (construct run0.arena 4)

/-- The two empty trees. -/
def wood0 : Forest Nat Nat := { arena := twin.arena, roots := [run0.root, twin.root] }

/-- Then `t[1]` on the first tree. -/
def wood1 : Nat × RBT Nat Nat := orElse (0, blank) ((wood0.tree 0).upsert 1)

/-- Then `u[2]` on the second tree. -/
def wood2 : Nat × RBT Nat Nat := orElse (0, blank) (((wood0.put 0 wood1.2).tree 1).upsert 2)

/-- The state with the tree `{1}` and the tree `{2}` on an arena of four slots. -/
def wood : Forest Nat Nat := (wood0.put 0 wood1.2).put 1 wood2.2

/-! ## The sorted list of `bstree.h` -/

/-- Largest value of an `int32_t`. -/
def INT32_MAX : Int := 2147483647

/-- Smallest value of an `int32_t`. -/
def INT32_MIN : Int := -2147483648

/-- Ways in which a member of `SortedLinearList` fails to return a value: the two exceptions
it throws, undefined behaviour of C++ (a null pointer dereferenced, an `int32_t` overflowing),
and the recursion bound of the model used up. -/
inductive ListErr where
  | domainError
  | outOfRange
  | undefinedBehaviour
  | outOfFuel
  deriving DecidableEq, Repr

/-- A `TreeNode<TreeType> *` together with what it points to: the null pointer, or a node with
its five fields. Every node of a list is reached through one pointer only, so the two subtrees
are part of the value. -/
inductive TreeNode (α : Type) where
  | null : TreeNode α
  | node (datum : α) (count height : Int) (left right : TreeNode α) : TreeNode α
  deriving Repr

/-- The class `SortedLinearList<TreeType>`; the member `ntbd` only carries the node to be
deleted from `prvRemove` to `remove`. -/
structure SortedLinearList (α : Type) where
  root : TreeNode α
  deriving Repr

/-- What a `TreeType &` refers to, as seen from the subtree a call works on: an object that is
no part of that subtree, given by the value it holds, or the member `datum` of a node of the
subtree, given by the links that lead to the node from the root of the subtree (`false` for
`left`, `true` for `right`). -/
inductive KeyRef (α : Type) where
  | outside (v : α) : KeyRef α
  | datum (path : List Bool) : KeyRef α
  deriving DecidableEq, Repr

namespace TreeNode
variable {α : Type}

/-- Addition of two `int32_t`; a sum outside the type is undefined behaviour. -/
def add32 (x y : Int) : Except ListErr Int :=
  if INT32_MIN ≤ x + y ∧ x + y ≤ INT32_MAX then .ok (x + y) else .error .undefinedBehaviour

/-- Number of nodes on the longest path from this pointer down to a null pointer: the depth of
the recursion of `prvRemove`. -/
def levels : TreeNode α → Nat
  | null => 0
  | node _ _ _ l r => 1 + max l.levels r.levels

/-- Member `prvTraverse`: the data passed to `fp`, in the order of the calls. -/
def prvTraverse : TreeNode α → List α
  | null => []
  | node d _ _ l r => l.prvTraverse ++ d :: r.prvTraverse

/-- Member `prvAdjust`: count and height of `r` from those stored in its children. -/
def prvAdjust : TreeNode α → Except ListErr (TreeNode α)
  | null => .error .undefinedBehaviour
  | node d _ _ l r => do
    -- r->count = 1; r->height = 0; if (r->left != nullptr) { ... }
    let (c, h) ← (match l with
      | null => pure ((1 : Int), (0 : Int))
      | node _ lc lh _ _ => do
        let c ← add32 1 lc
        let h ← add32 1 lh
        pure (c, h))
    -- if (r->right != nullptr) { ... }
    match r with
    | null => pure (node d c h l r)
    | node _ rc rh _ _ => do
      let c ← add32 c rc
      let g ← add32 1 rh
      pure (node d c (if g > h then g else h) l r)

/-- Member `prvInsert(r, newNode)`, where `newNode` is the leaf that `insert` has made for
`val`. -/
def prvInsert [LinearOrder α] (val : α) : TreeNode α → Except ListErr (TreeNode α)
  | null => pure (node val 1 0 null null)
  | node d c h l r =>
    if val < d then do
      let l' ← prvInsert val l
      prvAdjust (node d c h l' r)
    else do
      let r' ← prvInsert val r
      prvAdjust (node d c h l r')

/-- The loop `for (tmpNode = r->left; tmpNode->right != nullptr; tmpNode = tmpNode->right);`
started at a node with datum `d` and right child `r`: the datum of the node it stops at. -/
def largest (d : α) : TreeNode α → α
  | null => d
  | node d' _ _ _ r => largest d' r

/-- The assignment `tmpNode->datum = tmp` for the node that loop stops at. -/
def setLargest (x : α) : TreeNode α → TreeNode α
  | null => null
  | node d c h l r =>
    match r with
    | null => node x c h l null
    | node _ _ _ _ _ => node d c h l (setLargest x r)

/-- The loop `for (tmpNode = r->right; tmpNode->left != nullptr; tmpNode = tmpNode->left);`
started at a node with datum `d` and left child `l`: the datum of the node it stops at. -/
def smallest (d : α) : TreeNode α → α
  | null => d
  | node d' _ _ l _ => smallest d' l

/-- The assignment `tmpNode->datum = tmp` for the node that loop stops at. -/
def setSmallest (x : α) : TreeNode α → TreeNode α
  | null => null
  | node d c h l r =>
    match l with
    | null => node x c h null r
    | node _ _ _ _ _ => node d c h (setSmallest x l) r

/-- The datum of the node that the links of a path lead to. -/
def datumAt : List Bool → TreeNode α → Option α
  | _, null => none
  | [], node d _ _ _ _ => some d
  | false :: p, node _ _ _ l _ => datumAt p l
  | true :: p, node _ _ _ _ r => datumAt p r

/-- The value read through a reference; there is none when the reference names no node. -/
def read : KeyRef α → TreeNode α → Option α
  | .outside v, _ => some v
  | .datum p, t => t.datumAt p

/-- The reference `key` of a call of `prvRemove` on `r`, as the recursive call on the left
(`right = false`) or right (`right = true`) child of `r` sees it. The datum of a node of that
child is still the datum of a node of the child. Everything else is no part of the child, and
the recursive call does not write to it: it holds `m`, the datum of `r` when the recursive call
is made, if `key` is the datum of `r`, and otherwise the value `k` that the call on `r` has
read from it. -/
def inChild (right : Bool) (k m : α) : KeyRef α → KeyRef α
  | .outside v => .outside v
  | .datum [] => .outside m
  | .datum (b :: p) => if b = right then .datum p else .outside k

/-- What a call of `prvRemove` on `r` does once the recursive call on a child is over, where
`link c` is `r` with `c` as that child. An exception passes through this call, which leaves
`r` with the child as the recursive call left it; a returned pointer is stored in `r`, and
`prvAdjust(r)` follows. -/
def resume (link : TreeNode α → TreeNode α) :
    Except (ListErr × TreeNode α) (TreeNode α) → Except (ListErr × TreeNode α) (TreeNode α)
  | .error (e, c) => .error (e, link c)
  | .ok c =>
    match prvAdjust (link c) with
    | .ok t => .ok t
    | .error e => .error (e, link c)

/-- Member `prvRemove(r, key)`, with a bound on the depth of the recursion. The parameter `key`
is a `const TreeType &` and is read anew at every comparison. A call that throws has no
pointer to return: the exception comes with the subtree of `r` as the call leaves it. -/
def prvRemove [LinearOrder α] :
    Nat → KeyRef α → TreeNode α → Except (ListErr × TreeNode α) (TreeNode α)
  | 0, _, t => .error (.outOfFuel, t)
  | _ + 1, .outside _, null => .error (.domainError, null)
  -- the message of the exception reads `key`, which names no node
  | _ + 1, .datum _, null => .error (.undefinedBehaviour, null)
  | fuel + 1, key, node d c h l r =>
    match read key (node d c h l r) with
    | none => .error (.undefinedBehaviour, node d c h l r)
    | some k =>
      if k < d then
        resume (fun l' => node d c h l' r) (prvRemove fuel (inChild false k d key) l)
      else if k > d then
        resume (fun r' => node d c h l r') (prvRemove fuel (inChild true k d key) r)
      else
        match l, r with
        | null, null => pure null
        | null, node rd rc rh rl rr => pure (node rd rc rh rl rr)
        | node ld lc lh ll lr, null => pure (node ld lc lh ll lr)
        | node ld lc lh ll lr, node rd rc rh rl rr =>
          if lh > rh then
            -- swap the datum of r and of the largest node of the left subtree
            resume (fun l' => node (largest ld lr) c h l' (node rd rc rh rl rr))
              (prvRemove fuel (inChild false k (largest ld lr) key)
                (setLargest d (node ld lc lh ll lr)))
          else
            -- swap the datum of r and of the smallest node of the right subtree
            resume (fun r' => node (smallest rd rl) c h (node ld lc lh ll lr) r')
              (prvRemove fuel (inChild true k (smallest rd rl) key)
                (setSmallest d (node rd rc rh rl rr)))

/-- The loop of `search`, entered with the pointer `node` and the value of `pos`. -/
def searchLoop [LinearOrder α] (key : α) : TreeNode α → Int → Except ListErr Int
  | null, _ => .error .domainError
  | node d _ _ l r, pos =>
    if d = key then
      match l with
      | null => pure pos
      | node _ lc _ _ _ => add32 pos lc
    else if key < d then searchLoop key l pos
    else do
      let pos ← add32 pos 1
      let pos ← (match l with
        | null => pure pos
        | node _ lc _ _ _ => add32 pos lc)
      searchLoop key r pos

/-- The loop of `operator[]`, entered with the pointer `node` and the value of `skipped`;
`leftCount` is computed from `node` when the iteration starts, which is where the source
computes it for the iteration to come. -/
def indexLoop (pos : Int) : TreeNode α → Int → Except ListErr α
  | null, _ => .error .undefinedBehaviour
  | node d _ _ l r, skipped => do
    let leftCount : Int := (match l with
      | null => 0
      | node _ lc _ _ _ => lc)
    let s ← add32 skipped leftCount
    if s = pos then pure d
    else if s > pos then indexLoop pos l skipped
    else do
      let e ← add32 leftCount 1
      let skipped ← add32 skipped e
      indexLoop pos r skipped

/-- The loop of `operator[]` once more, for what it returns, a `TreeType &`: the links from
`node` to the node whose `datum` the returned reference names. -/
def indexRef (pos : Int) : TreeNode α → Int → Except ListErr (List Bool)
  | null, _ => .error .undefinedBehaviour
  | node _ _ _ l r, skipped => do
    let leftCount : Int := (match l with
      | null => 0
      | node _ lc _ _ _ => lc)
    let s ← add32 skipped leftCount
    if s = pos then pure []
    else if s > pos then do
      let p ← indexRef pos l skipped
      pure (false :: p)
    else do
      let e ← add32 leftCount 1
      let skipped ← add32 skipped e
      let p ← indexRef pos r skipped
      pure (true :: p)

end TreeNode

namespace SortedLinearList
variable {α : Type}

/-- The constructor: `root = nullptr`. -/
def empty : SortedLinearList α := { root := .null }

/-- Member `size`. -/
def size (t : SortedLinearList α) : Int :=
  match t.root with
  | .null => 0
  | .node _ c _ _ _ => c

/-- Member `traverse`: the data passed to `fp`, in the order of the calls. -/
def traverse (t : SortedLinearList α) : List α := t.root.prvTraverse

/-- Member `search`. -/
def search [LinearOrder α] (t : SortedLinearList α) (key : α) : Except ListErr Int :=
  TreeNode.searchLoop key t.root 0

/-- Member `operator[]`: the value of the element it returns. -/
def elementAt (t : SortedLinearList α) (pos : Int) : Except ListErr α :=
  match t.root with
  | .null => .error .outOfRange
  | .node d c h l r =>
    if pos < 0 ∨ pos ≥ c then .error .outOfRange
    else TreeNode.indexLoop pos (.node d c h l r) 0

/-- Member `operator[]`: the reference it returns, which names the `datum` of a node of the
list. -/
def refAt (t : SortedLinearList α) (pos : Int) : Except ListErr (KeyRef α) :=
  match t.root with
  | .null => .error .outOfRange
  | .node d c h l r =>
    if pos < 0 ∨ pos ≥ c then .error .outOfRange
    else do
      let p ← TreeNode.indexRef pos (.node d c h l r) 0
      pure (.datum p)

/-- Member `insert`; `val` is copied into the new node before anything else happens. -/
def insert [LinearOrder α] (t : SortedLinearList α) (val : α) :
    Except ListErr (SortedLinearList α) := do
  let r ← TreeNode.prvInsert val t.root
  pure { root := r }

/-- Member `remove(key)`, where `key` is a `const TreeType &`: the list after the call, and
whether the call returned or threw. The recursion of `prvRemove` goes down one level with every
call. When `prvRemove` throws, `root` is not assigned, and the nodes stay as `prvRemove` left
them. -/
def remove [LinearOrder α] (t : SortedLinearList α) (key : KeyRef α) :
    SortedLinearList α × Except ListErr Unit :=
  match TreeNode.prvRemove (t.root.levels + 1) key t.root with
  | .ok r => ({ root := r }, .ok ())
  | .error (e, r) => ({ root := r }, .error e)

end SortedLinearList

/-- The lists built from the empty list by calls of `insert` that return and by calls of
`remove` that return or throw `domain_error`, where the argument of no `remove` is a reference
to an element of the list it is called on. -/
inductive Built {α : Type} [LinearOrder α] : SortedLinearList α → Prop
  | empty : Built SortedLinearList.empty
  | insert {t t' : SortedLinearList α} {v : α} : Built t → t.insert v = .ok t' → Built t'
  | remove {t t' : SortedLinearList α} {k : α} : Built t →
    t.remove (.outside k) = (t', .ok ()) → Built t'
  | removeThrows {t t' : SortedLinearList α} {k : α} : Built t →
    t.remove (.outside k) = (t', .error .domainError) → Built t'

/-- A run of the sorted list: the values inserted in turn, starting from the given list. -/
def SortedLinearList.insertAll {α : Type} [LinearOrder α] :
    List α → SortedLinearList α → Except ListErr (SortedLinearList α)
  | [], t => pure t
  | v :: vs, t => do
    let t' ← t.insert v
    SortedLinearList.insertAll vs t'

/-- The count stored in the node a pointer leads to, and 0 for the null pointer. -/
def TreeNode.countOr0 {α : Type} : TreeNode α → Int
  | .null => 0
  | .node _ c _ _ _ => c

/-- The counts and heights stored in a subtree are right: every count is the number of nodes of
its subtree, every height is at least 0 and below the count. -/
def TreeNode.Wf {α : Type} : TreeNode α → Prop
  | .null => True
  | .node _ c h l r =>
    c = (l.prvTraverse.length : Int) + (r.prvTraverse.length : Int) + 1 ∧ 0 ≤ h ∧ h < c ∧
      l.Wf ∧ r.Wf

/-- What every list built by `insert` and `remove` satisfies: right counts, data in order from
left to right, and a number of nodes that is an `int32_t`. -/
structure ListInv {α : Type} [LinearOrder α] (t : SortedLinearList α) : Prop where
  wf : t.root.Wf
  sorted : t.traverse.Sorted (fun a b => a ≤ b)
  bound : (t.traverse.length : Int) ≤ INT32_MAX

/-- The arena in the middle of `t[2]` on the tree with the key 1: `prvInsert` has allocated the
new node and linked it as right child of the root, and is about to call `prvBalance` on the
root. -/
def midInsert : Arena Nat Nat :=
  orElse run1.2.arena (do
    let (a, tmp) ← run1.2.arena.prvAllocate
    let a ← a.setKey tmp 2
    a.setRight run1.2.root tmp)

/-! ## Lemmas -/

@[simp] theorem upd_same {α : Type} (f : Nat → α) (i : Nat) (x : α) : upd f i x i = x := by
  simp [upd]

theorem upd_ne {α : Type} (f : Nat → α) {i j : Nat} (x : α) (h : j ≠ i) : upd f i x j = f j := by
  simp [upd, h]

theorem Agree.rfl {a : Arena K V} {i : Nat} : Agree a a i := by simp [Agree]

theorem Agree.chain {a b c : Arena K V} {i : Nat} (h1 : Agree a b i) (h2 : Agree b c i) :
    Agree a c i := by
  obtain ⟨a1, a2, a3, a4, a5, a6, a7⟩ := h1
  obtain ⟨b1, b2, b3, b4, b5, b6, b7⟩ := h2
  exact ⟨b1.trans a1, b2.trans a2, b3.trans a3, b4.trans a4, b5.trans a5, b6.trans a6,
    b7.trans a7⟩

theorem Frame.refl (S : List Nat) (a : Arena K V) : Frame S a a :=
  ⟨rfl, rfl, rfl, fun _ _ => Agree.rfl⟩

theorem Frame.mono {S T : List Nat} {a a' : Arena K V} (h : Frame S a a')
    (hST : ∀ i ∈ S, i ∈ T) : Frame T a a' :=
  ⟨h.capacity, h.freeListHead, h.nTrees, fun i hi => h.agree i (fun hS => hi (hST i hS))⟩

theorem Frame.trans {S : List Nat} {a b c : Arena K V} (h1 : Frame S a b) (h2 : Frame S b c) :
    Frame S a c :=
  ⟨h2.capacity.trans h1.capacity, h2.freeListHead.trans h1.freeListHead,
    h2.nTrees.trans h1.nTrees, fun i hi => (h1.agree i hi).chain (h2.agree i hi)⟩

theorem Heap.agree {a a' : Arena K V} {t : Tree K V} (hH : Heap a t)
    (hc : a.capacity ≤ a'.capacity) (hA : ∀ i ∈ t.handles, Agree a a' i) : Heap a' t := by
  induction t with
  | nil => trivial
  | node h l r cnt ht red k v ihl ihr =>
    obtain ⟨h1, h2, h3, h4, h5, h6, h7, h8, h9, h10⟩ := hH
    obtain ⟨e1, e2, e3, e4, e5, e6, e7⟩ := hA h (by simp [Tree.handles])
    refine ⟨by omega, by rw [e1, h2], by rw [e2, h3], by rw [e3, h4], by rw [e4, h5],
      by rw [e5, h6], by rw [e6, h7], by rw [e7, h8], ?_, ?_⟩
    · exact ihl h9 (fun i hi => hA i (by simp [Tree.handles, hi]))
    · exact ihr h10 (fun i hi => hA i (by simp [Tree.handles, hi]))

theorem Heap.frame {S : List Nat} {a a' : Arena K V} {t : Tree K V} (hH : Heap a t)
    (hF : Frame S a a') (hd : ∀ i ∈ t.handles, i ∉ S) : Heap a' t :=
  hH.agree (le_of_eq hF.capacity.symm) (fun i hi => hF.agree i (hd i hi))

theorem Heap.mem_lt {a : Arena K V} {t : Tree K V} (hH : Heap a t) :
    ∀ i ∈ t.handles, i < a.capacity := by
  induction t with
  | nil => simp [Tree.handles]
  | node h l r cnt ht red k v ihl ihr =>
    intro i hi
    simp only [Tree.handles, List.mem_append, List.mem_cons] at hi
    rcases hi with hi | rfl | hi
    · exact ihl hH.2.2.2.2.2.2.2.2.1 i hi
    · exact hH.1
    · exact ihr hH.2.2.2.2.2.2.2.2.2 i hi

theorem Heap.root_cases {a : Arena K V} {t : Tree K V} (hH : Heap a t)
    (hc : a.capacity ≤ NULL_INDEX) :
    (t = .nil ∧ t.root = NULL_INDEX) ∨ (t.root < a.capacity ∧ t.root ≠ NULL_INDEX ∧ t ≠ .nil) := by
  cases t with
  | nil => exact Or.inl ⟨rfl, rfl⟩
  | node => exact Or.inr ⟨hH.1, by have := hH.1; simp only [Tree.root]; omega, by simp⟩

theorem getCount_root {a : Arena K V} {t : Tree K V} (hH : Heap a t)
    (hc : a.capacity ≤ NULL_INDEX) : a.GET_COUNT t.root = .ok t.cnt := by
  cases t with
  | nil => simp [Arena.GET_COUNT, Tree.root, Tree.cnt]
  | node h l r cnt ht red k v =>
    have h1 := hH.1
    have : h ≠ NULL_INDEX := by omega
    simp [Arena.GET_COUNT, Tree.root, Tree.cnt, Arena.read, h1, this, hH.2.2.2.1]

theorem getHeight_root {a : Arena K V} {t : Tree K V} (hH : Heap a t)
    (hc : a.capacity ≤ NULL_INDEX) : a.GET_HEIGHT t.root = .ok t.ht := by
  cases t with
  | nil => simp [Arena.GET_HEIGHT, Tree.root, Tree.ht]
  | node h l r cnt ht red k v =>
    have h1 := hH.1
    have : h ≠ NULL_INDEX := by omega
    simp [Arena.GET_HEIGHT, Tree.root, Tree.ht, Arena.read, h1, this, hH.2.2.2.2.1]

theorem isRed_root {a : Arena K V} {t : Tree K V} (hH : Heap a t)
    (hc : a.capacity ≤ NULL_INDEX) : a.IS_RED t.root = .ok t.isRed := by
  cases t with
  | nil => simp [Arena.IS_RED, Tree.root, Tree.isRed]
  | node h l r cnt ht red k v =>
    have h1 := hH.1
    have : h ≠ NULL_INDEX := by omega
    cases red <;>
    simp [Arena.IS_RED, Tree.root, Tree.isRed, Arena.read, h1, this, hH.2.2.2.2.2.1, colorCode,
      NODE_RED, NODE_BLACK, bind, Except.bind, pure, Except.pure]

/-- Laying out a node whose children are already laid out. -/
theorem Heap.node_of {a a' : Arena K V} {h : Nat} {l r : Tree K V} {cnt ht : Nat} {red : Bool}
    {k : K} {v : V} {S : List Nat} (hl : Heap a l) (hr : Heap a r) (hF : Frame S a a')
    (hdl : ∀ i ∈ l.handles, i ∉ S) (hdr : ∀ i ∈ r.handles, i ∉ S)
    (hb : h < a'.capacity) (e1 : a'.left h = l.root) (e2 : a'.right h = r.root)
    (e3 : a'.counts h = cnt) (e4 : a'.heights h = ht) (e5 : a'.colors h = colorCode red)
    (e6 : a'.keys h = k) (e7 : a'.values h = v) : Heap a' (.node h l r cnt ht red k v) :=
  ⟨hb, e1, e2, e3, e4, e5, e6, e7, hl.frame hF hdl, hr.frame hF hdr⟩

theorem prvAdjust_heap {a : Arena K V} {h : Nat} {l r : Tree K V} {cnt ht : Nat} {red : Bool}
    {k : K} {v : V} (hH : Heap a (.node h l r cnt ht red k v))
    (hN : (Tree.node h l r cnt ht red k v).handles.Nodup)
    (hc : a.capacity ≤ NULL_INDEX) :
    ∃ a', a.prvAdjust h = .ok a' ∧ Heap a' (Tree.mk h l r red k v) ∧ Frame [h] a a' := by
  obtain ⟨h1, h2, h3, h4, h5, h6, h7, h8, h9, h10⟩ := hH
  simp only [Tree.handles, List.nodup_append, List.nodup_cons, List.mem_cons] at hN
  have gl := getCount_root h9 hc
  have gr := getCount_root h10 hc
  have hl := getHeight_root h9 hc
  have hr := getHeight_root h10 hc
  refine ⟨{ a with counts := upd a.counts h ((1 + l.cnt + r.cnt) % UINT32),
                   heights := upd a.heights h ((1 + (if l.ht > r.ht then l.ht else r.ht)) % UINT32) },
    ?_, ?_, ?_⟩
  · simp only [Arena.prvAdjust, Arena.read, h1, if_true, bind, Except.bind, h2, h3, gl, gr, hl, hr,
      Arena.setCount, Arena.setHeight]
  · refine Heap.node_of h9 h10 (S := [h]) ⟨rfl, rfl, rfl, ?_⟩ ?_ ?_ h1 h2 h3 ?_ ?_ h6 h7 h8
    · intro i hi
      simp only [List.mem_singleton] at hi
      simp [Agree, upd, hi]
    · intro i hi; simp only [List.mem_singleton]; rintro rfl; exact hN.2.2 hi (by simp)
    · intro i hi; simp only [List.mem_singleton]; rintro rfl; exact hN.2.1.1 hi
    · simp
    · simp
  · refine ⟨rfl, rfl, rfl, ?_⟩
    intro i hi
    simp only [List.mem_singleton] at hi
    simp [Agree, upd, hi]

theorem frame_of_upd {a a' : Arena K V} {S : List Nat} (hc : a'.capacity = a.capacity)
    (hf : a'.freeListHead = a.freeListHead) (hn : a'.nTrees = a.nTrees)
    (hA : ∀ i, i ∉ S → Agree a a' i) : Frame S a a' := ⟨hc, hf, hn, hA⟩

theorem nodup_node {h : Nat} {l r : Tree K V} {cnt ht : Nat} {red : Bool} {k : K} {v : V}
    (hN : (Tree.node h l r cnt ht red k v).handles.Nodup) :
    l.handles.Nodup ∧ r.handles.Nodup ∧ h ∉ l.handles ∧ h ∉ r.handles ∧
      ∀ i ∈ l.handles, i ∉ r.handles := by
  simp only [Tree.handles, List.nodup_append, List.nodup_cons] at hN
  refine ⟨hN.1, hN.2.1.2, ?_, hN.2.1.1, ?_⟩
  · intro hm; exact hN.2.2 hm (by simp)
  · intro i hi hr; exact hN.2.2 hi (by simp [hr])

theorem Heap.node_frame {a a' : Arena K V} {h : Nat} {l r l' r' : Tree K V} {cnt ht : Nat}
    {red : Bool} {k : K} {v : V} {S : List Nat} (hH : Heap a (.node h l r cnt ht red k v))
    (hF : Frame S a a') (hS : h ∉ S) (hl : Heap a' l') (hr : Heap a' r')
    (el : l'.root = l.root) (er : r'.root = r.root) : Heap a' (.node h l' r' cnt ht red k v) := by
  obtain ⟨h1, h2, h3, h4, h5, h6, h7, h8, -, -⟩ := hH
  obtain ⟨e1, e2, e3, e4, e5, e6, e7⟩ := hF.agree h hS
  exact ⟨by rw [hF.capacity]; exact h1, by rw [e1, h2, el], by rw [e2, h3, er], by rw [e3, h4],
    by rw [e4, h5], by rw [e5, h6], by rw [e6, h7], by rw [e7, h8], hl, hr⟩

@[simp] theorem Tree.root_node (h : Nat) (l r : Tree K V) (c t : Nat) (red : Bool) (k : K)
    (v : V) : (Tree.node h l r c t red k v).root = h := rfl

@[simp] theorem Tree.mk_root (h : Nat) (l r : Tree K V) (red : Bool) (k : K) (v : V) :
    (Tree.mk h l r red k v).root = h := rfl

@[simp] theorem Tree.mk_handles (h : Nat) (l r : Tree K V) (red : Bool) (k : K) (v : V) :
    (Tree.mk h l r red k v).handles = l.handles ++ h :: r.handles := rfl

theorem prvRotateLeft_heap {a : Arena K V} {t t' : Tree K V} (hH : Heap a t)
    (hN : t.handles.Nodup) (hc : a.capacity ≤ NULL_INDEX) (ht : t.rotateLeft = some t') :
    ∃ a', a.prvRotateLeft t.root = .ok (a', t'.root) ∧ Heap a' t' ∧ Frame t.handles a a' := by
  match t, ht with
  | .node h l (.node s sl sr scnt sht sred sk sv) cnt hgt red k v, ht =>
    simp only [Tree.rotateLeft, Option.some.injEq] at ht
    subst ht
    obtain ⟨h1, h2, h3, h4, h5, h6, h7, h8, h9, h10⟩ := hH
    obtain ⟨s1, s2, s3, s4, s5, s6, s7, s8, s9, s10⟩ := h10
    obtain ⟨nl, nr, hl, hr, hlr⟩ := nodup_node hN
    obtain ⟨nsl, nsr, hsl, hsr, hslr⟩ := nodup_node nr
    have hs : h ≠ s := by intro e; apply hr; simp [Tree.handles, e]
    have hsl' : h ∉ sl.handles := by intro e; apply hr; simp [Tree.handles, e]
    have hsr' : h ∉ sr.handles := by intro e; apply hr; simp [Tree.handles, e]
    have hls : s ∉ l.handles := by intro e; exact hlr s e (by simp [Tree.handles])
    have hlsl : ∀ i ∈ l.handles, i ∉ sl.handles := by
      intro i hi e; exact hlr i hi (by simp [Tree.handles, e])
    have hlsr : ∀ i ∈ l.handles, i ∉ sr.handles := by
      intro i hi e; exact hlr i hi (by simp [Tree.handles, e])
    -- state after the pointer and colour writes
    let a4 : Arena K V := { a with
      right := upd a.right h sl.root
      left := upd a.left s h
      colors := upd (upd a.colors s (colorCode red)) h NODE_RED }
    have F4 : Frame [h, s] a a4 := by
      refine ⟨rfl, rfl, rfl, fun i hi => ?_⟩
      simp only [List.mem_cons, List.mem_singleton, not_or, List.not_mem_nil, or_false] at hi
      simp [Agree, a4, upd, hi.1, hi.2]
    have nin : ∀ (x : Tree K V), h ∉ x.handles → s ∉ x.handles → ∀ i ∈ x.handles, i ∉ [h, s] := by
      intro x hx sx i hi
      simp only [List.mem_cons, List.mem_singleton, List.not_mem_nil, or_false, not_or]
      exact ⟨fun e => hx (e ▸ hi), fun e => sx (e ▸ hi)⟩
    have H4 : Heap a4 (.node s (.node h l sl cnt hgt true k v) sr scnt sht red sk sv) := by
      refine ⟨s1, ?_, ?_, ?_, ?_, ?_, ?_, ?_, ⟨h1, ?_, ?_, ?_, ?_, ?_, ?_, ?_, ?_, ?_⟩, ?_⟩
      · simp [a4, Tree.root]
      · simp [a4, upd, hs.symm, s3]
      · simp [a4, s4]
      · simp [a4, s5]
      · simp [a4, upd, hs.symm]
      · simp [a4, s7]
      · simp [a4, s8]
      · simp [a4, upd, hs, h2]
      · simp [a4]
      · simp [a4, h4]
      · simp [a4, h5]
      · simp [a4, colorCode]
      · simp [a4, h7]
      · simp [a4, h8]
      · exact h9.frame F4 (nin l hl hls)
      · exact s9.frame F4 (nin sl hsl' hsl)
      · exact s10.frame F4 (nin sr hsr' hsr)
    have N4 : (Tree.node h l sl cnt hgt true k v).handles.Nodup := by
      refine List.Nodup.sublist ?_ hN
      simp [Tree.handles]
    obtain ⟨a5, e5, H5, F5⟩ := prvAdjust_heap H4.2.2.2.2.2.2.2.2.1 N4 hc
    have H5s : Heap a5 (.node s (Tree.mk h l sl true k v) sr scnt sht red sk sv) :=
      Heap.node_frame H4 F5 (by simp [hs.symm]) H5
        (H4.2.2.2.2.2.2.2.2.2.frame F5 (by intro i hi; simp; rintro rfl; exact hsr' hi)) rfl rfl
    have N5 : (Tree.node s (Tree.mk h l sl true k v) sr scnt sht red sk sv).handles.Nodup := by
      have := hN
      simpa [Tree.handles] using this
    obtain ⟨a6, e6, H6, F6⟩ := prvAdjust_heap (a := a5) H5s N5 (by rw [F5.capacity]; exact hc)
    refine ⟨a6, ?_, H6, ?_⟩
    · show a.prvRotateLeft h = .ok (a6, s)
      have E : a.prvRotateLeft h =
          (do let a ← a4.prvAdjust h; let a ← a.prvAdjust s; pure (a, s)) := by
        simp only [Arena.prvRotateLeft, Arena.read, h1, s1, h3, s2, h6, if_true, bind,
          Except.bind, Arena.setRight, Arena.setLeft, Arena.setColor, pure, Except.pure,
          Tree.root_node]
      rw [E, e5]
      simp only [bind, Except.bind]
      rw [e6]
      rfl
    · have F5' : Frame [h, s] a4 a5 := F5.mono (by simp)
      have F6' : Frame [h, s] a5 a6 := F6.mono (by simp)
      exact ((F4.trans F5').trans F6').mono (by simp [Tree.handles])

theorem prvRotateRight_heap {a : Arena K V} {t t' : Tree K V} (hH : Heap a t)
    (hN : t.handles.Nodup) (hc : a.capacity ≤ NULL_INDEX) (ht : t.rotateRight = some t') :
    ∃ a', a.prvRotateRight t.root = .ok (a', t'.root) ∧ Heap a' t' ∧ Frame t.handles a a' := by
  match t, ht with
  | .node h (.node q ql qr qcnt qht qred qk qv) r cnt hgt red k v, ht =>
    simp only [Tree.rotateRight, Option.some.injEq] at ht
    subst ht
    obtain ⟨h1, h2, h3, h4, h5, h6, h7, h8, h9, h10⟩ := hH
    obtain ⟨q1, q2, q3, q4, q5, q6, q7, q8, q9, q10⟩ := h9
    obtain ⟨nl, nr, hl, hr, hlr⟩ := nodup_node hN
    obtain ⟨nql, nqr, hql, hqr, hqlr⟩ := nodup_node nl
    have hq : h ≠ q := by intro e; apply hl; simp [Tree.handles, e]
    have hql' : h ∉ ql.handles := by intro e; apply hl; simp [Tree.handles, e]
    have hqr' : h ∉ qr.handles := by intro e; apply hl; simp [Tree.handles, e]
    have hrq : q ∉ r.handles := by intro e; exact hlr q (by simp [Tree.handles]) e
    let a4 : Arena K V := { a with
      left := upd a.left h qr.root
      right := upd a.right q h
      colors := upd (upd a.colors q (colorCode red)) h NODE_RED }
    have F4 : Frame [h, q] a a4 := by
      refine ⟨rfl, rfl, rfl, fun i hi => ?_⟩
      simp only [List.mem_cons, List.mem_singleton, not_or, List.not_mem_nil, or_false] at hi
      simp [Agree, a4, upd, hi.1, hi.2]
    have nin : ∀ (x : Tree K V), h ∉ x.handles → q ∉ x.handles → ∀ i ∈ x.handles, i ∉ [h, q] := by
      intro x hx sx i hi
      simp only [List.mem_cons, List.mem_singleton, List.not_mem_nil, or_false, not_or]
      exact ⟨fun e => hx (e ▸ hi), fun e => sx (e ▸ hi)⟩
    have H4 : Heap a4 (.node q ql (.node h qr r cnt hgt true k v) qcnt qht red qk qv) := by
      refine ⟨q1, ?_, ?_, ?_, ?_, ?_, ?_, ?_, ?_, ⟨h1, ?_, ?_, ?_, ?_, ?_, ?_, ?_, ?_, ?_⟩⟩
      · simp [a4, upd, hq.symm, q2]
      · simp [a4]
      · simp [a4, q4]
      · simp [a4, q5]
      · simp [a4, upd, hq.symm]
      · simp [a4, q7]
      · simp [a4, q8]
      · exact q9.frame F4 (nin ql hql' hql)
      · simp [a4]
      · simp [a4, upd, hq, h3]
      · simp [a4, h4]
      · simp [a4, h5]
      · simp [a4, colorCode]
      · simp [a4, h7]
      · simp [a4, h8]
      · exact q10.frame F4 (nin qr hqr' hqr)
      · exact h10.frame F4 (nin r hr hrq)
    have N5 : (Tree.node q ql (Tree.mk h qr r true k v) qcnt qht red qk qv).handles.Nodup := by
      have := hN
      simpa [Tree.handles] using this
    have N4 : (Tree.node h qr r cnt hgt true k v).handles.Nodup := by
      refine List.Nodup.sublist ?_ N5
      simp [Tree.handles]
    obtain ⟨a5, e5, H5, F5⟩ := prvAdjust_heap H4.2.2.2.2.2.2.2.2.2 N4 hc
    have H5s : Heap a5 (.node q ql (Tree.mk h qr r true k v) qcnt qht red qk qv) :=
      Heap.node_frame H4 F5 (by simp [hq.symm])
        (H4.2.2.2.2.2.2.2.2.1.frame F5 (by intro i hi; simp; rintro rfl; exact hql' hi)) H5 rfl rfl
    obtain ⟨a6, e6, H6, F6⟩ := prvAdjust_heap (a := a5) H5s N5 (by rw [F5.capacity]; exact hc)
    refine ⟨a6, ?_, H6, ?_⟩
    · show a.prvRotateRight h = .ok (a6, q)
      have E : a.prvRotateRight h =
          (do let a ← a4.prvAdjust h; let a ← a.prvAdjust q; pure (a, q)) := by
        simp only [Arena.prvRotateRight, Arena.read, h1, q1, h2, q3, h6, if_true, bind,
          Except.bind, Arena.setRight, Arena.setLeft, Arena.setColor, pure, Except.pure,
          Tree.root_node]
      rw [E, e5]
      simp only [bind, Except.bind]
      rw [e6]
      rfl
    · have F5' : Frame [h, q] a4 a5 := F5.mono (by simp)
      have F6' : Frame [h, q] a5 a6 := F6.mono (by simp)
      exact ((F4.trans F5').trans F6').mono (by simp [Tree.handles])

theorem notColor_colorCode (c : Bool) : Arena.notColor (colorCode c) = colorCode (!c) := by
  cases c <;> simp [Arena.notColor, colorCode, NODE_RED, NODE_BLACK]

theorem prvFlipColors_heap {a : Arena K V} {t t' : Tree K V} (hH : Heap a t)
    (hN : t.handles.Nodup) (ht : t.flipColors = some t') :
    ∃ a', a.prvFlipColors t.root = .ok a' ∧ Heap a' t' ∧ Frame t.handles a a' := by
  match t, ht with
  | .node h (.node p pl pr pcnt pht pred pk pv) (.node q ql qr qcnt qht qred qk qv)
      cnt hgt red k v, ht =>
    simp only [Tree.flipColors, Option.some.injEq] at ht
    subst ht
    obtain ⟨h1, h2, h3, h4, h5, h6, h7, h8, h9, h10⟩ := hH
    obtain ⟨p1, p2, p3, p4, p5, p6, p7, p8, p9, p10⟩ := h9
    obtain ⟨q1, q2, q3, q4, q5, q6, q7, q8, q9, q10⟩ := h10
    obtain ⟨nl, nr, hl, hr, hlr⟩ := nodup_node hN
    obtain ⟨npl, npr, hpl, hpr, hplr⟩ := nodup_node nl
    obtain ⟨nql, nqr, hql, hqr, hqlr⟩ := nodup_node nr
    have hp : h ≠ p := by intro e; apply hl; simp [Tree.handles, e]
    have hq : h ≠ q := by intro e; apply hr; simp [Tree.handles, e]
    have pq : p ≠ q := by intro e; exact hlr p (by simp [Tree.handles]) (by simp [Tree.handles, e])
    let a3 : Arena K V := { a with
      colors := upd (upd (upd a.colors h (colorCode (!red))) p (colorCode (!pred))) q
        (colorCode (!qred)) }
    have F3 : Frame [h, p, q] a a3 := by
      refine ⟨rfl, rfl, rfl, fun i hi => ?_⟩
      simp only [List.mem_cons, List.mem_singleton, not_or, List.not_mem_nil, or_false] at hi
      simp [Agree, a3, upd, hi.1, hi.2.1, hi.2.2]
    have nin : ∀ (x : Tree K V), h ∉ x.handles → p ∉ x.handles → q ∉ x.handles →
        ∀ i ∈ x.handles, i ∉ [h, p, q] := by
      intro x hx px qx i hi
      simp only [List.mem_cons, List.mem_singleton, List.not_mem_nil, or_false, not_or]
      exact ⟨fun e => hx (e ▸ hi), fun e => px (e ▸ hi), fun e => qx (e ▸ hi)⟩
    have sub : ∀ i, (i ∈ pl.handles ∨ i ∈ pr.handles) → i ≠ h ∧ i ≠ p ∧ i ≠ q ∧
        i ∉ ql.handles ∧ i ∉ qr.handles := by
      intro i hi
      have hm : i ∈ (Tree.node p pl pr pcnt pht pred pk pv).handles := by
        rcases hi with hi | hi <;> simp [Tree.handles, hi]
      refine ⟨?_, ?_, ?_, ?_, ?_⟩
      · rintro rfl; exact hl hm
      · rintro rfl; rcases hi with hi | hi
        · exact hpl hi
        · exact hpr hi
      · rintro rfl; exact hlr _ hm (by simp [Tree.handles])
      · intro e; exact hlr _ hm (by simp [Tree.handles, e])
      · intro e; exact hlr _ hm (by simp [Tree.handles, e])
    have subq : ∀ i, (i ∈ ql.handles ∨ i ∈ qr.handles) → i ≠ h ∧ i ≠ p ∧ i ≠ q := by
      intro i hi
      have hm : i ∈ (Tree.node q ql qr qcnt qht qred qk qv).handles := by
        rcases hi with hi | hi <;> simp [Tree.handles, hi]
      refine ⟨?_, ?_, ?_⟩
      · rintro rfl; exact hr hm
      · rintro rfl; exact hlr _ (by simp [Tree.handles]) hm
      · rintro rfl; rcases hi with hi | hi
        · exact hql hi
        · exact hqr hi
    refine ⟨a3, ?_, ?_, F3.mono (by simp [Tree.handles])⟩
    · simp only [Arena.prvFlipColors, Arena.read, h1, p1, q1, h2, h3, h6, p6, q6, if_true, bind,
        Except.bind, Arena.setColor, Tree.root_node, notColor_colorCode, upd_ne _ _ hp.symm,
        upd_ne _ _ hq.symm, upd_ne _ _ pq.symm, upd_ne _ _ pq]
    · refine ⟨h1, h2, h3, h4, h5, ?_, h7, h8, ⟨p1, p2, p3, p4, p5, ?_, p7, p8, ?_, ?_⟩,
        ⟨q1, q2, q3, q4, q5, ?_, q7, q8, ?_, ?_⟩⟩
      · simp [a3, upd, hp, hq]
      · simp [a3, upd, pq]
      · exact p9.frame F3 (fun i hi => by
          have := sub i (Or.inl hi); simp [this.1, this.2.1, this.2.2.1])
      · exact p10.frame F3 (fun i hi => by
          have := sub i (Or.inr hi); simp [this.1, this.2.1, this.2.2.1])
      · simp [a3, upd]
      · exact q9.frame F3 (fun i hi => by
          have := subq i (Or.inl hi); simp [this.1, this.2.1, this.2.2])
      · exact q10.frame F3 (fun i hi => by
          have := subq i (Or.inr hi); simp [this.1, this.2.1, this.2.2])

/-! ### Elementary facts about shapes -/

theorem Tree.rotateLeft_handles {t t' : Tree K V} (e : t.rotateLeft = some t') :
    t'.handles = t.handles := by
  match t, e with
  | .node h l (.node s sl sr scnt sht sred sk sv) cnt hgt red k v, e =>
    simp only [Tree.rotateLeft, Option.some.injEq] at e
    subst e
    simp [Tree.handles]

theorem Tree.rotateRight_handles {t t' : Tree K V} (e : t.rotateRight = some t') :
    t'.handles = t.handles := by
  match t, e with
  | .node h (.node q ql qr qcnt qht qred qk qv) r cnt hgt red k v, e =>
    simp only [Tree.rotateRight, Option.some.injEq] at e
    subst e
    simp [Tree.handles]

theorem Tree.flipColors_handles {t t' : Tree K V} (e : t.flipColors = some t') :
    t'.handles = t.handles := by
  match t, e with
  | .node h (.node p pl pr pcnt pht pred pk pv) (.node q ql qr qcnt qht qred qk qv)
      cnt hgt red k v, e =>
    simp only [Tree.flipColors, Option.some.injEq] at e
    subst e
    simp [Tree.handles]

theorem Tree.adjust_handles {t t' : Tree K V} (e : t.adjust = some t') :
    t'.handles = t.handles := by
  match t, e with
  | .node h l r cnt hgt red k v, e =>
    simp only [Tree.adjust, Option.some.injEq] at e
    subst e
    simp [Tree.handles]

theorem Tree.rotateLeft_ne_nil {t t' : Tree K V} (e : t.rotateLeft = some t') : t' ≠ .nil := by
  match t, e with
  | .node h l (.node s sl sr scnt sht sred sk sv) cnt hgt red k v, e =>
    simp only [Tree.rotateLeft, Option.some.injEq] at e
    subst e
    simp [Tree.mk]

theorem Tree.rotateRight_ne_nil {t t' : Tree K V} (e : t.rotateRight = some t') : t' ≠ .nil := by
  match t, e with
  | .node h (.node q ql qr qcnt qht qred qk qv) r cnt hgt red k v, e =>
    simp only [Tree.rotateRight, Option.some.injEq] at e
    subst e
    simp [Tree.mk]

theorem Tree.flipColors_ne_nil {t t' : Tree K V} (e : t.flipColors = some t') : t' ≠ .nil := by
  match t, e with
  | .node h (.node p pl pr pcnt pht pred pk pv) (.node q ql qr qcnt qht qred qk qv)
      cnt hgt red k v, e =>
    simp only [Tree.flipColors, Option.some.injEq] at e
    subst e
    simp

theorem Tree.flipColors_root {t t' : Tree K V} (e : t.flipColors = some t') :
    t'.root = t.root := by
  match t, e with
  | .node h (.node p pl pr pcnt pht pred pk pv) (.node q ql qr qcnt qht qred qk qv)
      cnt hgt red k v, e =>
    simp only [Tree.flipColors, Option.some.injEq] at e
    subst e
    rfl

theorem Tree.adjust_root {t t' : Tree K V} (e : t.adjust = some t') : t'.root = t.root := by
  match t, e with
  | .node h l r cnt hgt red k v, e =>
    simp only [Tree.adjust, Option.some.injEq] at e
    subst e
    rfl

/-! ### Reading through a laid-out shape -/

theorem Heap.left {a : Arena K V} {t : Tree K V} (hH : Heap a t) : Heap a t.left := by
  cases t with
  | nil => trivial
  | node => exact hH.2.2.2.2.2.2.2.2.1

theorem Heap.right {a : Arena K V} {t : Tree K V} (hH : Heap a t) : Heap a t.right := by
  cases t with
  | nil => trivial
  | node => exact hH.2.2.2.2.2.2.2.2.2

theorem Heap.read_left {a : Arena K V} {t : Tree K V} (hH : Heap a t) (hn : t ≠ .nil) :
    a.read a.left t.root = .ok t.left.root := by
  cases t with
  | nil => exact absurd rfl hn
  | node => simp [Arena.read, hH.1, hH.2.1, Tree.left]

theorem Heap.read_right {a : Arena K V} {t : Tree K V} (hH : Heap a t) (hn : t ≠ .nil) :
    a.read a.right t.root = .ok t.right.root := by
  cases t with
  | nil => exact absurd rfl hn
  | node => simp [Arena.read, hH.1, hH.2.2.1, Tree.right]

theorem Tree.handles_left_sub {t : Tree K V} : ∀ i ∈ t.left.handles, i ∈ t.handles := by
  cases t with
  | nil => simp [Tree.left, Tree.handles]
  | node => intro i hi; simp [Tree.left, Tree.handles] at hi ⊢; exact Or.inl hi

theorem Tree.handles_right_sub {t : Tree K V} : ∀ i ∈ t.right.handles, i ∈ t.handles := by
  cases t with
  | nil => simp [Tree.right, Tree.handles]
  | node => intro i hi; simp [Tree.right, Tree.handles] at hi ⊢; exact Or.inr (Or.inr hi)

theorem rightLeaning_heap {a : Arena K V} {t : Tree K V} (hH : Heap a t) (hn : t ≠ .nil)
    (hc : a.capacity ≤ NULL_INDEX) :
    a.rightLeaning t.root = .ok (t.right.isRed && !t.left.isRed) := by
  simp only [Arena.rightLeaning, hH.read_right hn, hH.read_left hn, bind, Except.bind,
    isRed_root hH.right hc, isRed_root hH.left hc]
  cases t.right.isRed <;> rfl

theorem leftLeftRed_heap {a : Arena K V} {t : Tree K V} (hH : Heap a t) (hn : t ≠ .nil)
    (hc : a.capacity ≤ NULL_INDEX) :
    a.leftLeftRed t.root = .ok (t.left.isRed && t.left.left.isRed) := by
  simp only [Arena.leftLeftRed, hH.read_left hn, bind, Except.bind, isRed_root hH.left hc]
  cases hl : t.left.isRed
  · rfl
  · have hn' : t.left ≠ .nil := by intro e; simp [e, Tree.isRed] at hl
    simp only [if_true, hH.left.read_left hn', isRed_root hH.left.left hc, Bool.true_and]

theorem bothRed_heap {a : Arena K V} {t : Tree K V} (hH : Heap a t) (hn : t ≠ .nil)
    (hc : a.capacity ≤ NULL_INDEX) :
    a.bothRed t.root = .ok (t.left.isRed && t.right.isRed) := by
  simp only [Arena.bothRed, hH.read_left hn, hH.read_right hn, bind, Except.bind,
    isRed_root hH.left hc, isRed_root hH.right hc]
  cases t.left.isRed <;> rfl

theorem prvAdjust_heap' {a : Arena K V} {t t' : Tree K V} (hH : Heap a t)
    (hN : t.handles.Nodup) (hc : a.capacity ≤ NULL_INDEX) (ht : t.adjust = some t') :
    ∃ a', a.prvAdjust t.root = .ok a' ∧ Heap a' t' ∧ Frame t.handles a a' := by
  match t, ht with
  | .node h l r cnt hgt red k v, ht =>
    simp only [Tree.adjust, Option.some.injEq] at ht
    subst ht
    obtain ⟨a', e, H, F⟩ := prvAdjust_heap hH hN hc
    exact ⟨a', e, H, F.mono (by simp [Tree.handles])⟩

theorem bind_ok {α β : Type} {x : Except Err α} {f : α → Except Err β} {v : α}
    (h : x = .ok v) : (x >>= f) = f v := by
  subst h; rfl

theorem prvBalance_heap {a : Arena K V} {t t' : Tree K V} (hH : Heap a t)
    (hN : t.handles.Nodup) (hc : a.capacity ≤ NULL_INDEX) (ht : t.balance = some t') :
    ∃ a', a.prvBalance t.root = .ok (a', t'.root) ∧ Heap a' t' ∧ Frame t.handles a a' := by
  have hn : t ≠ .nil := by
    intro e
    rw [e] at ht
    exact absurd ht (by simp [Tree.balance, Tree.right, Tree.left, Tree.isRed, Tree.adjust])
  simp only [Tree.balance, Option.bind_eq_some] at ht
  obtain ⟨t1, e1, t2, e2, t3, e3, e4⟩ := ht
  -- rotate left if right-leaning
  obtain ⟨a1, E1, H1, F1, N1, n1⟩ : ∃ a1,
      (if (t.right.isRed && !t.left.isRed) = true then a.prvRotateLeft t.root
        else pure (a, t.root)) = .ok (a1, t1.root) ∧
      Heap a1 t1 ∧ Frame t.handles a a1 ∧ t1.handles = t.handles ∧ t1 ≠ .nil := by
    split at e1
    · obtain ⟨a1, E, H, F⟩ := prvRotateLeft_heap hH hN hc e1
      exact ⟨a1, by simp [*], H, F, Tree.rotateLeft_handles e1, Tree.rotateLeft_ne_nil e1⟩
    · simp only [Option.some.injEq] at e1
      subst e1
      exact ⟨a, by simp [*]; rfl, hH, Frame.refl _ _, rfl, hn⟩
  have hc1 : a1.capacity ≤ NULL_INDEX := by rw [F1.capacity]; exact hc
  -- rotate right if two reds in a row on the left
  obtain ⟨a2, E2, H2, F2, N2, n2⟩ : ∃ a2,
      (if (t1.left.isRed && t1.left.left.isRed) = true then a1.prvRotateRight t1.root
        else pure (a1, t1.root)) = .ok (a2, t2.root) ∧
      Heap a2 t2 ∧ Frame t.handles a1 a2 ∧ t2.handles = t.handles ∧ t2 ≠ .nil := by
    split at e2
    · obtain ⟨a2, E, H, F⟩ := prvRotateRight_heap H1 (N1 ▸ hN) hc1 e2
      exact ⟨a2, by simp [*], H, N1 ▸ F, (Tree.rotateRight_handles e2).trans N1,
        Tree.rotateRight_ne_nil e2⟩
    · simp only [Option.some.injEq] at e2
      subst e2
      exact ⟨a1, by simp [*]; rfl, H1, Frame.refl _ _, N1, n1⟩
  have hc2 : a2.capacity ≤ NULL_INDEX := by rw [F2.capacity]; exact hc1
  -- flip colours if both children are red
  obtain ⟨a3, E3, H3, F3, N3, n3, r3⟩ : ∃ a3,
      (if (t2.left.isRed && t2.right.isRed) = true then a2.prvFlipColors t2.root
        else pure a2) = .ok a3 ∧
      Heap a3 t3 ∧ Frame t.handles a2 a3 ∧ t3.handles = t.handles ∧ t3 ≠ .nil ∧
      t3.root = t2.root := by
    split at e3
    · obtain ⟨a3, E, H, F⟩ := prvFlipColors_heap H2 (N2 ▸ hN) e3
      exact ⟨a3, by simp [*], H, N2 ▸ F, (Tree.flipColors_handles e3).trans N2,
        Tree.flipColors_ne_nil e3, Tree.flipColors_root e3⟩
    · simp only [Option.some.injEq] at e3
      subst e3
      exact ⟨a2, by simp [*]; rfl, H2, Frame.refl _ _, N2, n2, rfl⟩
  have hc3 : a3.capacity ≤ NULL_INDEX := by rw [F3.capacity]; exact hc2
  obtain ⟨a4, E4, H4, F4⟩ := prvAdjust_heap' H3 (N3 ▸ hN) hc3 e4
  refine ⟨a4, ?_, H4, ((F1.trans F2).trans F3).trans (N3 ▸ F4)⟩
  unfold Arena.prvBalance
  rw [bind_ok (rightLeaning_heap hH hn hc), bind_ok E1]
  dsimp only
  rw [bind_ok (leftLeftRed_heap H1 n1 hc1), bind_ok E2]
  dsimp only
  rw [bind_ok (bothRed_heap H2 n2 hc2), bind_ok E3, ← r3, bind_ok E4, Tree.adjust_root e4]
  rfl

theorem Heap.nodeAt {a : Arena K V} {h : Nat} {l r : Tree K V} {cnt ht : Nat} {red : Bool}
    {k : K} {v : V} (hH : Heap a (.node h l r cnt ht red k v)) :
    NodeAt a h l.root r.root cnt ht red k v :=
  ⟨hH.1, hH.2.1, hH.2.2.1, hH.2.2.2.1, hH.2.2.2.2.1, hH.2.2.2.2.2.1, hH.2.2.2.2.2.2.1,
    hH.2.2.2.2.2.2.2.1⟩

theorem Heap.of_nodeAt {a : Arena K V} {h : Nat} {l r : Tree K V} {cnt ht : Nat} {red : Bool}
    {k : K} {v : V} (hA : NodeAt a h l.root r.root cnt ht red k v) (hl : Heap a l)
    (hr : Heap a r) : Heap a (.node h l r cnt ht red k v) :=
  ⟨hA.1, hA.2.1, hA.2.2.1, hA.2.2.2.1, hA.2.2.2.2.1, hA.2.2.2.2.2.1, hA.2.2.2.2.2.2.1,
    hA.2.2.2.2.2.2.2, hl, hr⟩

theorem NodeAt.transport {a a' : Arena K V} {S : List Nat} {h lr rr cnt ht : Nat} {red : Bool}
    {k : K} {v : V} (hA : NodeAt a h lr rr cnt ht red k v) (hF : Frame S a a') (hS : h ∉ S) :
    NodeAt a' h lr rr cnt ht red k v := by
  obtain ⟨h1, h2, h3, h4, h5, h6, h7, h8⟩ := hA
  obtain ⟨e1, e2, e3, e4, e5, e6, e7⟩ := hF.agree h hS
  exact ⟨by rw [hF.capacity]; exact h1, by rw [e1, h2], by rw [e2, h3], by rw [e3, h4],
    by rw [e4, h5], by rw [e5, h6], by rw [e6, h7], by rw [e7, h8]⟩

theorem frame_single {a a' : Arena K V} {h : Nat} (hc : a'.capacity = a.capacity)
    (hf : a'.freeListHead = a.freeListHead) (hn : a'.nTrees = a.nTrees)
    (hA : ∀ i, i ≠ h → Agree a a' i) : Frame [h] a a' :=
  ⟨hc, hf, hn, fun i hi => hA i (by simpa using hi)⟩

theorem not_mem_single {x : Tree K V} {h : Nat} (hx : h ∉ x.handles) :
    ∀ i ∈ x.handles, i ∉ [h] := by
  intro i hi
  simp only [List.mem_singleton]
  rintro rfl
  exact hx hi

theorem setLeft_heap {a : Arena K V} {h lr rr cnt ht : Nat} {red : Bool} {k : K} {v : V}
    {x r : Tree K V} (hA : NodeAt a h lr rr cnt ht red k v) (hx : Heap a x) (hr : Heap a r)
    (er : r.root = rr) (nx : h ∉ x.handles) (nr : h ∉ r.handles) :
    ∃ a', a.setLeft h x.root = .ok a' ∧ Heap a' (.node h x r cnt ht red k v) ∧
      Frame [h] a a' := by
  obtain ⟨h1, h2, h3, h4, h5, h6, h7, h8⟩ := hA
  have F : Frame [h] a { a with left := upd a.left h x.root } :=
    frame_single rfl rfl rfl (fun i hi => by simp [Agree, upd, hi])
  refine ⟨_, by simp [Arena.setLeft, h1], ?_, F⟩
  exact ⟨h1, by simp, by simp [h3, er], h4, h5, h6, h7, h8, hx.frame F (not_mem_single nx),
    hr.frame F (not_mem_single nr)⟩

theorem setRight_heap {a : Arena K V} {h lr rr cnt ht : Nat} {red : Bool} {k : K} {v : V}
    {x l : Tree K V} (hA : NodeAt a h lr rr cnt ht red k v) (hl : Heap a l) (hx : Heap a x)
    (el : l.root = lr) (nl : h ∉ l.handles) (nx : h ∉ x.handles) :
    ∃ a', a.setRight h x.root = .ok a' ∧ Heap a' (.node h l x cnt ht red k v) ∧
      Frame [h] a a' := by
  obtain ⟨h1, h2, h3, h4, h5, h6, h7, h8⟩ := hA
  have F : Frame [h] a { a with right := upd a.right h x.root } :=
    frame_single rfl rfl rfl (fun i hi => by simp [Agree, upd, hi])
  refine ⟨_, by simp [Arena.setRight, h1], ?_, F⟩
  exact ⟨h1, by simp [h2, el], by simp, h4, h5, h6, h7, h8, hl.frame F (not_mem_single nl),
    hx.frame F (not_mem_single nx)⟩

theorem setEntry_heap {a : Arena K V} {h : Nat} {l r : Tree K V} {cnt ht : Nat} {red : Bool}
    {k : K} {v : V} (hH : Heap a (.node h l r cnt ht red k v)) (nl : h ∉ l.handles)
    (nr : h ∉ r.handles) (k' : K) (v' : V) :
    ∃ a1 a2, a.setKey h k' = .ok a1 ∧ a1.setValue h v' = .ok a2 ∧
      Heap a2 (.node h l r cnt ht red k' v') ∧ Frame [h] a a2 ∧ Frame [h] a a1 := by
  obtain ⟨h1, h2, h3, h4, h5, h6, h7, h8, h9, h10⟩ := hH
  have F1 : Frame [h] a { a with keys := upd a.keys h k' } :=
    frame_single rfl rfl rfl (fun i hi => by simp [Agree, upd, hi])
  have F : Frame [h] a { a with keys := upd a.keys h k', values := upd a.values h v' } :=
    frame_single rfl rfl rfl (fun i hi => by simp [Agree, upd, hi])
  refine ⟨_, _, by simp [Arena.setKey, h1], by simp [Arena.setValue, h1], ?_, F, F1⟩
  exact ⟨h1, h2, h3, h4, h5, h6, by simp, by simp, h9.frame F (not_mem_single nl),
    h10.frame F (not_mem_single nr)⟩

theorem setColor_heap {a : Arena K V} {h : Nat} {l r : Tree K V} {cnt ht : Nat} {red : Bool}
    {k : K} {v : V} (hH : Heap a (.node h l r cnt ht red k v)) (nl : h ∉ l.handles)
    (nr : h ∉ r.handles) (c : Bool) :
    ∃ a', a.setColor h (colorCode c) = .ok a' ∧ Heap a' (.node h l r cnt ht c k v) ∧
      Frame [h] a a' := by
  obtain ⟨h1, h2, h3, h4, h5, h6, h7, h8, h9, h10⟩ := hH
  have F : Frame [h] a { a with colors := upd a.colors h (colorCode c) } :=
    frame_single rfl rfl rfl (fun i hi => by simp [Agree, upd, hi])
  refine ⟨_, by simp [Arena.setColor, h1], ?_, F⟩
  exact ⟨h1, h2, h3, h4, h5, by simp, h7, h8, h9.frame F (not_mem_single nl),
    h10.frame F (not_mem_single nr)⟩

theorem setValue_heap {a : Arena K V} {h : Nat} {l r : Tree K V} {cnt ht : Nat} {red : Bool}
    {k : K} {v : V} (hH : Heap a (.node h l r cnt ht red k v)) (nl : h ∉ l.handles)
    (nr : h ∉ r.handles) (v' : V) :
    ∃ a', a.setValue h v' = .ok a' ∧ Heap a' (.node h l r cnt ht red k v') ∧
      Frame [h] a a' := by
  obtain ⟨h1, h2, h3, h4, h5, h6, h7, h8, h9, h10⟩ := hH
  have F : Frame [h] a { a with values := upd a.values h v' } :=
    frame_single rfl rfl rfl (fun i hi => by simp [Agree, upd, hi])
  refine ⟨_, by simp [Arena.setValue, h1], ?_, F⟩
  exact ⟨h1, h2, h3, h4, h5, h6, h7, by simp, h9.frame F (not_mem_single nl),
    h10.frame F (not_mem_single nr)⟩

theorem Tree.flipColors_children {t t' : Tree K V} (e : t.flipColors = some t') :
    t'.left ≠ .nil ∧ t'.right ≠ .nil := by
  match t, e with
  | .node h (.node p pl pr pcnt pht pred pk pv) (.node q ql qr qcnt qht qred qk qv)
      cnt hgt red k v, e =>
    simp only [Tree.flipColors, Option.some.injEq] at e
    subst e
    simp [Tree.left, Tree.right]

theorem rightLeftRed_heap {a : Arena K V} {t : Tree K V} (hH : Heap a t) (hn : t ≠ .nil)
    (hr : t.right ≠ .nil) (hc : a.capacity ≤ NULL_INDEX) :
    a.rightLeftRed t.root = .ok t.right.left.isRed := by
  simp only [Arena.rightLeftRed, bind_ok (hH.read_right hn), bind_ok (hH.right.read_left hr),
    isRed_root hH.right.left hc]

theorem leftLeftChildRed_heap {a : Arena K V} {t : Tree K V} (hH : Heap a t) (hn : t ≠ .nil)
    (hl : t.left ≠ .nil) (hc : a.capacity ≤ NULL_INDEX) :
    a.leftLeftChildRed t.root = .ok t.left.left.isRed := by
  simp only [Arena.leftLeftChildRed, bind_ok (hH.read_left hn), bind_ok (hH.left.read_left hl),
    isRed_root hH.left.left hc]

theorem Tree.setRight_handles {t x t' : Tree K V} (e : t.setRight x = some t') :
    t'.handles = t.left.handles ++ t.root :: x.handles := by
  cases t with
  | nil => simp [Tree.setRight] at e
  | node =>
    simp only [Tree.setRight, Option.some.injEq] at e
    subst e
    simp [Tree.handles, Tree.left]

theorem Tree.setLeft_handles {t x t' : Tree K V} (e : t.setLeft x = some t') :
    t'.handles = x.handles ++ t.root :: t.right.handles := by
  cases t with
  | nil => simp [Tree.setLeft] at e
  | node =>
    simp only [Tree.setLeft, Option.some.injEq] at e
    subst e
    simp [Tree.handles, Tree.right]

theorem Tree.handles_eq (t : Tree K V) (hn : t ≠ .nil) :
    t.handles = t.left.handles ++ t.root :: t.right.handles := by
  cases t with
  | nil => exact absurd rfl hn
  | node => rfl

theorem Tree.moveRedLeft_handles {t t' : Tree K V} (e : t.moveRedLeft = some t') :
    t'.handles = t.handles := by
  simp only [Tree.moveRedLeft, Option.bind_eq_some] at e
  obtain ⟨t1, e1, e⟩ := e
  have n1 := Tree.flipColors_ne_nil e1
  split at e
  · simp only [Option.bind_eq_some] at e
    obtain ⟨x, ex, t2, e2, t3, e3, e4⟩ := e
    rw [Tree.flipColors_handles e4, Tree.rotateLeft_handles e3, Tree.setRight_handles e2,
      Tree.rotateRight_handles ex, ← Tree.handles_eq t1 n1, Tree.flipColors_handles e1]
  · simp only [Option.some.injEq] at e
    subst e
    exact Tree.flipColors_handles e1

theorem Tree.moveRedRight_handles {t t' : Tree K V} (e : t.moveRedRight = some t') :
    t'.handles = t.handles := by
  simp only [Tree.moveRedRight, Option.bind_eq_some] at e
  obtain ⟨t1, e1, e⟩ := e
  split at e
  · simp only [Option.bind_eq_some] at e
    obtain ⟨t2, e2, e3⟩ := e
    rw [Tree.flipColors_handles e3, Tree.rotateRight_handles e2, Tree.flipColors_handles e1]
  · simp only [Option.some.injEq] at e
    subst e
    exact Tree.flipColors_handles e1

theorem prvMoveRedLeft_heap {a : Arena K V} {t t' : Tree K V} (hH : Heap a t)
    (hN : t.handles.Nodup) (hc : a.capacity ≤ NULL_INDEX) (ht : t.moveRedLeft = some t') :
    ∃ a', a.prvMoveRedLeft t.root = .ok (a', t'.root) ∧ Heap a' t' ∧ Frame t.handles a a' := by
  simp only [Tree.moveRedLeft, Option.bind_eq_some] at ht
  obtain ⟨t1, e1, e⟩ := ht
  obtain ⟨a1, E1, H1, F1⟩ := prvFlipColors_heap hH hN e1
  have N1 : t1.handles = t.handles := Tree.flipColors_handles e1
  have n1 := Tree.flipColors_ne_nil e1
  have r1 := Tree.flipColors_root e1
  have hc1 : a1.capacity ≤ NULL_INDEX := by rw [F1.capacity]; exact hc
  have hch := Tree.flipColors_children e1
  unfold Arena.prvMoveRedLeft
  rw [bind_ok E1, ← r1, bind_ok (rightLeftRed_heap H1 n1 hch.2 hc1)]
  split at e
  · rename_i hred
    simp only [Option.bind_eq_some] at e
    obtain ⟨x, ex, t2, e2, t3, e3, e4⟩ := e
    cases t1 with
    | nil => exact absurd rfl n1
    | node h l r cnt hgt red k v =>
      have hN1 : (Tree.node h l r cnt hgt red k v).handles.Nodup := N1 ▸ hN
      obtain ⟨nl, nr, hl, hr, hlr⟩ := nodup_node hN1
      simp only [Tree.right] at ex hred
      simp only [Tree.setRight, Option.some.injEq] at e2
      subst e2
      obtain ⟨a2, E2, H2, F2⟩ := prvRotateRight_heap H1.right nr hc1 ex
      have Nx : x.handles = r.handles := Tree.rotateRight_handles ex
      obtain ⟨a3, E3, H3, F3⟩ := setRight_heap (x := x) (l := l)
        (H1.nodeAt.transport F2 hr) (H1.left.frame F2 (fun i hi => hlr i hi)) H2 rfl hl (Nx ▸ hr)
      have N3 : (Tree.node h l x cnt hgt red k v).handles = t.handles := by
        rw [← N1]; simp [Tree.handles, Nx]
      have hc3 : a3.capacity ≤ NULL_INDEX := by rw [F3.capacity, F2.capacity]; exact hc1
      obtain ⟨a4, E4, H4, F4⟩ := prvRotateLeft_heap H3 (N3 ▸ hN) hc3 e3
      have N4 : t3.handles = t.handles := (Tree.rotateLeft_handles e3).trans N3
      obtain ⟨a5, E5, H5, F5⟩ := prvFlipColors_heap H4 (N4 ▸ hN) e4
      refine ⟨a5, ?_, H5, ?_⟩
      · simp only [hred, if_true]
        rw [bind_ok (H1.read_right n1)]
        simp only [Tree.right, Tree.root_node] at E2 E3 E4 ⊢
        rw [bind_ok E2]
        dsimp only
        rw [bind_ok E3, bind_ok E4]
        dsimp only
        rw [bind_ok E5, Tree.flipColors_root e4, if_pos hred]
        rfl
      · have F2' : Frame t.handles a1 a2 :=
          F2.mono (by
            intro i hi; rw [← N1]
            simp only [Tree.right] at hi
            simp [Tree.handles, hi])
        have F3' : Frame t.handles a2 a3 :=
          F3.mono (by intro i hi; rw [← N1]; simp only [List.mem_singleton] at hi
                      simp [Tree.handles, hi])
        exact (((F1.trans F2').trans F3').trans (N3 ▸ F4)).trans (N4 ▸ F5)
  · rename_i hred
    simp only [Option.some.injEq] at e
    subst e
    refine ⟨a1, ?_, H1, F1⟩
    simp [hred]
    rfl

theorem prvMoveRedRight_heap {a : Arena K V} {t t' : Tree K V} (hH : Heap a t)
    (hN : t.handles.Nodup) (hc : a.capacity ≤ NULL_INDEX) (ht : t.moveRedRight = some t') :
    ∃ a', a.prvMoveRedRight t.root = .ok (a', t'.root) ∧ Heap a' t' ∧ Frame t.handles a a' := by
  simp only [Tree.moveRedRight, Option.bind_eq_some] at ht
  obtain ⟨t1, e1, e⟩ := ht
  obtain ⟨a1, E1, H1, F1⟩ := prvFlipColors_heap hH hN e1
  have N1 : t1.handles = t.handles := Tree.flipColors_handles e1
  have n1 := Tree.flipColors_ne_nil e1
  have r1 := Tree.flipColors_root e1
  have hc1 : a1.capacity ≤ NULL_INDEX := by rw [F1.capacity]; exact hc
  have hch := Tree.flipColors_children e1
  unfold Arena.prvMoveRedRight
  rw [bind_ok E1, ← r1, bind_ok (leftLeftChildRed_heap H1 n1 hch.1 hc1)]
  split at e
  · rename_i hred
    simp only [Option.bind_eq_some] at e
    obtain ⟨t2, e2, e3⟩ := e
    obtain ⟨a2, E2, H2, F2⟩ := prvRotateRight_heap H1 (N1 ▸ hN) hc1 e2
    have N2 : t2.handles = t.handles := (Tree.rotateRight_handles e2).trans N1
    obtain ⟨a3, E3, H3, F3⟩ := prvFlipColors_heap H2 (N2 ▸ hN) e3
    refine ⟨a3, ?_, H3, (F1.trans (N1 ▸ F2)).trans (N2 ▸ F3)⟩
    simp only [hred, if_true]
    rw [bind_ok E2]
    dsimp only
    rw [bind_ok E3, Tree.flipColors_root e3]
    rfl
  · rename_i hred
    simp only [Option.some.injEq] at e
    subst e
    refine ⟨a1, ?_, H1, F1⟩
    simp [hred]
    rfl

@[simp] theorem Tree.left_node (h : Nat) (l r : Tree K V) (c t : Nat) (red : Bool) (k : K)
    (v : V) : (Tree.node h l r c t red k v).left = l := rfl

@[simp] theorem Tree.right_node (h : Nat) (l r : Tree K V) (c t : Nat) (red : Bool) (k : K)
    (v : V) : (Tree.node h l r c t red k v).right = r := rfl

theorem Tree.isNil_iff {t : Tree K V} : t.isNil = true ↔ t = .nil := by
  cases t <;> simp [Tree.isNil]

theorem Tree.isNil_false_iff {t : Tree K V} : t.isNil = false ↔ t ≠ .nil := by
  cases t <;> simp [Tree.isNil]

theorem Heap.root_null_iff {a : Arena K V} {t : Tree K V} (hH : Heap a t)
    (hc : a.capacity ≤ NULL_INDEX) : t.root = NULL_INDEX ↔ t = .nil := by
  cases t with
  | nil => simp [Tree.root]
  | node h l r cnt hgt red k v =>
    have := hH.1
    simp only [Tree.root_node, reduceCtorEq, iff_false]
    omega

theorem leftIsTwoNode_heap {a : Arena K V} {t : Tree K V} (hH : Heap a t) (hn : t ≠ .nil)
    (hl : t.left ≠ .nil) (hc : a.capacity ≤ NULL_INDEX) :
    a.leftIsTwoNode t.root = .ok (!t.left.isRed && !t.left.left.isRed) := by
  simp only [Arena.leftIsTwoNode, bind_ok (hH.read_left hn), bind_ok (isRed_root hH.left hc)]
  cases t.left.isRed
  · simp only [Bool.false_eq_true, if_false, bind_ok (hH.left.read_left hl),
      bind_ok (isRed_root hH.left.left hc)]
    rfl
  · rfl

theorem rightIsTwoNode_heap {a : Arena K V} {t : Tree K V} (hH : Heap a t) (hn : t ≠ .nil)
    (hr : t.right ≠ .nil) (hc : a.capacity ≤ NULL_INDEX) :
    a.rightIsTwoNode t.root = .ok (!t.right.isRed && !t.right.left.isRed) := by
  simp only [Arena.rightIsTwoNode, bind_ok (hH.read_right hn), bind_ok (isRed_root hH.right hc)]
  cases t.right.isRed
  · simp only [Bool.false_eq_true, if_false, bind_ok (hH.right.read_left hr),
      bind_ok (isRed_root hH.right.left hc)]
    rfl
  · rfl

theorem Tree.balance_handles {t t' : Tree K V} (e : t.balance = some t') :
    t'.handles = t.handles := by
  simp only [Tree.balance, Option.bind_eq_some] at e
  obtain ⟨t1, e1, t2, e2, t3, e3, e4⟩ := e
  have h1 : t1.handles = t.handles := by
    split at e1
    · exact Tree.rotateLeft_handles e1
    · simp only [Option.some.injEq] at e1; rw [e1]
  have h2 : t2.handles = t1.handles := by
    split at e2
    · exact Tree.rotateRight_handles e2
    · simp only [Option.some.injEq] at e2; rw [e2]
  have h3 : t3.handles = t2.handles := by
    split at e3
    · exact Tree.flipColors_handles e3
    · simp only [Option.some.injEq] at e3; rw [e3]
  rw [Tree.adjust_handles e4, h3, h2, h1]

theorem Tree.setLeft_ne_nil {t x t' : Tree K V} (e : t.setLeft x = some t') : t ≠ .nil := by
  rintro rfl; simp [Tree.setLeft] at e

theorem Tree.setRight_ne_nil {t x t' : Tree K V} (e : t.setRight x = some t') : t ≠ .nil := by
  rintro rfl; simp [Tree.setRight] at e

theorem subperm_nodup {l₁ l₂ : List Nat} (h : l₁.Subperm l₂) (d : l₂.Nodup) : l₁.Nodup := by
  obtain ⟨l, hp, hs⟩ := h
  exact hp.nodup_iff.1 (d.sublist hs)

theorem Tree.removeMin_subperm : ∀ (fuel : Nat) (t t' : Tree K V) (n : Nat),
    Tree.removeMin fuel t = some (t', n) → (n :: t'.handles).Subperm t.handles := by
  intro fuel
  induction fuel with
  | zero => intro t t' n e; simp [Tree.removeMin] at e
  | succ fuel ih =>
    intro t t' n e
    cases t with
    | nil => simp [Tree.removeMin] at e
    | node h l r cnt hgt red k v =>
      simp only [Tree.removeMin] at e
      split at e
      · rename_i hl
        simp only [Option.some.injEq, Prod.mk.injEq] at e
        obtain ⟨rfl, rfl⟩ := e
        rw [Tree.isNil_iff] at hl
        subst hl
        exact List.Sublist.subperm (by simp [Tree.handles])
      · simp only [Option.bind_eq_some] at e
        obtain ⟨t1, e1, p, ep, t2, e2, t3, e3, e4⟩ := e
        simp only [Option.some.injEq, Prod.mk.injEq] at e4
        obtain ⟨rfl, rfl⟩ := e4
        have h1 : t1.handles = (Tree.node h l r cnt hgt red k v).handles := by
          split at e1
          · exact Tree.moveRedLeft_handles e1
          · simp only [Option.some.injEq] at e1; rw [e1]
        have n1 := Tree.setLeft_ne_nil e2
        rw [← h1, Tree.handles_eq t1 n1, Tree.balance_handles e3, Tree.setLeft_handles e2]
        have := ih _ _ _ ep
        exact (List.subperm_append_right _).2 this

theorem Tree.left_handles_subperm (t : Tree K V) : t.left.handles.Subperm t.handles := by
  cases t with
  | nil => exact List.Subperm.refl _
  | node => exact List.Sublist.subperm (by simp [Tree.handles, Tree.left])

theorem Tree.right_handles_subperm (t : Tree K V) : t.right.handles.Subperm t.handles := by
  cases t with
  | nil => exact List.Subperm.refl _
  | node => exact List.Sublist.subperm (by simp [Tree.handles, Tree.right])

theorem Tree.root_mem {t : Tree K V} (hn : t ≠ .nil) : t.root ∈ t.handles := by
  cases t with
  | nil => exact absurd rfl hn
  | node => simp [Tree.handles]

theorem Tree.root_not_mem_left {t : Tree K V} (hN : t.handles.Nodup) :
    t.root ∉ t.left.handles := by
  cases t with
  | nil => simp [Tree.left, Tree.handles]
  | node => exact (nodup_node hN).2.2.1

theorem Tree.root_not_mem_right {t : Tree K V} (hN : t.handles.Nodup) :
    t.root ∉ t.right.handles := by
  cases t with
  | nil => simp [Tree.right, Tree.handles]
  | node => exact (nodup_node hN).2.2.2.1

theorem Tree.left_right_disjoint {t : Tree K V} (hN : t.handles.Nodup) :
    ∀ i ∈ t.left.handles, i ∉ t.right.handles := by
  cases t with
  | nil => simp [Tree.left, Tree.handles]
  | node => exact (nodup_node hN).2.2.2.2

/-- Replacing the left subtree of a laid-out node after the arena changed below it. -/
theorem setLeft_step {a a1 : Arena K V} {t x t2 : Tree K V} {S : List Nat}
    (hH : Heap a t) (hN : t.handles.Nodup) (hF : Frame S a a1) (hS : ∀ i ∈ S, i ∈ t.left.handles)
    (hx : Heap a1 x) (sx : ∀ i ∈ x.handles, i ∈ t.left.handles) (e : t.setLeft x = some t2) :
    ∃ a2, a1.setLeft t.root x.root = .ok a2 ∧ Heap a2 t2 ∧ Frame t.handles a a2 ∧
      t2.root = t.root := by
  cases t with
  | nil => simp [Tree.setLeft] at e
  | node h l r cnt hgt red k v =>
    simp only [Tree.setLeft, Option.some.injEq] at e
    subst e
    obtain ⟨nl, nr, hl, hr, hlr⟩ := nodup_node hN
    simp only [Tree.left] at hS sx
    have hhS : h ∉ S := fun hm => hl (hS h hm)
    obtain ⟨a2, E, H, F⟩ := setLeft_heap (x := x) (r := r) (hH.nodeAt.transport hF hhS) hx
      (hH.right.frame hF (fun i hi hm => hlr i (hS i hm) hi)) rfl (fun hm => hl (sx h hm)) hr
    refine ⟨a2, E, H, ?_, rfl⟩
    exact (hF.mono (fun i hi => by simp [Tree.handles, hS i hi])).trans
      (F.mono (fun i hi => by simp only [List.mem_singleton] at hi; simp [Tree.handles, hi]))

/-- Replacing the right subtree of a laid-out node after the arena changed below it. -/
theorem setRight_step {a a1 : Arena K V} {t x t2 : Tree K V} {S : List Nat}
    (hH : Heap a t) (hN : t.handles.Nodup) (hF : Frame S a a1)
    (hS : ∀ i ∈ S, i ∈ t.right.handles)
    (hx : Heap a1 x) (sx : ∀ i ∈ x.handles, i ∈ t.right.handles) (e : t.setRight x = some t2) :
    ∃ a2, a1.setRight t.root x.root = .ok a2 ∧ Heap a2 t2 ∧ Frame t.handles a a2 ∧
      t2.root = t.root := by
  cases t with
  | nil => simp [Tree.setRight] at e
  | node h l r cnt hgt red k v =>
    simp only [Tree.setRight, Option.some.injEq] at e
    subst e
    obtain ⟨nl, nr, hl, hr, hlr⟩ := nodup_node hN
    simp only [Tree.right] at hS sx
    have hhS : h ∉ S := fun hm => hr (hS h hm)
    obtain ⟨a2, E, H, F⟩ := setRight_heap (x := x) (l := l) (hH.nodeAt.transport hF hhS)
      (hH.left.frame hF (fun i hi hm => hlr i hi (hS i hm))) hx rfl hl (fun hm => hr (sx h hm))
    refine ⟨a2, E, H, ?_, rfl⟩
    exact (hF.mono (fun i hi => by simp [Tree.handles, hS i hi])).trans
      (F.mono (fun i hi => by simp only [List.mem_singleton] at hi; simp [Tree.handles, hi]))

theorem prvRemoveMin_heap : ∀ (fuel : Nat) (a : Arena K V) (t t' : Tree K V) (n : Nat),
    Heap a t → t.handles.Nodup → a.capacity ≤ NULL_INDEX →
    Tree.removeMin fuel t = some (t', n) →
    ∃ a', Arena.prvRemoveMin fuel a t.root = .ok (a', t'.root, n) ∧ Heap a' t' ∧
      Frame t.handles a a' := by
  intro fuel
  induction fuel with
  | zero => intro a t t' n _ _ _ e; simp [Tree.removeMin] at e
  | succ fuel ih =>
    intro a t t' n hH hN hc e
    cases t with
    | nil => simp [Tree.removeMin] at e
    | node h l r cnt hgt red k v =>
      have hn : Tree.node h l r cnt hgt red k v ≠ .nil := by simp
      simp only [Tree.removeMin] at e
      unfold Arena.prvRemoveMin
      rw [bind_ok (hH.read_left hn)]
      simp only [Tree.left_node, Tree.root_node]
      split at e
      · rename_i hl
        simp only [Option.some.injEq, Prod.mk.injEq] at e
        obtain ⟨rfl, rfl⟩ := e
        rw [Tree.isNil_iff] at hl
        subst hl
        exact ⟨a, by simp [Tree.root]; rfl, trivial, Frame.refl _ _⟩
      · rename_i hl
        simp only [Bool.not_eq_true, Tree.isNil_false_iff] at hl
        have hl' : l.root ≠ NULL_INDEX := fun e' => hl ((hH.left.root_null_iff hc).1 e')
        simp only [Option.bind_eq_some] at e
        obtain ⟨t1, e1, p, ep, t2, e2, t3, e3, e4⟩ := e
        simp only [Option.some.injEq, Prod.mk.injEq] at e4
        obtain ⟨rfl, rfl⟩ := e4
        have T := leftIsTwoNode_heap hH hn hl hc
        simp only [Tree.root_node, Tree.left_node] at T
        rw [if_neg hl', bind_ok T]
        obtain ⟨a1, E1, H1, F1, N1, n1⟩ : ∃ a1,
            (if (!l.isRed && !l.left.isRed) = true then a.prvMoveRedLeft h else pure (a, h)) =
              .ok (a1, t1.root) ∧ Heap a1 t1 ∧
            Frame (Tree.node h l r cnt hgt red k v).handles a a1 ∧
            t1.handles = (Tree.node h l r cnt hgt red k v).handles ∧ t1 ≠ .nil := by
          split at e1
          · rename_i hcond
            obtain ⟨a1, E, H, F⟩ := prvMoveRedLeft_heap hH hN hc e1
            exact ⟨a1, by rw [if_pos hcond]; exact E, H, F, Tree.moveRedLeft_handles e1,
              Tree.setLeft_ne_nil e2⟩
          · rename_i hcond
            simp only [Option.some.injEq] at e1
            subst e1
            exact ⟨a, by rw [if_neg hcond]; rfl, hH, Frame.refl _ _, rfl, hn⟩
        have hc1 : a1.capacity ≤ NULL_INDEX := by rw [F1.capacity]; exact hc
        have hN1 : t1.handles.Nodup := N1 ▸ hN
        rw [bind_ok E1]
        dsimp only
        rw [bind_ok (H1.read_left n1)]
        obtain ⟨a2, E2, H2, F2⟩ := ih a1 t1.left p.1 p.2 H1.left
          (subperm_nodup (Tree.left_handles_subperm t1) hN1) hc1 ep
        rw [bind_ok E2]
        dsimp only
        have sp := Tree.removeMin_subperm _ _ _ _ ep
        obtain ⟨a3, E3, H3, F3, r3⟩ := setLeft_step H1 hN1 F2 (fun i hi => hi) H2
          (fun i hi => sp.subset (List.mem_cons_of_mem _ hi)) e2
        rw [bind_ok E3]
        have N3 : t2.handles.Subperm t1.handles := by
          rw [Tree.setLeft_handles e2, Tree.handles_eq t1 n1]
          exact (List.subperm_append_right _).2 ((List.Subperm.cons_self).trans sp)
        have hc3 : a3.capacity ≤ NULL_INDEX := by rw [F3.capacity]; exact hc1
        obtain ⟨a4, E4, H4, F4⟩ := prvBalance_heap H3 (subperm_nodup N3 hN1) hc3 e3
        rw [← r3, bind_ok E4]
        refine ⟨a4, rfl, H4, ?_⟩
        exact F1.trans (N1 ▸ (F3.trans (F4.mono (fun i hi => N3.subset hi))))

theorem Tree.setEntry_handles {t t' : Tree K V} {e : K × V} (h : t.setEntry e = some t') :
    t'.handles = t.handles ∧ t'.root = t.root ∧ t'.left = t.left ∧ t'.right = t.right ∧
      t' ≠ .nil := by
  cases t with
  | nil => simp [Tree.setEntry] at h
  | node =>
    simp only [Tree.setEntry, Option.some.injEq] at h
    subst h
    simp [Tree.handles]

theorem Tree.key?_ne_nil {t : Tree K V} {k : K} (h : t.key? = some k) : t ≠ .nil := by
  rintro rfl; simp [Tree.key?] at h

theorem Tree.rotateRight_handles' {t t1 : Tree K V} {c : Bool}
    (e : (if c = true then t.rotateRight else some t) = some t1) : t1.handles = t.handles := by
  split at e
  · exact Tree.rotateRight_handles e
  · simp only [Option.some.injEq] at e; rw [e]

theorem Tree.moveRedRight_handles' {t t1 : Tree K V} {c : Bool}
    (e : (if c = true then t.moveRedRight else some t) = some t1) : t1.handles = t.handles := by
  split at e
  · exact Tree.moveRedRight_handles e
  · simp only [Option.some.injEq] at e; rw [e]

theorem Tree.moveRedLeft_handles' {t t1 : Tree K V} {c : Bool}
    (e : (if c = true then t.moveRedLeft else some t) = some t1) : t1.handles = t.handles := by
  split at e
  · exact Tree.moveRedLeft_handles e
  · simp only [Option.some.injEq] at e; rw [e]

theorem Tree.remove_zero [LinearOrder K] (k : K) (t : Tree K V) : Tree.remove k 0 t = none := by
  cases t <;> rfl

theorem Tree.remove_nil [LinearOrder K] (k : K) (fuel : Nat) :
    Tree.remove k fuel (.nil : Tree K V) = none := by
  cases fuel <;> rfl

theorem Tree.remove_subperm [LinearOrder K] (k : K) : ∀ (fuel : Nat) (t t' : Tree K V) (n : Nat),
    Tree.remove k fuel t = some (t', n) → (n :: t'.handles).Subperm t.handles := by
  intro fuel
  induction fuel with
  | zero => intro t t' n e; rw [Tree.remove_zero] at e; cases e
  | succ fuel ih =>
    intro t t' n e
    cases t with
    | nil => rw [Tree.remove_nil] at e; cases e
    | node h l r cnt hgt red kr v =>
      rw [Tree.remove] at e
      by_cases hk : k < kr
      · rw [if_pos hk] at e
        by_cases hl : l.isNil = true
        · rw [if_pos hl] at e; cases e
        · rw [if_neg hl] at e
          simp only [Option.bind_eq_some] at e
          obtain ⟨t1, e1, p, ep, t2, e2, t3, e3, e4⟩ := e
          simp only [Option.some.injEq, Prod.mk.injEq] at e4
          obtain ⟨rfl, rfl⟩ := e4
          have h1 := Tree.moveRedLeft_handles' e1
          have n1 := Tree.setLeft_ne_nil e2
          rw [← h1, Tree.handles_eq t1 n1, Tree.balance_handles e3, Tree.setLeft_handles e2]
          exact (List.subperm_append_right _).2 (ih _ _ _ ep)
      · rw [if_neg hk] at e
        simp only [Option.bind_eq_some] at e
        obtain ⟨t1, e1, k1, ek1, e⟩ := e
        have h1 := Tree.rotateRight_handles' e1
        have n1 := Tree.key?_ne_nil ek1
        by_cases hc1 : k = k1 ∧ t1.right.isNil = true
        · rw [if_pos hc1] at e
          simp only [Option.some.injEq, Prod.mk.injEq] at e
          obtain ⟨rfl, rfl⟩ := e
          rw [← h1]
          exact List.Sublist.subperm (by simpa [Tree.handles] using Tree.root_mem n1)
        · rw [if_neg hc1] at e
          by_cases hc2 : t1.right.isNil = true
          · rw [if_pos hc2] at e; cases e
          · rw [if_neg hc2] at e
            simp only [Option.bind_eq_some] at e
            obtain ⟨t2, e2, k2, ek2, e⟩ := e
            have h2 := Tree.moveRedRight_handles' e2
            have n2 := Tree.key?_ne_nil ek2
            have key : ∀ (t3 : Tree K V) (p : Tree K V × Nat) (t4 t5 : Tree K V),
                t3.handles = t2.handles → t3 ≠ .nil →
                (p.2 :: p.1.handles).Subperm t3.right.handles →
                t3.setRight p.1 = some t4 → t4.balance = some t5 →
                (p.2 :: t5.handles).Subperm (Tree.node h l r cnt hgt red kr v).handles := by
              intro t3 p t4 t5 h3 n3 sp e4 e5
              rw [← h1, ← h2, ← h3, Tree.handles_eq t3 n3, Tree.balance_handles e5,
                Tree.setRight_handles e4]
              refine (List.perm_middle.symm.subperm).trans ?_
              exact (List.subperm_append_left _).2
                ((List.Perm.swap _ _ _).subperm.trans ((List.subperm_cons _).2 sp))
            by_cases hc3 : k = k2
            · rw [if_pos hc3] at e
              simp only [Option.bind_eq_some] at e
              obtain ⟨en, een, t3, e3, p, ep, t4, e4, t5, e5, e6⟩ := e
              simp only [Option.some.injEq, Prod.mk.injEq] at e6
              obtain ⟨rfl, rfl⟩ := e6
              obtain ⟨h3, r3, l3, rr3, n3⟩ := Tree.setEntry_handles e3
              exact key t3 p t4 _ h3 n3 (Tree.removeMin_subperm _ _ _ _ ep) e4 e5
            · rw [if_neg hc3] at e
              simp only [Option.bind_eq_some] at e
              obtain ⟨p, ep, t4, e4, t5, e5, e6⟩ := e
              simp only [Option.some.injEq, Prod.mk.injEq] at e6
              obtain ⟨rfl, rfl⟩ := e6
              exact key t2 p t4 _ rfl n2 (ih _ _ _ ep) e4 e5

theorem Heap.read_key {a : Arena K V} {t : Tree K V} {k : K} (hH : Heap a t)
    (hk : t.key? = some k) : a.read a.keys t.root = .ok k := by
  cases t with
  | nil => simp [Tree.key?] at hk
  | node =>
    simp only [Tree.key?, Option.some.injEq] at hk
    subst hk
    simp [Arena.read, hH.1, hH.2.2.2.2.2.2.1]

theorem Tree.minEntry_zero (t : Tree K V) : Tree.minEntry 0 t = none := by
  cases t <;> rfl

theorem minLoop_heap : ∀ (fuel : Nat) (a : Arena K V) (t : Tree K V) (e : K × V),
    Heap a t → a.capacity ≤ NULL_INDEX → Tree.minEntry fuel t = some e →
    ∃ m, Arena.minLoop fuel a t.root = .ok m ∧ m ∈ t.handles ∧ m < a.capacity ∧
      a.keys m = e.1 ∧ a.values m = e.2 := by
  intro fuel
  induction fuel with
  | zero => intro a t e _ _ h; rw [Tree.minEntry_zero] at h; cases h
  | succ fuel ih =>
    intro a t e hH hc h
    cases t with
    | nil => simp [Tree.minEntry] at h
    | node x l r cnt hgt red k v =>
      have hn : Tree.node x l r cnt hgt red k v ≠ .nil := by simp
      rw [Tree.minEntry] at h
      unfold Arena.minLoop
      rw [bind_ok (hH.read_left hn)]
      simp only [Tree.left_node, Tree.root_node]
      by_cases hl : l.isNil = true
      · rw [if_pos hl] at h
        simp only [Option.some.injEq] at h
        subst h
        have : l.root = NULL_INDEX := by rw [Tree.isNil_iff] at hl; subst hl; rfl
        refine ⟨x, by simp [this]; rfl, by simp [Tree.handles], hH.1, hH.2.2.2.2.2.2.1,
          hH.2.2.2.2.2.2.2.1⟩
      · rw [if_neg hl] at h
        have hl' : l.root ≠ NULL_INDEX := fun e' =>
          hl (Tree.isNil_iff.2 ((hH.left.root_null_iff hc).1 e'))
        obtain ⟨m, E, hm, hb, hk, hv⟩ := ih a l e hH.left hc h
        refine ⟨m, by simp only [ne_eq, hl', not_false_eq_true, if_true]; exact E,
          by simp [Tree.handles, hm], hb, hk, hv⟩

theorem cond_step {α : Type} {c : Bool} {x : Except Err α} {d v : α}
    (h : (if c = true then x else pure d) = .ok v) (hc : c = true) : x = .ok v := by
  rw [if_pos hc] at h; exact h

theorem prvRemove_heap [LinearOrder K] (k : K) :
    ∀ (fuel : Nat) (a : Arena K V) (t t' : Tree K V) (n : Nat),
    Heap a t → t.handles.Nodup → a.capacity ≤ NULL_INDEX →
    Tree.remove k fuel t = some (t', n) →
    ∃ a', Arena.prvRemove k fuel a t.root = .ok (a', t'.root, n) ∧ Heap a' t' ∧
      Frame t.handles a a' := by
  intro fuel
  induction fuel with
  | zero => intro a t t' n _ _ _ e; rw [Tree.remove_zero] at e; cases e
  | succ fuel ih =>
    intro a t t' n hH hN hc e
    cases t with
    | nil => rw [Tree.remove_nil] at e; cases e
    | node h l r cnt hgt red kr v =>
      have hn : Tree.node h l r cnt hgt red kr v ≠ .nil := by simp
      rw [Tree.remove] at e
      unfold Arena.prvRemove
      have hkr : a.read a.keys h = .ok kr := hH.read_key rfl
      simp only [Tree.root_node]
      rw [bind_ok hkr]
      by_cases hk : k < kr
      · rw [if_pos hk] at e ⊢
        by_cases hl : l.isNil = true
        · rw [if_pos hl] at e; cases e
        · rw [if_neg hl] at e
          simp only [Bool.not_eq_true, Tree.isNil_false_iff] at hl
          simp only [Option.bind_eq_some] at e
          obtain ⟨t1, e1, p, ep, t2, e2, t3, e3, e4⟩ := e
          simp only [Option.some.injEq, Prod.mk.injEq] at e4
          obtain ⟨rfl, rfl⟩ := e4
          have T := leftIsTwoNode_heap hH hn hl hc
          simp only [Tree.root_node, Tree.left_node] at T
          rw [bind_ok T]
          obtain ⟨a1, E1, H1, F1, N1, n1⟩ : ∃ a1,
              (if (!l.isRed && !l.left.isRed) = true then a.prvMoveRedLeft h else pure (a, h)) =
                .ok (a1, t1.root) ∧ Heap a1 t1 ∧
              Frame (Tree.node h l r cnt hgt red kr v).handles a a1 ∧
              t1.handles = (Tree.node h l r cnt hgt red kr v).handles ∧ t1 ≠ .nil := by
            by_cases hcond : (!l.isRed && !l.left.isRed) = true
            · rw [if_pos hcond] at e1 ⊢
              obtain ⟨a1, E, H, F⟩ := prvMoveRedLeft_heap hH hN hc e1
              exact ⟨a1, E, H, F, Tree.moveRedLeft_handles e1, Tree.setLeft_ne_nil e2⟩
            · rw [if_neg hcond] at e1 ⊢
              simp only [Option.some.injEq] at e1
              subst e1
              exact ⟨a, rfl, hH, Frame.refl _ _, rfl, hn⟩
          have hc1 : a1.capacity ≤ NULL_INDEX := by rw [F1.capacity]; exact hc
          have hN1 : t1.handles.Nodup := N1 ▸ hN
          rw [bind_ok E1]
          dsimp only
          rw [bind_ok (H1.read_left n1)]
          obtain ⟨a2, E2, H2, F2⟩ := ih a1 t1.left p.1 p.2 H1.left
            (subperm_nodup (Tree.left_handles_subperm t1) hN1) hc1 ep
          rw [bind_ok E2]
          dsimp only
          have sp := Tree.remove_subperm k _ _ _ _ ep
          obtain ⟨a3, E3, H3, F3, r3⟩ := setLeft_step H1 hN1 F2 (fun i hi => hi) H2
            (fun i hi => sp.subset (List.mem_cons_of_mem _ hi)) e2
          rw [bind_ok E3]
          have N3 : t2.handles.Subperm t1.handles := by
            rw [Tree.setLeft_handles e2, Tree.handles_eq t1 n1]
            exact (List.subperm_append_right _).2 ((List.Subperm.cons_self).trans sp)
          have hc3 : a3.capacity ≤ NULL_INDEX := by rw [F3.capacity]; exact hc1
          obtain ⟨a4, E4, H4, F4⟩ := prvBalance_heap H3 (subperm_nodup N3 hN1) hc3 e3
          rw [← r3, bind_ok E4]
          refine ⟨a4, rfl, H4, ?_⟩
          exact F1.trans (N1 ▸ (F3.trans (F4.mono (fun i hi => N3.subset hi))))
      · rw [if_neg hk] at e ⊢
        simp only [Option.bind_eq_some] at e
        obtain ⟨t1, e1, k1, ek1, e⟩ := e
        have n1 := Tree.key?_ne_nil ek1
        have L := hH.read_left hn
        simp only [Tree.root_node, Tree.left_node] at L
        have I := isRed_root hH.left hc
        simp only [Tree.left_node] at I
        rw [bind_ok L, bind_ok I]
        obtain ⟨a1, E1, H1, F1, N1⟩ : ∃ a1,
            (if l.isRed = true then a.prvRotateRight h else pure (a, h)) =
              .ok (a1, t1.root) ∧ Heap a1 t1 ∧
            Frame (Tree.node h l r cnt hgt red kr v).handles a a1 ∧
            t1.handles = (Tree.node h l r cnt hgt red kr v).handles := by
          by_cases hcond : l.isRed = true
          · rw [if_pos hcond] at e1 ⊢
            obtain ⟨a1, E, H, F⟩ := prvRotateRight_heap hH hN hc e1
            exact ⟨a1, E, H, F, Tree.rotateRight_handles e1⟩
          · rw [if_neg hcond] at e1 ⊢
            simp only [Option.some.injEq] at e1
            subst e1
            exact ⟨a, rfl, hH, Frame.refl _ _, rfl⟩
        have hc1 : a1.capacity ≤ NULL_INDEX := by rw [F1.capacity]; exact hc
        have hN1 : t1.handles.Nodup := N1 ▸ hN
        rw [bind_ok E1]
        dsimp only
        rw [bind_ok (H1.read_key ek1), bind_ok (H1.read_right n1)]
        have hnil : t1.right.root = NULL_INDEX ↔ t1.right.isNil = true := by
          rw [Tree.isNil_iff]; exact H1.right.root_null_iff hc1
        by_cases hc1' : k = k1 ∧ t1.right.isNil = true
        · rw [if_pos hc1'] at e
          simp only [Option.some.injEq, Prod.mk.injEq] at e
          obtain ⟨rfl, rfl⟩ := e
          rw [if_pos ⟨hc1'.1, hnil.2 hc1'.2⟩]
          exact ⟨a1, rfl, trivial, F1⟩
        · rw [if_neg hc1'] at e
          rw [if_neg (fun hh => hc1' ⟨hh.1, hnil.1 hh.2⟩)]
          by_cases hc2 : t1.right.isNil = true
          · rw [if_pos hc2] at e; cases e
          · rw [if_neg hc2] at e
            simp only [Bool.not_eq_true, Tree.isNil_false_iff] at hc2
            simp only [Option.bind_eq_some] at e
            obtain ⟨t2, e2, k2, ek2, e⟩ := e
            have n2 := Tree.key?_ne_nil ek2
            rw [bind_ok (rightIsTwoNode_heap H1 n1 hc2 hc1)]
            obtain ⟨a2, E2, H2, F2, N2⟩ : ∃ a2,
                (if (!t1.right.isRed && !t1.right.left.isRed) = true then
                    a1.prvMoveRedRight t1.root else pure (a1, t1.root)) =
                  .ok (a2, t2.root) ∧ Heap a2 t2 ∧ Frame t1.handles a1 a2 ∧
                t2.handles = t1.handles := by
              by_cases hcond : (!t1.right.isRed && !t1.right.left.isRed) = true
              · rw [if_pos hcond] at e2 ⊢
                obtain ⟨a2, E, H, F⟩ := prvMoveRedRight_heap H1 hN1 hc1 e2
                exact ⟨a2, E, H, F, Tree.moveRedRight_handles e2⟩
              · rw [if_neg hcond] at e2 ⊢
                simp only [Option.some.injEq] at e2
                subst e2
                exact ⟨a1, rfl, H1, Frame.refl _ _, rfl⟩
            have hc2' : a2.capacity ≤ NULL_INDEX := by rw [F2.capacity]; exact hc1
            have hN2 : t2.handles.Nodup := N2 ▸ hN1
            rw [bind_ok E2]
            dsimp only
            rw [bind_ok (H2.read_key ek2)]
            -- common tail: reattach the right subtree and rebalance
            have tail : ∀ (a3 a4 : Arena K V) (t3 x t4 t5 : Tree K V) (m : Nat),
                Heap a3 t3 → t3.handles = t2.handles → t3.root = t2.root →
                Frame t2.handles a2 a3 → Frame t3.right.handles a3 a4 → Heap a4 x →
                (m :: x.handles).Subperm t3.right.handles →
                t3.setRight x = some t4 → t4.balance = some t5 →
                ∃ a', (do
                    let a ← a4.setRight t2.root x.root
                    let p ← a.prvBalance t2.root
                    pure (p.1, p.2, m)) = .ok (a', t5.root, m) ∧ Heap a' t5 ∧
                  Frame (Tree.node h l r cnt hgt red kr v).handles a a' := by
              intro a3 a4 t3 x t4 t5 m H3 N3 r3 F3 F4 Hx sp e4 e5
              have hN3 : t3.handles.Nodup := N3 ▸ hN2
              have n3 := Tree.setRight_ne_nil e4
              obtain ⟨a5, E5, H5, F5, r5⟩ := setRight_step H3 hN3 F4 (fun i hi => hi) Hx
                (fun i hi => sp.subset (List.mem_cons_of_mem _ hi)) e4
              have N5 : t4.handles.Subperm t3.handles := by
                rw [Tree.setRight_handles e4, Tree.handles_eq t3 n3]
                exact (List.subperm_append_left _).2
                  ((List.subperm_cons _).2 ((List.Subperm.cons_self).trans sp))
              have hc5 : a5.capacity ≤ NULL_INDEX := by
                rw [F5.capacity, F3.capacity]; exact hc2'
              obtain ⟨a6, E6, H6, F6⟩ := prvBalance_heap H5 (subperm_nodup N5 hN3) hc5 e5
              rw [← r3, bind_ok E5, ← r5, bind_ok E6]
              refine ⟨a6, rfl, H6, ?_⟩
              have F36 : Frame t2.handles a3 a6 :=
                N3 ▸ (F5.trans (F6.mono (fun i hi => N5.subset hi)))
              exact F1.trans (N1 ▸ (F2.trans (N2 ▸ (F3.trans F36))))
            by_cases hc3 : k = k2
            · rw [if_pos hc3] at e ⊢
              simp only [Option.bind_eq_some] at e
              obtain ⟨en, een, t3, e3, p, ep, t4, e4, t5, e5, e6⟩ := e
              simp only [Option.some.injEq, Prod.mk.injEq] at e6
              obtain ⟨rfl, rfl⟩ := e6
              obtain ⟨m, Em, hm, hb, hmk, hmv⟩ := minLoop_heap fuel a2 t2.right en H2.right hc2' een
              rw [bind_ok (H2.read_right n2), bind_ok Em]
              cases t2 with
              | nil => exact absurd rfl n2
              | node h2 l2 r2 c2 g2 red2 kk2 v2 =>
                simp only [Tree.setEntry, Option.some.injEq] at e3
                subst e3
                obtain ⟨nl, nr, hl2, hr2, hlr2⟩ := nodup_node hN2
                obtain ⟨a3', a3, Ek, Ev, H3, F3, F3'⟩ := setEntry_heap H2 hl2 hr2 en.1 en.2
                have hmh : m ≠ h2 := by rintro rfl; exact hr2 hm
                have Rk : a2.read a2.keys m = .ok en.1 := by simp [Arena.read, hb, hmk]
                have Rv : a3'.read a3'.values m = .ok en.2 := by
                  have := (F3'.agree m (by simpa using hmh)).2.2.2.2.2.2
                  simp [Arena.read, F3'.capacity, hb, this, hmv]
                simp only [Tree.root_node, Tree.right_node] at Em ep ⊢
                rw [bind_ok Rk, bind_ok Ek, bind_ok Rv, bind_ok Ev]
                have Rr := H3.read_right (by simp)
                simp only [Tree.root_node, Tree.right_node] at Rr
                rw [bind_ok Rr]
                obtain ⟨a4, E4, H4, F4⟩ := prvRemoveMin_heap fuel a3 r2 p.1 p.2 H3.right nr
                  (by rw [F3.capacity]; exact hc2') ep
                rw [bind_ok E4]
                exact tail a3 a4 _ p.1 t4 _ p.2 H3 rfl rfl
                  (F3.mono (by intro i hi; simp only [List.mem_singleton] at hi
                               simp [Tree.handles, hi]))
                  F4 H4 (Tree.removeMin_subperm _ _ _ _ ep) e4 e5
            · rw [if_neg hc3] at e ⊢
              simp only [Option.bind_eq_some] at e
              obtain ⟨p, ep, t4, e4, t5, e5, e6⟩ := e
              simp only [Option.some.injEq, Prod.mk.injEq] at e6
              obtain ⟨rfl, rfl⟩ := e6
              rw [bind_ok (H2.read_right n2)]
              obtain ⟨a4, E4, H4, F4⟩ := ih a2 t2.right p.1 p.2 H2.right
                (subperm_nodup (Tree.right_handles_subperm t2) hN2) hc2' ep
              rw [bind_ok E4]
              exact tail a2 a4 t2 p.1 t4 _ p.2 H2 rfl rfl (Frame.refl _ _) F4 H4
                (Tree.remove_subperm k _ _ _ _ ep) e4 e5

section NodeReads
variable {a : Arena K V} {h : Nat} {l r : Tree K V} {cnt hgt : Nat} {red : Bool} {k : K} {v : V}

theorem Heap.read_key_node (hH : Heap a (.node h l r cnt hgt red k v)) :
    a.read a.keys h = .ok k := by
  simp [Arena.read, hH.1, hH.2.2.2.2.2.2.1]

theorem Heap.read_value_node (hH : Heap a (.node h l r cnt hgt red k v)) :
    a.read a.values h = .ok v := by
  simp [Arena.read, hH.1, hH.2.2.2.2.2.2.2.1]

theorem Heap.read_left_node (hH : Heap a (.node h l r cnt hgt red k v)) :
    a.read a.left h = .ok l.root := by
  simp [Arena.read, hH.1, hH.2.1]

theorem Heap.read_right_node (hH : Heap a (.node h l r cnt hgt red k v)) :
    a.read a.right h = .ok r.root := by
  simp [Arena.read, hH.1, hH.2.2.1]

theorem Heap.ne_null (hH : Heap a (.node h l r cnt hgt red k v))
    (hc : a.capacity ≤ NULL_INDEX) : h ≠ NULL_INDEX := by
  have := hH.1
  omega

end NodeReads

theorem searchLoop_heap [LinearOrder K] (k : K) {a : Arena K V} (hc : a.capacity ≤ NULL_INDEX) :
    ∀ (t : Tree K V) (fuel : Nat), Heap a t → t.depth < fuel →
    Arena.searchLoop k fuel a t.root =
      (match Tree.search k t with
       | some h => .ok h
       | none => .error .notFound) := by
  intro t
  induction t with
  | nil =>
    intro fuel _ hf
    cases fuel with
    | zero => simp [Tree.depth] at hf
    | succ fuel => simp [Arena.searchLoop, Tree.root, Tree.search]
  | node h l r cnt hgt red kr v ihl ihr =>
    intro fuel hH hf
    cases fuel with
    | zero => simp at hf
    | succ fuel =>
      have hn : Tree.node h l r cnt hgt red kr v ≠ .nil := by simp
      have hb := hH.1
      have hne : h ≠ NULL_INDEX := by omega
      simp only [Tree.depth] at hf
      unfold Arena.searchLoop
      simp only [Tree.root_node, ne_eq, hne, not_false_eq_true, if_true]
      rw [bind_ok hH.read_key_node]
      simp only [Tree.search]
      by_cases h1 : k = kr
      · simp [h1]; rfl
      · simp only [h1, if_false]
        by_cases h2 : k < kr
        · simp only [h2, if_true]
          rw [bind_ok hH.read_left_node]
          exact ihl fuel hH.left (by omega)
        · simp only [h2, if_false]
          rw [bind_ok hH.read_right_node]
          exact ihr fuel hH.right (by omega)

theorem Tree.mapT_handles {σ : Type} (fp : σ → K → V → σ × V) :
    ∀ (t : Tree K V) (s : σ), (Tree.mapT fp t s).1.handles = t.handles ∧
      (Tree.mapT fp t s).1.root = t.root := by
  intro t
  induction t with
  | nil => intro s; simp [Tree.mapT]
  | node h l r cnt hgt red k v ihl ihr =>
    intro s
    simp only [Tree.mapT, Tree.handles, Tree.root_node]
    rw [(ihl s).1, (ihr _).1]
    simp

theorem prvMap_heap {σ : Type} (fp : σ → K → V → σ × V) :
    ∀ (t : Tree K V) (fuel : Nat) (a : Arena K V) (s : σ), Heap a t → t.handles.Nodup →
    a.capacity ≤ NULL_INDEX → t.depth < fuel →
    ∃ a', Arena.prvMap fp fuel a t.root s = .ok (a', (Tree.mapT fp t s).2) ∧
      Heap a' (Tree.mapT fp t s).1 ∧ Frame t.handles a a' ∧
      a'.left = a.left ∧ a'.right = a.right ∧ a'.counts = a.counts ∧ a'.heights = a.heights ∧
      a'.colors = a.colors ∧ a'.keys = a.keys := by
  intro t
  induction t with
  | nil =>
    intro fuel a s _ _ _ hf
    cases fuel with
    | zero => simp [Tree.depth] at hf
    | succ fuel =>
      exact ⟨a, by simp [Arena.prvMap, Tree.root, Tree.mapT]; rfl, trivial, Frame.refl _ _,
        rfl, rfl, rfl, rfl, rfl, rfl⟩
  | node h l r cnt hgt red k v ihl ihr =>
    intro fuel a s hH hN hc hf
    cases fuel with
    | zero => simp at hf
    | succ fuel =>
      have hn : Tree.node h l r cnt hgt red k v ≠ .nil := by simp
      have hb := hH.1
      have hne : h ≠ NULL_INDEX := by omega
      simp only [Tree.depth] at hf
      obtain ⟨nl, nr, hl, hr, hlr⟩ := nodup_node hN
      unfold Arena.prvMap
      simp only [Tree.root_node, ne_eq, hne, not_false_eq_true, if_true]
      rw [bind_ok hH.read_left_node]
      obtain ⟨a1, E1, H1, F1, c1, c2, c3, c4, c5, c6⟩ := ihl fuel a s hH.left nl hc (by omega)
      rw [bind_ok E1]
      dsimp only
      have hhl : h ∉ l.handles := hl
      have A1 := hH.nodeAt.transport F1 hhl
      have Hr1 : Heap a1 r := hH.right.frame F1 (fun i hi hm => hlr i hm hi)
      have Rk : a1.read a1.keys h = .ok k := by simp [Arena.read, A1.1, A1.2.2.2.2.2.2.1]
      have Rv : a1.read a1.values h = .ok v := by simp [Arena.read, A1.1, A1.2.2.2.2.2.2.2]
      rw [bind_ok Rk, bind_ok Rv]
      have Hn1 : Heap a1 (.node h (Tree.mapT fp l s).1 r cnt hgt red k v) :=
        Heap.of_nodeAt (by rw [(Tree.mapT_handles fp l s).2]; exact A1) H1 Hr1
      obtain ⟨a2, E2, H2, F2⟩ := setValue_heap Hn1
        (by rw [(Tree.mapT_handles fp l s).1]; exact hl) hr (fp (Tree.mapT fp l s).2 k v).2
      rw [bind_ok E2, bind_ok H2.read_right_node]
      have hc2 : a2.capacity ≤ NULL_INDEX := by rw [F2.capacity, F1.capacity]; exact hc
      obtain ⟨a3, E3, H3, F3, d1, d2, d3, d4, d5, d6⟩ :=
        ihr fuel a2 (fp (Tree.mapT fp l s).2 k v).1 H2.right nr hc2 (by omega)
      have hv2 : a2.left = a1.left ∧ a2.right = a1.right ∧ a2.counts = a1.counts ∧
          a2.heights = a1.heights ∧ a2.colors = a1.colors ∧ a2.keys = a1.keys := by
        simp only [Arena.setValue, A1.1, if_true, Except.ok.injEq] at E2
        subst E2
        exact ⟨rfl, rfl, rfl, rfl, rfl, rfl⟩
      refine ⟨a3, ?_, ?_, ?_, by rw [d1, hv2.1, c1], by rw [d2, hv2.2.1, c2],
        by rw [d3, hv2.2.2.1, c3], by rw [d4, hv2.2.2.2.1, c4], by rw [d5, hv2.2.2.2.2.1, c5],
        by rw [d6, hv2.2.2.2.2.2, c6]⟩
      · rw [E3]; simp [Tree.mapT]
      · simp only [Tree.mapT]
        have hh3 : h ∉ r.handles := hr
        refine Heap.of_nodeAt ?_ ?_ H3
        · rw [(Tree.mapT_handles fp r _).2]
          exact H2.nodeAt.transport F3 hh3
        · have HL : Heap a2 (Tree.mapT fp l s).1 := H2.left
          exact HL.frame F3 (by
            intro i hi; rw [(Tree.mapT_handles fp l s).1] at hi; exact hlr i hi)
      · have F1' : Frame (Tree.node h l r cnt hgt red k v).handles a a1 :=
          F1.mono (by intro i hi; simp [Tree.handles, hi])
        have F2' : Frame (Tree.node h l r cnt hgt red k v).handles a1 a2 :=
          F2.mono (by intro i hi; simp only [List.mem_singleton] at hi; simp [Tree.handles, hi])
        have F3' : Frame (Tree.node h l r cnt hgt red k v).handles a2 a3 :=
          F3.mono (by intro i hi; simp [Tree.handles, hi])
        exact (F1'.trans F2').trans F3'

section Checks
variable {a : Arena K V} {h : Nat} {l r : Tree K V} {cnt hgt : Nat} {red : Bool} {k : K} {v : V}

theorem isRed_heap_node (hH : Heap a (.node h l r cnt hgt red k v)) (hc : a.capacity ≤ NULL_INDEX) :
    a.IS_RED h = .ok red := by
  have := isRed_root hH hc
  simpa [Tree.isRed] using this

theorem redViolation_heap (hH : Heap a (.node h l r cnt hgt red k v))
    (hc : a.capacity ≤ NULL_INDEX) :
    a.redViolation h = .ok ((red && l.isRed) || r.isRed) := by
  unfold Arena.redViolation
  rw [bind_ok (isRed_heap_node hH hc)]
  cases red
  · simp only [Bool.false_eq_true, if_false, Bool.false_and, Bool.false_or]
    rw [bind_ok (show (pure false : Except Err Bool) = .ok false from rfl)]
    simp only [Bool.false_eq_true, if_false]
    rw [bind_ok hH.read_right_node]
    exact isRed_root hH.right hc
  · simp only [if_true, Bool.true_and]
    have HL : Heap a l := hH.left
    rw [bind_ok hH.read_left_node, bind_ok (isRed_root HL hc)]
    cases l.isRed
    · simp only [Bool.false_eq_true, if_false, Bool.false_or]
      rw [bind_ok hH.read_right_node]
      exact isRed_root hH.right hc
    · rfl

theorem leftNotLess_heap [LinearOrder K] (hH : Heap a (.node h l r cnt hgt red k v))
    (hc : a.capacity ≤ NULL_INDEX) : a.leftNotLess h = .ok (l.keyGE k) := by
  unfold Arena.leftNotLess
  rw [bind_ok hH.read_left_node]
  cases l with
  | nil => simp [Tree.root, Tree.keyGE]; rfl
  | node lh ll lr lc lt lred lk lv =>
    have hl : Heap a (.node lh ll lr lc lt lred lk lv) := hH.left
    simp only [Tree.root_node, ne_eq, hl.ne_null hc, not_false_eq_true, if_true, Tree.keyGE]
    rw [bind_ok hl.read_key_node, bind_ok hH.read_key_node]
    rfl

theorem rightNotLarger_heap [LinearOrder K] (hH : Heap a (.node h l r cnt hgt red k v))
    (hc : a.capacity ≤ NULL_INDEX) : a.rightNotLarger h = .ok (r.keyLE k) := by
  unfold Arena.rightNotLarger
  rw [bind_ok hH.read_right_node]
  cases r with
  | nil => simp [Tree.root, Tree.keyLE]; rfl
  | node rh rl rr rc rt rred rk rv =>
    have hr : Heap a (.node rh rl rr rc rt rred rk rv) := hH.right
    simp only [Tree.root_node, ne_eq, hr.ne_null hc, not_false_eq_true, if_true, Tree.keyLE]
    rw [bind_ok hr.read_key_node, bind_ok hH.read_key_node]
    rfl

theorem childDepth_heap (hH : Heap a (.node h l r cnt hgt red k v))
    (hc : a.capacity ≤ NULL_INDEX) (cd : Nat) :
    a.childDepth h cd = .ok ((cd + (if red then 0 else 1)) % UINT32) := by
  unfold Arena.childDepth
  rw [bind_ok (isRed_heap_node hH hc)]
  rfl

end Checks

theorem prvIsValid_heap [LinearOrder K] {a : Arena K V} (hc : a.capacity ≤ NULL_INDEX) :
    ∀ (t : Tree K V) (fuel ld cd : Nat), Heap a t → t.depth < fuel →
    Arena.prvIsValid fuel a t.root ld cd = Tree.check t ld cd := by
  intro t
  induction t with
  | nil =>
    intro fuel ld cd _ hf
    cases fuel with
    | zero => simp [Tree.depth] at hf
    | succ fuel => simp only [Arena.prvIsValid, Tree.root, if_true, Tree.check]; rfl
  | node h l r cnt hgt red k v ihl ihr =>
    intro fuel ld cd hH hf
    cases fuel with
    | zero => simp at hf
    | succ fuel =>
      simp only [Tree.depth] at hf
      unfold Arena.prvIsValid
      simp only [Tree.root_node, hH.ne_null hc, if_false, Tree.check]
      rw [bind_ok (redViolation_heap hH hc)]
      by_cases c1 : ((red && l.isRed) || r.isRed) = true
      · rw [if_pos c1, if_pos c1]
      · rw [if_neg c1, if_neg c1, bind_ok (leftNotLess_heap hH hc)]
        by_cases c2 : l.keyGE k = true
        · rw [if_pos c2, if_pos c2]
        · rw [if_neg c2, if_neg c2, bind_ok (rightNotLarger_heap hH hc)]
          by_cases c3 : r.keyLE k = true
          · rw [if_pos c3, if_pos c3]
          · rw [if_neg c3, if_neg c3, bind_ok hH.read_left_node,
              bind_ok (childDepth_heap hH hc cd), ihl fuel _ _ hH.left (by omega)]
            cases hchk : Tree.check l ld ((cd + if red = true then 0 else 1) % UINT32) with
            | error e => rfl
            | ok ld' =>
              rw [bind_ok rfl, bind_ok hH.read_right_node, bind_ok (childDepth_heap hH hc cd),
                ihr fuel _ _ hH.right (by omega)]
              rfl

/-! ### The free list -/

theorem FreeList.of_left_eq {a a' : Arena K V} :
    ∀ (fl : List Nat) (h : Nat), FreeList a h fl → a.capacity ≤ a'.capacity →
    (∀ i ∈ fl, a'.left i = a.left i) → FreeList a' h fl := by
  intro fl
  induction fl with
  | nil => intro h hf _ _; exact hf
  | cons x xs ih =>
    intro h hf hc hA
    obtain ⟨e, hb, hr⟩ := hf
    refine ⟨e, by omega, ?_⟩
    rw [hA x (by simp)]
    exact ih _ hr hc (fun i hi => hA i (by simp [hi]))

theorem FreeList.preserved {a a' : Arena K V} {S fl : List Nat} {h : Nat} (hf : FreeList a h fl)
    (hF : Frame S a a') (hd : ∀ i ∈ fl, i ∉ S) : FreeList a' h fl :=
  FreeList.of_left_eq fl h hf (le_of_eq hF.capacity.symm) (fun i hi => (hF.agree i (hd i hi)).1)

theorem FreeList.lt_capacity {a : Arena K V} :
    ∀ (fl : List Nat) (h : Nat), FreeList a h fl → ∀ i ∈ fl, i < a.capacity := by
  intro fl
  induction fl with
  | nil => intro h _ i hi; simp at hi
  | cons x xs ih =>
    intro h hf i hi
    obtain ⟨_, hb, hr⟩ := hf
    simp only [List.mem_cons] at hi
    rcases hi with rfl | hi
    · exact hb
    · exact ih _ hr i hi

theorem prvFree_spec {a : Arena K V} {fl : List Nat} {r : Nat}
    (hf : FreeList a a.freeListHead fl) (hr : r < a.capacity) (hn : r ∉ fl) :
    ∃ a', a.prvFree r = .ok a' ∧ FreeList a' a'.freeListHead (r :: fl) ∧
      a'.capacity = a.capacity ∧ a'.nTrees = a.nTrees ∧ a'.freeListHead = r ∧
      a'.left = upd a.left r a.freeListHead ∧ a'.right = a.right ∧ a'.counts = a.counts ∧
      a'.heights = a.heights ∧ a'.colors = a.colors ∧ a'.keys = a.keys ∧
      a'.values = a.values := by
  refine ⟨{ a with left := upd a.left r a.freeListHead, freeListHead := r }, ?_, ?_,
    rfl, rfl, rfl, rfl, rfl, rfl, rfl, rfl, rfl, rfl⟩
  · simp [Arena.prvFree, Arena.setLeft, hr, bind, Except.bind, pure, Except.pure]
  · refine ⟨rfl, hr, ?_⟩
    simp only [upd_same]
    exact FreeList.of_left_eq fl _ hf (le_refl _) (fun i hi => by
      have : i ≠ r := by rintro rfl; exact hn hi
      simp [upd, this])

theorem Tree.freed_perm : ∀ t : Tree K V, t.freed.Perm t.handles := by
  intro t
  induction t with
  | nil => exact List.Perm.refl _
  | node h l r cnt hgt red k v ihl ihr =>
    simp only [Tree.freed, Tree.handles]
    refine List.Perm.trans ?_ List.perm_middle.symm
    exact List.Perm.cons _ ((List.perm_append_comm).trans (ihl.append ihr))

theorem Cleared.same (a : Arena K V) : Cleared a a := ⟨rfl, rfl, rfl, rfl, rfl, rfl, rfl, rfl⟩

theorem Cleared.andThen {a b c : Arena K V} (h1 : Cleared a b) (h2 : Cleared b c) :
    Cleared a c :=
  ⟨h2.capacity.trans h1.capacity, h2.nTrees.trans h1.nTrees, h2.right.trans h1.right,
    h2.counts.trans h1.counts, h2.heights.trans h1.heights, h2.colors.trans h1.colors,
    h2.keys.trans h1.keys, h2.values.trans h1.values⟩

theorem prvClear_heap :
    ∀ (t : Tree K V) (fuel : Nat) (a : Arena K V) (fl : List Nat), Heap a t →
    (t.handles ++ fl).Nodup → FreeList a a.freeListHead fl → a.capacity ≤ NULL_INDEX →
    t.depth < fuel →
    ∃ a', Arena.prvClear fuel a t.root = .ok a' ∧
      FreeList a' a'.freeListHead (t.freed ++ fl) ∧ Cleared a a' ∧
      (∀ i, i ∉ t.handles → a'.left i = a.left i) := by
  intro t
  induction t with
  | nil =>
    intro fuel a fl _ _ hf _ hd
    cases fuel with
    | zero => simp [Tree.depth] at hd
    | succ fuel =>
      exact ⟨a, by simp [Arena.prvClear, Tree.root]; rfl, by simpa [Tree.freed] using hf,
        Cleared.same a, fun _ _ => rfl⟩
  | node h l r cnt hgt red k v ihl ihr =>
    intro fuel a fl hH hN hf hc hd
    cases fuel with
    | zero => simp at hd
    | succ fuel =>
      simp only [Tree.depth] at hd
      simp only [Tree.handles, List.append_assoc, List.cons_append] at hN
      have hNt : (Tree.node h l r cnt hgt red k v).handles.Nodup := by
        have := hN
        rw [← List.cons_append, ← List.append_assoc] at this
        exact (List.nodup_append.1 this).1
      obtain ⟨nl, nr, hl, hr, hlr⟩ := nodup_node hNt
      have hNl : (l.handles ++ fl).Nodup := by
        rw [List.nodup_append] at hN ⊢
        refine ⟨hN.1, ?_, ?_⟩
        · have := hN.2.1; rw [List.nodup_cons, List.nodup_append] at this; exact this.2.2.1
        · intro i hi hfl; exact hN.2.2 hi (by simp [hfl])
      unfold Arena.prvClear
      simp only [Tree.root_node, ne_eq, hH.ne_null hc, not_false_eq_true, if_true]
      rw [bind_ok hH.read_left_node]
      obtain ⟨a1, E1, L1, C1, A1⟩ := ihl fuel a fl hH.left hNl hf hc (by omega)
      rw [bind_ok E1]
      have hA1 : ∀ i, i ∉ l.handles → Agree a a1 i := fun i hi =>
        ⟨A1 i hi, by rw [C1.right], by rw [C1.counts], by rw [C1.heights], by rw [C1.colors],
          by rw [C1.keys], by rw [C1.values]⟩
      have hr1 : Heap a1 r :=
        hH.right.agree (le_of_eq C1.capacity.symm) (fun i hi => hA1 i (fun hm => hlr i hm hi))
      have R1 : a1.read a1.right h = .ok r.root := by
        simp [Arena.read, C1.capacity, C1.right, hH.1, hH.2.2.1]
      rw [bind_ok R1]
      have hNr : (r.handles ++ (l.freed ++ fl)).Nodup := by
        have p : (r.handles ++ (l.freed ++ fl)).Perm (l.handles ++ (r.handles ++ fl)) := by
          refine (List.Perm.append_left _ ((Tree.freed_perm l).append_right _)).trans ?_
          rw [← List.append_assoc, ← List.append_assoc]
          exact List.Perm.append_right _ List.perm_append_comm
        refine p.nodup_iff.2 (hN.sublist ?_)
        exact List.Sublist.append_left (List.sublist_cons_self _ _) _
      obtain ⟨a2, E2, L2, C2, A2⟩ := ihr fuel a1 (l.freed ++ fl) hr1 hNr L1
        (by rw [C1.capacity]; exact hc) (by omega)
      rw [bind_ok E2]
      have hb2 : h < a2.capacity := by rw [C2.capacity, C1.capacity]; exact hH.1
      have hnin : h ∉ r.freed ++ (l.freed ++ fl) := by
        simp only [List.mem_append, (Tree.freed_perm r).mem_iff, (Tree.freed_perm l).mem_iff,
          not_or]
        refine ⟨hr, hl, ?_⟩
        intro hfl
        rw [List.nodup_append] at hN
        have := hN.2.1
        rw [List.nodup_cons] at this
        exact this.1 (by simp [hfl])
      obtain ⟨a3, E3, L3, c3, n3, f3, l3, r3, k3, g3, o3, y3, v3⟩ := prvFree_spec L2 hb2 hnin
      refine ⟨a3, E3, ?_, ?_, ?_⟩
      · simpa [Tree.freed] using L3
      · exact (C1.andThen C2).andThen ⟨c3, n3, r3, k3, g3, o3, y3, v3⟩
      · intro i hi
        simp only [Tree.handles, List.mem_append, List.mem_cons, not_or] at hi
        rw [l3, upd_ne _ _ hi.2.1, A2 i hi.2.2, A1 i hi.1]

theorem freeList_range' {a : Arena K V} (c : Nat)
    (hl : ∀ i, c ≤ i → i < a.capacity →
      a.left i = if i + 1 < a.capacity then i + 1 else NULL_INDEX) :
    ∀ (n j : Nat), c ≤ j → j + n = a.capacity →
    FreeList a (if n = 0 then NULL_INDEX else j) (List.range' j n) := by
  intro n
  induction n with
  | zero => intro j _ _; simp [FreeList]
  | succ n ih =>
    intro j hj hjn
    simp only [List.range'_succ, FreeList, Nat.succ_ne_zero, if_false, true_and]
    refine ⟨by omega, ?_⟩
    rw [hl j hj (by omega)]
    have := ih (j + 1) (by omega) (by omega)
    by_cases hn : n = 0
    · subst hn
      simp only [if_true] at this
      have : ¬ (j + 1 < a.capacity) := by omega
      simpa [this] using ‹FreeList a _ _›
    · simp only [hn, if_false] at this
      have hlt : j + 1 < a.capacity := by omega
      simpa [hlt] using this

theorem prvAllocate_spec [Inhabited K] [Inhabited V] {a : Arena K V} {fl : List Nat}
    (hf : FreeList a a.freeListHead fl) (hnd : fl.Nodup) (hc : a.capacity ≤ NULL_INDEX)
    (hroom : fl ≠ [] ∨ (0 < a.capacity ∧ 2 * a.capacity < UINT32)) :
    ∃ a' nh fl', a.prvAllocate = .ok (a', nh) ∧ Allocated a a' fl fl' nh := by
  cases fl with
  | cons x xs =>
    obtain ⟨e, hb, hr⟩ := hf
    have hx : a.freeListHead ≠ NULL_INDEX := by omega
    rw [List.nodup_cons] at hnd
    let a' : Arena K V := { a with
      freeListHead := a.left x
      right := upd a.right x NULL_INDEX
      left := upd a.left x NULL_INDEX
      heights := upd a.heights x 1
      counts := upd a.counts x 1
      colors := upd a.colors x NODE_RED }
    refine ⟨a', x, xs, ?_, ?_⟩
    · have hx' : x ≠ NULL_INDEX := by omega
      simp only [Arena.prvAllocate, hx', if_false, bind, Except.bind, pure, Except.pure,
        Arena.read, e, hb, if_true, Arena.setRight, Arena.setLeft, Arena.setHeight,
        Arena.setCount, Arena.setColor]
    · refine ⟨?_, hnd.2, hnd.1, Or.inl ⟨by simp, rfl, rfl⟩, hb, hc, rfl, ?_, ?_, ?_, ?_⟩
      · exact FreeList.of_left_eq xs _ hr (le_refl _) (fun i hi => by
          have : i ≠ x := by rintro rfl; exact hnd.1 hi
          simp [upd, this])
      · exact ⟨hb, by simp, by simp, by simp, by simp, by simp [colorCode], rfl, rfl⟩
      · intro i _ hi
        simp [Agree, upd, hi]
      · rfl
      · rfl
  | nil =>
    have hx : a.freeListHead = NULL_INDEX := hf
    rcases hroom with h | ⟨hpos, h2⟩
    · exact absurd rfl h
    have hmod : 2 * a.capacity % UINT32 = 2 * a.capacity := Nat.mod_eq_of_lt h2
    have hg : ¬ (a.capacity = 0 ∨ 2 * a.capacity % UINT32 < a.capacity) := by
      rw [hmod]; omega
    let g : Arena K V := { a with
      left := fun i =>
        if i < a.capacity then a.left i
        else if i + 1 < 2 * a.capacity then i + 1 else NULL_INDEX
      freeListHead := a.capacity
      capacity := 2 * a.capacity }
    have hg' : ¬ (a.capacity = 0 ∨ 2 * a.capacity < a.capacity) := by omega
    have hgrow : a.grow = .ok g := by
      simp only [Arena.grow, hmod, hg', if_false]
    have hgl : FreeList g (if a.capacity = 0 then NULL_INDEX else a.capacity)
        (List.range' a.capacity a.capacity) := by
      refine freeList_range' (a := g) a.capacity ?_ a.capacity a.capacity (le_refl _) ?_
      · intro i hi hlt
        have : ¬ i < a.capacity := by omega
        simp [g, this]
      · simp [g]; omega
    have hcap1 : a.capacity ≠ 0 := by omega
    simp only [hcap1, if_false] at hgl
    have hrange : List.range' a.capacity a.capacity =
        a.capacity :: List.range' (a.capacity + 1) (a.capacity - 1) := by
      obtain ⟨c, hc'⟩ : ∃ c, a.capacity = c + 1 := ⟨a.capacity - 1, by omega⟩
      rw [hc']
      simp [List.range'_succ]
    rw [hrange] at hgl
    obtain ⟨-, hb, hr⟩ := hgl
    have hnd' : (List.range' (a.capacity + 1) (a.capacity - 1)).Nodup := List.nodup_range' _ _
    have hfresh : a.capacity ∉ List.range' (a.capacity + 1) (a.capacity - 1) := by
      simp only [List.mem_range'_1, not_and, not_lt]
      omega
    let a' : Arena K V := { g with
      freeListHead := g.left a.capacity
      right := upd g.right a.capacity NULL_INDEX
      left := upd g.left a.capacity NULL_INDEX
      heights := upd g.heights a.capacity 1
      counts := upd g.counts a.capacity 1
      colors := upd g.colors a.capacity NODE_RED }
    refine ⟨a', a.capacity, List.range' (a.capacity + 1) (a.capacity - 1), ?_, ?_⟩
    · have hb' : a.capacity < g.capacity := hb
      simp only [Arena.prvAllocate, hx, if_true, bind, Except.bind, hgrow]
      simp only [Arena.read, pure, Except.pure, Arena.setRight, Arena.setLeft, Arena.setHeight,
        Arena.setCount, Arena.setColor, show g.freeListHead = a.capacity from rfl, hb', if_true]
    · have hcapg : g.capacity = 2 * a.capacity := rfl
      refine ⟨?_, hnd', hfresh, Or.inr ⟨rfl, rfl, rfl, rfl⟩, hb, ?_, rfl, ?_, ?_, ?_, ?_⟩
      · exact FreeList.of_left_eq _ _ hr (le_refl _) (fun i hi => by
          have : i ≠ a.capacity := by rintro rfl; exact hfresh hi
          simp [upd, this])
      · show 2 * a.capacity ≤ NULL_INDEX
        simp only [UINT32, NULL_INDEX] at h2 ⊢
        omega
      · exact ⟨hb, by simp, by simp, by simp, by simp, by simp [colorCode], rfl, rfl⟩
      · intro i hi hne
        simp [Agree, upd, hne, g, hi]
      · rfl
      · rfl

/-! ### Insertion -/

theorem Tree.insert_zero [LinearOrder K] (nh : Nat) (nv : V) (k : K) (t : Tree K V) :
    Tree.insert nh nv k 0 t = none := by
  cases t <;> rfl

theorem Tree.insert_subperm [LinearOrder K] (nh : Nat) (nv : V) (k : K) :
    ∀ (fuel : Nat) (t t' : Tree K V), Tree.insert nh nv k fuel t = some t' →
    t'.handles.Subperm (nh :: t.handles) := by
  intro fuel
  induction fuel with
  | zero => intro t t' e; rw [Tree.insert_zero] at e; cases e
  | succ fuel ih =>
    intro t t' e
    cases t with
    | nil =>
      simp only [Tree.insert, Option.some.injEq] at e
      subst e
      exact List.Subperm.refl _
    | node h l r cnt hgt red kr v =>
      rw [Tree.insert] at e
      by_cases h1 : k = kr
      · rw [if_pos h1] at e
        simp only [Option.some.injEq] at e
        subst e
        exact List.Subperm.cons_self
      · rw [if_neg h1] at e
        by_cases h2 : k < kr
        · rw [if_pos h2] at e
          simp only [Option.bind_eq_some] at e
          obtain ⟨x, ex, eb⟩ := e
          rw [Tree.balance_handles eb]
          simp only [Tree.handles]
          rw [← List.cons_append]
          exact (List.subperm_append_right _).2 (ih _ _ ex)
        · rw [if_neg h2] at e
          simp only [Option.bind_eq_some] at e
          obtain ⟨x, ex, eb⟩ := e
          rw [Tree.balance_handles eb]
          simp only [Tree.handles]
          refine List.Subperm.trans ?_ (List.perm_middle.subperm)
          refine (List.subperm_append_left _).2 ?_
          refine List.Subperm.trans ?_ (List.Perm.swap _ _ _).subperm
          exact (List.subperm_cons _).2 (ih _ _ ex)

theorem prvInsert_heap [Inhabited K] [Inhabited V] [LinearOrder K] (k : K) (nh : Nat) (nv : V)
    {a a0 : Arena K V} {q : K} (hc : a.capacity ≤ NULL_INDEX) (hc0 : a0.capacity ≤ NULL_INDEX) :
    ∀ (fuel : Nat) (t t' : Tree K V), Heap a t → Heap a0 t → (nh :: t.handles).Nodup →
    (Tree.search k t = none →
      a.prvAllocate = .ok (a0, nh) ∧ NodeAt a0 nh NULL_INDEX NULL_INDEX 1 1 true q nv) →
    (Tree.search k t ≠ none → a0 = a) →
    Tree.insert nh nv k fuel t = some t' →
    ∃ a', Arena.prvInsert k fuel a t.root = .ok (a', t'.root) ∧ Heap a' t' ∧
      Frame (nh :: t.handles) a0 a' := by
  intro fuel
  induction fuel with
  | zero => intro t t' _ _ _ _ _ e; rw [Tree.insert_zero] at e; cases e
  | succ fuel ih =>
    intro t t' hH hH0 hN hal hfound e
    cases t with
    | nil =>
      simp only [Tree.insert, Option.some.injEq] at e
      subst e
      obtain ⟨E, A⟩ := hal rfl
      unfold Arena.prvInsert
      simp only [Tree.root, if_true]
      rw [bind_ok E]
      obtain ⟨h1, h2, h3, h4, h5, h6, h7, h8⟩ := A
      have F : Frame [nh] a0 { a0 with keys := upd a0.keys nh k } :=
        frame_single rfl rfl rfl (fun i hi => by simp [Agree, upd, hi])
      refine ⟨_, by simp [Arena.setKey, h1, bind, Except.bind, pure, Except.pure], ?_,
        F.mono (by simp [Tree.handles])⟩
      exact ⟨h1, h2, h3, h4, h5, h6, by simp, h8, trivial, trivial⟩
    | node h l r cnt hgt red kr v =>
      have hN' : (Tree.node h l r cnt hgt red kr v).handles.Nodup := (List.nodup_cons.1 hN).2
      have hnh : nh ∉ (Tree.node h l r cnt hgt red kr v).handles := (List.nodup_cons.1 hN).1
      obtain ⟨nl, nr, hl, hr, hlr⟩ := nodup_node hN'
      simp only [Tree.handles, List.mem_append, List.mem_cons, not_or] at hnh
      rw [Tree.insert] at e
      unfold Arena.prvInsert
      simp only [Tree.root_node, hH.ne_null hc, if_false]
      rw [bind_ok hH.read_key_node]
      by_cases h1 : k = kr
      · rw [if_pos h1] at e ⊢
        simp only [Option.some.injEq] at e
        subst e
        have : a0 = a := hfound (by simp [Tree.search, h1])
        subst this
        exact ⟨a0, rfl, hH, Frame.refl _ _⟩
      · rw [if_neg h1] at e ⊢
        by_cases h2 : k < kr
        · rw [if_pos h2] at e ⊢
          simp only [Option.bind_eq_some] at e
          obtain ⟨x, ex, eb⟩ := e
          have hs : Tree.search k (Tree.node h l r cnt hgt red kr v) = Tree.search k l := by
            simp [Tree.search, h1, h2]
          rw [bind_ok hH.read_left_node]
          obtain ⟨a1, E1, H1, F1⟩ := ih l x hH.left hH0.left
            (List.nodup_cons.2 ⟨hnh.1, nl⟩) (fun hn => hal (hs ▸ hn))
            (fun hn => hfound (hs ▸ hn)) ex
          rw [bind_ok E1]
          dsimp only
          have sp := Tree.insert_subperm nh nv k _ _ _ ex
          have hhS : h ∉ nh :: l.handles := by
            simp only [List.mem_cons, not_or]; exact ⟨fun e => hnh.2.1 e.symm, hl⟩
          have hx : h ∉ x.handles := fun hm => hhS (sp.subset hm)
          obtain ⟨a2, E2, H2, F2⟩ := setLeft_heap (x := x) (r := r) (hH0.nodeAt.transport F1 hhS) H1
            (hH0.right.frame F1 (fun i hi hm => by
              simp only [List.mem_cons] at hm
              rcases hm with rfl | hm
              · exact hnh.2.2 hi
              · exact hlr i hm hi)) rfl hx hr
          rw [bind_ok E2]
          have N2 : (Tree.node h x r cnt hgt red kr v).handles.Subperm
              (nh :: (Tree.node h l r cnt hgt red kr v).handles) := by
            simp only [Tree.handles]
            rw [← List.cons_append]
            exact (List.subperm_append_right _).2 sp
          obtain ⟨a3, E3, H3, F3⟩ := prvBalance_heap H2 (subperm_nodup N2 hN)
            (by rw [F2.capacity, F1.capacity]; exact hc0) eb
          refine ⟨a3, E3, H3, ?_⟩
          exact ((F1.mono (by intro i hi; simp only [List.mem_cons] at hi
                              rcases hi with rfl | hi <;> simp [Tree.handles, *])).trans
            (F2.mono (by intro i hi; simp only [List.mem_singleton] at hi
                         simp [Tree.handles, hi]))).trans
            (F3.mono (fun i hi => N2.subset hi))
        · rw [if_neg h2] at e ⊢
          simp only [Option.bind_eq_some] at e
          obtain ⟨x, ex, eb⟩ := e
          have hs : Tree.search k (Tree.node h l r cnt hgt red kr v) = Tree.search k r := by
            simp [Tree.search, h1, h2]
          rw [bind_ok hH.read_right_node]
          obtain ⟨a1, E1, H1, F1⟩ := ih r x hH.right hH0.right
            (List.nodup_cons.2 ⟨hnh.2.2, nr⟩) (fun hn => hal (hs ▸ hn))
            (fun hn => hfound (hs ▸ hn)) ex
          rw [bind_ok E1]
          dsimp only
          have sp := Tree.insert_subperm nh nv k _ _ _ ex
          have hhS : h ∉ nh :: r.handles := by
            simp only [List.mem_cons, not_or]; exact ⟨fun e => hnh.2.1 e.symm, hr⟩
          have hx : h ∉ x.handles := fun hm => hhS (sp.subset hm)
          obtain ⟨a2, E2, H2, F2⟩ := setRight_heap (x := x) (l := l) (hH0.nodeAt.transport F1 hhS)
            (hH0.left.frame F1 (fun i hi hm => by
              simp only [List.mem_cons] at hm
              rcases hm with rfl | hm
              · exact hnh.1 hi
              · exact hlr i hi hm)) H1 rfl hl hx
          rw [bind_ok E2]
          have N2 : (Tree.node h l x cnt hgt red kr v).handles.Subperm
              (nh :: (Tree.node h l r cnt hgt red kr v).handles) := by
            simp only [Tree.handles]
            refine List.Subperm.trans ?_ (List.perm_middle.subperm)
            refine (List.subperm_append_left _).2 ?_
            refine List.Subperm.trans ?_ (List.Perm.swap _ _ _).subperm
            exact (List.subperm_cons _).2 sp
          obtain ⟨a3, E3, H3, F3⟩ := prvBalance_heap H2 (subperm_nodup N2 hN)
            (by rw [F2.capacity, F1.capacity]; exact hc0) eb
          refine ⟨a3, E3, H3, ?_⟩
          exact ((F1.mono (by intro i hi; simp only [List.mem_cons] at hi
                              rcases hi with rfl | hi <;> simp [Tree.handles, *])).trans
            (F2.mono (by intro i hi; simp only [List.mem_singleton] at hi
                         simp [Tree.handles, hi]))).trans
            (F3.mono (fun i hi => N2.subset hi))

@[simp] theorem Tree.isRed_node (h : Nat) (l r : Tree K V) (c t : Nat) (red : Bool) (k : K)
    (v : V) : (Tree.node h l r c t red k v).isRed = red := rfl

@[simp] theorem Tree.isRed_nil : (Tree.nil : Tree K V).isRed = false := rfl

@[simp] theorem Tree.bh_nil : (Tree.nil : Tree K V).bh = 0 := rfl

@[simp] theorem Tree.left_nil : (Tree.nil : Tree K V).left = .nil := rfl

@[simp] theorem Tree.right_nil : (Tree.nil : Tree K V).right = .nil := rfl

@[simp] theorem Tree.ok_nil : (Tree.nil : Tree K V).Ok := trivial

@[simp] theorem Tree.mk_eq (h : Nat) (l r : Tree K V) (red : Bool) (k : K) (v : V) :
    Tree.mk h l r red k v = Tree.node h l r (Tree.mkCnt l r) (Tree.mkHt l r) red k v := rfl

@[simp] theorem Tree.bh_node (h : Nat) (l r : Tree K V) (c t : Nat) (red : Bool) (k : K)
    (v : V) : (Tree.node h l r c t red k v).bh = l.bh + (if red then 0 else 1) := rfl

@[simp] theorem Tree.ok_node (h : Nat) (l r : Tree K V) (c t : Nat) (red : Bool) (k : K)
    (v : V) : (Tree.node h l r c t red k v).Ok ↔
      (r.isRed = false ∧ (red = true → l.isRed = false) ∧ l.bh = r.bh ∧ l.Ok ∧ r.Ok) :=
  Iff.rfl

@[simp] theorem Tree.adjust_node (h : Nat) (l r : Tree K V) (c t : Nat) (red : Bool) (k : K)
    (v : V) : (Tree.node h l r c t red k v).adjust = some (Tree.mk h l r red k v) := rfl

@[simp] theorem Tree.rotateLeft_node (h : Nat) (l : Tree K V) (s : Nat) (sl sr : Tree K V)
    (sc st : Nat) (sred : Bool) (sk : K) (sv : V) (c t : Nat) (red : Bool) (k : K) (v : V) :
    (Tree.node h l (Tree.node s sl sr sc st sred sk sv) c t red k v).rotateLeft =
      some (Tree.mk s (Tree.mk h l sl true k v) sr red sk sv) := rfl

@[simp] theorem Tree.rotateRight_node (h : Nat) (q : Nat) (ql qr : Tree K V) (qc qt : Nat)
    (qred : Bool) (qk : K) (qv : V) (r : Tree K V) (c t : Nat) (red : Bool) (k : K) (v : V) :
    (Tree.node h (Tree.node q ql qr qc qt qred qk qv) r c t red k v).rotateRight =
      some (Tree.mk q ql (Tree.mk h qr r true k v) red qk qv) := rfl

@[simp] theorem Tree.flipColors_node (h : Nat) (p : Nat) (pl pr : Tree K V) (pc pt : Nat)
    (pred : Bool) (pk : K) (pv : V) (q : Nat) (ql qr : Tree K V) (qc qt : Nat)
    (qred : Bool) (qk : K) (qv : V) (c t : Nat) (red : Bool) (k : K) (v : V) :
    (Tree.node h (Tree.node p pl pr pc pt pred pk pv) (Tree.node q ql qr qc qt qred qk qv)
      c t red k v).flipColors =
      some (Tree.node h (Tree.node p pl pr pc pt (!pred) pk pv)
        (Tree.node q ql qr qc qt (!qred) qk qv) c t (!red) k v) := rfl

@[simp] theorem Tree.setLeft_node (h : Nat) (l r x : Tree K V) (c t : Nat) (red : Bool)
    (k : K) (v : V) :
    (Tree.node h l r c t red k v).setLeft x = some (Tree.node h x r c t red k v) := rfl

@[simp] theorem Tree.setRight_node (h : Nat) (l r x : Tree K V) (c t : Nat) (red : Bool)
    (k : K) (v : V) :
    (Tree.node h l r c t red k v).setRight x = some (Tree.node h l x c t red k v) := rfl

theorem Tree.balance_spec (h : Nat) (l r : Tree K V) (cnt hgt : Nat) (c : Bool) (k : K) (v : V)
    (hl : l.Ok) (hr : r.Ok) (hb : l.bh = r.bh)
    (hc : c = true → l.isRed = false ∧ r.isRed = false) :
    ∃ t', (Tree.node h l r cnt hgt c k v).balance = some t' ∧ t'.Ok ∧
      t'.bh = (Tree.node h l r cnt hgt c k v).bh ∧
      (c = true → t'.isRed = true) ∧
      (c = false → (l.isRed = false ∨ r.isRed = false) → t'.isRed = false) := by
  cases r with
  | nil =>
    cases l with
    | nil => cases c <;> simp [Tree.balance]
    | node lh ll lr lc lt lred lk lv =>
      cases lred <;> cases c <;>
        simp_all [Tree.balance]
  | node rh rl rr rc rt rred rk rv =>
    cases l with
    | nil =>
      cases rred <;> cases c <;>
        simp_all [Tree.balance]
    | node lh ll lr lc lt lred lk lv =>
      cases rred <;> cases lred <;> cases c <;>
        simp_all [Tree.balance]

/-! ### Entries are preserved by the restructuring primitives -/

@[simp] theorem Tree.toList_node (h : Nat) (l r : Tree K V) (c t : Nat) (red : Bool) (k : K)
    (v : V) : (Tree.node h l r c t red k v).toList = l.toList ++ (k, v) :: r.toList := rfl

@[simp] theorem Tree.toList_nil : (Tree.nil : Tree K V).toList = [] := rfl

theorem Tree.rotateLeft_toList {t t' : Tree K V} (e : t.rotateLeft = some t') :
    t'.toList = t.toList := by
  match t, e with
  | .node h l (.node s sl sr scnt sht sred sk sv) cnt hgt red k v, e =>
    simp only [Tree.rotateLeft_node, Option.some.injEq] at e
    subst e
    simp

theorem Tree.rotateRight_toList {t t' : Tree K V} (e : t.rotateRight = some t') :
    t'.toList = t.toList := by
  match t, e with
  | .node h (.node q ql qr qcnt qht qred qk qv) r cnt hgt red k v, e =>
    simp only [Tree.rotateRight_node, Option.some.injEq] at e
    subst e
    simp

theorem Tree.flipColors_toList {t t' : Tree K V} (e : t.flipColors = some t') :
    t'.toList = t.toList := by
  match t, e with
  | .node h (.node p pl pr pcnt pht pred pk pv) (.node q ql qr qcnt qht qred qk qv)
      cnt hgt red k v, e =>
    simp only [Tree.flipColors_node, Option.some.injEq] at e
    subst e
    simp

theorem Tree.adjust_toList {t t' : Tree K V} (e : t.adjust = some t') :
    t'.toList = t.toList := by
  match t, e with
  | .node h l r cnt hgt red k v, e =>
    simp only [Tree.adjust_node, Option.some.injEq] at e
    subst e
    simp

theorem Tree.balance_toList {t t' : Tree K V} (e : t.balance = some t') :
    t'.toList = t.toList := by
  simp only [Tree.balance, Option.bind_eq_some] at e
  obtain ⟨t1, e1, t2, e2, t3, e3, e4⟩ := e
  have h1 : t1.toList = t.toList := by
    split at e1
    · exact Tree.rotateLeft_toList e1
    · simp only [Option.some.injEq] at e1; rw [e1]
  have h2 : t2.toList = t1.toList := by
    split at e2
    · exact Tree.rotateRight_toList e2
    · simp only [Option.some.injEq] at e2; rw [e2]
  have h3 : t3.toList = t2.toList := by
    split at e3
    · exact Tree.flipColors_toList e3
    · simp only [Option.some.injEq] at e3; rw [e3]
  rw [Tree.adjust_toList e4, h3, h2, h1]

theorem Tree.setRight_toList {t x t' : Tree K V} (e : t.setRight x = some t') :
    ∃ k v, t.toList = t.left.toList ++ (k, v) :: t.right.toList ∧
      t'.toList = t.left.toList ++ (k, v) :: x.toList ∧ t.key? = some k := by
  cases t with
  | nil => simp [Tree.setRight] at e
  | node h l r c g red k v =>
    simp only [Tree.setRight, Option.some.injEq] at e
    subst e
    exact ⟨k, v, by simp, by simp, rfl⟩

theorem Tree.setLeft_toList {t x t' : Tree K V} (e : t.setLeft x = some t') :
    ∃ k v, t.toList = t.left.toList ++ (k, v) :: t.right.toList ∧
      t'.toList = x.toList ++ (k, v) :: t.right.toList ∧ t.key? = some k := by
  cases t with
  | nil => simp [Tree.setLeft] at e
  | node h l r c g red k v =>
    simp only [Tree.setLeft, Option.some.injEq] at e
    subst e
    exact ⟨k, v, by simp, by simp, rfl⟩

theorem Tree.moveRedLeft_toList {t t' : Tree K V} (e : t.moveRedLeft = some t') :
    t'.toList = t.toList := by
  simp only [Tree.moveRedLeft, Option.bind_eq_some] at e
  obtain ⟨t1, e1, e⟩ := e
  split at e
  · simp only [Option.bind_eq_some] at e
    obtain ⟨x, ex, t2, e2, t3, e3, e4⟩ := e
    obtain ⟨k, v, h1, h2, -⟩ := Tree.setRight_toList e2
    rw [Tree.flipColors_toList e4, Tree.rotateLeft_toList e3, h2, Tree.rotateRight_toList ex,
      ← h1, Tree.flipColors_toList e1]
  · simp only [Option.some.injEq] at e
    subst e
    exact Tree.flipColors_toList e1

theorem Tree.moveRedRight_toList {t t' : Tree K V} (e : t.moveRedRight = some t') :
    t'.toList = t.toList := by
  simp only [Tree.moveRedRight, Option.bind_eq_some] at e
  obtain ⟨t1, e1, e⟩ := e
  split at e
  · simp only [Option.bind_eq_some] at e
    obtain ⟨t2, e2, e3⟩ := e
    rw [Tree.flipColors_toList e3, Tree.rotateRight_toList e2, Tree.flipColors_toList e1]
  · simp only [Option.some.injEq] at e
    subst e
    exact Tree.flipColors_toList e1

/-! ### Colour bookkeeping for deletion -/

theorem Tree.bh_pos_ne_nil {t : Tree K V} (h : 0 < t.bh) : t ≠ .nil := by
  rintro rfl; simp at h

theorem Tree.CtxL.introL (t : Tree K V) (h : Nat) (l r : Tree K V) (cnt hgt : Nat) (c : Bool)
    (k : K) (v : V) (hr : r.Ok) (hb : l.bh = r.bh)
    (hc : c = true → l.isRed = false ∧ r.isRed = false)
    (hbt : l.bh + (if c then 0 else 1) = t.bh)
    (hct : t.isRed = false → c = false ∧ r.isRed = false) :
    Tree.CtxL t (Tree.node h l r cnt hgt c k v) := by
  intro x ⟨ox, bx, cx⟩
  simp only [Tree.left_node] at bx cx
  obtain ⟨t3, e3, o3, b3, -, n3⟩ := Tree.balance_spec h x r cnt hgt c k v ox hr (bx.trans hb)
    (fun hh => ⟨cx (hc hh).1, (hc hh).2⟩)
  refine ⟨_, t3, rfl, e3, o3, ?_, ?_⟩
  · rw [b3, Tree.bh_node, bx, hbt]
  · intro ht
    exact n3 (hct ht).1 (Or.inr (hct ht).2)

theorem Tree.CtxR.introR (t : Tree K V) (h : Nat) (l r : Tree K V) (cnt hgt : Nat) (c : Bool)
    (k : K) (v : V) (hl : l.Ok) (hb : l.bh = r.bh)
    (hc : c = true → l.isRed = false ∧ r.isRed = false)
    (hbt : l.bh + (if c then 0 else 1) = t.bh)
    (hct : t.isRed = false → c = false ∧ l.isRed = false) :
    Tree.CtxR t (Tree.node h l r cnt hgt c k v) := by
  intro x e ⟨ox, bx, cx⟩
  simp only [Tree.right_node] at bx cx
  obtain ⟨t3, e3, o3, b3, -, n3⟩ := Tree.balance_spec h l x cnt hgt c e.1 e.2 hl ox
    (hb.trans bx.symm) (fun hh => ⟨(hc hh).1, cx (hc hh).2⟩)
  refine ⟨_, _, t3, rfl, rfl, e3, o3, ?_, ?_⟩
  · rw [b3, Tree.bh_node, hbt]
  · intro ht
    exact n3 (hct ht).1 (Or.inl (hct ht).2)

/-- A red node whose left child is a black 2-node: `prvMoveRedLeft` applies. -/
theorem Tree.moveRedLeft_ctx (h : Nat) (l r : Tree K V) (cnt hgt : Nat) (k : K) (v : V)
    (hok : (Tree.node h l r cnt hgt true k v).Ok) (hl : l ≠ .nil)
    (hll : l.left.isRed = false) :
    ∃ t1, (Tree.node h l r cnt hgt true k v).moveRedLeft = some t1 ∧ t1.left ≠ .nil ∧
      t1.left.Ok ∧ (t1.left.isRed = true ∨ t1.left.left.isRed = true) ∧
      (∀ e ∈ l.toList, e ∈ t1.left.toList) ∧
      Tree.CtxL (Tree.node h l r cnt hgt true k v) t1 := by
  obtain ⟨hr, hlr, hb, okl, okr⟩ := hok
  have hlb : l.isRed = false := hlr rfl
  cases l with
  | nil => exact absurd rfl hl
  | node lh ll lr lc lt lred lk lv =>
    simp only [Tree.isRed_node] at hlb
    subst hlb
    simp only [Tree.left_node] at hll
    obtain ⟨okl1, -, okl3, okl4, okl5⟩ := okl
    cases r with
    | nil => simp at hb
    | node rh rl rr rc rt rred rk rv =>
      simp only [Tree.isRed_node] at hr
      subst hr
      obtain ⟨okr1, -, okr3, okr4, okr5⟩ := okr
      simp only [Tree.bh_node, Bool.false_eq_true, if_false] at hb
      by_cases hrl : rl.isRed = true
      · cases rl with
        | nil => simp at hrl
        | node xh xl xr xc xt xred xk xv =>
          simp only [Tree.isRed_node] at hrl
          subst hrl
          obtain ⟨okx1, okx2, okx3, okx4, okx5⟩ := okr4
          have okx2' := okx2 rfl
          simp only [Tree.bh_node, if_true, Nat.add_zero] at okr3 hb
          simp only [Tree.moveRedLeft, Tree.flipColors_node, Option.some_bind, Tree.right_node,
            Tree.left_node, Tree.isRed_node, Bool.not_false, if_true, Tree.rotateRight_node,
            Tree.mk_eq, Tree.setRight_node, Tree.rotateLeft_node, Bool.not_true,
            Option.some.injEq, exists_eq_left']
          refine ⟨by simp, ?_, by simp, ?_, ?_⟩
          · simp [hll, okl1, okl3, okl4, okl5, okx2', okx4]
            omega
          · intro e he; simp at he ⊢; tauto
          · apply Tree.CtxL.introL
            · simp [okx1, okr1, okx5, okr5]; omega
            · simp; omega
            · simp
            · simp
            · simp
      · simp only [Bool.not_eq_true] at hrl
        simp only [Tree.moveRedLeft, Tree.flipColors_node, Option.some_bind, Tree.right_node,
          Tree.left_node, hrl, Bool.false_eq_true, if_false, Bool.not_true, Bool.not_false,
          Option.some.injEq, exists_eq_left']
        refine ⟨by simp, ?_, by simp, ?_, ?_⟩
        · simp [hll, okl1, okl3, okl4, okl5]
        · intro e he; simpa using he
        · apply Tree.CtxL.introL
          · simp [hrl, okr1, okr3, okr4, okr5]
          · simp; omega
          · simp
          · simp
          · simp

theorem Tree.Del.of_ok {t : Tree K V} (hn : t ≠ .nil) (hok : t.Ok)
    (hc : t.isRed = true ∨ t.left.isRed = true) : t.Del ∧ t.right.isRed = false := by
  cases t with
  | nil => exact absurd rfl hn
  | node h l r cnt hgt red k v =>
    obtain ⟨h1, h2, h3, h4, h5⟩ := hok
    refine ⟨⟨h4, h5, h3, ?_⟩, h1⟩
    cases red
    · simp at hc; simp [hc, h1]
    · simp [h2 rfl, h1]

theorem Tree.Ok.eq_nil {t : Tree K V} (hok : t.Ok) (hb : t.bh = 0) (hr : t.isRed = false) :
    t = .nil := by
  cases t with
  | nil => rfl
  | node h l r cnt hgt red k v =>
    simp only [Tree.isRed_node] at hr
    subst hr
    simp at hb

theorem Tree.size_eq_length (t : Tree K V) : t.size = t.toList.length := by
  induction t with
  | nil => rfl
  | node h l r cnt hgt red k v ihl ihr => simp [Tree.size, ihl, ihr]; omega

theorem Tree.size_left_lt {t : Tree K V} (hn : t ≠ .nil) : t.left.size < t.size := by
  cases t with
  | nil => exact absurd rfl hn
  | node => simp [Tree.size]; omega

theorem Tree.size_right_lt {t : Tree K V} (hn : t ≠ .nil) : t.right.size < t.size := by
  cases t with
  | nil => exact absurd rfl hn
  | node => simp [Tree.size]; omega

theorem Tree.removeMin_zero (t : Tree K V) : Tree.removeMin 0 t = none := by
  cases t <;> rfl

theorem Tree.ctxL_self {t : Tree K V} (hd : t.Del) (hr : t.right.isRed = false) :
    Tree.CtxL t t := by
  cases t with
  | nil => exact absurd hd (by simp [Tree.Del])
  | node h l r cnt hgt red k v =>
    obtain ⟨h1, h2, h3, h4⟩ := hd
    simp only [Tree.right_node] at hr
    apply Tree.CtxL.introL _ _ _ _ _ _ _ _ _ h2 h3
    · intro hc; subst hc; simpa using h4
    · rfl
    · intro hc; simp only [Tree.isRed_node] at hc; exact ⟨hc, hr⟩

theorem Tree.removeMin_ok : ∀ (fuel : Nat) (t : Tree K V), t.size < fuel → t.Del →
    t.right.isRed = false →
    ∃ t' n e, Tree.removeMin fuel t = some (t', n) ∧ Tree.Post t t' ∧
      t.toList = e :: t'.toList := by
  intro fuel
  induction fuel with
  | zero => intro t hs; simp at hs
  | succ fuel ih =>
    intro t hs hd hrr
    cases t with
    | nil => exact absurd hd (by simp [Tree.Del])
    | node h l r cnt hgt red k v =>
      have hd' := hd
      obtain ⟨okl, okr, hb, hcol⟩ := hd'
      simp only [Tree.right_node] at hrr
      rw [Tree.removeMin]
      by_cases hl : l.isNil = true
      · rw [if_pos hl]
        rw [Tree.isNil_iff] at hl
        subst hl
        simp only [Tree.bh_nil, Tree.isRed_nil] at hb hcol
        have hr : r = .nil := okr.eq_nil hb.symm hrr
        subst hr
        have hred : red = true := by
          rcases hcol with h1 | h1 | h1
          · exact h1.1
          · simp at h1
          · simp at h1
        subst hred
        exact ⟨.nil, h, (k, v), rfl, ⟨trivial, by simp, by simp⟩, by simp⟩
      · rw [if_neg hl]
        simp only [Bool.not_eq_true, Tree.isNil_false_iff] at hl
        -- the node the recursion descends from
        obtain ⟨t1, e1, n1, okl1, pre1, hsz, ctx, htl⟩ : ∃ t1,
            (if (!l.isRed && !l.left.isRed) = true then
              (Tree.node h l r cnt hgt red k v).moveRedLeft
              else some (Tree.node h l r cnt hgt red k v)) = some t1 ∧
            t1.left ≠ .nil ∧ t1.left.Ok ∧ (t1.left.isRed = true ∨ t1.left.left.isRed = true) ∧
            t1.toList = (Tree.node h l r cnt hgt red k v).toList ∧
            Tree.CtxL (Tree.node h l r cnt hgt red k v) t1 ∧ t1 ≠ .nil := by
          by_cases hcond : (!l.isRed && !l.left.isRed) = true
          · rw [if_pos hcond]
            simp only [Bool.and_eq_true, Bool.not_eq_true'] at hcond
            have hred : red = true := by
              rcases hcol with h1 | h1 | h1
              · exact h1.1
              · rw [hcond.1] at h1; simp at h1
              · rw [hrr] at h1; simp at h1
            subst hred
            obtain ⟨t1, e1, n1, o1, p1, -, c1⟩ := Tree.moveRedLeft_ctx h l r cnt hgt k v
              ⟨hrr, fun _ => hcond.1, hb, okl, okr⟩ hl hcond.2
            refine ⟨t1, e1, n1, o1, p1, Tree.moveRedLeft_toList e1, c1, ?_⟩
            rintro rfl; exact n1 rfl
          · rw [if_neg hcond]
            refine ⟨_, rfl, hl, okl, ?_, rfl, Tree.ctxL_self hd hrr, by simp⟩
            simp only [Bool.and_eq_true, Bool.not_eq_true', not_and, Bool.not_eq_false] at hcond
            simp only [Tree.left_node]
            by_cases h' : l.isRed = true
            · exact Or.inl h'
            · exact Or.inr (hcond (by simpa using h'))
        rw [e1, Option.some_bind]
        have hs1 : t1.left.size < fuel := by
          have := Tree.size_left_lt htl
          rw [Tree.size_eq_length t1, hsz, ← Tree.size_eq_length] at this
          omega
        obtain ⟨d1, r1⟩ := Tree.Del.of_ok n1 okl1 pre1
        obtain ⟨x, n, e, ex, px, lx⟩ := ih t1.left hs1 d1 r1
        rw [ex, Option.some_bind]
        obtain ⟨t2, t3, e2, e3, p3⟩ := ctx x px
        rw [e2, Option.some_bind, e3, Option.some_bind]
        refine ⟨t3, n, e, rfl, p3, ?_⟩
        obtain ⟨k1, v1, q1, q2, -⟩ := Tree.setLeft_toList e2
        rw [Tree.balance_toList e3, q2, ← hsz, q1, lx]
        rfl

theorem Tree.ctxR_self {t : Tree K V} (hd : t.Del) (hl : t.left.isRed = false) :
    Tree.CtxR t t := by
  cases t with
  | nil => exact absurd hd (by simp [Tree.Del])
  | node h l r cnt hgt red k v =>
    obtain ⟨h1, h2, h3, h4⟩ := hd
    simp only [Tree.left_node] at hl
    apply Tree.CtxR.introR _ _ _ _ _ _ _ _ _ h1 h3
    · intro hc; subst hc; simpa using h4
    · rfl
    · intro hc; simp only [Tree.isRed_node] at hc; exact ⟨hc, hl⟩

/-- A black node with a red left child: `prvRemove` rotates right before going right. -/
theorem Tree.rotateRight_ctx (h : Nat) (l r : Tree K V) (cnt hgt : Nat) (k : K) (v : V)
    (hd : (Tree.node h l r cnt hgt false k v).Del) (hl : l.isRed = true) :
    ∃ t1, (Tree.node h l r cnt hgt false k v).rotateRight = some t1 ∧ t1 ≠ .nil ∧
      t1.right.Del ∧ t1.right.right.isRed = false ∧ t1.right.isRed = true ∧
      t1.right.key? = some k ∧
      Tree.CtxR (Tree.node h l r cnt hgt false k v) t1 := by
  obtain ⟨okl, okr, hb, hcol⟩ := hd
  cases l with
  | nil => simp at hl
  | node lh ll lr lc lt lred lk lv =>
    simp only [Tree.isRed_node] at hl
    subst hl
    have hrr : r.isRed = false := by simpa using hcol
    obtain ⟨okl1, okl2, okl3, okl4, okl5⟩ := okl
    have okl2' := okl2 rfl
    simp only [Tree.bh_node, if_true, Nat.add_zero] at hb
    simp only [Tree.rotateRight_node, Tree.mk_eq, Option.some.injEq, exists_eq_left']
    refine ⟨by simp, ?_, by simpa using hrr, by simp, by simp [Tree.key?], ?_⟩
    · simp only [Tree.right_node, Tree.Del]
      exact ⟨okl5, okr, by omega, by simp [okl1, hrr]⟩
    · apply Tree.CtxR.introR
      · exact okl4
      · simp; omega
      · simp
      · simp
      · simp [okl2']

/-- A red node whose right child is a black 2-node: `prvMoveRedRight` applies. -/
theorem Tree.moveRedRight_ctx (h : Nat) (l r : Tree K V) (cnt hgt : Nat) (k : K) (v : V)
    (hok : (Tree.node h l r cnt hgt true k v).Ok) (hr : r ≠ .nil)
    (hrl : r.left.isRed = false) :
    ∃ t1, (Tree.node h l r cnt hgt true k v).moveRedRight = some t1 ∧ t1 ≠ .nil ∧
      t1.right.Del ∧ (t1.right.right.isRed = true → t1.right.key? = some k) ∧
      (t1.key? = some k ∨ k ∈ t1.right.keys) ∧
      Tree.CtxR (Tree.node h l r cnt hgt true k v) t1 := by
  obtain ⟨hrr, hlr, hb, okl, okr⟩ := hok
  have hlb : l.isRed = false := hlr rfl
  cases r with
  | nil => exact absurd rfl hr
  | node rh rl rr rc rt rred rk rv =>
    simp only [Tree.isRed_node] at hrr
    subst hrr
    simp only [Tree.left_node] at hrl
    obtain ⟨okr1, -, okr3, okr4, okr5⟩ := okr
    cases l with
    | nil => simp at hb
    | node lh ll lr lc lt lred lk lv =>
      simp only [Tree.isRed_node] at hlb
      subst hlb
      obtain ⟨okl1, -, okl3, okl4, okl5⟩ := okl
      simp only [Tree.bh_node, Bool.false_eq_true, if_false] at hb
      by_cases hll : ll.isRed = true
      · cases ll with
        | nil => simp at hll
        | node xh xl xr xc xt xred xk xv =>
          simp only [Tree.isRed_node] at hll
          subst hll
          obtain ⟨okx1, okx2, okx3, okx4, okx5⟩ := okl4
          have okx2' := okx2 rfl
          simp only [Tree.bh_node, if_true, Nat.add_zero] at okl3 hb
          simp only [Tree.moveRedRight, Tree.flipColors_node, Option.some_bind, Tree.right_node,
            Tree.left_node, Tree.isRed_node, Bool.not_false, if_true, Tree.rotateRight_node,
            Tree.mk_eq, Bool.not_true, Option.some.injEq, exists_eq_left']
          refine ⟨by simp, ?_, by simp [Tree.key?], by simp [Tree.keys], ?_⟩
          · simp only [Tree.right_node, Tree.Del]
            refine ⟨okl5, ?_, ?_, by simp [okl1]⟩
            · simp [okr1, hrl, okr3, okr4, okr5]
            · simp; omega
          · apply Tree.CtxR.introR
            · simp [okx1, okx3, okx4, okx5]
            · simp; omega
            · simp
            · simp
            · simp
      · simp only [Bool.not_eq_true] at hll
        simp only [Tree.moveRedRight, Tree.flipColors_node, Option.some_bind, Tree.right_node,
          Tree.left_node, hll, Bool.false_eq_true, if_false, Bool.not_true, Bool.not_false,
          Option.some.injEq, exists_eq_left']
        refine ⟨by simp, ?_, by simp [okr1], by simp [Tree.key?], ?_⟩
        · simp only [Tree.right_node, Tree.Del]
          exact ⟨okr4, okr5, okr3, by simp [hrl, okr1]⟩
        · apply Tree.CtxR.introR
          · simp [hll, okl1, okl3, okl4, okl5]
          · simp; omega
          · simp
          · simp
          · simp

/-! ### Sorted association lists -/

theorem Tree.bst_iff [LinearOrder K] (t : Tree K V) : t.Bst ↔ SortedK t.toList := by
  simp [Tree.Bst, Tree.keys, SortedK, List.Sorted, List.pairwise_map]

section Sorted
variable [LinearOrder K] {L R : List (K × V)} {e : K × V} {k : K}

theorem SortedK.parts (h : SortedK (L ++ e :: R)) :
    SortedK L ∧ SortedK R ∧ (∀ a ∈ L, a.1 < e.1) ∧ (∀ b ∈ R, e.1 < b.1) ∧
      ∀ a ∈ L, ∀ b ∈ R, a.1 < b.1 := by
  simp only [SortedK, List.pairwise_append, List.pairwise_cons, List.mem_cons] at h
  refine ⟨h.1, h.2.1.2, fun a ha => h.2.2 a ha e (Or.inl rfl), h.2.1.1, ?_⟩
  intro a ha b hb
  exact h.2.2 a ha b (Or.inr hb)

theorem filter_ne_self {xs : List (K × V)} (h : ∀ a ∈ xs, a.1 ≠ k) :
    xs.filter (fun a => decide (a.1 ≠ k)) = xs := by
  rw [List.filter_eq_self]
  intro a ha
  simpa using h a ha

theorem SortedK.filter_left (h : SortedK (L ++ e :: R)) (hk : k ∈ L.map Prod.fst) :
    (L ++ e :: R).filter (fun a => decide (a.1 ≠ k)) =
      L.filter (fun a => decide (a.1 ≠ k)) ++ e :: R := by
  obtain ⟨-, -, h3, h4, h5⟩ := h.parts
  obtain ⟨a, ha, rfl⟩ := List.mem_map.1 hk
  have he : e.1 ≠ a.1 := ne_of_gt (h3 a ha)
  rw [List.filter_append, List.filter_cons_of_pos (by simpa using he),
    filter_ne_self (fun b hb => ne_of_gt (h5 a ha b hb))]

theorem SortedK.filter_right (h : SortedK (L ++ e :: R)) (hk : k ∈ R.map Prod.fst) :
    (L ++ e :: R).filter (fun a => decide (a.1 ≠ k)) =
      L ++ e :: R.filter (fun a => decide (a.1 ≠ k)) := by
  obtain ⟨-, -, h3, h4, h5⟩ := h.parts
  obtain ⟨b, hb, rfl⟩ := List.mem_map.1 hk
  have he : e.1 ≠ b.1 := ne_of_lt (h4 b hb)
  rw [List.filter_append, List.filter_cons_of_pos (by simpa using he),
    filter_ne_self (fun a ha => ne_of_lt (h5 a ha b hb))]

theorem SortedK.filter_mid (h : SortedK (L ++ e :: R)) (hk : k = e.1) :
    (L ++ e :: R).filter (fun a => decide (a.1 ≠ k)) = L ++ R := by
  obtain ⟨-, -, h3, h4, h5⟩ := h.parts
  subst hk
  rw [List.filter_append, List.filter_cons_of_neg (by simp),
    filter_ne_self (fun a ha => ne_of_lt (h3 a ha)),
    filter_ne_self (fun b hb => ne_of_gt (h4 b hb))]

theorem SortedK.mem_left (h : SortedK (L ++ e :: R)) (hk : k ∈ (L ++ e :: R).map Prod.fst)
    (hlt : k < e.1) : k ∈ L.map Prod.fst := by
  obtain ⟨-, -, h3, h4, h5⟩ := h.parts
  simp only [List.map_append, List.map_cons, List.mem_append, List.mem_cons] at hk
  rcases hk with hk | rfl | hk
  · exact hk
  · exact absurd hlt (lt_irrefl _)
  · obtain ⟨b, hb, rfl⟩ := List.mem_map.1 hk
    exact absurd (lt_trans hlt (h4 b hb)) (lt_irrefl _)

theorem SortedK.mem_right (h : SortedK (L ++ e :: R)) (hk : k ∈ (L ++ e :: R).map Prod.fst)
    (hlt : e.1 < k) : k ∈ R.map Prod.fst := by
  obtain ⟨-, -, h3, h4, h5⟩ := h.parts
  simp only [List.map_append, List.map_cons, List.mem_append, List.mem_cons] at hk
  rcases hk with hk | rfl | hk
  · obtain ⟨a, ha, rfl⟩ := List.mem_map.1 hk
    exact absurd (lt_trans hlt (h3 a ha)) (lt_irrefl _)
  · exact absurd hlt (lt_irrefl _)
  · exact hk

end Sorted

theorem Tree.toList_eq (t : Tree K V) (hn : t ≠ .nil) :
    ∃ k v, t.key? = some k ∧ t.toList = t.left.toList ++ (k, v) :: t.right.toList := by
  cases t with
  | nil => exact absurd rfl hn
  | node h l r c g red k v => exact ⟨k, v, rfl, rfl⟩

theorem Tree.depth_le_size (t : Tree K V) : t.depth ≤ t.size := by
  induction t with
  | nil => exact le_refl _
  | node h l r c g red k v ihl ihr => simp only [Tree.depth, Tree.size]; omega

theorem Tree.minEntry_eq : ∀ (t : Tree K V) (fuel : Nat), t.depth < fuel → t ≠ .nil →
    Tree.minEntry fuel t = t.toList.head? := by
  intro t
  induction t with
  | nil => intro fuel _ hn; exact absurd rfl hn
  | node h l r c g red k v ihl _ =>
    intro fuel hf _
    cases fuel with
    | zero => simp at hf
    | succ fuel =>
      simp only [Tree.depth] at hf
      rw [Tree.minEntry]
      by_cases hl : l.isNil = true
      · rw [if_pos hl]
        rw [Tree.isNil_iff] at hl
        subst hl
        simp
      · rw [if_neg hl]
        simp only [Bool.not_eq_true, Tree.isNil_false_iff] at hl
        rw [ihl fuel (by omega) hl]
        cases l with
        | nil => exact absurd rfl hl
        | node lh ll lr lc lg lred lk lv =>
          simp only [Tree.toList_node]
          cases ll.toList <;> simp

/-! ### Deletion on shapes -/

theorem Tree.descend_left (h : Nat) (l r : Tree K V) (cnt hgt : Nat) (red : Bool) (k : K)
    (v : V) (hd : (Tree.node h l r cnt hgt red k v).Del) (hrr : r.isRed = false)
    (hl : l ≠ .nil) :
    ∃ t1, (if (!l.isRed && !l.left.isRed) = true then
        (Tree.node h l r cnt hgt red k v).moveRedLeft
        else some (Tree.node h l r cnt hgt red k v)) = some t1 ∧
      t1 ≠ .nil ∧ t1.left.Del ∧ t1.left.right.isRed = false ∧
      t1.toList = (Tree.node h l r cnt hgt red k v).toList ∧
      (∀ e ∈ l.toList, e ∈ t1.left.toList) ∧
      Tree.CtxL (Tree.node h l r cnt hgt red k v) t1 := by
  have hd' := hd
  obtain ⟨okl, okr, hb, hcol⟩ := hd'
  by_cases hcond : (!l.isRed && !l.left.isRed) = true
  · rw [if_pos hcond]
    simp only [Bool.and_eq_true, Bool.not_eq_true'] at hcond
    have hred : red = true := by
      rcases hcol with h1 | h1 | h1
      · exact h1.1
      · rw [hcond.1] at h1; simp at h1
      · rw [hrr] at h1; simp at h1
    subst hred
    obtain ⟨t1, e1, n1, o1, p1, m1, c1⟩ := Tree.moveRedLeft_ctx h l r cnt hgt k v
      ⟨hrr, fun _ => hcond.1, hb, okl, okr⟩ hl hcond.2
    obtain ⟨d1, r1⟩ := Tree.Del.of_ok n1 o1 p1
    refine ⟨t1, e1, ?_, d1, r1, Tree.moveRedLeft_toList e1, m1, c1⟩
    rintro rfl; exact n1 rfl
  · rw [if_neg hcond]
    simp only [Bool.and_eq_true, Bool.not_eq_true', not_and, Bool.not_eq_false] at hcond
    have pre : l.isRed = true ∨ l.left.isRed = true := by
      by_cases h' : l.isRed = true
      · exact Or.inl h'
      · exact Or.inr (hcond (by simpa using h'))
    obtain ⟨d1, r1⟩ := Tree.Del.of_ok hl okl pre
    exact ⟨_, rfl, by simp, d1, r1, rfl, fun e he => he, Tree.ctxL_self hd hrr⟩

theorem Tree.descend_right (h : Nat) (l r : Tree K V) (cnt hgt : Nat) (red : Bool) (k : K)
    (v : V) (hd : (Tree.node h l r cnt hgt red k v).Del)
    (hne : l.isRed = true ∨ r ≠ .nil) :
    ∃ t1 t2, (if l.isRed = true then (Tree.node h l r cnt hgt red k v).rotateRight
        else some (Tree.node h l r cnt hgt red k v)) = some t1 ∧
      t1 ≠ .nil ∧ t1.right.isNil = false ∧
      (if (!t1.right.isRed && !t1.right.left.isRed) = true then t1.moveRedRight
        else some t1) = some t2 ∧
      t2 ≠ .nil ∧ t2.toList = (Tree.node h l r cnt hgt red k v).toList ∧
      t2.right ≠ .nil ∧ t2.right.Del ∧
      (t2.right.right.isRed = true → t2.right.key? = some k) ∧
      (t2.key? = some k ∨ k ∈ t2.right.keys) ∧
      Tree.CtxR (Tree.node h l r cnt hgt red k v) t2 := by
  have hd' := hd
  obtain ⟨okl, okr, hb, hcol⟩ := hd'
  by_cases hlr : l.isRed = true
  · rw [if_pos hlr]
    have hred : red = false := by
      rcases hcol with h1 | h1 | h1
      · rw [hlr] at h1; simp at h1
      · exact h1.1
      · exact h1.1
    subst hred
    obtain ⟨t1, e1, n1, d1, rr1, r1, k1, c1⟩ := Tree.rotateRight_ctx h l r cnt hgt k v hd hlr
    have hnn : t1.right ≠ .nil := by intro e; rw [e] at r1; simp at r1
    refine ⟨t1, t1, e1, n1, Tree.isNil_false_iff.2 hnn, ?_, n1, Tree.rotateRight_toList e1, hnn,
      d1, fun _ => k1, Or.inr ?_, c1⟩
    · simp [r1]
    · cases ht : t1.right with
      | nil => exact absurd ht hnn
      | node => rw [ht] at k1; simp only [Tree.key?, Option.some.injEq] at k1; subst k1
                simp [Tree.keys]
  · rw [if_neg hlr]
    simp only [Bool.not_eq_true] at hlr
    have hr : r ≠ .nil := by
      rcases hne with h1 | h1
      · rw [hlr] at h1; simp at h1
      · exact h1
    by_cases hcond : (!r.isRed && !r.left.isRed) = true
    · simp only [Bool.and_eq_true, Bool.not_eq_true'] at hcond
      have hred : red = true := by
        rcases hcol with h1 | h1 | h1
        · exact h1.1
        · rw [hlr] at h1; simp at h1
        · rw [hcond.1] at h1; simp at h1
      subst hred
      obtain ⟨t2, e2, n2, d2, k2, m2, c2⟩ := Tree.moveRedRight_ctx h l r cnt hgt k v
        ⟨hcond.1, fun _ => hlr, hb, okl, okr⟩ hr hcond.2
      have hnn : t2.right ≠ .nil := by
        intro e; rw [e] at d2; exact absurd d2 (by simp [Tree.Del])
      exact ⟨_, t2, rfl, by simp, Tree.isNil_false_iff.2 hr, by simp [hcond, e2], n2,
        Tree.moveRedRight_toList e2, hnn, d2, k2, m2, c2⟩
    · have hcond' := hcond
      simp only [Bool.and_eq_true, Bool.not_eq_true', not_and, Bool.not_eq_false] at hcond
      have pre : r.isRed = true ∨ r.left.isRed = true := by
        by_cases h' : r.isRed = true
        · exact Or.inl h'
        · exact Or.inr (hcond (by simpa using h'))
      obtain ⟨d1, r1⟩ := Tree.Del.of_ok hr okr pre
      refine ⟨_, _, rfl, by simp, Tree.isNil_false_iff.2 hr, by simp only [Tree.right_node]; rw [if_neg hcond'], by simp,
        rfl, hr, d1, ?_, Or.inl rfl, Tree.ctxR_self hd hlr⟩
      intro hh
      simp only [Tree.right_node] at hh
      rw [r1] at hh
      simp at hh

theorem Tree.entry_eq (t : Tree K V) (hn : t ≠ .nil) :
    ∃ k v, t.key? = some k ∧ t.toList = t.left.toList ++ (k, v) :: t.right.toList ∧
      t.setEntry (k, v) = some t := by
  cases t with
  | nil => exact absurd rfl hn
  | node h l r c g red k v => exact ⟨k, v, rfl, rfl, rfl⟩

theorem Tree.setEntry_setRight_toList {t t3 t4 x : Tree K V} {e : K × V}
    (e3 : t.setEntry e = some t3) (e4 : t3.setRight x = some t4) :
    t4.toList = t.left.toList ++ e :: x.toList := by
  cases t with
  | nil => simp [Tree.setEntry] at e3
  | node h l r c g red k v =>
    simp only [Tree.setEntry, Option.some.injEq] at e3
    subst e3
    simp only [Tree.setRight, Option.some.injEq] at e4
    subst e4
    rfl

theorem Tree.remove_ok [LinearOrder K] (k : K) : ∀ (fuel : Nat) (t : Tree K V),
    t.size < fuel → t.Del →
    (t.right.isRed = true → ∀ kr, t.key? = some kr → ¬ k < kr) →
    SortedK t.toList → k ∈ t.toList.map Prod.fst →
    ∃ t' n, Tree.remove k fuel t = some (t', n) ∧ Tree.Post t t' ∧
      t'.toList = t.toList.filter (fun a => decide (a.1 ≠ k)) := by
  intro fuel
  induction fuel with
  | zero => intro t hs; simp at hs
  | succ fuel ih =>
    intro t hs hd hkey hbst hmem
    cases t with
    | nil => exact absurd hd (by simp [Tree.Del])
    | node h l r cnt hgt red kr v =>
      rw [Tree.remove]
      have hbst' : SortedK (l.toList ++ (kr, v) :: r.toList) := hbst
      have hmem' : k ∈ (l.toList ++ (kr, v) :: r.toList).map Prod.fst := hmem
      have hTL : (Tree.node h l r cnt hgt red kr v).toList = l.toList ++ (kr, v) :: r.toList :=
        rfl
      by_cases hk : k < kr
      · rw [if_pos hk]
        have hrr : r.isRed = false := by
          by_contra hc
          exact hkey (by simpa using hc) kr rfl hk
        have hkl : k ∈ l.toList.map Prod.fst := SortedK.mem_left hbst' hmem' hk
        have hl : l ≠ .nil := by rintro rfl; simp at hkl
        rw [if_neg (by simp [Tree.isNil_false_iff.2 hl])]
        obtain ⟨t1, e1, n1, d1, r1, tl1, m1, c1⟩ :=
          Tree.descend_left h l r cnt hgt red kr v hd hrr hl
        rw [e1, Option.some_bind]
        obtain ⟨k1, v1, hk1, htl1⟩ := Tree.toList_eq t1 n1
        have hs1 : SortedK (t1.left.toList ++ (k1, v1) :: t1.right.toList) := by
          rw [← htl1, tl1]; exact hbst
        have hmem1 : k ∈ t1.left.toList.map Prod.fst := by
          obtain ⟨a, ha, rfl⟩ := List.mem_map.1 hkl
          exact List.mem_map.2 ⟨a, m1 a ha, rfl⟩
        have hsz : t1.left.size < fuel := by
          have h1 := Tree.size_left_lt n1
          have h2 : t1.size = (Tree.node h l r cnt hgt red kr v).size := by
            rw [Tree.size_eq_length, Tree.size_eq_length, tl1]
          omega
        obtain ⟨x, n, ex, px, lx⟩ := ih t1.left hsz d1
          (fun hh => by rw [r1] at hh; simp at hh) hs1.parts.1 hmem1
        obtain ⟨t2, t3, e2, e3, p3⟩ := c1 x px
        refine ⟨t3, n, ?_, p3, ?_⟩
        · rw [ex, Option.some_bind, e2, Option.some_bind, e3, Option.some_bind]
        · rw [Tree.balance_toList e3]
          obtain ⟨k', v', h1, h2, h3⟩ := Tree.setLeft_toList e2
          rw [h2, lx, ← tl1, h1]
          rw [h1] at htl1
          rw [SortedK.filter_left (by rw [← h1, tl1]; exact hbst) hmem1]
      · rw [if_neg hk]
        by_cases hearly : l.isRed = false ∧ r = .nil
        · obtain ⟨hlr, rfl⟩ := hearly
          rw [if_neg (by simp [hlr]), Option.some_bind]
          obtain ⟨okl, okr, hb, hcol⟩ := hd
          have hred : red = true := by
            rcases hcol with h1 | h1 | h1
            · exact h1.1
            · rw [hlr] at h1; simp at h1
            · simp at h1
          subst hred
          have hln : l = .nil := Tree.Ok.eq_nil okl (by simpa using hb) hlr
          subst hln
          have hkk : k = kr := by simpa using hmem'
          subst hkk
          refine ⟨.nil, h, ?_, ⟨by simp, by simp [Tree.bh], by simp⟩, ?_⟩
          · simp [Tree.key?, Tree.isNil, Tree.root]
          · simp [Tree.toList]
        · have hne : l.isRed = true ∨ r ≠ .nil := by
            by_cases h1 : l.isRed = true
            · exact Or.inl h1
            · right; intro h2; exact hearly ⟨by simpa using h1, h2⟩
          obtain ⟨t1, t2, e1, n1, rn1, e2, n2, tl2, rn2, d2, kc2, km2, c2⟩ :=
            Tree.descend_right h l r cnt hgt red kr v hd hne
          rw [e1, Option.some_bind]
          obtain ⟨k1, v1, hk1, -⟩ := Tree.toList_eq t1 n1
          rw [hk1, Option.some_bind, if_neg (by simp [rn1]), if_neg (by simp [rn1]), e2,
            Option.some_bind]
          obtain ⟨k2, v2, hk2, htl2, hse2⟩ := Tree.entry_eq t2 n2
          rw [hk2, Option.some_bind]
          have hs2 : SortedK (t2.left.toList ++ (k2, v2) :: t2.right.toList) := by
            rw [← htl2, tl2]; exact hbst
          have hm2 : k ∈ (t2.left.toList ++ (k2, v2) :: t2.right.toList).map Prod.fst := by
            rw [← htl2, tl2]; exact hmem
          have hle : k2 ≤ kr := by
            rcases km2 with h1 | h1
            · rw [hk2] at h1; exact le_of_eq (Option.some.inj h1)
            · obtain ⟨b, hb, rfl⟩ := List.mem_map.1 h1
              exact le_of_lt (hs2.parts.2.2.2.1 b hb)
          have hsz : t2.right.size < fuel := by
            have h1 := Tree.size_right_lt n2
            have h2 : t2.size = (Tree.node h l r cnt hgt red kr v).size := by
              rw [Tree.size_eq_length, Tree.size_eq_length, tl2]
            omega
          by_cases hkk : k = k2
          · rw [if_pos hkk]
            have hrr2 : t2.right.right.isRed = false := by
              by_contra hc
              have h1 := kc2 (by simpa using hc)
              obtain ⟨k3, v3, hk3, htl3⟩ := Tree.toList_eq t2.right rn2
              rw [h1] at hk3
              cases hk3
              have h2 : k2 < kr := hs2.parts.2.2.2.1 (kr, v3) (by rw [htl3]; simp)
              exact hk (hkk ▸ h2)
            obtain ⟨x, n, e, ex, px, lx⟩ := Tree.removeMin_ok fuel t2.right hsz d2 hrr2
            have hmin : t2.right.minEntry fuel = some e := by
              rw [Tree.minEntry_eq _ _ (lt_of_le_of_lt (Tree.depth_le_size _) hsz) rn2, lx]
              rfl
            obtain ⟨t3, t4, t5, e3, e4, e5, p5⟩ := c2 x e px
            obtain ⟨-, -, hl3, hr3, -⟩ := Tree.setEntry_handles e3
            refine ⟨t5, n, ?_, p5, ?_⟩
            · rw [hmin, Option.some_bind, e3, Option.some_bind, hr3, ex, Option.some_bind, e4,
                Option.some_bind, e5, Option.some_bind]
            · rw [Tree.balance_toList e5, Tree.setEntry_setRight_toList e3 e4, ← tl2, htl2,
                SortedK.filter_mid hs2 hkk, lx]
          · rw [if_neg hkk]
            have hlt : k2 < k := lt_of_le_of_ne (le_trans hle (not_lt.1 hk)) (Ne.symm hkk)
            have hmr : k ∈ t2.right.toList.map Prod.fst := SortedK.mem_right hs2 hm2 hlt
            obtain ⟨x, n, ex, px, lx⟩ := ih t2.right hsz d2
              (fun hh k' hk' => by
                have h1 := kc2 hh
                rw [h1] at hk'
                cases hk'
                exact hk) hs2.parts.2.1 hmr
            obtain ⟨t3, t4, t5, e3, e4, e5, p5⟩ := c2 x (k2, v2) px
            rw [hse2] at e3
            cases e3
            refine ⟨t5, n, ?_, p5, ?_⟩
            · rw [ex, Option.some_bind, e4, Option.some_bind, e5, Option.some_bind]
            · rw [Tree.balance_toList e5, Tree.setEntry_setRight_toList hse2 e4, ← tl2, htl2,
                SortedK.filter_right hs2 hmr, lx]

/-! ### Insertion on shapes -/

theorem Tree.balance_red (h : Nat) (l r : Tree K V) (cnt hgt : Nat) (k : K) (v : V)
    (hl : l.Ok) (hr : r.Ok) (hb : l.bh = r.bh) (hc : l.isRed = false ∨ r.isRed = false) :
    ∃ t', (Tree.node h l r cnt hgt true k v).balance = some t' ∧ t'.isRed = true ∧
      t'.bh = l.bh ∧ (t'.Ok ∨ t'.InsR) ∧ t' ≠ .nil := by
  cases r with
  | nil =>
    cases l with
    | nil => simp [Tree.balance]
    | node lh ll lr lc lt lred lk lv =>
      cases lred <;> simp_all [Tree.balance, Tree.InsR]
  | node rh rl rr rc rt rred rk rv =>
    cases l with
    | nil =>
      cases rred <;> simp_all [Tree.balance, Tree.InsR]
    | node lh ll lr lc lt lred lk lv =>
      cases rred <;> cases lred <;> simp_all [Tree.balance, Tree.InsR]

theorem Tree.balance_insL (h : Nat) (l r : Tree K V) (cnt hgt : Nat) (k : K) (v : V)
    (hl : l.InsR) (hr : r.Ok) (hb : l.bh = r.bh) (hc : r.isRed = false) :
    ∃ t', (Tree.node h l r cnt hgt false k v).balance = some t' ∧ t'.Ok ∧
      t'.bh = l.bh + 1 ∧ t' ≠ .nil := by
  cases l with
  | nil => exact absurd hl (by simp [Tree.InsR])
  | node lh ll lr lc lt lred lk lv =>
    cases ll with
    | nil => simp [Tree.InsR] at hl
    | node qh ql qr qc qt qred qk qv =>
      simp_all [Tree.balance, Tree.InsR]

theorem Tree.balance_ne_nil {t t' : Tree K V} (hn : t ≠ .nil) (e : t.balance = some t') :
    t' ≠ .nil := by
  rintro rfl
  have h1 := Tree.balance_handles e
  cases t with
  | nil => exact hn rfl
  | node => simp [Tree.handles] at h1

theorem insL_append [LinearOrder K] (k : K) (nv : V) (e : K × V) (R : List (K × V)) :
    ∀ L : List (K × V), (∀ a ∈ L, a.1 < e.1) →
    insL k nv (L ++ e :: R) =
      if k = e.1 then L ++ e :: R
      else if k < e.1 then insL k nv L ++ e :: R else L ++ e :: insL k nv R := by
  intro L
  induction L with
  | nil => intro _; simp [insL]
  | cons a L ih =>
    intro hL
    have ha : a.1 < e.1 := hL a (List.mem_cons_self _ _)
    have ih' := ih (fun b hb => hL b (List.mem_cons_of_mem _ hb))
    have hstep : insL k nv (a :: (L ++ e :: R)) =
        if k = a.1 then a :: (L ++ e :: R)
        else if k < a.1 then (k, nv) :: a :: (L ++ e :: R)
        else a :: insL k nv (L ++ e :: R) := rfl
    have hstep' : insL k nv (a :: L) =
        if k = a.1 then a :: L else if k < a.1 then (k, nv) :: a :: L
        else a :: insL k nv L := rfl
    rw [List.cons_append, hstep, hstep', ih']
    by_cases h3 : k = a.1
    · have h1 : ¬ k = e.1 := by rw [h3]; exact ne_of_lt ha
      have h2 : k < e.1 := by rw [h3]; exact ha
      rw [if_pos h3, if_neg h1, if_pos h2, if_pos h3]; rfl
    · by_cases h4 : k < a.1
      · have h1 : ¬ k = e.1 := ne_of_lt (lt_trans h4 ha)
        have h2 : k < e.1 := lt_trans h4 ha
        rw [if_neg h3, if_pos h4, if_neg h1, if_pos h2, if_neg h3, if_pos h4]; rfl
      · rw [if_neg h3, if_neg h4, if_neg h3, if_neg h4]
        by_cases h1 : k = e.1
        · rw [if_pos h1, if_pos h1]
        · by_cases h2 : k < e.1
          · rw [if_neg h1, if_pos h2, if_neg h1, if_pos h2]; rfl
          · rw [if_neg h1, if_neg h2, if_neg h1, if_neg h2]; rfl

theorem Tree.insert_ok [LinearOrder K] (nh : Nat) (nv : V) (k : K) :
    ∀ (fuel : Nat) (t : Tree K V), t.depth < fuel → t.Ok → SortedK t.toList →
    ∃ x, Tree.insert nh nv k fuel t = some x ∧ Tree.InsPost t x ∧
      x.toList = insL k nv t.toList := by
  intro fuel
  induction fuel with
  | zero => intro t hs; simp at hs
  | succ fuel ih =>
    intro t hs hok hbst
    cases t with
    | nil =>
      refine ⟨_, rfl, ⟨by simp, by simp [Tree.bh], fun _ => by simp, fun h => by simp at h⟩, ?_⟩
      simp [insL]
    | node h l r cnt hgt red kr v =>
      rw [Tree.insert]
      obtain ⟨hrr, hrl, hb, okl, okr⟩ := (Tree.ok_node ..).1 hok
      have hbst' : SortedK (l.toList ++ (kr, v) :: r.toList) := hbst
      obtain ⟨sl, sr, hlt, -, -⟩ := hbst'.parts
      have hdl : l.depth < fuel := by simp only [Tree.depth] at hs; omega
      have hdr : r.depth < fuel := by simp only [Tree.depth] at hs; omega
      rw [Tree.toList_node, insL_append k nv (kr, v) r.toList l.toList hlt]
      by_cases h1 : k = kr
      · rw [if_pos h1, if_pos h1]
        exact ⟨_, rfl, ⟨by simp, rfl, fun _ => hok, fun hr => ⟨hr, Or.inl hok⟩⟩, rfl⟩
      · rw [if_neg h1, if_neg h1]
        by_cases h2 : k < kr
        · rw [if_pos h2, if_pos h2]
          obtain ⟨x, ex, ⟨nx, bx, px, qx⟩, lx⟩ := ih l hdl okl sl
          rw [ex, Option.some_bind]
          cases red with
          | true =>
            have hlb := hrl rfl
            obtain ⟨t', e', r', b', o', n'⟩ := Tree.balance_red h x r cnt hgt kr v (px hlb) okr
              (by rw [bx, hb]) (Or.inr hrr)
            refine ⟨t', e', ⟨n', by rw [b', bx]; simp, fun hh => by simp at hh,
              fun _ => ⟨r', o'⟩⟩, ?_⟩
            rw [Tree.balance_toList e', Tree.toList_node, lx]
          | false =>
            have key : ∃ t', (Tree.node h x r cnt hgt false kr v).balance = some t' ∧ t'.Ok ∧
                t'.bh = x.bh + 1 := by
              by_cases hlr : l.isRed = true
              · obtain ⟨r1, o1 | o1⟩ := qx hlr
                · obtain ⟨t', e', o', b', -⟩ := Tree.balance_spec h x r cnt hgt false kr v o1 okr
                    (by rw [bx, hb]) (fun hh => by simp at hh)
                  exact ⟨t', e', o', by rw [b']; simp⟩
                · obtain ⟨t', e', o', b', -⟩ := Tree.balance_insL h x r cnt hgt kr v o1 okr
                    (by rw [bx, hb]) hrr
                  exact ⟨t', e', o', b'⟩
              · obtain ⟨t', e', o', b', -⟩ := Tree.balance_spec h x r cnt hgt false kr v
                  (px (by simpa using hlr)) okr (by rw [bx, hb]) (fun hh => by simp at hh)
                exact ⟨t', e', o', by rw [b']; simp⟩
            obtain ⟨t', e', o', b'⟩ := key
            refine ⟨t', e', ⟨Tree.balance_ne_nil (by simp) e', by rw [b', bx]; simp,
              fun _ => o', fun hh => by simp at hh⟩, ?_⟩
            rw [Tree.balance_toList e', Tree.toList_node, lx]
        · rw [if_neg h2, if_neg h2]
          obtain ⟨x, ex, ⟨nx, bx, px, qx⟩, lx⟩ := ih r hdr okr sr
          rw [ex, Option.some_bind]
          cases red with
          | true =>
            have hlb := hrl rfl
            obtain ⟨t', e', r', b', o', n'⟩ := Tree.balance_red h l x cnt hgt kr v okl (px hrr)
              (by rw [bx, hb]) (Or.inl hlb)
            refine ⟨t', e', ⟨n', by rw [b']; simp, fun hh => by simp at hh,
              fun _ => ⟨r', o'⟩⟩, ?_⟩
            rw [Tree.balance_toList e', Tree.toList_node, lx]
          | false =>
            obtain ⟨t', e', o', b', -⟩ := Tree.balance_spec h l x cnt hgt false kr v okl
              (px hrr) (by rw [bx, hb]) (fun hh => by simp at hh)
            refine ⟨t', e', ⟨Tree.balance_ne_nil (by simp) e', by rw [b']; simp,
              fun _ => o', fun hh => by simp at hh⟩, ?_⟩
            rw [Tree.balance_toList e', Tree.toList_node, lx]

/-! ### Stored counts and heights -/

theorem Tree.Cons.cnt_eq {t : Tree K V} (h : t.Cons) : t.cnt = t.size := by
  cases t with
  | nil => rfl
  | node => exact h.1

theorem Tree.Cons.ht_eq {t : Tree K V} (h : t.Cons) : t.ht = t.depth := by
  cases t with
  | nil => rfl
  | node => exact h.2.1

theorem Tree.Cons.kids {t : Tree K V} (h : t.Cons) : t.Kids := by
  cases t with
  | nil => exact ⟨h, h⟩
  | node => exact ⟨h.2.2.1, h.2.2.2⟩

theorem Tree.Cons.mk {l r : Tree K V} (hl : l.Cons) (hr : r.Cons)
    (hs : l.size + r.size + 1 < UINT32) (h : Nat) (red : Bool) (k : K) (v : V) :
    (Tree.node h l r (Tree.mkCnt l r) (Tree.mkHt l r) red k v).Cons := by
  have h1 := Tree.depth_le_size l
  have h2 := Tree.depth_le_size r
  refine ⟨?_, ?_, hl, hr⟩
  · rw [Tree.mkCnt, hl.cnt_eq, hr.cnt_eq, Tree.size, Nat.mod_eq_of_lt (by omega)]
    omega
  · rw [Tree.mkHt, hl.ht_eq, hr.ht_eq, Tree.depth]
    split
    · rw [Nat.mod_eq_of_lt (by omega)]; omega
    · rw [Nat.mod_eq_of_lt (by omega)]; omega

theorem Tree.Cons.recolor {h : Nat} {l r : Tree K V} {c g : Nat} {red : Bool} {k : K} {v : V}
    (hc : (Tree.node h l r c g red k v).Cons) (red' : Bool) (k' : K) (v' : V) :
    (Tree.node h l r c g red' k' v').Cons := hc

theorem Tree.size_of_toList {t t' : Tree K V} (h : t'.toList = t.toList) : t'.size = t.size := by
  rw [Tree.size_eq_length, Tree.size_eq_length, h]

theorem Tree.rotateLeft_cons {t t' : Tree K V} (e : t.rotateLeft = some t') (hk : t.Kids)
    (hs : t.size < UINT32) : t'.Cons := by
  match t, e with
  | .node h l (.node s sl sr scnt sht sred sk sv) cnt hgt red k v, e =>
    simp only [Tree.rotateLeft_node, Option.some.injEq, Tree.mk_eq] at e
    subst e
    obtain ⟨h1, h2⟩ := hk
    simp only [Tree.left_node, Tree.right_node] at h1 h2
    simp only [Tree.size] at hs
    have h3 := Tree.Cons.mk h1 h2.2.2.1 (by omega) h true k v
    exact Tree.Cons.mk h3 h2.2.2.2 (by simp only [Tree.size]; omega) s red sk sv

theorem Tree.rotateRight_cons {t t' : Tree K V} (e : t.rotateRight = some t') (hk : t.Kids)
    (hs : t.size < UINT32) : t'.Cons := by
  match t, e with
  | .node h (.node q ql qr qcnt qht qred qk qv) r cnt hgt red k v, e =>
    simp only [Tree.rotateRight_node, Option.some.injEq, Tree.mk_eq] at e
    subst e
    obtain ⟨h1, h2⟩ := hk
    simp only [Tree.left_node, Tree.right_node] at h1 h2
    simp only [Tree.size] at hs
    have h3 := Tree.Cons.mk h1.2.2.2 h2 (by omega) h true k v
    exact Tree.Cons.mk h1.2.2.1 h3 (by simp only [Tree.size]; omega) q red qk qv

theorem Tree.flipColors_kids {t t' : Tree K V} (e : t.flipColors = some t') (hk : t.Kids) :
    t'.Kids := by
  match t, e with
  | .node h (.node p pl pr pcnt pht pred pk pv) (.node q ql qr qcnt qht qred qk qv)
      cnt hgt red k v, e =>
    simp only [Tree.flipColors_node, Option.some.injEq] at e
    subst e
    exact ⟨hk.1.recolor _ _ _, hk.2.recolor _ _ _⟩

theorem Tree.flipColors_cons {t t' : Tree K V} (e : t.flipColors = some t') (hk : t.Cons) :
    t'.Cons := by
  match t, e with
  | .node h (.node p pl pr pcnt pht pred pk pv) (.node q ql qr qcnt qht qred qk qv)
      cnt hgt red k v, e =>
    simp only [Tree.flipColors_node, Option.some.injEq] at e
    subst e
    exact ⟨hk.1, hk.2.1, hk.2.2.1.recolor _ _ _, hk.2.2.2.recolor _ _ _⟩

theorem Tree.adjust_cons {t t' : Tree K V} (e : t.adjust = some t') (hk : t.Kids)
    (hs : t.size < UINT32) : t'.Cons := by
  cases t with
  | nil => simp [Tree.adjust] at e
  | node h l r c g red k v =>
    simp only [Tree.adjust_node, Option.some.injEq, Tree.mk_eq] at e
    subst e
    exact Tree.Cons.mk hk.1 hk.2 (by simpa [Tree.size] using hs) h red k v

theorem Tree.balance_cons {t t' : Tree K V} (e : t.balance = some t') (hk : t.Kids)
    (hs : t.size < UINT32) : t'.Cons := by
  simp only [Tree.balance, Option.bind_eq_some] at e
  obtain ⟨t1, e1, t2, e2, t3, e3, e4⟩ := e
  have k1 : t1.Kids ∧ t1.size = t.size := by
    split at e1
    · exact ⟨(Tree.rotateLeft_cons e1 hk hs).kids, Tree.size_of_toList (Tree.rotateLeft_toList e1)⟩
    · cases e1; exact ⟨hk, rfl⟩
  have k2 : t2.Kids ∧ t2.size = t.size := by
    split at e2
    · exact ⟨(Tree.rotateRight_cons e2 k1.1 (by rw [k1.2]; exact hs)).kids,
        (Tree.size_of_toList (Tree.rotateRight_toList e2)).trans k1.2⟩
    · cases e2; exact k1
  have k3 : t3.Kids ∧ t3.size = t.size := by
    split at e3
    · exact ⟨Tree.flipColors_kids e3 k2.1,
        (Tree.size_of_toList (Tree.flipColors_toList e3)).trans k2.2⟩
    · cases e3; exact k2
  exact Tree.adjust_cons e4 k3.1 (by rw [k3.2]; exact hs)

theorem Tree.setLeft_kids {t x t' : Tree K V} (e : t.setLeft x = some t') (hk : t.Kids)
    (hx : x.Cons) : t'.Kids := by
  cases t with
  | nil => simp [Tree.setLeft] at e
  | node h l r c g red k v =>
    simp only [Tree.setLeft_node, Option.some.injEq] at e
    subst e
    exact ⟨hx, hk.2⟩

theorem Tree.setRight_kids {t x t' : Tree K V} (e : t.setRight x = some t') (hk : t.Kids)
    (hx : x.Cons) : t'.Kids := by
  cases t with
  | nil => simp [Tree.setRight] at e
  | node h l r c g red k v =>
    simp only [Tree.setRight_node, Option.some.injEq] at e
    subst e
    exact ⟨hk.1, hx⟩

theorem Tree.setEntry_kids {t t' : Tree K V} {x : K × V} (e : t.setEntry x = some t')
    (hk : t.Kids) : t'.Kids := by
  obtain ⟨-, -, h1, h2, -⟩ := Tree.setEntry_handles e
  exact ⟨by rw [h1]; exact hk.1, by rw [h2]; exact hk.2⟩

theorem Tree.moveRedLeft_kids {t t' : Tree K V} (e : t.moveRedLeft = some t') (hk : t.Kids)
    (hs : t.size < UINT32) : t'.Kids := by
  simp only [Tree.moveRedLeft, Option.bind_eq_some] at e
  obtain ⟨t1, e1, e⟩ := e
  have k1 := Tree.flipColors_kids e1 hk
  have s1 : t1.size = t.size := Tree.size_of_toList (Tree.flipColors_toList e1)
  split at e
  · simp only [Option.bind_eq_some] at e
    obtain ⟨x, ex, t2, e2, t3, e3, e4⟩ := e
    have n1 := Tree.setRight_ne_nil e2
    have hx := Tree.rotateRight_cons ex k1.2.kids
      (lt_trans (Tree.size_right_lt n1) (by rw [s1]; exact hs))
    have k2 := Tree.setRight_kids e2 k1 hx
    have s2 : t2.size = t1.size := by
      obtain ⟨k, v, h1, h2, -⟩ := Tree.setRight_toList e2
      rw [Tree.size_eq_length, Tree.size_eq_length, h2, h1, ← Tree.rotateRight_toList ex]
    have k3 := Tree.rotateLeft_cons e3 k2 (by rw [s2, s1]; exact hs)
    exact (Tree.flipColors_cons e4 k3).kids
  · cases e; exact k1

theorem Tree.moveRedRight_kids {t t' : Tree K V} (e : t.moveRedRight = some t') (hk : t.Kids)
    (hs : t.size < UINT32) : t'.Kids := by
  simp only [Tree.moveRedRight, Option.bind_eq_some] at e
  obtain ⟨t1, e1, e⟩ := e
  have k1 := Tree.flipColors_kids e1 hk
  have s1 : t1.size = t.size := Tree.size_of_toList (Tree.flipColors_toList e1)
  split at e
  · simp only [Option.bind_eq_some] at e
    obtain ⟨t2, e2, e3⟩ := e
    have k2 := Tree.rotateRight_cons e2 k1 (by rw [s1]; exact hs)
    exact (Tree.flipColors_cons e3 k2).kids
  · cases e; exact k1

theorem Tree.insert_cons [LinearOrder K] (nh : Nat) (nv : V) (k : K) :
    ∀ (fuel : Nat) (t x : Tree K V), t.Cons → t.size + 1 < UINT32 →
    Tree.insert nh nv k fuel t = some x → x.Cons ∧ x.size ≤ t.size + 1 := by
  intro fuel
  induction fuel with
  | zero => intro t x _ _ e; simp [Tree.insert] at e
  | succ fuel ih =>
    intro t x hc hs e
    cases t with
    | nil =>
      simp only [Tree.insert, Option.some.injEq] at e
      subst e
      exact ⟨⟨rfl, rfl, trivial, trivial⟩, by simp [Tree.size]⟩
    | node h l r c g red kr v =>
      rw [Tree.insert] at e
      simp only [Tree.size] at hs
      by_cases h1 : k = kr
      · rw [if_pos h1] at e
        cases e
        exact ⟨hc, Nat.le_succ _⟩
      · rw [if_neg h1] at e
        by_cases h2 : k < kr
        · rw [if_pos h2] at e
          simp only [Option.bind_eq_some] at e
          obtain ⟨y, ey, e⟩ := e
          obtain ⟨cy, sy⟩ := ih l y hc.2.2.1 (by omega) ey
          have hsz : (Tree.node h y r c g red kr v).size ≤ l.size + r.size + 1 + 1 := by
            simp only [Tree.size]; omega
          refine ⟨Tree.balance_cons e ⟨cy, hc.2.2.2⟩ (by omega), ?_⟩
          rw [Tree.size_of_toList (Tree.balance_toList e)]
          simpa [Tree.size] using hsz
        · rw [if_neg h2] at e
          simp only [Option.bind_eq_some] at e
          obtain ⟨y, ey, e⟩ := e
          obtain ⟨cy, sy⟩ := ih r y hc.2.2.2 (by omega) ey
          have hsz : (Tree.node h l y c g red kr v).size ≤ l.size + r.size + 1 + 1 := by
            simp only [Tree.size]; omega
          refine ⟨Tree.balance_cons e ⟨hc.2.2.1, cy⟩ (by omega), ?_⟩
          rw [Tree.size_of_toList (Tree.balance_toList e)]
          simpa [Tree.size] using hsz

theorem Tree.size_setLeft {t x t' : Tree K V} (e : t.setLeft x = some t') :
    t'.size = x.size + 1 + t.right.size ∧ t.size = t.left.size + 1 + t.right.size := by
  cases t with
  | nil => simp [Tree.setLeft] at e
  | node h l r c g red k v =>
    simp only [Tree.setLeft_node, Option.some.injEq] at e
    subst e
    simp only [Tree.size, Tree.left_node, Tree.right_node]
    omega

theorem Tree.size_setRight {t x t' : Tree K V} (e : t.setRight x = some t') :
    t'.size = t.left.size + 1 + x.size ∧ t.size = t.left.size + 1 + t.right.size := by
  cases t with
  | nil => simp [Tree.setRight] at e
  | node h l r c g red k v =>
    simp only [Tree.setRight_node, Option.some.injEq] at e
    subst e
    simp only [Tree.size, Tree.left_node, Tree.right_node]
    omega

theorem Tree.removeMin_cons :
    ∀ (fuel : Nat) (t t' : Tree K V) (n : Nat), t.Kids → t.size < UINT32 →
    Tree.removeMin fuel t = some (t', n) → t'.Cons ∧ t'.size ≤ t.size := by
  intro fuel
  induction fuel with
  | zero => intro t t' n _ _ e; simp [Tree.removeMin] at e
  | succ fuel ih =>
    intro t t' n hc hs e
    cases t with
    | nil => simp [Tree.removeMin] at e
    | node h l r c g red kr v =>
      rw [Tree.removeMin] at e
      by_cases h1 : l.isNil = true
      · rw [if_pos h1] at e
        simp only [Option.some.injEq, Prod.mk.injEq] at e
        obtain ⟨rfl, -⟩ := e
        exact ⟨trivial, Nat.zero_le _⟩
      · rw [if_neg h1] at e
        simp only [Option.bind_eq_some] at e
        obtain ⟨t1, e1, p, ep, t2, e2, t3, e3, e⟩ := e
        simp only [Option.some.injEq, Prod.mk.injEq] at e
        obtain ⟨rfl, -⟩ := e
        have k1 : t1.Kids ∧ t1.size = (Tree.node h l r c g red kr v).size := by
          split at e1
          · exact ⟨Tree.moveRedLeft_kids e1 hc hs,
              Tree.size_of_toList (Tree.moveRedLeft_toList e1)⟩
          · cases e1; exact ⟨hc, rfl⟩
        obtain ⟨s2, s1⟩ := Tree.size_setLeft e2
        obtain ⟨cp, sp⟩ := ih t1.left p.1 p.2 k1.1.1.kids (by omega) ep
        have k2 := Tree.setLeft_kids e2 k1.1 cp
        refine ⟨Tree.balance_cons e3 k2 (by omega), ?_⟩
        rw [Tree.size_of_toList (Tree.balance_toList e3)]
        omega

theorem Tree.remove_cons [LinearOrder K] (k : K) :
    ∀ (fuel : Nat) (t t' : Tree K V) (n : Nat), t.Kids → t.size < UINT32 →
    Tree.remove k fuel t = some (t', n) → t'.Cons ∧ t'.size ≤ t.size := by
  intro fuel
  induction fuel with
  | zero => intro t t' n _ _ e; simp [Tree.remove_zero] at e
  | succ fuel ih =>
    intro t t' n hc hs e
    cases t with
    | nil => simp [Tree.remove_nil] at e
    | node h l r c g red kr v =>
      rw [Tree.remove] at e
      by_cases hk : k < kr
      · rw [if_pos hk] at e
        by_cases h1 : l.isNil = true
        · rw [if_pos h1] at e; cases e
        · rw [if_neg h1] at e
          simp only [Option.bind_eq_some] at e
          obtain ⟨t1, e1, p, ep, t2, e2, t3, e3, e⟩ := e
          simp only [Option.some.injEq, Prod.mk.injEq] at e
          obtain ⟨rfl, -⟩ := e
          have k1 : t1.Kids ∧ t1.size = (Tree.node h l r c g red kr v).size := by
            split at e1
            · exact ⟨Tree.moveRedLeft_kids e1 hc hs,
                Tree.size_of_toList (Tree.moveRedLeft_toList e1)⟩
            · cases e1; exact ⟨hc, rfl⟩
          obtain ⟨s2, s1⟩ := Tree.size_setLeft e2
          obtain ⟨cp, sp⟩ := ih t1.left p.1 p.2 k1.1.1.kids (by omega) ep
          have k2 := Tree.setLeft_kids e2 k1.1 cp
          refine ⟨Tree.balance_cons e3 k2 (by omega), ?_⟩
          rw [Tree.size_of_toList (Tree.balance_toList e3)]
          omega
      · rw [if_neg hk] at e
        simp only [Option.bind_eq_some] at e
        obtain ⟨t1, e1, k1, ek1, e⟩ := e
        have q1 : t1.Kids ∧ t1.size = (Tree.node h l r c g red kr v).size := by
          split at e1
          · exact ⟨(Tree.rotateRight_cons e1 hc hs).kids,
              Tree.size_of_toList (Tree.rotateRight_toList e1)⟩
          · cases e1; exact ⟨hc, rfl⟩
        by_cases hc1 : k = k1 ∧ t1.right.isNil = true
        · rw [if_pos hc1] at e
          simp only [Option.some.injEq, Prod.mk.injEq] at e
          obtain ⟨rfl, -⟩ := e
          exact ⟨trivial, Nat.zero_le _⟩
        · rw [if_neg hc1] at e
          by_cases hc2 : t1.right.isNil = true
          · rw [if_pos hc2] at e; cases e
          · rw [if_neg hc2] at e
            simp only [Option.bind_eq_some] at e
            obtain ⟨t2, e2, k2, ek2, e⟩ := e
            have q2 : t2.Kids ∧ t2.size = (Tree.node h l r c g red kr v).size := by
              split at e2
              · exact ⟨Tree.moveRedRight_kids e2 q1.1 (by rw [q1.2]; exact hs),
                  (Tree.size_of_toList (Tree.moveRedRight_toList e2)).trans q1.2⟩
              · cases e2; exact q1
            by_cases hc3 : k = k2
            · rw [if_pos hc3] at e
              simp only [Option.bind_eq_some] at e
              obtain ⟨x, ex, t3, e3, p, ep, t4, e4, t5, e5, e⟩ := e
              simp only [Option.some.injEq, Prod.mk.injEq] at e
              obtain ⟨rfl, -⟩ := e
              have q3 := Tree.setEntry_kids e3 q2.1
              obtain ⟨-, -, hl3, hr3, -⟩ := Tree.setEntry_handles e3
              obtain ⟨s4, s3⟩ := Tree.size_setRight e4
              have s2 := Tree.size_right_lt (Tree.key?_ne_nil ek2)
              have s2' : t2.size = t2.left.size + 1 + t2.right.size := by
                cases t2 with
                | nil => simp [Tree.key?] at ek2
                | node => simp only [Tree.size, Tree.left_node, Tree.right_node]; omega
              obtain ⟨cp, sp⟩ := Tree.removeMin_cons fuel t3.right p.1 p.2 q3.2.kids
                (by rw [hr3]; omega) ep
              have q4 := Tree.setRight_kids e4 q3 cp
              rw [hl3] at s4
              rw [hr3] at sp
              refine ⟨Tree.balance_cons e5 q4 (by omega), ?_⟩
              rw [Tree.size_of_toList (Tree.balance_toList e5)]
              omega
            · rw [if_neg hc3] at e
              simp only [Option.bind_eq_some] at e
              obtain ⟨p, ep, t4, e4, t5, e5, e⟩ := e
              simp only [Option.some.injEq, Prod.mk.injEq] at e
              obtain ⟨rfl, -⟩ := e
              obtain ⟨s4, s3⟩ := Tree.size_setRight e4
              obtain ⟨cp, sp⟩ := ih t2.right p.1 p.2 q2.1.2.kids (by omega) ep
              have q4 := Tree.setRight_kids e4 q2.1 cp
              refine ⟨Tree.balance_cons e5 q4 (by omega), ?_⟩
              rw [Tree.size_of_toList (Tree.balance_toList e5)]
              omega

/-! ### The validator accepts balanced search trees -/

theorem Tree.keyGE_false [LinearOrder K] {l : Tree K V} {k : K}
    (h : ∀ a ∈ l.toList, a.1 < k) : l.keyGE k = false := by
  cases l with
  | nil => rfl
  | node lh ll lr lc lt lred lk lv =>
    have := h (lk, lv) (by simp)
    simp only [Tree.keyGE, decide_eq_false_iff_not, not_le]
    exact this

theorem Tree.keyLE_false [LinearOrder K] {r : Tree K V} {k : K}
    (h : ∀ a ∈ r.toList, k < a.1) : r.keyLE k = false := by
  cases r with
  | nil => rfl
  | node rh rl rr rc rt rred rk rv =>
    have := h (rk, rv) (by simp)
    simp only [Tree.keyLE, decide_eq_false_iff_not, not_le]
    exact this

theorem Tree.check_ok [LinearOrder K] :
    ∀ (t : Tree K V) (ld cd : Nat), t.Ok → SortedK t.toList → cd + t.bh < NULL_INDEX →
    (ld = NULL_INDEX ∨ ld = cd + t.bh) → Tree.check t ld cd = .ok (cd + t.bh) := by
  intro t
  induction t with
  | nil =>
    intro ld cd _ _ hb hld
    simp only [Tree.bh, Nat.add_zero] at hb hld ⊢
    rcases hld with rfl | rfl
    · simp [Tree.check]
    · simp [Tree.check]
  | node h l r cnt hgt red k v ihl ihr =>
    intro ld cd hok hs hb hld
    obtain ⟨hrr, hrl, hbh, okl, okr⟩ := (Tree.ok_node ..).1 hok
    have hs' : SortedK (l.toList ++ (k, v) :: r.toList) := hs
    obtain ⟨sl, sr, hlt, hgt', -⟩ := hs'.parts
    simp only [Tree.bh_node] at hb hld ⊢
    have c1 : ((red && l.isRed) || r.isRed) = false := by
      rw [hrr]
      cases red with
      | true => simp [hrl rfl]
      | false => simp
    have hcd : (cd + (if red = true then 0 else 1)) % UINT32 =
        cd + (if red = true then 0 else 1) := by
      apply Nat.mod_eq_of_lt
      have : NULL_INDEX < UINT32 := by decide
      split <;> omega
    have e1 : cd + (if red = true then 0 else 1) + l.bh = cd + (l.bh + if red = true then 0 else 1) := by
      omega
    have e2 : cd + (if red = true then 0 else 1) + r.bh = cd + (l.bh + if red = true then 0 else 1) := by
      omega
    have i1 := ihl ld (cd + (if red = true then 0 else 1)) okl sl (by omega)
      (by rcases hld with h1 | h1
          · exact Or.inl h1
          · exact Or.inr (by omega))
    have i2 := ihr (cd + (l.bh + if red = true then 0 else 1))
      (cd + (if red = true then 0 else 1)) okr sr (by omega) (Or.inr (by omega))
    rw [e1] at i1
    rw [e2] at i2
    simp only [Tree.check, c1, Tree.keyGE_false hlt, Tree.keyLE_false hgt', hcd]
    simp only [Bool.false_eq_true, if_false]
    rw [i1]
    exact i2

/-! ### Height bound -/

theorem Tree.Ok.depth_le {t : Tree K V} (h : t.Ok) :
    t.depth ≤ 2 * t.bh + (if t.isRed = true then 1 else 0) := by
  induction t with
  | nil => simp [Tree.depth, Tree.bh]
  | node hh l r cnt hgt red k v ihl ihr =>
    obtain ⟨hrr, hrl, hbh, okl, okr⟩ := (Tree.ok_node ..).1 h
    have h1 := ihl okl
    have h2 := ihr okr
    rw [hrr] at h2
    simp only [Tree.depth, Tree.bh_node, Tree.isRed_node]
    cases red with
    | true =>
      rw [hrl rfl] at h1
      simp at h1 h2 ⊢
      omega
    | false =>
      simp at h2 ⊢
      split at h1 <;> omega

theorem Tree.Ok.size_ge {t : Tree K V} (h : t.Ok) : 2 ^ t.bh ≤ t.size + 1 := by
  induction t with
  | nil => simp [Tree.bh, Tree.size]
  | node hh l r cnt hgt red k v ihl ihr =>
    obtain ⟨hrr, hrl, hbh, okl, okr⟩ := (Tree.ok_node ..).1 h
    have h1 := ihl okl
    have h2 := ihr okr
    rw [← hbh] at h2
    simp only [Tree.size, Tree.bh_node]
    cases red with
    | true => simp; omega
    | false => simp [pow_succ]; omega

theorem ceilLog2Loop_ge (n : Nat) : ∀ (f e : Nat), n ≤ 2 ^ (e + f) →
    n ≤ 2 ^ RBT.ceilLog2Loop n f e := by
  intro f
  induction f with
  | zero => intro e h; simpa [RBT.ceilLog2Loop] using h
  | succ f ih =>
    intro e h
    simp only [RBT.ceilLog2Loop]
    split
    · assumption
    · exact ih (e + 1) (by rw [Nat.add_assoc, Nat.add_comm 1 f]; exact h)

theorem ceilLog2_ge {n : Nat} (h : n ≤ UINT32) : n ≤ 2 ^ RBT.ceilLog2 n :=
  ceilLog2Loop_ge n 32 0 (by simpa [UINT32] using h)

theorem Tree.Ok.height_bound {t : Tree K V} (h : t.Ok) (hb : t.isRed = false)
    (hs : t.size + 1 ≤ UINT32) : t.depth ≤ 2 * RBT.ceilLog2 (t.size + 1) := by
  have h1 := h.depth_le
  rw [hb] at h1
  simp only [Bool.false_eq_true, if_false, Nat.add_zero] at h1
  have h2 := h.size_ge
  have h3 := ceilLog2_ge hs
  have h4 : t.bh ≤ RBT.ceilLog2 (t.size + 1) := by
    by_contra hc
    have h5 : RBT.ceilLog2 (t.size + 1) + 1 ≤ t.bh := by omega
    have h6 : 2 ^ (RBT.ceilLog2 (t.size + 1) + 1) ≤ 2 ^ t.bh :=
      Nat.pow_le_pow_right (by decide) h5
    rw [pow_succ] at h6
    have h7 : 0 < 2 ^ RBT.ceilLog2 (t.size + 1) := Nat.pow_pos (by decide)
    omega
  omega

theorem Tree.bh_le_depth (t : Tree K V) : t.bh ≤ t.depth := by
  induction t with
  | nil => simp [Tree.bh]
  | node hh l r cnt hgt red k v ihl ihr =>
    simp only [Tree.depth, Tree.bh_node]
    split <;> omega

/-! ### The search descent on a search tree -/

theorem Tree.search_none [LinearOrder K] (k : K) :
    ∀ t : Tree K V, SortedK t.toList → k ∉ t.toList.map Prod.fst → Tree.search k t = none := by
  intro t
  induction t with
  | nil => intro _ _; rfl
  | node h l r cnt hgt red kr v ihl ihr =>
    intro hs hk
    have hs' : SortedK (l.toList ++ (kr, v) :: r.toList) := hs
    obtain ⟨sl, sr, -, -, -⟩ := hs'.parts
    simp only [Tree.toList_node, List.map_append, List.map_cons, List.mem_append,
      List.mem_cons, not_or] at hk
    simp only [Tree.search, if_neg hk.2.1]
    split
    · exact ihl sl hk.1
    · exact ihr sr hk.2.2

theorem Tree.search_some [LinearOrder K] {a : Arena K V} (k : K) (x : V) :
    ∀ t : Tree K V, Heap a t → SortedK t.toList → (k, x) ∈ t.toList →
    ∃ h, Tree.search k t = some h ∧ h ∈ t.handles ∧ a.keys h = k ∧ a.values h = x := by
  intro t
  induction t with
  | nil => intro _ _ hm; simp at hm
  | node h l r cnt hgt red kr v ihl ihr =>
    intro hH hs hm
    have hs' : SortedK (l.toList ++ (kr, v) :: r.toList) := hs
    obtain ⟨sl, sr, hlt, hgt', -⟩ := hs'.parts
    obtain ⟨h1, h2, h3, h4, h5, h6, h7, h8, h9, h10⟩ := hH
    simp only [Tree.toList_node, List.mem_append, List.mem_cons] at hm
    simp only [Tree.search, Tree.handles, List.mem_append, List.mem_cons]
    rcases hm with hm | hm | hm
    · have hlt1 : k < kr := hlt _ hm
      rw [if_neg (ne_of_lt hlt1), if_pos hlt1]
      obtain ⟨i, e, m, q⟩ := ihl h9 sl hm
      exact ⟨i, e, Or.inl m, q⟩
    · simp only [Prod.mk.injEq] at hm
      obtain ⟨rfl, rfl⟩ := hm
      exact ⟨h, by simp, Or.inr (Or.inl rfl), h7, h8⟩
    · have hgt1 : kr < k := hgt' _ hm
      rw [if_neg (ne_of_gt hgt1), if_neg (not_lt.2 (le_of_lt hgt1))]
      obtain ⟨i, e, m, q⟩ := ihr h10 sr hm
      exact ⟨i, e, Or.inr (Or.inr m), q⟩

theorem Tree.handles_length (t : Tree K V) : t.handles.length = t.size := by
  induction t with
  | nil => rfl
  | node h l r cnt hgt red k v ihl ihr => simp [Tree.handles, Tree.size, ihl, ihr]; omega

theorem nodup_length_le {xs : List Nat} {n : Nat} (hn : xs.Nodup) (hb : ∀ i ∈ xs, i < n) :
    xs.length ≤ n := by
  have h1 : xs.toFinset ⊆ Finset.range n := by
    intro i hi
    simp only [List.mem_toFinset] at hi
    simpa using hb i hi
  have h2 := Finset.card_le_card h1
  rw [List.toFinset_card_of_nodup hn, Finset.card_range] at h2
  exact h2

/-! ### Shapes that differ in values only -/

theorem Tree.Skel.self : ∀ t : Tree K V, Tree.Skel t t := by
  intro t
  induction t with
  | nil => trivial
  | node h l r c g red k v ihl ihr => exact ⟨rfl, rfl, rfl, rfl, rfl, ihl, ihr⟩

theorem Tree.Skel.facts : ∀ {t t' : Tree K V}, Tree.Skel t t' →
    t'.root = t.root ∧ t'.isRed = t.isRed ∧ t'.bh = t.bh ∧ t'.size = t.size ∧
    t'.depth = t.depth ∧ t'.handles = t.handles ∧ t'.keys = t.keys ∧ (t.Ok → t'.Ok) ∧
    (t.Cons → t'.Cons) := by
  intro t
  induction t with
  | nil =>
    intro t' h
    cases t' with
    | nil => exact ⟨rfl, rfl, rfl, rfl, rfl, rfl, rfl, id, id⟩
    | node => exact absurd h (by simp [Tree.Skel])
  | node h l r c g red k v ihl ihr =>
    intro t' hs
    cases t' with
    | nil => exact absurd hs (by simp [Tree.Skel])
    | node h' l' r' c' g' red' k' v' =>
      obtain ⟨rfl, rfl, rfl, rfl, rfl, sl, sr⟩ := hs
      obtain ⟨l1, l2, l3, l4, l5, l6, l7, l8, l9⟩ := ihl sl
      obtain ⟨r1, r2, r3, r4, r5, r6, r7, r8, r9⟩ := ihr sr
      simp only [Tree.keys] at l7 r7
      refine ⟨rfl, rfl, by simp [l3], by simp [Tree.size, l4, r4], by simp [Tree.depth, l5, r5],
        by simp [Tree.handles, l6, r6], by simp [Tree.keys, l7, r7], ?_, ?_⟩
      · intro ho
        obtain ⟨o1, o2, o3, o4, o5⟩ := (Tree.ok_node ..).1 ho
        exact (Tree.ok_node ..).2 ⟨by rw [r2]; exact o1, fun hh => by rw [l2]; exact o2 hh,
          by rw [l3, r3]; exact o3, l8 o4, r8 o5⟩
      · intro hc
        obtain ⟨c1, c2, c3, c4⟩ := hc
        refine ⟨?_, ?_, l9 c3, r9 c4⟩
        · rw [c1]; simp [Tree.size, l4, r4]
        · rw [c2]; simp [Tree.depth, l5, r5]

theorem Tree.Skel.sortedK [LinearOrder K] {t t' : Tree K V} (h : Tree.Skel t t')
    (hs : SortedK t.toList) : SortedK t'.toList := by
  have h1 := h.facts.2.2.2.2.2.2.1
  rw [← Tree.bst_iff] at hs ⊢
  simp only [Tree.Bst] at hs ⊢
  rw [h1]
  exact hs

theorem Tree.put_skel [LinearOrder K] (k : K) (x : V) :
    ∀ t : Tree K V, Tree.Skel t (Tree.put k x t) := by
  intro t
  induction t with
  | nil => trivial
  | node h l r c g red kr v ihl ihr =>
    simp only [Tree.put]
    split
    · exact ⟨rfl, rfl, rfl, rfl, rfl, Tree.Skel.self l, Tree.Skel.self r⟩
    · split
      · exact ⟨rfl, rfl, rfl, rfl, rfl, ihl, Tree.Skel.self r⟩
      · exact ⟨rfl, rfl, rfl, rfl, rfl, Tree.Skel.self l, ihr⟩

theorem Tree.mapT_skel {σ : Type} (fp : σ → K → V → σ × V) :
    ∀ (t : Tree K V) (s : σ), Tree.Skel t (Tree.mapT fp t s).1 := by
  intro t
  induction t with
  | nil => intro s; trivial
  | node h l r c g red k v ihl ihr =>
    intro s
    simp only [Tree.mapT]
    exact ⟨rfl, rfl, rfl, rfl, rfl, ihl s, ihr _⟩

theorem setL_of_ne [DecidableEq K] {k : K} {x : V} {es : List (K × V)}
    (h : ∀ e ∈ es, e.1 ≠ k) : setL k x es = es := by
  simp only [setL]
  conv_rhs => rw [← List.map_id es]
  apply List.map_congr_left
  intro e he
  simp [h e he]

theorem Tree.put_toList [LinearOrder K] (k : K) (x : V) :
    ∀ t : Tree K V, SortedK t.toList → (Tree.put k x t).toList = setL k x t.toList := by
  intro t
  induction t with
  | nil => intro _; rfl
  | node h l r c g red kr v ihl ihr =>
    intro hs
    have hs' : SortedK (l.toList ++ (kr, v) :: r.toList) := hs
    obtain ⟨sl, sr, hlt, hgt, -⟩ := hs'.parts
    have hmid : setL k x (l.toList ++ (kr, v) :: r.toList) =
        setL k x l.toList ++ (if kr = k then (kr, x) else (kr, v)) :: setL k x r.toList := by
      simp [setL]
    rw [Tree.toList_node, hmid]
    simp only [Tree.put]
    by_cases h1 : k = kr
    · subst h1
      rw [if_pos rfl, if_pos rfl, Tree.toList_node,
        setL_of_ne (fun e he => ne_of_lt (hlt e he)),
        setL_of_ne (fun e he => ne_of_gt (hgt e he))]
    · rw [if_neg h1, if_neg (Ne.symm h1)]
      by_cases h2 : k < kr
      · rw [if_pos h2, Tree.toList_node, ihl sl,
          setL_of_ne (fun e he => ne_of_gt (lt_trans h2 (hgt e he)))]
      · have h3 : kr < k := lt_of_le_of_ne (not_lt.1 h2) (Ne.symm h1)
        rw [if_neg h2, Tree.toList_node, ihr sr,
          setL_of_ne (fun e he => ne_of_lt (lt_trans (hlt e he) h3))]

theorem Tree.search_mem [LinearOrder K] (k : K) :
    ∀ (t : Tree K V) (h : Nat), Tree.search k t = some h → h ∈ t.handles := by
  intro t
  induction t with
  | nil => intro h e; simp [Tree.search] at e
  | node hh l r c g red kr v ihl ihr =>
    intro h e
    simp only [Tree.search] at e
    simp only [Tree.handles, List.mem_append, List.mem_cons]
    split at e
    · simp only [Option.some.injEq] at e; exact Or.inr (Or.inl e.symm)
    · split at e
      · exact Or.inl (ihl h e)
      · exact Or.inr (Or.inr (ihr h e))

theorem Tree.put_heap [LinearOrder K] (k : K) (x : V) :
    ∀ (t : Tree K V) (a : Arena K V) (h : Nat), Heap a t → t.handles.Nodup →
    Tree.search k t = some h →
    Heap { a with values := upd a.values h x } (Tree.put k x t) := by
  intro t
  induction t with
  | nil => intro a h _ _ e; simp [Tree.search] at e
  | node hh l r c g red kr v ihl ihr =>
    intro a h hH hN e
    have hN' := hN
    simp only [Tree.handles] at hN'
    rw [List.nodup_append] at hN'
    obtain ⟨nl, nr, dj⟩ := hN'
    rw [List.nodup_cons] at nr
    obtain ⟨h1, h2, h3, h4, h5, h6, h7, h8, h9, h10⟩ := hH
    have F : ∀ (S : Tree K V), Heap a S → h ∉ S.handles →
        Heap { a with values := upd a.values h x } S := by
      intro S hS hn
      refine hS.agree (le_refl _) (fun i hi => ?_)
      have : i ≠ h := by rintro rfl; exact hn hi
      simp [Agree, upd, this]
    simp only [Tree.search] at e
    simp only [Tree.put]
    by_cases c1 : k = kr
    · rw [if_pos c1] at e ⊢
      simp only [Option.some.injEq] at e
      subst e
      exact ⟨h1, h2, h3, h4, h5, h6, h7, by simp [upd],
        F l h9 (fun hm => dj hm (List.mem_cons_self _ _)), F r h10 nr.1⟩
    · rw [if_neg c1] at e ⊢
      by_cases c2 : k < kr
      · rw [if_pos c2] at e ⊢
        have hm := Tree.search_mem k l h e
        have hne : hh ≠ h := by rintro rfl; exact dj hm (List.mem_cons_self _ _)
        have hnr : h ∉ r.handles := fun hr => dj hm (List.mem_cons_of_mem _ hr)
        refine ⟨h1, ?_, h3, h4, h5, h6, h7, by simp [upd, hne]; exact h8, ihl a h h9 nl e,
          F r h10 hnr⟩
        rw [(Tree.put_skel k x l).facts.1]; exact h2
      · rw [if_neg c2] at e ⊢
        have hm := Tree.search_mem k r h e
        have hne : hh ≠ h := by rintro rfl; exact nr.1 hm
        have hnl : h ∉ l.handles := fun hl => dj hl (List.mem_cons_of_mem _ hm)
        refine ⟨h1, h2, ?_, h4, h5, h6, h7, by simp [upd, hne]; exact h8, F l h9 hnl,
          ihr a h h10 nr.2 e⟩
        rw [(Tree.put_skel k x r).facts.1]; exact h3

theorem mapL_append {σ : Type} (fp : σ → K → V → σ × V) :
    ∀ (xs ys : List (K × V)) (s : σ),
    mapL fp (xs ++ ys) s =
      ((mapL fp xs s).1 ++ (mapL fp ys (mapL fp xs s).2).1, (mapL fp ys (mapL fp xs s).2).2) := by
  intro xs
  induction xs with
  | nil => intro ys s; simp [mapL]
  | cons e xs ih => intro ys s; simp [mapL, ih]

theorem Tree.mapT_toList {σ : Type} (fp : σ → K → V → σ × V) :
    ∀ (t : Tree K V) (s : σ), ((Tree.mapT fp t s).1.toList, (Tree.mapT fp t s).2) =
      mapL fp t.toList s := by
  intro t
  induction t with
  | nil => intro s; rfl
  | node h l r c g red k v ihl ihr =>
    intro s
    have h1 := ihl s
    have h2 := ihr (fp (Tree.mapT fp l s).2 k v).1
    simp only [Prod.ext_iff] at h1 h2
    simp only [Tree.mapT, Tree.toList_node, mapL_append, mapL, Prod.mk.injEq]
    rw [← h1.1, ← h1.2, ← h2.1, ← h2.2]
    exact ⟨rfl, rfl⟩

theorem Arena.ext' {a b : Arena K V} (h1 : a.left = b.left) (h2 : a.right = b.right)
    (h3 : a.counts = b.counts) (h4 : a.heights = b.heights) (h5 : a.colors = b.colors)
    (h6 : a.keys = b.keys) (h7 : a.values = b.values) (h8 : a.nTrees = b.nTrees)
    (h9 : a.freeListHead = b.freeListHead) (h10 : a.capacity = b.capacity) : a = b := by
  cases a; cases b; simp_all

/-! ## The representation invariant of one tree -/

section InvFacts
variable [LinearOrder K] {t : RBT K V} {tr : Tree K V} {fl : List Nat}

theorem Inv.nodup_tr (h : Inv t tr fl) : tr.handles.Nodup := (List.nodup_append.1 h.nodup).1

theorem Inv.nodup_fl (h : Inv t tr fl) : fl.Nodup := (List.nodup_append.1 h.nodup).2.1

theorem Inv.disjoint (h : Inv t tr fl) : ∀ i ∈ tr.handles, i ∉ fl :=
  fun _ hi hf => (List.nodup_append.1 h.nodup).2.2 hi hf

theorem Inv.size_le (h : Inv t tr fl) : tr.size ≤ t.arena.capacity := by
  rw [← Tree.handles_length]
  exact nodup_length_le h.nodup_tr h.heap.mem_lt

theorem Inv.depth_lt (h : Inv t tr fl) : tr.depth < t.fuel := by
  have h1 := h.size_le
  have h2 := Tree.depth_le_size tr
  simp only [RBT.fuel]
  omega

theorem Inv.size_lt (h : Inv t tr fl) : tr.size < UINT32 := by
  have h1 := h.size_le
  have h2 := h.cap_le
  simp only [NULL_INDEX] at h2
  simp only [UINT32]
  omega

theorem Inv.bh_lt (h : Inv t tr fl) : tr.bh < NULL_INDEX := by
  have h1 := h.ok.size_ge
  have h2 := h.size_lt
  by_contra hc
  have h3 : 2 ^ 33 ≤ 2 ^ tr.bh := Nat.pow_le_pow_right (by decide) (by
    simp only [NULL_INDEX] at hc
    omega)
  simp only [UINT32] at h2
  have h4 : (2 : Nat) ^ 33 = 8589934592 := by norm_num
  omega

theorem Inv.search_eq (h : Inv t tr fl) (k : K) :
    t.search k = (match Tree.search k tr with
      | some i => .ok i
      | none => .error .notFound) := by
  simp only [RBT.search, h.root]
  exact searchLoop_heap k h.cap_le tr t.fuel h.heap h.depth_lt

theorem Inv.search_absent (h : Inv t tr fl) {k : K} (hk : k ∉ tr.toList.map Prod.fst) :
    t.search k = .error .notFound := by
  rw [h.search_eq, Tree.search_none k tr h.bst hk]

theorem Inv.search_present (h : Inv t tr fl) {k : K} {x : V} (hk : (k, x) ∈ tr.toList) :
    ∃ i, t.search k = .ok i ∧ Tree.search k tr = some i ∧ i ∈ tr.handles ∧
      t.arena.keys i = k ∧ t.arena.values i = x := by
  obtain ⟨i, e, m, q1, q2⟩ := Tree.search_some k x tr h.heap h.bst hk
  exact ⟨i, by rw [h.search_eq, e], e, m, q1, q2⟩

theorem Inv.size_eq (h : Inv t tr fl) : t.size = .ok tr.toList.length := by
  simp only [RBT.size, h.root]
  rw [getCount_root h.heap h.cap_le, h.cons.cnt_eq, Tree.size_eq_length]

theorem Inv.height_eq (h : Inv t tr fl) : t.height = .ok tr.depth := by
  simp only [RBT.height, h.root]
  rw [getHeight_root h.heap h.cap_le, h.cons.ht_eq]

theorem Inv.isEmpty_eq (h : Inv t tr fl) : t.isEmpty = tr.isNil := by
  simp only [RBT.isEmpty, h.root]
  cases hn : tr.isNil
  · have := (Heap.root_null_iff h.heap h.cap_le).not.2 (Tree.isNil_false_iff.1 hn)
    simpa using this
  · have := (Heap.root_null_iff h.heap h.cap_le).2 (Tree.isNil_iff.1 hn)
    simpa using this

theorem Inv.prvIsValid_ok (h : Inv t tr fl) :
    Arena.prvIsValid t.fuel t.arena t.root NULL_INDEX 0 = .ok (0 + tr.bh) := by
  have h1 := h.bh_lt
  rw [h.root, prvIsValid_heap h.cap_le tr t.fuel NULL_INDEX 0 h.heap h.depth_lt]
  exact Tree.check_ok tr NULL_INDEX 0 h.ok h.bst (by omega) (Or.inl rfl)

theorem Inv.count_root (h : Inv t tr fl) : t.arena.GET_COUNT t.root = .ok tr.size := by
  rw [h.root, getCount_root h.heap h.cap_le, h.cons.cnt_eq]

/-- The validator accepts the tree as long as `GET_COUNT(root)+1` does not wrap. -/
theorem Inv.valid (h : Inv t tr fl) (hs : tr.size + 1 < UINT32) :
    t.isValidRBTree = .ok () := by
  simp only [RBT.isValidRBTree]
  split
  · rfl
  · have e2 : t.arena.GET_HEIGHT t.root = .ok tr.depth := h.height_eq
    rw [bind_ok h.prvIsValid_ok, bind_ok e2, bind_ok h.count_root]
    have e4 : (tr.size + 1) % UINT32 = tr.size + 1 := Nat.mod_eq_of_lt hs
    have e5 := h.ok.height_bound h.black (by omega)
    simp only [e4]
    rw [if_neg]
    · rfl
    · intro hc
      rcases hc with hc | hc
      · omega
      · omega

/-- With `2^32-1` nodes the sum `GET_COUNT(root)+1` wraps to zero and the validator throws. -/
theorem Inv.too_tall (h : Inv t tr fl) (hs : tr.size + 1 = UINT32) :
    t.isValidRBTree = .error (.invariant .tooTall) := by
  have hne : t.root ≠ NULL_INDEX := by
    rw [h.root]
    intro hc
    have := (Heap.root_null_iff h.heap h.cap_le).1 hc
    rw [this] at hs
    simp [Tree.size, UINT32] at hs
  have e2 : t.arena.GET_HEIGHT t.root = .ok tr.depth := h.height_eq
  simp only [RBT.isValidRBTree, if_neg hne]
  rw [bind_ok h.prvIsValid_ok, bind_ok e2, bind_ok h.count_root]
  have e4 : (tr.size + 1) % UINT32 = 0 := by rw [hs]; exact Nat.mod_self _
  simp only [e4, true_or, if_true]

end InvFacts

/-- The constructor run while no tree exists, with a positive `uint32_t` argument, returns an
empty tree on an arena whose free list runs through all the slots; it writes no key and no
value. -/
theorem construct_inv [Inhabited K] [Inhabited V] [LinearOrder K] {a : Arena K V} {cap : Nat}
    (hn : a.nTrees = 0) (h0 : 0 < cap) (h1 : cap ≤ NULL_INDEX) :
    ∃ t : RBT K V, construct a cap = .ok t ∧ Inv t .nil (List.range' 0 cap) ∧
      t.arena.values = a.values ∧ t.arena.capacity = cap ∧ t.arena.nTrees = 1 ∧
      t.root = NULL_INDEX := by
  refine ⟨_, by simp [construct, hn, Nat.pos_iff_ne_zero.1 h0]; rfl, ?_, rfl, rfl, rfl, rfl⟩
  refine ⟨trivial, rfl, ?_, ?_, h0, h1, trivial, rfl, List.Pairwise.nil, trivial⟩
  · have := freeList_range' (K := K) (V := V)
      (a := { a with
            left := fun i => if i + 1 < cap then i + 1 else NULL_INDEX
            capacity := cap
            freeListHead := 0
            nTrees := 1 }) 0 (fun i _ _ => rfl) cap 0 (le_refl _) (by simp)
    rw [if_neg (Nat.pos_iff_ne_zero.1 h0)] at this
    exact this
  · simpa [Tree.handles] using List.nodup_range' 0 cap

theorem construct_pos [Inhabited K] [Inhabited V] {a : Arena K V} {cap : Nat} {t : RBT K V}
    (hn : a.nTrees = 0) (he : construct a cap = .ok t) : 0 < cap := by
  rcases Nat.eq_zero_or_pos cap with rfl | h0
  · simp [construct, hn] at he
  · exact h0

theorem empty_inv [Inhabited K] [Inhabited V] [LinearOrder K] {cap : Nat} (h0 : 0 < cap)
    (h1 : cap ≤ NULL_INDEX) :
    ∃ t : RBT K V, empty cap = .ok t ∧ Inv t .nil (List.range' 0 cap) ∧
      t.arena.values = (fun _ => default) ∧ t.arena.capacity = cap := by
  obtain ⟨t, e, I, hv, hc, -, -⟩ := construct_inv (K := K) (V := V) (a := Arena.static0) rfl h0 h1
  exact ⟨t, e, I, hv, hc⟩

section Ops
variable [LinearOrder K] {t : RBT K V} {tr : Tree K V} {fl : List Nat}

theorem Inv.write (h : Inv t tr fl) {k : K} {i : Nat} (x : V) (hs : t.search k = .ok i) :
    ∃ t', t.write i x = .ok t' ∧ Inv t' (Tree.put k x tr) fl ∧ t'.arena.values i = x ∧
      t'.root = t.root := by
  have e : Tree.search k tr = some i := by
    rw [h.search_eq] at hs
    cases hh : Tree.search k tr with
    | none => rw [hh] at hs; cases hs
    | some j => rw [hh] at hs; cases hs; rfl
  have hm := Tree.search_mem k tr i e
  have hlt := h.heap.mem_lt i hm
  obtain ⟨f1, f2, f3, f4, f5, f6, f7, f8, f9⟩ := (Tree.put_skel k x tr).facts
  refine ⟨{ t with arena := { t.arena with values := upd t.arena.values i x } }, ?_, ?_, ?_, rfl⟩
  · simp [RBT.write, Arena.setValue, hlt, bind, Except.bind, pure, Except.pure]
  · refine ⟨Tree.put_heap k x tr t.arena i h.heap h.nodup_tr e, by rw [f1]; exact h.root, ?_,
      by rw [f6]; exact h.nodup, h.cap_pos, h.cap_le, f8 h.ok, by rw [f2]; exact h.black,
      (Tree.put_skel k x tr).sortedK h.bst, f9 h.cons⟩
    exact FreeList.of_left_eq fl _ h.free (le_refl _) (fun _ _ => rfl)
  · simp [upd]

theorem Inv.clear (h : Inv t tr fl) :
    ∃ t', t.clear = .ok t' ∧ Inv t' .nil (tr.freed ++ fl) ∧ t'.arena.values = t.arena.values := by
  obtain ⟨a', E, F, C, -⟩ := prvClear_heap tr t.fuel t.arena fl h.heap h.nodup h.free h.cap_le
    h.depth_lt
  rw [← h.root] at E
  refine ⟨{ arena := a', root := NULL_INDEX }, ?_, ?_, C.values⟩
  · simp only [RBT.clear, bind_ok E]; rfl
  · refine ⟨trivial, rfl, F, ?_, by rw [C.capacity]; exact h.cap_pos,
      by rw [C.capacity]; exact h.cap_le, trivial, rfl, List.Pairwise.nil, trivial⟩
    simp only [Tree.handles, List.nil_append]
    exact ((tr.freed_perm.append_right fl).nodup_iff).2 h.nodup

theorem Inv.map (h : Inv t tr fl) {σ : Type} (fp : σ → K → V → σ × V) (s : σ) :
    ∃ t', t.map fp s = .ok (t', (mapL fp tr.toList s).2) ∧
      Inv t' (Tree.mapT fp tr s).1 fl ∧
      (Tree.mapT fp tr s).1.toList = (mapL fp tr.toList s).1 := by
  obtain ⟨a', E, H, F, -⟩ := prvMap_heap fp tr t.fuel t.arena s h.heap h.nodup_tr h.cap_le
    h.depth_lt
  rw [← h.root] at E
  have hl := Tree.mapT_toList fp tr s
  simp only [Prod.ext_iff] at hl
  obtain ⟨f1, f2, f3, f4, f5, f6, f7, f8, f9⟩ := (Tree.mapT_skel fp tr s).facts
  refine ⟨{ t with arena := a' }, ?_, ?_, hl.1⟩
  · simp only [RBT.map, bind_ok E, ← hl.2]; rfl
  · refine ⟨H, by rw [f1]; exact h.root, ?_, by rw [f6]; exact h.nodup,
      by rw [F.capacity]; exact h.cap_pos, by rw [F.capacity]; exact h.cap_le, f8 h.ok,
      by rw [f2]; exact h.black, (Tree.mapT_skel fp tr s).sortedK h.bst, f9 h.cons⟩
    rw [F.freeListHead]
    exact h.free.preserved F (fun i hi hm => h.disjoint i hm hi)

end Ops

theorem rootIsTwoNode_heap {a : Arena K V} {t : Tree K V} (hH : Heap a t) (hn : t ≠ .nil)
    (hc : a.capacity ≤ NULL_INDEX) :
    RBT.rootIsTwoNode a t.root = .ok (!t.left.isRed && !t.right.isRed) := by
  simp only [RBT.rootIsTwoNode, bind_ok (hH.read_left hn), bind_ok (isRed_root hH.left hc)]
  cases t.left.isRed
  · simp only [Bool.false_eq_true, if_false, bind_ok (hH.read_right hn),
      bind_ok (isRed_root hH.right hc)]
    rfl
  · rfl

theorem colorCode_true : colorCode true = NODE_RED := rfl

theorem colorCode_false : colorCode false = NODE_BLACK := rfl

theorem SortedK.filter [LinearOrder K] {es : List (K × V)} (h : SortedK es)
    (p : K × V → Bool) : SortedK (es.filter p) :=
  List.Pairwise.sublist (List.filter_sublist es) h

theorem Inv.remove [LinearOrder K] {t : RBT K V} {tr : Tree K V} {fl : List Nat}
    (h : Inv t tr fl) {k : K} (hk : k ∈ tr.toList.map Prod.fst) :
    ∃ t' tr' n, t.remove k = .ok t' ∧ Inv t' tr' (n :: fl) ∧
      tr'.toList = tr.toList.filter (fun e => decide (e.1 ≠ k)) := by
  obtain ⟨⟨k', x⟩, hx', hkx⟩ := List.mem_map.1 hk
  simp only at hkx
  have hx : (k, x) ∈ tr.toList := hkx ▸ hx'
  obtain ⟨i, es, -, -, -, -⟩ := h.search_present hx
  have hH := h.heap
  have hroot := h.root
  have hblack := h.black
  have hok := h.ok
  have hN := h.nodup_tr
  have hsz := h.size_le
  have hcons := h.cons
  have hbst := h.bst
  have hdis := h.disjoint
  cases tr with
  | nil => simp at hx
  | node hh l r c g red kr v =>
    simp only [Tree.isRed_node] at hblack
    subst hblack
    obtain ⟨hrr, -, hb, okl, okr⟩ := (Tree.ok_node ..).1 hok
    simp only [Tree.root_node] at hroot
    have hnl : hh ∉ l.handles := Tree.root_not_mem_left hN
    have hnr : hh ∉ r.handles := Tree.root_not_mem_right hN
    -- colour the root red when both children are black
    have Ec := rootIsTwoNode_heap hH (by simp) h.cap_le
    simp only [Tree.root_node, Tree.left_node, Tree.right_node, hrr, Bool.not_false,
      Bool.and_true] at Ec
    obtain ⟨a1, E1, H1, F1⟩ : ∃ a1, (if (!l.isRed) = true then
        t.arena.setColor hh NODE_RED else pure t.arena) = .ok a1 ∧
        Heap a1 (.node hh l r c g (!l.isRed) kr v) ∧ Frame [hh] t.arena a1 := by
      cases hl : l.isRed
      · obtain ⟨a1, e, H, F⟩ := setColor_heap hH hnl hnr true
        exact ⟨a1, by simpa [colorCode_true] using e, H, F⟩
      · exact ⟨t.arena, by simp; rfl, hH, Frame.refl _ _⟩
    have hc1 : a1.capacity ≤ NULL_INDEX := by rw [F1.capacity]; exact h.cap_le
    have hd : (Tree.node hh l r c g (!l.isRed) kr v).Del := by
      refine ⟨okl, okr, hb, ?_⟩
      cases hl : l.isRed
      · exact Or.inl ⟨rfl, rfl, hrr⟩
      · exact Or.inr (Or.inl ⟨rfl, rfl, hrr⟩)
    obtain ⟨t2, n, e2, ⟨ok2, -, -⟩, l2⟩ := Tree.remove_ok k t.fuel
      (.node hh l r c g (!l.isRed) kr v)
      (by simp only [RBT.fuel]; exact Nat.lt_succ_of_le hsz) hd
      (fun hr => by simp only [Tree.right_node] at hr; rw [hrr] at hr; cases hr) hbst hk
    obtain ⟨a2, E2, H2, F2⟩ := prvRemove_heap k t.fuel a1 _ t2 n H1 hN hc1 e2
    have hsub := Tree.remove_subperm k t.fuel _ t2 n e2
    have hsub' : (n :: t2.handles).Subperm (Tree.node hh l r c g false kr v).handles := hsub
    have hN2 := subperm_nodup hsub' hN
    rw [List.nodup_cons] at hN2
    have hmem : n ∈ (Tree.node hh l r c g false kr v).handles :=
      hsub'.subset (List.mem_cons_self _ _)
    have hsub2 : ∀ j ∈ t2.handles, j ∈ (Tree.node hh l r c g false kr v).handles :=
      fun j hj => hsub'.subset (List.mem_cons_of_mem _ hj)
    have hroot_mem : hh ∈ (Tree.node hh l r c g false kr v).handles := by simp [Tree.handles]
    -- the free list is untouched so far
    have hfl2 : FreeList a2 a2.freeListHead fl := by
      rw [F2.freeListHead, F1.freeListHead]
      refine (h.free.preserved F1 ?_).preserved F2 ?_
      · intro j hj hm
        simp only [List.mem_singleton] at hm
        subst hm
        exact hdis _ hroot_mem hj
      · intro j hj hm
        exact hdis j hm hj
    have hn2 : n < a2.capacity := by
      rw [F2.capacity, F1.capacity]; exact hH.mem_lt n hmem
    obtain ⟨a3, E3, FL3, c3, -, hfh, lf3, r3, cn3, ht3, co3, k3, v3⟩ :=
      prvFree_spec hfl2 hn2 (hdis n hmem)
    have H3 : Heap a3 t2 := by
      refine H2.agree (le_of_eq c3.symm) (fun j hj => ?_)
      have hne : j ≠ n := by rintro rfl; exact hN2.1 hj
      simp only [Agree, lf3, r3, cn3, ht3, co3, k3, v3, upd_ne _ _ hne, and_self]
    have hc3 : a3.capacity ≤ NULL_INDEX := by rw [c3, F2.capacity]; exact hc1
    have hnfl : ∀ j ∈ t2.handles, j ∉ n :: fl := by
      intro j hj hm
      rcases List.mem_cons.1 hm with hm | hm
      · subst hm; exact hN2.1 hj
      · exact hdis j (hsub2 j hj) hm
    have hnd : (t2.handles ++ n :: fl).Nodup := by
      have h1 : ((n :: t2.handles) ++ fl).Subperm
          ((Tree.node hh l r c g false kr v).handles ++ fl) :=
        (List.subperm_append_right fl).2 hsub'
      have h2 : ((n :: t2.handles) ++ fl).Nodup := by
        have h3 := h.nodup
        exact List.Nodup.sublist (List.Sublist.refl _) (by
          obtain ⟨w, hw, hs⟩ := h1
          exact (hw.nodup_iff).1 (h3.sublist hs))
      exact (List.perm_middle.nodup_iff).2 h2
    have hcons2 := (Tree.remove_cons k t.fuel (.node hh l r c g (!l.isRed) kr v) t2 n
      ⟨hcons.2.2.1, hcons.2.2.2⟩ (by
        have := h.size_lt
        have e : (Tree.node hh l r c g (!l.isRed) kr v).size =
          (Tree.node hh l r c g false kr v).size := rfl
        rw [e]; omega) e2).1
    have hbst2 : SortedK t2.toList := by rw [l2]; exact hbst.filter _
    have hcp : 0 < a3.capacity := by rw [c3, F2.capacity, F1.capacity]; exact h.cap_pos
    have hcl : a3.capacity ≤ NULL_INDEX := by rw [c3, F2.capacity, F1.capacity]; exact h.cap_le
    simp only [Tree.root_node] at E2
    rw [RBT.remove, es]
    simp only [hroot, bind_ok Ec, bind_ok E1, bind_ok E2, bind_ok E3]
    cases t2 with
    | nil =>
      refine ⟨{ arena := a3, root := NULL_INDEX }, .nil, n, ?_, ?_, l2⟩
      · simp only [Tree.root, ne_eq, not_true_eq_false, if_false]
        rfl
      · exact ⟨trivial, rfl, FL3, hnd, hcp, hcl, trivial, rfl, List.Pairwise.nil, trivial⟩
    | node h2 tl2 tr2 c2 g2 red2 k2 v2 =>
      have hne := H3.ne_null hc3
      have hN2' := hN2.2
      obtain ⟨a4, E4, H4, F4⟩ := setColor_heap H3 (Tree.root_not_mem_left hN2')
        (Tree.root_not_mem_right hN2') false
      rw [colorCode_false] at E4
      refine ⟨{ arena := a4, root := h2 }, .node h2 tl2 tr2 c2 g2 false k2 v2, n, ?_, ?_, l2⟩
      · simp only [Tree.root_node, ne_eq, hne, not_false_eq_true, if_true, bind_ok E4]
        rfl
      · obtain ⟨o1, o2, o3, o4, o5⟩ := (Tree.ok_node ..).1 ok2
        refine ⟨H4, rfl, ?_, hnd, by rw [F4.capacity]; exact hcp,
          by rw [F4.capacity]; exact hcl,
          (Tree.ok_node ..).2 ⟨o1, (fun hf => by cases hf), o3, o4, o5⟩, rfl, hbst2,
          hcons2.recolor _ _ _⟩
        rw [F4.freeListHead]
        refine FL3.preserved F4 (fun j hj hm => ?_)
        simp only [List.mem_singleton] at hm
        subst hm
        exact hnfl j (by simp [Tree.handles]) hj

/-! ### `operator[]` on a key that is present -/

theorem Tree.Ok.red_left {t : Tree K V} (h : t.Ok) (hr : t.isRed = true) :
    t.left.isRed = false := by
  cases t with
  | nil => rfl
  | node hh l r c g red k v =>
    simp only [Tree.isRed_node] at hr
    subst hr
    exact ((Tree.ok_node ..).1 h).2.1 rfl

theorem Tree.balance_id {h : Nat} {l r : Tree K V} {c g : Nat} {red : Bool} {k : K} {v : V}
    (hok : (Tree.node h l r c g red k v).Ok) (hc : (Tree.node h l r c g red k v).Cons)
    (hs : (Tree.node h l r c g red k v).size < UINT32) :
    (Tree.node h l r c g red k v).balance = some (Tree.node h l r c g red k v) := by
  obtain ⟨o1, o2, o3, o4, o5⟩ := (Tree.ok_node ..).1 hok
  obtain ⟨c1, c2, c3, c4⟩ := hc
  have hm := Tree.Cons.mk c3 c4 (by simpa [Tree.size] using hs) h red k v
  have e1 : Tree.mkCnt l r = c := by rw [c1]; exact hm.1
  have e2 : Tree.mkHt l r = g := by rw [c2]; exact hm.2.1
  have e3 : (l.isRed && l.left.isRed) = false := by
    cases hl : l.isRed
    · rfl
    · simp [o4.red_left hl]
  simp only [Tree.balance, Tree.right_node, Tree.left_node, o1, Bool.false_and,
    Bool.false_eq_true, if_false, Option.some_bind, e3, Bool.and_false, Tree.adjust_node,
    Tree.mk_eq, e1, e2]

theorem Tree.insert_present [LinearOrder K] (nh : Nat) (nv : V) (k : K) :
    ∀ (fuel : Nat) (t : Tree K V), t.depth < fuel → t.Ok → t.Cons → t.size < UINT32 →
    SortedK t.toList → k ∈ t.toList.map Prod.fst →
    Tree.insert nh nv k fuel t = some t := by
  intro fuel
  induction fuel with
  | zero => intro t hd; simp at hd
  | succ fuel ih =>
    intro t hd hok hc hs hbst hk
    cases t with
    | nil => simp at hk
    | node h l r c g red kr v =>
      obtain ⟨o1, o2, o3, o4, o5⟩ := (Tree.ok_node ..).1 hok
      have hbst' : SortedK (l.toList ++ (kr, v) :: r.toList) := hbst
      have hk' : k ∈ (l.toList ++ (kr, v) :: r.toList).map Prod.fst := hk
      obtain ⟨sl, sr, -, -, -⟩ := hbst'.parts
      have hdl : l.depth < fuel := by simp only [Tree.depth] at hd; omega
      have hdr : r.depth < fuel := by simp only [Tree.depth] at hd; omega
      have hsl : l.size < UINT32 := by simp only [Tree.size] at hs; omega
      have hsr : r.size < UINT32 := by simp only [Tree.size] at hs; omega
      rw [Tree.insert]
      by_cases h1 : k = kr
      · rw [if_pos h1]
      · rw [if_neg h1]
        by_cases h2 : k < kr
        · rw [if_pos h2, ih l hdl o4 hc.2.2.1 hsl sl (hbst'.mem_left hk' h2), Option.some_bind]
          exact Tree.balance_id hok hc hs
        · have h3 : kr < k := lt_of_le_of_ne (not_lt.1 h2) (Ne.symm h1)
          rw [if_neg h2, ih r hdr o5 hc.2.2.2 hsr sr (hbst'.mem_right hk' h3), Option.some_bind]
          exact Tree.balance_id hok hc hs

theorem Heap.agree_both {a a' : Arena K V} :
    ∀ {t : Tree K V}, Heap a t → Heap a' t → ∀ i ∈ t.handles, Agree a a' i := by
  intro t
  induction t with
  | nil => intro _ _ i hi; simp [Tree.handles] at hi
  | node h l r c g red k v ihl ihr =>
    intro h1 h2 i hi
    obtain ⟨p1, p2, p3, p4, p5, p6, p7, p8, p9, p10⟩ := h1
    obtain ⟨q1, q2, q3, q4, q5, q6, q7, q8, q9, q10⟩ := h2
    simp only [Tree.handles, List.mem_append, List.mem_cons] at hi
    rcases hi with hi | rfl | hi
    · exact ihl p9 q9 i hi
    · exact ⟨by rw [p2, q2], by rw [p3, q3], by rw [p4, q4], by rw [p5, q5], by rw [p6, q6],
        by rw [p7, q7], by rw [p8, q8]⟩
    · exact ihr p10 q10 i hi

theorem Arena.eq_of_agree {a b : Arena K V} (h : ∀ i, Agree a b i)
    (h8 : b.nTrees = a.nTrees) (h9 : b.freeListHead = a.freeListHead)
    (h10 : b.capacity = a.capacity) : b = a :=
  Arena.ext' (funext fun i => (h i).1) (funext fun i => (h i).2.1)
    (funext fun i => (h i).2.2.1) (funext fun i => (h i).2.2.2.1)
    (funext fun i => (h i).2.2.2.2.1) (funext fun i => (h i).2.2.2.2.2.1)
    (funext fun i => (h i).2.2.2.2.2.2) h8 h9 h10

/-! ### Entries after an insertion -/

section InsL
variable [LinearOrder K] {k : K} {nv : V}

theorem insL_present : ∀ {es : List (K × V)}, SortedK es → k ∈ es.map Prod.fst →
    insL k nv es = es := by
  intro es
  induction es with
  | nil => intro _ h; simp at h
  | cons a xs ih =>
    intro hs hk
    simp only [insL]
    by_cases h1 : k = a.1
    · rw [if_pos h1]
    · rw [if_neg h1]
      simp only [List.map_cons, List.mem_cons] at hk
      have hk' : k ∈ xs.map Prod.fst := hk.resolve_left h1
      obtain ⟨b, hb, rfl⟩ := List.mem_map.1 hk'
      have hlt : a.1 < b.1 := (List.pairwise_cons.1 hs).1 b hb
      rw [if_neg (not_lt.2 (le_of_lt hlt)), ih (List.pairwise_cons.1 hs).2 hk']

theorem insL_perm : ∀ {es : List (K × V)}, k ∉ es.map Prod.fst →
    (insL k nv es).Perm ((k, nv) :: es) := by
  intro es
  induction es with
  | nil => intro _; exact List.Perm.refl _
  | cons a xs ih =>
    intro hk
    simp only [List.map_cons, List.mem_cons, not_or] at hk
    simp only [insL, if_neg hk.1]
    split
    · exact List.Perm.refl _
    · exact ((ih hk.2).cons a).trans (List.Perm.swap _ _ _)

theorem insL_mem {es : List (K × V)} {b : K × V} (h : b ∈ insL k nv es) :
    b = (k, nv) ∨ b ∈ es := by
  induction es with
  | nil => simpa [insL] using h
  | cons a xs ih =>
    simp only [insL] at h
    split at h
    · exact Or.inr h
    · split at h
      · simpa using h
      · rcases List.mem_cons.1 h with h | h
        · exact Or.inr (h ▸ List.mem_cons_self _ _)
        · rcases ih h with h | h
          · exact Or.inl h
          · exact Or.inr (List.mem_cons_of_mem _ h)

theorem insL_sorted : ∀ {es : List (K × V)}, SortedK es → SortedK (insL k nv es) := by
  intro es
  induction es with
  | nil => intro _; simp [insL, SortedK]
  | cons a xs ih =>
    intro hs
    obtain ⟨h1, h2⟩ := List.pairwise_cons.1 hs
    simp only [insL]
    by_cases c1 : k = a.1
    · rw [if_pos c1]; exact hs
    · rw [if_neg c1]
      by_cases c2 : k < a.1
      · rw [if_pos c2]
        refine List.pairwise_cons.2 ⟨?_, hs⟩
        intro b hb
        rcases List.mem_cons.1 hb with rfl | hb
        · exact c2
        · exact lt_trans c2 (h1 b hb)
      · rw [if_neg c2]
        refine List.pairwise_cons.2 ⟨?_, ih h2⟩
        intro b hb
        rcases insL_mem hb with rfl | hb
        · exact lt_of_le_of_ne (not_lt.1 c2) (Ne.symm c1)
        · exact h1 b hb

end InsL

theorem RBT.eta (t : RBT K V) : ({ arena := t.arena, root := t.root } : RBT K V) = t := by
  cases t; rfl

theorem Inv.upsert_present [Inhabited K] [Inhabited V] [LinearOrder K] {t : RBT K V}
    {tr : Tree K V} {fl : List Nat} (h : Inv t tr fl) {k : K} {x : V}
    (hk : (k, x) ∈ tr.toList) :
    ∃ i, t.upsert k = .ok (i, t) ∧ t.search k = .ok i ∧ t.arena.values i = x := by
  obtain ⟨i, es, e, hm, -, hv⟩ := h.search_present hk
  have hkm : k ∈ tr.toList.map Prod.fst := List.mem_map.2 ⟨_, hk, rfl⟩
  have hne : Tree.search k tr ≠ none := by rw [e]; simp
  have key : ∀ nh, nh ∉ tr.handles →
      ∃ a', Arena.prvInsert k t.fuel t.arena tr.root = .ok (a', tr.root) ∧ Heap a' tr ∧
        Frame (nh :: tr.handles) t.arena a' := fun nh hnh =>
    prvInsert_heap k nh x (q := k) h.cap_le h.cap_le t.fuel tr tr h.heap h.heap
      (List.nodup_cons.2 ⟨hnh, h.nodup_tr⟩) (fun hn => absurd hn hne) (fun _ => rfl)
      (Tree.insert_present nh x k t.fuel tr h.depth_lt h.ok h.cons
        (by have := h.size_lt; omega) h.bst hkm)
  have hlt := h.heap.mem_lt
  obtain ⟨a1, E1, H1, F1⟩ := key t.arena.capacity (fun hc => lt_irrefl _ (hlt _ hc))
  obtain ⟨a1', E1', -, F1'⟩ := key (t.arena.capacity + 1)
    (fun hc => absurd (hlt _ hc) (by omega))
  rw [E1] at E1'
  simp only [Except.ok.injEq, Prod.mk.injEq, and_true] at E1'
  subst E1'
  have F : Frame tr.handles t.arena a1 :=
    ⟨F1.capacity, F1.freeListHead, F1.nTrees, fun j hj => by
      by_cases hc : j = t.arena.capacity
      · exact F1'.agree j (by
          simp only [List.mem_cons, not_or]
          exact ⟨by omega, hj⟩)
      · exact F1.agree j (by
          simp only [List.mem_cons, not_or]
          exact ⟨hc, hj⟩)⟩
  have hroot := h.root
  have hblack := h.black
  have hH := h.heap
  have hN := h.nodup_tr
  cases tr with
  | nil => simp at hk
  | node hh l r c g red kr v =>
    simp only [Tree.isRed_node] at hblack
    subst hblack
    obtain ⟨a2, E2, H2, F2⟩ := setColor_heap H1 (Tree.root_not_mem_left hN)
      (Tree.root_not_mem_right hN) false
    rw [colorCode_false] at E2
    have ha : a2 = t.arena := by
      refine Arena.eq_of_agree (fun j => ?_) (F2.nTrees.trans F.nTrees)
        (F2.freeListHead.trans F.freeListHead) (F2.capacity.trans F.capacity)
      by_cases hj : j ∈ (Tree.node hh l r c g false kr v).handles
      · exact Heap.agree_both hH H2 j hj
      · refine (F.agree j hj).chain (F2.agree j ?_)
        simp only [List.mem_singleton]
        rintro rfl
        exact hj (by simp [Tree.handles])
    subst ha
    simp only [Tree.root_node] at E1 hroot
    refine ⟨i, ?_, es, hv⟩
    simp only [RBT.upsert, hroot, bind_ok E1, bind_ok E2]
    have es' : Arena.searchLoop k (t.arena.capacity + 1) t.arena hh = .ok i := by
      rw [← hroot]; exact es
    rw [bind_ok es']
    show Except.ok (i, ({ arena := t.arena, root := hh } : RBT K V)) = _
    rw [← hroot, RBT.eta]

theorem Inv.upsert_absent [Inhabited K] [Inhabited V] [LinearOrder K] {t : RBT K V}
    {tr : Tree K V} {fl : List Nat} (h : Inv t tr fl) {k : K}
    (hk : k ∉ tr.toList.map Prod.fst)
    (hroom : t.arena.freeListHead ≠ NULL_INDEX ∨ 2 * t.arena.capacity < UINT32) :
    ∃ i t' tr' fl', t.upsert k = .ok (i, t') ∧ Inv t' tr' fl' ∧
      tr'.toList = insL k (t'.arena.values i) tr.toList ∧ t'.search k = .ok i ∧
      t'.arena.values i = t.arena.values (if t.arena.freeListHead = NULL_INDEX
        then t.arena.capacity else t.arena.freeListHead) ∧
      (fl ≠ [] → ∃ nh, fl = nh :: fl') := by
  have hroom' : fl ≠ [] ∨ (0 < t.arena.capacity ∧ 2 * t.arena.capacity < UINT32) := by
    rcases hroom with h1 | h1
    · left
      rintro rfl
      exact h1 h.free
    · exact Or.inr ⟨h.cap_pos, h1⟩
  obtain ⟨a0, nh, fl', E0, Al⟩ := prvAllocate_spec h.free h.nodup_fl h.cap_le hroom'
  have hlt := h.heap.mem_lt
  have hnh : nh ∉ tr.handles := by
    rcases Al.src with ⟨h1, -, -⟩ | ⟨-, h1, -, -⟩
    · exact fun hc => h.disjoint nh hc h1
    · rw [h1]; exact fun hc => lt_irrefl _ (hlt _ hc)
  have hcap : t.arena.capacity ≤ a0.capacity := by
    rcases Al.src with ⟨-, h1, -⟩ | ⟨-, -, h1, -⟩
    · exact le_of_eq h1.symm
    · rw [h1]; omega
  have H0 : Heap a0 tr := h.heap.agree hcap (fun j hj =>
    Al.agree j (hlt j hj) (by rintro rfl; exact hnh hj))
  have hfl' : ∀ j ∈ fl', j ∉ nh :: tr.handles := by
    intro j hj hm
    rcases List.mem_cons.1 hm with hm | hm
    · subst hm; exact Al.fresh hj
    · rcases Al.src with ⟨-, -, h1⟩ | ⟨-, -, -, h1⟩
      · exact h.disjoint j hm (by rw [h1]; exact List.mem_cons_of_mem _ hj)
      · rw [h1, List.mem_range'_1] at hj
        have := hlt j hm
        omega
  have hval : a0.values nh = t.arena.values (if t.arena.freeListHead = NULL_INDEX
      then t.arena.capacity else t.arena.freeListHead) := by
    rw [Al.value]
    rcases Al.src with ⟨-, -, h1⟩ | ⟨h1, h2, -, -⟩
    · have hf := h.free
      rw [h1] at hf
      obtain ⟨e1, e2, -⟩ := hf
      have hcl := h.cap_le
      rw [if_neg (by rw [e1]; omega), e1]
    · have hf : t.arena.freeListHead = NULL_INDEX := by
        have hf' := h.free
        rw [h1] at hf'
        exact hf'
      rw [if_pos hf, h2]
  have hc0 : a0.capacity ≤ NULL_INDEX := Al.cap_null
  have hnone := Tree.search_none k tr h.bst hk
  obtain ⟨x, ex, ⟨nx, -, px, -⟩, lx⟩ := Tree.insert_ok nh (a0.values nh) k t.fuel tr h.depth_lt
    h.ok h.bst
  have hN : (nh :: tr.handles).Nodup := List.nodup_cons.2 ⟨hnh, h.nodup_tr⟩
  obtain ⟨a1, E1, H1, F1⟩ := prvInsert_heap k nh (a0.values nh) (q := a0.keys nh) h.cap_le hc0
    t.fuel tr x h.heap H0 hN (fun _ => ⟨E0, Al.node⟩) (fun hn => absurd hnone hn) ex
  have hsub := Tree.insert_subperm nh (a0.values nh) k t.fuel tr x ex
  have hNx : x.handles.Nodup := subperm_nodup hsub hN
  have hokx := px h.black
  have hsz : tr.size + 1 < UINT32 := by
    have h1 : (nh :: tr.handles).length ≤ a0.capacity :=
      nodup_length_le hN (fun j hj => by
        rcases List.mem_cons.1 hj with rfl | hj
        · exact Al.lt
        · exact Nat.lt_of_lt_of_le (hlt j hj) hcap)
    rw [List.length_cons, Tree.handles_length] at h1
    simp only [NULL_INDEX] at hc0
    simp only [UINT32]
    omega
  obtain ⟨cx, -⟩ := Tree.insert_cons nh (a0.values nh) k t.fuel tr x h.cons hsz ex
  have hroot := h.root
  cases x with
  | nil => exact absurd rfl nx
  | node hh l r c g red kr v =>
    obtain ⟨a2, E2, H2, F2⟩ := setColor_heap H1 (Tree.root_not_mem_left hNx)
      (Tree.root_not_mem_right hNx) false
    rw [colorCode_false] at E2
    simp only [Tree.root_node] at E1
    have hmemroot : hh ∈ nh :: tr.handles := hsub.subset (by simp [Tree.handles])
    have hI : Inv ({ arena := a2, root := hh } : RBT K V) (.node hh l r c g false kr v) fl' := by
      obtain ⟨o1, o2, o3, o4, o5⟩ := (Tree.ok_node ..).1 hokx
      refine ⟨H2, rfl, ?_, ?_, ?_, ?_, (Tree.ok_node ..).2 ⟨o1, (fun hf => by cases hf), o3, o4, o5⟩,
        rfl, ?_, cx.recolor _ _ _⟩
      · show FreeList a2 a2.freeListHead fl'
        rw [F2.freeListHead, F1.freeListHead]
        refine (Al.freelist.preserved F1 hfl').preserved F2 (fun j hj hm => ?_)
        simp only [List.mem_singleton] at hm
        subst hm
        exact hfl' j hj hmemroot
      · have h1 : ((Tree.node hh l r c g red kr v).handles ++ fl').Subperm
            ((nh :: tr.handles) ++ fl') := (List.subperm_append_right fl').2 hsub
        have h2 : ((nh :: tr.handles) ++ fl').Nodup := by
          rw [List.nodup_append]
          exact ⟨hN, Al.nodup, fun j hj hf => hfl' j hf hj⟩
        exact subperm_nodup h1 h2
      · show 0 < a2.capacity
        rw [F2.capacity, F1.capacity]; exact Nat.lt_of_le_of_lt (Nat.zero_le _) Al.lt
      · show a2.capacity ≤ NULL_INDEX
        rw [F2.capacity, F1.capacity]; exact Al.cap_null
      · show SortedK (Tree.node hh l r c g red kr v).toList
        rw [lx]; exact insL_sorted h.bst
    have hmem : (k, a0.values nh) ∈ (Tree.node hh l r c g false kr v).toList := by
      show (k, a0.values nh) ∈ (Tree.node hh l r c g red kr v).toList
      rw [lx]
      exact (insL_perm hk).symm.subset (List.mem_cons_self _ _)
    obtain ⟨i, es, -, -, -, hv⟩ := hI.search_present hmem
    have hsrc : fl ≠ [] → ∃ nh, fl = nh :: fl' := by
      intro hne
      rcases Al.src with ⟨-, -, h1⟩ | ⟨h1, -⟩
      · exact ⟨nh, h1⟩
      · exact absurd h1 hne
    refine ⟨i, { arena := a2, root := hh }, .node hh l r c g false kr v, fl', ?_, hI, ?_, es,
      by rw [hv, hval], hsrc⟩
    · simp only [RBT.upsert, hroot, bind_ok E1, bind_ok E2]
      have es' : Arena.searchLoop k (a2.capacity + 1) a2 hh = .ok i := es
      rw [bind_ok es']
      rfl
    · show (Tree.node hh l r c g red kr v).toList = _
      rw [lx, hv]

theorem bind_err {α β : Type} {x : Except Err α} {f : α → Except Err β} {e : Err}
    (h : x = .error e) : (x >>= f) = .error e := by
  subst h; rfl

theorem prvInsert_fail [Inhabited K] [Inhabited V] [LinearOrder K] (k : K) {a : Arena K V}
    {e : Err} (hc : a.capacity ≤ NULL_INDEX) (hA : a.prvAllocate = .error e) :
    ∀ (fuel : Nat) (t : Tree K V), Heap a t → Tree.search k t = none → t.depth < fuel →
    Arena.prvInsert k fuel a t.root = .error e := by
  intro fuel
  induction fuel with
  | zero => intro t _ _ hd; simp at hd
  | succ fuel ih =>
    intro t hH hs hd
    cases t with
    | nil =>
      unfold Arena.prvInsert
      rw [if_pos (by rfl), bind_err hA]
    | node h l r c g red kr v =>
      simp only [Tree.depth] at hd
      simp only [Tree.search] at hs
      unfold Arena.prvInsert
      simp only [Tree.root_node]
      rw [if_neg (hH.ne_null hc), bind_ok hH.read_key_node]
      by_cases h1 : k = kr
      · rw [if_pos h1] at hs; cases hs
      · rw [if_neg h1] at hs ⊢
        by_cases h2 : k < kr
        · rw [if_pos h2] at hs ⊢
          rw [bind_ok hH.read_left_node,
            bind_err (ih l hH.2.2.2.2.2.2.2.2.1 hs (by omega))]
        · rw [if_neg h2] at hs ⊢
          rw [bind_ok hH.read_right_node,
            bind_err (ih r hH.2.2.2.2.2.2.2.2.2 hs (by omega))]

theorem Inv.upsert_full [Inhabited K] [Inhabited V] [LinearOrder K] {t : RBT K V}
    {tr : Tree K V} {fl : List Nat} (h : Inv t tr fl) {k : K}
    (hk : k ∉ tr.toList.map Prod.fst)
    (hroom : ¬ (t.arena.freeListHead ≠ NULL_INDEX ∨ 2 * t.arena.capacity < UINT32)) :
    t.upsert k = .error .undefinedBehaviour := by
  simp only [not_or, not_not, not_lt] at hroom
  have hcl := h.cap_le
  have hA : t.arena.prvAllocate = .error .undefinedBehaviour := by
    have hg : t.arena.grow = .error .undefinedBehaviour := by
      simp only [Arena.grow]
      rw [if_pos]
      right
      simp only [NULL_INDEX] at hcl
      simp only [UINT32] at hroom ⊢
      omega
    simp only [Arena.prvAllocate, hroom.1, if_true, bind_err hg]
  have := prvInsert_fail k h.cap_le hA t.fuel tr h.heap (Tree.search_none k tr h.bst hk)
    h.depth_lt
  rw [← h.root] at this
  simp only [RBT.upsert, bind_err this]

/-! ## Trees reachable from the constructor -/

theorem RBT.remove_absent [LinearOrder K] {t : RBT K V} {k : K} {e : Err}
    (h : t.search k = .error e) : t.remove k = .error e := by
  rw [RBT.remove, h]

theorem Reach.inv [Inhabited K] [Inhabited V] [LinearOrder K] {t : RBT K V}
    {es : List (K × V)} (h : Reach t es) : ∃ tr fl, Inv t tr fl ∧ tr.toList = es := by
  induction h with
  | @init cap a t hn hc he =>
    obtain ⟨t1, e1, I, -⟩ := construct_inv (K := K) (V := V) hn (construct_pos hn he) hc
    rw [he] at e1
    cases e1
    exact ⟨_, _, I, rfl⟩
  | @upsert t t' es k i _ he ih =>
    obtain ⟨tr, fl, I, rfl⟩ := ih
    by_cases hk : k ∈ tr.toList.map Prod.fst
    · obtain ⟨⟨k', x⟩, hx, hkx⟩ := List.mem_map.1 hk
      simp only at hkx
      subst hkx
      obtain ⟨j, e1, -⟩ := I.upsert_present hx
      rw [he] at e1
      simp only [Except.ok.injEq, Prod.mk.injEq] at e1
      obtain ⟨-, rfl⟩ := e1
      exact ⟨tr, fl, I, (insL_present I.bst hk).symm⟩
    · by_cases hroom : t.arena.freeListHead ≠ NULL_INDEX ∨ 2 * t.arena.capacity < UINT32
      · obtain ⟨j, t1, tr1, fl1, e1, I1, l1, -⟩ := I.upsert_absent hk hroom
        rw [he] at e1
        simp only [Except.ok.injEq, Prod.mk.injEq] at e1
        obtain ⟨rfl, rfl⟩ := e1
        exact ⟨tr1, fl1, I1, l1⟩
      · rw [I.upsert_full hk hroom] at he
        cases he
  | @write t t' es k i x _ hs hw ih =>
    obtain ⟨tr, fl, I, rfl⟩ := ih
    obtain ⟨t1, e1, I1, -⟩ := I.write x hs
    rw [hw] at e1
    cases e1
    exact ⟨_, fl, I1, Tree.put_toList k x tr I.bst⟩
  | @remove t t' es k _ he ih =>
    obtain ⟨tr, fl, I, rfl⟩ := ih
    by_cases hk : k ∈ tr.toList.map Prod.fst
    · obtain ⟨t1, tr1, n, e1, I1, l1⟩ := I.remove hk
      rw [he] at e1
      cases e1
      exact ⟨tr1, _, I1, l1⟩
    · rw [RBT.remove_absent (I.search_absent hk)] at he
      cases he
  | @clear t t' es _ he ih =>
    obtain ⟨tr, fl, I, rfl⟩ := ih
    obtain ⟨t1, e1, I1, -⟩ := I.clear
    rw [he] at e1
    cases e1
    exact ⟨_, _, I1, rfl⟩
  | @map σ t t' es fp s s' _ he ih =>
    obtain ⟨tr, fl, I, rfl⟩ := ih
    obtain ⟨t1, e1, I1, l1⟩ := I.map fp s
    rw [he] at e1
    simp only [Except.ok.injEq, Prod.mk.injEq] at e1
    obtain ⟨rfl, -⟩ := e1
    exact ⟨_, fl, I1, l1⟩

/-! ## Observations on reachable trees -/

section Lists
variable [LinearOrder K]

theorem mem_insL_of_mem {k : K} {nv : V} {b : K × V} :
    ∀ {es : List (K × V)}, b ∈ es → b ∈ insL k nv es := by
  intro es
  induction es with
  | nil => intro h; simp at h
  | cons a xs ih =>
    intro h
    simp only [insL]
    split
    · exact h
    · split
      · exact List.mem_cons_of_mem _ h
      · rcases List.mem_cons.1 h with h | h
        · exact h ▸ List.mem_cons_self _ _
        · exact List.mem_cons_of_mem _ (ih h)

theorem mem_setL_of_ne {k k' : K} {x v : V} {es : List (K × V)} (h : (k, v) ∈ es)
    (hne : k' ≠ k) : (k, v) ∈ setL k' x es := by
  simp only [setL, List.mem_map]
  exact ⟨(k, v), h, by simp [Ne.symm hne]⟩

theorem mem_setL_self {k : K} {x : V} {es : List (K × V)} (h : k ∈ es.map Prod.fst) :
    (k, x) ∈ setL k x es := by
  obtain ⟨⟨k', v⟩, hm, rfl⟩ := List.mem_map.1 h
  simp only [setL, List.mem_map]
  exact ⟨(k', v), hm, by simp⟩

theorem mem_filter_of_ne {k k' : K} {v : V} {es : List (K × V)} (h : (k, v) ∈ es)
    (hne : k' ≠ k) : (k, v) ∈ es.filter (fun e => decide (e.1 ≠ k')) := by
  simp only [List.mem_filter, decide_eq_true_eq]
  exact ⟨h, Ne.symm hne⟩

theorem filter_length {k : K} : ∀ {es : List (K × V)}, SortedK es → k ∈ es.map Prod.fst →
    (es.filter (fun e => decide (e.1 ≠ k))).length + 1 = es.length := by
  intro es
  induction es with
  | nil => intro _ h; simp at h
  | cons a xs ih =>
    intro hs hk
    obtain ⟨h1, h2⟩ := List.pairwise_cons.1 hs
    by_cases c : a.1 = k
    · have hxs : xs.filter (fun e => decide (e.1 ≠ k)) = xs :=
        filter_ne_self (fun b hb => by rw [← c]; exact ne_of_gt (h1 b hb))
      rw [List.filter_cons_of_neg (by simp [c]), hxs]
      rfl
    · simp only [List.map_cons, List.mem_cons] at hk
      have hk' := hk.resolve_left (Ne.symm c)
      rw [List.filter_cons_of_pos (by simp [c])]
      simp only [List.length_cons]
      rw [ih h2 hk']

theorem insL_length {k : K} {nv : V} {es : List (K × V)} (h : k ∉ es.map Prod.fst) :
    (insL k nv es).length = es.length + 1 := by
  rw [(insL_perm h).length_eq]
  rfl

theorem insL_keys {k k' : K} {nv : V} {es : List (K × V)} (h : k' ∈ (insL k nv es).map Prod.fst) :
    k' = k ∨ k' ∈ es.map Prod.fst := by
  obtain ⟨b, hb, rfl⟩ := List.mem_map.1 h
  rcases insL_mem hb with rfl | hb
  · exact Or.inl rfl
  · exact Or.inr (List.mem_map.2 ⟨b, hb, rfl⟩)

end Lists

theorem mapL_entries : ∀ (es s : List (K × V)),
    mapL (fun (s : List (K × V)) k v => (s ++ [(k, v)], v)) es s = (es, s ++ es) := by
  intro es
  induction es with
  | nil => intro s; simp [mapL]
  | cons e es ih => intro s; simp [mapL, ih]

theorem mapL_visited : ∀ (es : List (K × V)) (s : List K),
    mapL (fun (s : List K) k v => (s ++ [k], v)) es s = (es, s ++ es.map Prod.fst) := by
  intro es
  induction es with
  | nil => intro s; simp [mapL]
  | cons e es ih => intro s; simp [mapL, ih]

section ReachFacts
variable [Inhabited K] [Inhabited V] [LinearOrder K] {t : RBT K V} {es : List (K × V)}

theorem Reach.sorted (h : Reach t es) : SortedK es := by
  obtain ⟨tr, fl, I, rfl⟩ := h.inv
  exact I.bst

theorem Reach.lookup (h : Reach t es) {k : K} {x : V} (hk : (k, x) ∈ es) :
    ∃ i, t.search k = .ok i ∧ t.arena.values i = x := by
  obtain ⟨tr, fl, I, rfl⟩ := h.inv
  obtain ⟨i, e, -, -, -, hv⟩ := I.search_present hk
  exact ⟨i, e, hv⟩

theorem Reach.lookup_none (h : Reach t es) {k : K} (hk : k ∉ es.map Prod.fst) :
    t.search k = .error .notFound := by
  obtain ⟨tr, fl, I, rfl⟩ := h.inv
  exact I.search_absent hk

theorem Reach.size_length (h : Reach t es) : t.size = .ok es.length := by
  obtain ⟨tr, fl, I, rfl⟩ := h.inv
  exact I.size_eq

theorem Reach.map_eq (h : Reach t es) {σ : Type} (fp : σ → K → V → σ × V) (s : σ) :
    ∃ t', t.map fp s = .ok (t', (mapL fp es s).2) ∧ Reach t' (mapL fp es s).1 := by
  obtain ⟨tr, fl, I, rfl⟩ := h.inv
  obtain ⟨t', e, -, -⟩ := I.map fp s
  exact ⟨t', e, Reach.map h e⟩

theorem Reach.entries_eq (h : Reach t es) : t.entries = .ok es := by
  obtain ⟨t', e, -⟩ := h.map_eq (fun (s : List (K × V)) k v => (s ++ [(k, v)], v)) []
  simp only [RBT.entries, e, mapL_entries, List.nil_append]

theorem Reach.visited_eq (h : Reach t es) : t.visited = .ok (es.map Prod.fst) := by
  obtain ⟨t', e, -⟩ := h.map_eq (fun (s : List K) k v => (s ++ [k], v)) []
  simp only [RBT.visited, e, mapL_visited, List.nil_append]

theorem Reach.lookup_inv (h : Reach t es) {k : K} {i : Nat} (hs : t.search k = .ok i) :
    (k, t.arena.values i) ∈ es := by
  by_cases hk : k ∈ es.map Prod.fst
  · obtain ⟨⟨k', x⟩, hm, hkx⟩ := List.mem_map.1 hk
    simp only at hkx
    subst hkx
    obtain ⟨j, e, hv⟩ := h.lookup hm
    rw [hs] at e
    cases e
    rw [hv]
    exact hm
  · rw [h.lookup_none hk] at hs
    cases hs

end ReachFacts

section ReachUpsert
variable [Inhabited K] [Inhabited V] [LinearOrder K] {t : RBT K V} {es : List (K × V)}

theorem Reach.upsert_search (h : Reach t es) {k : K} {i : Nat} {t' : RBT K V}
    (he : t.upsert k = .ok (i, t')) : t'.search k = .ok i := by
  obtain ⟨tr, fl, I, rfl⟩ := h.inv
  by_cases hk : k ∈ tr.toList.map Prod.fst
  · obtain ⟨⟨k', x⟩, hx, hkx⟩ := List.mem_map.1 hk
    simp only at hkx
    subst hkx
    obtain ⟨j, e1, e2, -⟩ := I.upsert_present hx
    rw [he] at e1
    simp only [Except.ok.injEq, Prod.mk.injEq] at e1
    obtain ⟨rfl, rfl⟩ := e1
    exact e2
  · by_cases hroom : t.arena.freeListHead ≠ NULL_INDEX ∨ 2 * t.arena.capacity < UINT32
    · obtain ⟨j, t1, tr1, fl1, e1, -, -, e2, -⟩ := I.upsert_absent hk hroom
      rw [he] at e1
      simp only [Except.ok.injEq, Prod.mk.injEq] at e1
      obtain ⟨rfl, rfl⟩ := e1
      exact e2
    · rw [I.upsert_full hk hroom] at he
      cases he

theorem Reach.upsert_new (h : Reach t es) {k : K} (hk : k ∉ es.map Prod.fst)
    (hroom : t.arena.freeListHead ≠ NULL_INDEX ∨ 2 * t.arena.capacity < UINT32) :
    ∃ i t', t.upsert k = .ok (i, t') ∧ Reach t' (insL k (t'.arena.values i) es) ∧
      t'.search k = .ok i ∧
      t'.arena.values i = t.arena.values (if t.arena.freeListHead = NULL_INDEX
        then t.arena.capacity else t.arena.freeListHead) := by
  obtain ⟨tr, fl, I, rfl⟩ := h.inv
  obtain ⟨i, t', tr', fl', e, -, -, es', hv, -⟩ := I.upsert_absent hk hroom
  exact ⟨i, t', e, Reach.upsert h e, es', hv⟩

theorem Reach.upsert_old (h : Reach t es) {k : K} {x : V} (hk : (k, x) ∈ es) :
    ∃ i, t.upsert k = .ok (i, t) ∧ t.search k = .ok i ∧ t.arena.values i = x := by
  obtain ⟨tr, fl, I, rfl⟩ := h.inv
  exact I.upsert_present hk

theorem Reach.remove_returns (h : Reach t es) {k : K} (hk : k ∈ es.map Prod.fst) :
    ∃ t', t.remove k = .ok t' ∧ Reach t' (es.filter fun e => decide (e.1 ≠ k)) := by
  obtain ⟨tr, fl, I, rfl⟩ := h.inv
  obtain ⟨t', tr', n, e, -, -⟩ := I.remove hk
  exact ⟨t', e, Reach.remove h e⟩

theorem Steps.keeps (k : K) (v : V) {t1 t2 : RBT K V} (hs : Steps k t1 t2) :
    (∃ es1, Reach t1 es1 ∧ (k, v) ∈ es1) → ∃ es2, Reach t2 es2 ∧ (k, v) ∈ es2 := by
  induction hs with
  | refl => exact id
  | upsert _ hne he ih =>
    intro h0
    obtain ⟨es, hr, hm⟩ := ih h0
    exact ⟨_, Reach.upsert hr he, mem_insL_of_mem hm⟩
  | write _ hne hs hw ih =>
    intro h0
    obtain ⟨es, hr, hm⟩ := ih h0
    exact ⟨_, Reach.write hr hs hw, mem_setL_of_ne hm hne⟩
  | remove _ hne he ih =>
    intro h0
    obtain ⟨es, hr, hm⟩ := ih h0
    exact ⟨_, Reach.remove hr he, mem_filter_of_ne hm hne⟩

theorem Reach.assign (h : Reach t es) {k : K} {v : V} {t1 : RBT K V}
    (ha : t.assign k v = .ok t1) : ∃ es1, Reach t1 es1 ∧ (k, v) ∈ es1 := by
  simp only [RBT.assign] at ha
  cases hu : t.upsert k with
  | error e => rw [hu] at ha; cases ha
  | ok p =>
    obtain ⟨i, ta⟩ := p
    rw [bind_ok hu] at ha
    have hs := h.upsert_search hu
    have hr := Reach.upsert h hu
    have hm := hr.lookup_inv hs
    exact ⟨_, Reach.write hr hs ha, mem_setL_self (List.mem_map.2 ⟨_, hm, rfl⟩)⟩

theorem Reach.upsertAll_size : ∀ (ks : List K) {t t' : RBT K V} {es : List (K × V)},
    Reach t es → (∀ k ∈ ks, k ∉ es.map Prod.fst) → ks.Nodup → t.upsertAll ks = .ok t' →
    ∃ es', Reach t' es' ∧ es'.length = es.length + ks.length := by
  intro ks
  induction ks with
  | nil =>
    intro t t' es h _ _ he
    simp only [RBT.upsertAll, Except.ok.injEq] at he
    subst he
    exact ⟨es, h, rfl⟩
  | cons k ks ih =>
    intro t t' es h hk hn he
    simp only [RBT.upsertAll] at he
    cases hu : t.upsert k with
    | error e => rw [hu] at he; cases he
    | ok p =>
      rw [hu] at he
      simp only at he
      have hr := Reach.upsert h (show t.upsert k = .ok (p.1, p.2) from hu)
      have hk0 : k ∉ es.map Prod.fst := hk k (List.mem_cons_self _ _)
      obtain ⟨hk1, hn'⟩ := List.nodup_cons.1 hn
      obtain ⟨es', hr', hl⟩ := ih hr (fun k' hk' hc => by
        rcases insL_keys hc with rfl | hc
        · exact hk1 hk'
        · exact hk k' (List.mem_cons_of_mem _ hk') hc) hn' he
      refine ⟨es', hr', ?_⟩
      rw [hl, insL_length hk0, List.length_cons]
      omega

theorem Inv.upsertAll_ok : ∀ (ks : List K) {t : RBT K V} {tr : Tree K V} {fl : List Nat},
    Inv t tr fl → (∀ k ∈ ks, k ∉ tr.toList.map Prod.fst) → ks.Nodup → ks.length ≤ fl.length →
    ∃ t', t.upsertAll ks = .ok t' := by
  intro ks
  induction ks with
  | nil => intro t tr fl _ _ _ _; exact ⟨t, rfl⟩
  | cons k ks ih =>
    intro t tr fl I hk hn hl
    have hfl : fl ≠ [] := by
      rintro rfl
      simp at hl
    have hhead : t.arena.freeListHead ≠ NULL_INDEX := by
      cases fl with
      | nil => exact absurd rfl hfl
      | cons x xs =>
        obtain ⟨e1, e2, -⟩ := I.free
        have := I.cap_le
        omega
    have hk0 : k ∉ tr.toList.map Prod.fst := hk k (List.mem_cons_self _ _)
    obtain ⟨hk1, hn'⟩ := List.nodup_cons.1 hn
    obtain ⟨i, t1, tr1, fl1, e, I1, l1, -, -, hsrc⟩ := I.upsert_absent hk0 (Or.inl hhead)
    obtain ⟨nh, hnh⟩ := hsrc hfl
    obtain ⟨t', e'⟩ := ih I1 (fun k' hk' hc => by
      rw [l1] at hc
      rcases insL_keys hc with rfl | hc
      · exact hk1 hk'
      · exact hk k' (List.mem_cons_of_mem _ hk') hc) hn' (by
        rw [hnh] at hl
        simpa using hl)
    refine ⟨t', ?_⟩
    simp only [RBT.upsertAll, e]
    exact e'

end ReachUpsert

/-! ## Concrete runs -/

theorem run0_reach : Reach run0 [] :=
  Reach.init (a := Arena.static0) rfl (by decide) (show construct Arena.static0 4 = .ok run0 from rfl)

theorem run1_reach : Reach run1.2 [(1, 0)] :=
  Reach.upsert run0_reach (show run0.upsert 1 = .ok (run1.1, run1.2) from rfl)

theorem run2_reach : Reach run2 [(1, 10)] :=
  Reach.write (k := 1) run1_reach (show run1.2.search 1 = .ok run1.1 from rfl)
    (show run1.2.write run1.1 10 = .ok run2 from rfl)

theorem run3_reach : Reach run3 [] :=
  Reach.remove (k := 1) run2_reach (show run2.remove 1 = .ok run3 from rfl)

theorem run5_reach : Reach run5 [] :=
  Reach.clear run2_reach (show run2.clear = .ok run5 from rfl)

theorem run7_reach : Reach run7.2 [(1, 10), (2, 0)] :=
  Reach.upsert run2_reach (show run2.upsert 2 = .ok (run7.1, run7.2) from rfl)

theorem run8_reach : Reach run8.2 [(1, 10), (2, 0), (3, 0)] :=
  Reach.upsert run7_reach (show run7.2.upsert 3 = .ok (run8.1, run8.2) from rfl)

theorem run9_reach : Reach run9 [(1, 10), (3, 0)] :=
  Reach.remove (k := 2) run8_reach (show run8.2.remove 2 = .ok run9 from rfl)

/-! ## The claims -/

section Claims
variable [Inhabited K] [Inhabited V] [LinearOrder K]

/-- Claim C1, as the code has it: on every tree reached from the constructor (called with any
capacity) by `operator[]`, writes through fresh references, successful `remove`, `clear` and
`map`, the stored height is at most `2*ceil(log2(size+1))`, and the member `isValidRBTree`
returns without throwing as long as the tree holds fewer than `2^32-1` entries; with `2^32-1`
entries the sum `GET_COUNT(root)+1` wraps to zero and `isValidRBTree` throws the too-tall
error. -/
theorem valid_after_operations {t : RBT K V} {es : List (K × V)} (h : Reach t es) :
    (es.length + 1 < UINT32 → t.isValidRBTree = .ok ()) ∧
    (es.length + 1 = UINT32 → t.isValidRBTree = .error (.invariant .tooTall)) ∧
    es.length + 1 ≤ UINT32 ∧
      ∃ n d, t.size = .ok n ∧ t.height = .ok d ∧ d ≤ 2 * RBT.ceilLog2 (n + 1) := by
  obtain ⟨tr, fl, I, rfl⟩ := h.inv
  have hs := I.size_lt
  rw [← Tree.size_eq_length]
  refine ⟨I.valid, I.too_tall, by omega, tr.size, tr.depth, ?_, I.height_eq, ?_⟩
  · rw [I.size_eq, Tree.size_eq_length]
  · exact I.ok.height_bound I.black (by omega)

/-- Claim C2: after `t[k] = v` on a reachable tree, followed by any sequence of `operator[]`,
writes and successful `remove` on keys other than `k`, `search(k)` returns a reference that
reads `v`. -/
theorem search_returns_last_write {t0 t1 t2 : RBT K V} {es0 : List (K × V)} {k : K} {v : V}
    (h : Reach t0 es0) (ha : t0.assign k v = .ok t1) (hs : Steps k t1 t2) :
    ∃ i, t2.search k = .ok i ∧ t2.arena.values i = v := by
  obtain ⟨es2, hr, hm⟩ := hs.keeps k v (h.assign ha)
  exact hr.lookup hm

/-- Claim C3: `remove(k)` of a key of a reachable tree returns, afterwards `search(k)` throws
the not-found error and `size()` is smaller by exactly one. -/
theorem remove_present {t : RBT K V} {es : List (K × V)} {k : K} (h : Reach t es)
    (hk : k ∈ es.map Prod.fst) :
    ∃ t', t.remove k = .ok t' ∧ t'.search k = .error .notFound ∧
      ∃ n, t.size = .ok (n + 1) ∧ t'.size = .ok n := by
  obtain ⟨t', e, hr⟩ := h.remove_returns hk
  refine ⟨t', e, hr.lookup_none (by simp [List.mem_map, List.mem_filter]), _, ?_, hr.size_length⟩
  rw [h.size_length, filter_length h.sorted hk]

/-- Claim C4: when `k` is not found (on any state whose `search(k)` throws the not-found
error, in particular on a reachable tree that does not hold `k`), `remove(k)` throws the
not-found error and leaves the object exactly as it was: same root and same arena. -/
theorem remove_absent_no_mutation (t : RBT K V) (k : K)
    (h : t.search k = .error .notFound ∨ ∃ es, Reach t es ∧ k ∉ es.map Prod.fst) :
    t.removeSt k = (t, .error .notFound) ∧ t.remove k = .error .notFound := by
  have hs : t.search k = .error .notFound := by
    rcases h with h | ⟨es, hr, hk⟩
    · exact h
    · exact hr.lookup_none hk
  exact ⟨by simp only [RBT.removeSt, hs], RBT.remove_absent hs⟩

/-- Claim C5: on a reachable tree `search(k)` throws the not-found error exactly when `k` is
not among the keys the operations so far have left in the tree; otherwise it returns a
reference to the value stored with `k`. -/
theorem search_notFound_iff {t : RBT K V} {es : List (K × V)} (h : Reach t es) (k : K) :
    (t.search k = .error .notFound ↔ k ∉ es.map Prod.fst) ∧
      (∀ x, (k, x) ∈ es → ∃ i, t.search k = .ok i ∧ t.arena.values i = x) ∧
      (∀ i, t.search k = .ok i → (k, t.arena.values i) ∈ es) := by
  refine ⟨⟨fun hs hk => ?_, h.lookup_none⟩, fun x hx => h.lookup hx, fun i hs => h.lookup_inv hs⟩
  obtain ⟨⟨k', x⟩, hm, hkx⟩ := List.mem_map.1 hk
  simp only at hkx
  subst hkx
  obtain ⟨i, e, -⟩ := h.lookup hm
  rw [hs] at e
  cases e

/-- Claim C6, as the code has it: `operator[]` on an absent key writes no value.  When a slot
is free or the arena can double, it returns, and the reference reads what `values` held before
the call in the slot that is handed out: the slot at the head of the free list, or, when the
free list was empty and the arena had to grow, the first slot of the added range, which holds
what `new ValueType[]` left there. -/
theorem upsert_absent_reads_slot {t : RBT K V} {es : List (K × V)} {k : K} (h : Reach t es)
    (hk : k ∉ es.map Prod.fst)
    (hroom : t.arena.freeListHead ≠ NULL_INDEX ∨ 2 * t.arena.capacity < UINT32) :
    ∃ i t', t.upsert k = .ok (i, t') ∧
      t'.arena.values i = t.arena.values (if t.arena.freeListHead = NULL_INDEX
        then t.arena.capacity else t.arena.freeListHead) := by
  obtain ⟨i, t', e, -, -, hv⟩ := h.upsert_new hk hroom
  exact ⟨i, t', e, hv⟩

/-- Claim C7: `operator[]` on a key of a reachable tree leaves the object as it was (same
root, same arena columns, same free list and capacity) and returns the reference that
`search` returns, which reads the value stored with the key. -/
theorem upsert_present_unchanged {t : RBT K V} {es : List (K × V)} {k : K} {x : V}
    (h : Reach t es) (hk : (k, x) ∈ es) :
    ∃ i, t.upsert k = .ok (i, t) ∧ t.search k = .ok i ∧ t.arena.values i = x :=
  h.upsert_old hk

/-- Claim C8: `operator[]` on an absent key of a reachable tree (with a free slot or room to
double) returns, `size()` grows by exactly one, `search(k)` succeeds and every entry present
before is still found with its value; `n` pairwise distinct keys put into a fresh tree give
`size() == n`, and these calls all return when `n` is at most the capacity. -/
theorem upsert_absent_grows :
    (∀ (t : RBT K V) (es : List (K × V)) (k : K), Reach t es → k ∉ es.map Prod.fst →
      (t.arena.freeListHead ≠ NULL_INDEX ∨ 2 * t.arena.capacity < UINT32) →
      ∃ i t', t.upsert k = .ok (i, t') ∧ (∃ n, t.size = .ok n ∧ t'.size = .ok (n + 1)) ∧
        t'.search k = .ok i ∧
        ∀ k' x, (k', x) ∈ es → ∃ j, t'.search k' = .ok j ∧ t'.arena.values j = x) ∧
    (∀ (cap : Nat) (t0 : RBT K V) (ks : List K), cap < NULL_INDEX → empty cap = .ok t0 →
      ks.Nodup →
      (∀ tn, t0.upsertAll ks = .ok tn → tn.size = .ok ks.length) ∧
      (ks.length ≤ cap → ∃ tn, t0.upsertAll ks = .ok tn)) := by
  refine ⟨fun t es k h hk hroom => ?_, fun cap t0 ks hc he hn => ⟨fun tn hu => ?_, fun hl => ?_⟩⟩
  · obtain ⟨i, t', e, hr, hs, -⟩ := h.upsert_new hk hroom
    refine ⟨i, t', e, ⟨_, h.size_length, ?_⟩, hs, fun k' x hx => hr.lookup (mem_insL_of_mem hx)⟩
    rw [hr.size_length, insL_length hk]
  · obtain ⟨es', hr, hl⟩ := Reach.upsertAll_size ks
      (Reach.init (a := Arena.static0) rfl (le_of_lt hc) he) (fun _ _ => by simp) hn hu
    rw [hr.size_length, hl]
    simp
  · have h0 : 0 < cap := by
      rcases Nat.eq_zero_or_pos cap with rfl | h0
      · simp [empty, construct, Arena.static0] at he
      · exact h0
    obtain ⟨t1, e1, I, -⟩ := empty_inv (K := K) (V := V) h0 (le_of_lt hc)
    rw [he] at e1
    cases e1
    exact I.upsertAll_ok ks (fun _ _ => by simp) hn (by simpa using hl)

/-- Claim C9: `remove(k)` of a key of a reachable tree changes no other entry: the pairs an
in-order traversal collects afterwards are those collected before with the pair of `k`
deleted, every other key is still found with its value, and nothing else is found. -/
theorem remove_keeps_other_entries {t : RBT K V} {es : List (K × V)} {k : K} (h : Reach t es)
    (hk : k ∈ es.map Prod.fst) :
    ∃ t', t.remove k = .ok t' ∧ t.entries = .ok es ∧
      t'.entries = .ok (es.filter fun e => decide (e.1 ≠ k)) ∧
      (∀ k' x, k' ≠ k → (k', x) ∈ es → ∃ i, t'.search k' = .ok i ∧ t'.arena.values i = x) ∧
      (∀ k' i, t'.search k' = .ok i → k' ≠ k ∧ (k', t'.arena.values i) ∈ es) := by
  obtain ⟨t', e, hr⟩ := h.remove_returns hk
  refine ⟨t', e, h.entries_eq, hr.entries_eq,
    fun k' x hne hx => hr.lookup (mem_filter_of_ne hx (Ne.symm hne)), fun k' i hs => ?_⟩
  have hm := hr.lookup_inv hs
  simp only [List.mem_filter, decide_eq_true_eq] at hm
  exact ⟨hm.2, hm.1⟩

/-- Claim C10: on a reachable tree `map` calls the visitor once for each key of the tree, in
strictly increasing key order: the keys a recording visitor receives are strictly increasing,
without repetition, and are exactly the keys `search` finds; any visitor ends in the state
obtained by running it over the entries in that order. -/
theorem map_visits_in_order {t : RBT K V} {es : List (K × V)} (h : Reach t es) :
    (∃ ks, t.visited = .ok ks ∧ ks.Sorted (· < ·) ∧ ks.Nodup ∧
      ∀ k, k ∈ ks ↔ ∃ i, t.search k = .ok i) ∧
    t.entries = .ok es ∧
    ∀ (σ : Type) (fp : σ → K → V → σ × V) (s : σ),
      ∃ t', t.map fp s = .ok (t', (mapL fp es s).2) := by
  have hs : (es.map Prod.fst).Sorted (· < ·) := by
    have := h.sorted
    simpa [SortedK, List.Sorted, List.pairwise_map] using this
  refine ⟨⟨_, h.visited_eq, hs, hs.nodup, fun k => ⟨fun hk => ?_, fun ⟨i, hi⟩ => ?_⟩⟩,
    h.entries_eq, fun σ fp s => ?_⟩
  · obtain ⟨⟨k', x⟩, hm, hkx⟩ := List.mem_map.1 hk
    simp only at hkx
    subst hkx
    obtain ⟨i, e, -⟩ := h.lookup hm
    exact ⟨i, e⟩
  · exact List.mem_map.2 ⟨_, h.lookup_inv hi, rfl⟩
  · obtain ⟨t', e, -⟩ := h.map_eq fp s
    exact ⟨t', e⟩

end Claims

theorem valid_after_operations_witness :
    Reach run9 [(1, 10), (3, 0)] ∧ run9.isValidRBTree = .ok () ∧
      (([(1, 10), (3, 0)] : List (Nat × Nat)).length + 1 < UINT32 →
        run9.isValidRBTree = .ok ()) ∧
      (([(1, 10), (3, 0)] : List (Nat × Nat)).length + 1 = UINT32 →
        run9.isValidRBTree = .error (.invariant .tooTall)) ∧
      ([(1, 10), (3, 0)] : List (Nat × Nat)).length + 1 ≤ UINT32 ∧
      ∃ n d, run9.size = .ok n ∧ run9.height = .ok d ∧ d ≤ 2 * RBT.ceilLog2 (n + 1) :=
  ⟨run9_reach, rfl, valid_after_operations run9_reach⟩

theorem search_returns_last_write_witness :
    Reach run0 [] ∧ run0.assign 1 10 = .ok run2 ∧ Steps 1 run2 run9 ∧
      ∃ i, run9.search 1 = .ok i ∧ run9.arena.values i = 10 :=
  have hs : Steps 1 run2 run9 :=
    Steps.remove (q := 2)
      (Steps.upsert (q := 3)
        (Steps.upsert (q := 2) (Steps.refl run2) (by decide)
          (show run2.upsert 2 = .ok (run7.1, run7.2) from rfl))
        (by decide) (show run7.2.upsert 3 = .ok (run8.1, run8.2) from rfl))
      (by decide) (show run8.2.remove 2 = .ok run9 from rfl)
  ⟨run0_reach, rfl, hs, search_returns_last_write run0_reach rfl hs⟩

theorem remove_present_witness :
    Reach run8.2 [(1, 10), (2, 0), (3, 0)] ∧ 2 ∈ [(1, 10), (2, 0), (3, 0)].map Prod.fst ∧
      ∃ t', run8.2.remove 2 = .ok t' ∧ t'.search 2 = .error .notFound ∧
        ∃ n, run8.2.size = .ok (n + 1) ∧ t'.size = .ok n :=
  ⟨run8_reach, by decide, remove_present run8_reach (by decide)⟩

theorem remove_absent_no_mutation_witness :
    (Reach run9 [(1, 10), (3, 0)] ∧ 2 ∉ [(1, 10), (3, 0)].map Prod.fst) ∧
      run9.removeSt 2 = (run9, .error .notFound) ∧ run9.remove 2 = .error .notFound :=
  ⟨⟨run9_reach, by decide⟩,
    remove_absent_no_mutation run9 2 (Or.inr ⟨_, run9_reach, by decide⟩)⟩

theorem search_notFound_iff_witness :
    Reach run9 [(1, 10), (3, 0)] ∧
      ((run9.search 2 = .error .notFound ↔ 2 ∉ [(1, 10), (3, 0)].map Prod.fst) ∧
      (∀ x, (2, x) ∈ [(1, 10), (3, 0)] → ∃ i, run9.search 2 = .ok i ∧ run9.arena.values i = x) ∧
      (∀ i, run9.search 2 = .ok i → (2, run9.arena.values i) ∈ [(1, 10), (3, 0)])) :=
  ⟨run9_reach, search_notFound_iff run9_reach 2⟩

theorem upsert_absent_reads_slot_witness :
    Reach run3 [] ∧ 1 ∉ ([] : List (Nat × Nat)).map Prod.fst ∧
      run3.arena.freeListHead ≠ NULL_INDEX ∧
      ∃ i t', run3.upsert 1 = .ok (i, t') ∧
        t'.arena.values i = run3.arena.values (if run3.arena.freeListHead = NULL_INDEX
          then run3.arena.capacity else run3.arena.freeListHead) :=
  ⟨run3_reach, by decide, by decide,
    upsert_absent_reads_slot run3_reach (by decide) (Or.inl (by decide))⟩

/-- Claim C6 fails on the code: on the reachable tree left by `t[1] = 10; remove(1)` the key
`1` is absent, yet `t[1]` returns a reference that reads `10`, not the default value `0`;
the same happens after `t[1] = 10; clear()`. -/
theorem upsert_reads_stale_value :
    Reach run3 [] ∧ run3.upsert 1 = .ok run4 ∧ run4.2.arena.values run4.1 = 10 ∧
      (default : Nat) = 0 ∧
      Reach run5 [] ∧ run5.upsert 1 = .ok run6 ∧ run6.2.arena.values run6.1 = 10 :=
  ⟨run3_reach, rfl, rfl, rfl, run5_reach, rfl, rfl⟩

theorem upsert_present_unchanged_witness :
    Reach run9 [(1, 10), (3, 0)] ∧ (3, 0) ∈ [(1, 10), (3, 0)] ∧
      ∃ i, run9.upsert 3 = .ok (i, run9) ∧ run9.search 3 = .ok i ∧ run9.arena.values i = 0 :=
  ⟨run9_reach, by decide, upsert_present_unchanged run9_reach (by decide)⟩

theorem upsert_absent_grows_witness :
    (Reach run9 [(1, 10), (3, 0)] ∧ 5 ∉ [(1, 10), (3, 0)].map Prod.fst ∧
      run9.arena.freeListHead ≠ NULL_INDEX ∧
      ∃ i t', run9.upsert 5 = .ok (i, t') ∧ (∃ n, run9.size = .ok n ∧ t'.size = .ok (n + 1)) ∧
        t'.search 5 = .ok i ∧
        ∀ k' x, (k', x) ∈ [(1, 10), (3, 0)] → ∃ j, t'.search k' = .ok j ∧
          t'.arena.values j = x) ∧
    (empty 4 = .ok run0 ∧ [5, 6].Nodup ∧ run0.upsertAll [5, 6] = .ok run10 ∧
      run10.size = .ok 2) :=
  ⟨⟨run9_reach, by decide, by decide,
    (upsert_absent_grows (K := Nat) (V := Nat)).1 run9 _ 5 run9_reach (by decide)
      (Or.inl (by decide))⟩,
    rfl, by decide, rfl,
    ((upsert_absent_grows (K := Nat) (V := Nat)).2 4 run0 [5, 6] (by decide) rfl
      (by decide)).1 run10 rfl⟩

theorem remove_keeps_other_entries_witness :
    Reach run8.2 [(1, 10), (2, 0), (3, 0)] ∧ 2 ∈ [(1, 10), (2, 0), (3, 0)].map Prod.fst ∧
      ∃ t', run8.2.remove 2 = .ok t' ∧ run8.2.entries = .ok [(1, 10), (2, 0), (3, 0)] ∧
        t'.entries = .ok ([(1, 10), (2, 0), (3, 0)].filter fun e => decide (e.1 ≠ 2)) ∧
        (∀ k' x, k' ≠ 2 → (k', x) ∈ [(1, 10), (2, 0), (3, 0)] →
          ∃ i, t'.search k' = .ok i ∧ t'.arena.values i = x) ∧
        (∀ k' i, t'.search k' = .ok i →
          k' ≠ 2 ∧ (k', t'.arena.values i) ∈ [(1, 10), (2, 0), (3, 0)]) :=
  ⟨run8_reach, by decide, remove_keeps_other_entries run8_reach (by decide)⟩

theorem map_visits_in_order_witness :
    Reach run8.2 [(1, 10), (2, 0), (3, 0)] ∧
      ((∃ ks, run8.2.visited = .ok ks ∧ ks.Sorted (· < ·) ∧ ks.Nodup ∧
        ∀ k, k ∈ ks ↔ ∃ i, run8.2.search k = .ok i) ∧
      run8.2.entries = .ok [(1, 10), (2, 0), (3, 0)] ∧
      ∀ (σ : Type) (fp : σ → Nat → Nat → σ × Nat) (s : σ),
        ∃ t', run8.2.map fp s = .ok (t', (mapL fp [(1, 10), (2, 0), (3, 0)] s).2)) :=
  ⟨run8_reach, map_visits_in_order run8_reach⟩

/-! ## The scenario with seven keys -/

/-- Claim C13: the seven assignments `t[5]=50, t[3]=30, t[8]=80, t[1]=10, t[4]=40, t[7]=70,
t[9]=90` on a fresh tree return and give `size() == 7`, `search(4)` reading `40` and a
successful `isValidRBTree()`; then `remove(5)` returns, `search(5)` throws the not-found
error, `size() == 6` and `isValidRBTree()` succeeds.  Both for the default capacity and for a
tree constructed with a single slot. -/
theorem scenario_seven_keys :
    (scenario DEFAULT_INIT_CAPACITY = .ok scen7 ∧ scen7.size = .ok 7 ∧
      (∃ i, scen7.search 4 = .ok i ∧ scen7.arena.values i = 40) ∧
      scen7.isValidRBTree = .ok () ∧ scen7.remove 5 = .ok scen6 ∧
      scen6.search 5 = .error .notFound ∧ scen6.size = .ok 6 ∧
      scen6.isValidRBTree = .ok ()) ∧
    (scenario 1 = .ok grow7 ∧ grow7.size = .ok 7 ∧
      (∃ i, grow7.search 4 = .ok i ∧ grow7.arena.values i = 40) ∧
      grow7.isValidRBTree = .ok () ∧ grow7.remove 5 = .ok grow6 ∧
      grow6.search 5 = .error .notFound ∧ grow6.size = .ok 6 ∧
      grow6.isValidRBTree = .ok ()) :=
  ⟨⟨rfl, rfl, ⟨_, rfl, rfl⟩, rfl, rfl, rfl, rfl, rfl⟩,
    ⟨rfl, rfl, ⟨_, rfl, rfl⟩, rfl, rfl, rfl, rfl, rfl⟩⟩

/-! ## Reachable nodes, the free list and what the nodes store -/

theorem Heap.reaches_iff {a : Arena K V} (hc : a.capacity ≤ NULL_INDEX) :
    ∀ {t : Tree K V}, Heap a t → ∀ h, a.Reaches t.root h ↔ h ∈ t.handles := by
  intro t
  induction t with
  | nil =>
    intro _ h
    simp only [Tree.root, Tree.handles, List.not_mem_nil, iff_false]
    intro hr
    cases hr with
    | here hn => exact hn rfl
    | left hn _ => exact hn rfl
    | right hn _ => exact hn rfl
  | node hh l r c g red k v ihl ihr =>
    intro hH h
    have hne := hH.ne_null hc
    obtain ⟨h1, h2, h3, -, -, -, -, -, h9, h10⟩ := hH
    simp only [Tree.root_node, Tree.handles, List.mem_append, List.mem_cons]
    constructor
    · intro hr
      cases hr with
      | here _ => exact Or.inr (Or.inl rfl)
      | left _ hl => rw [h2] at hl; exact Or.inl ((ihl h9 h).1 hl)
      | right _ hr' => rw [h3] at hr'; exact Or.inr (Or.inr ((ihr h10 h).1 hr'))
    · rintro (hm | rfl | hm)
      · exact Arena.Reaches.left hne (by rw [h2]; exact (ihl h9 h).2 hm)
      · exact Arena.Reaches.here hne
      · exact Arena.Reaches.right hne (by rw [h3]; exact (ihr h10 h).2 hm)

theorem FreeList.onFreeList_iff {a : Arena K V} (hc : a.capacity ≤ NULL_INDEX) :
    ∀ (fl : List Nat) (f : Nat), FreeList a f fl → ∀ h, a.OnFreeList f h ↔ h ∈ fl := by
  intro fl
  induction fl with
  | nil =>
    intro f hf h
    have hf' : f = NULL_INDEX := hf
    subst hf'
    simp only [List.not_mem_nil, iff_false]
    intro hr
    cases hr with
    | here hn => exact hn rfl
    | next hn _ => exact hn rfl
  | cons x xs ih =>
    intro f hf h
    obtain ⟨rfl, hx, hr⟩ := hf
    have hne : f ≠ NULL_INDEX := by omega
    simp only [List.mem_cons]
    constructor
    · intro ho
      cases ho with
      | here _ => exact Or.inl rfl
      | next _ hn => exact Or.inr ((ih _ hr h).1 hn)
    · rintro (rfl | hm)
      · exact Arena.OnFreeList.here hne
      · exact Arena.OnFreeList.next hne ((ih _ hr h).2 hm)

theorem Heap.node_consistent {a : Arena K V} (hc : a.capacity ≤ NULL_INDEX) :
    ∀ {t : Tree K V}, Heap a t → t.Cons → ∀ h ∈ t.handles, a.nodeConsistent h = true := by
  intro t
  induction t with
  | nil => intro _ _ h hm; simp [Tree.handles] at hm
  | node hh l r c g red k v ihl ihr =>
    intro hH hC h hm
    obtain ⟨c1, c2, c3, c4⟩ := hC
    have hl := hH.left
    have hr := hH.right
    simp only [Tree.left_node, Tree.right_node] at hl hr
    simp only [Tree.handles, List.mem_append, List.mem_cons] at hm
    rcases hm with hm | rfl | hm
    · exact ihl hl c3 h hm
    · obtain ⟨h1, h2, h3, h4, h5, -⟩ := hH
      simp only [Arena.nodeConsistent, h2, h3, getCount_root hl hc, getCount_root hr hc,
        getHeight_root hl hc, getHeight_root hr hc, h4, h5, c3.cnt_eq, c4.cnt_eq, c3.ht_eq,
        c4.ht_eq, Bool.and_eq_true, decide_eq_true_eq]
      rw [c1, c2]
      simp only [Tree.size, Tree.depth]
      constructor <;> omega
    · exact ihr hr c4 h hm

theorem bind_inv {α β : Type} {x : Except Err α} {f : α → Except Err β} {v : β}
    (h : (x >>= f) = .ok v) : ∃ u, x = .ok u ∧ f u = .ok v := by
  cases x with
  | error e => cases h
  | ok u => exact ⟨u, rfl, h⟩

theorem setColor_colors {a a' : Arena K V} {r c : Nat} (h : a.setColor r c = .ok a') :
    a'.colors r = c ∧ r < a.capacity ∧ a'.capacity = a.capacity := by
  simp only [Arena.setColor] at h
  split at h
  · cases h
    exact ⟨by simp [upd], by assumption, rfl⟩
  · cases h

theorem RBT.upsert_root_black [Inhabited K] [Inhabited V] [LinearOrder K] {t t' : RBT K V}
    {k : K} {i : Nat} (he : t.upsert k = .ok (i, t')) :
    t'.arena.colors t'.root = NODE_BLACK ∧ t'.root < t'.arena.capacity := by
  simp only [RBT.upsert] at he
  obtain ⟨⟨a, r⟩, -, he⟩ := bind_inv he
  obtain ⟨a2, e2, he⟩ := bind_inv he
  obtain ⟨j, -, he⟩ := bind_inv he
  cases he
  obtain ⟨h1, h2, h3⟩ := setColor_colors e2
  exact ⟨h1, by rw [h3]; exact h2⟩

theorem RBT.remove_root_black [LinearOrder K] {t t' : RBT K V} {k : K}
    (he : t.remove k = .ok t') (hn : t'.root ≠ NULL_INDEX) :
    t'.arena.colors t'.root = NODE_BLACK ∧ t'.root < t'.arena.capacity := by
  rw [RBT.remove] at he
  cases hs : t.search k with
  | error e => rw [hs] at he; cases he
  | ok j =>
    rw [hs] at he
    simp only at he
    obtain ⟨c, -, he⟩ := bind_inv he
    obtain ⟨a1, -, he⟩ := bind_inv he
    obtain ⟨⟨a2, r, n⟩, -, he⟩ := bind_inv he
    obtain ⟨a3, -, he⟩ := bind_inv he
    obtain ⟨a4, e4, he⟩ := bind_inv he
    cases he
    simp only at hn
    rw [if_pos hn] at e4
    obtain ⟨h1, h2, h3⟩ := setColor_colors e4
    exact ⟨h1, by rw [h3]; exact h2⟩

theorem isRed_of_black {a : Arena K V} {r : Nat} (h1 : a.colors r = NODE_BLACK)
    (h2 : r < a.capacity) : a.IS_RED r = .ok false := by
  simp only [Arena.IS_RED, Arena.read, h2, if_true, h1]
  split
  · rfl
  · simp [NODE_BLACK, NODE_RED, bind, Except.bind, pure, Except.pure]

theorem mapL_rewrite (g : K → V → V) : ∀ es : List (K × V),
    mapL (fun (s : Unit) k v => (s, g k v)) es () = (es.map fun e => (e.1, g e.1 e.2), ()) := by
  intro es
  induction es with
  | nil => rfl
  | cons e es ih => simp [mapL, ih]

theorem Inv.map_columns [LinearOrder K] {t t' : RBT K V} {tr : Tree K V} {fl : List Nat}
    (h : Inv t tr fl) {σ : Type} {fp : σ → K → V → σ × V} {s s' : σ}
    (he : t.map fp s = .ok (t', s')) :
    t'.root = t.root ∧ t'.arena.left = t.arena.left ∧ t'.arena.right = t.arena.right ∧
      t'.arena.counts = t.arena.counts ∧ t'.arena.heights = t.arena.heights ∧
      t'.arena.colors = t.arena.colors ∧ t'.arena.keys = t.arena.keys ∧
      t'.arena.capacity = t.arena.capacity ∧ t'.arena.freeListHead = t.arena.freeListHead := by
  obtain ⟨a', E, -, F, c1, c2, c3, c4, c5, c6⟩ := prvMap_heap fp tr t.fuel t.arena s h.heap
    h.nodup_tr h.cap_le h.depth_lt
  rw [← h.root] at E
  simp only [RBT.map, bind_ok E] at he
  cases he
  exact ⟨rfl, c1, c2, c3, c4, c5, c6, F.capacity, F.freeListHead⟩

theorem Inv.clear_facts [LinearOrder K] {t t' : RBT K V} {tr : Tree K V} {fl : List Nat}
    (h : Inv t tr fl) (he : t.clear = .ok t') :
    Inv t' .nil (tr.freed ++ fl) ∧ t'.arena.capacity = t.arena.capacity ∧
      t'.root = NULL_INDEX := by
  obtain ⟨a', E, -, C, -⟩ := prvClear_heap tr t.fuel t.arena fl h.heap h.nodup h.free h.cap_le
    h.depth_lt
  obtain ⟨t1, e1, I1, -⟩ := h.clear
  rw [he] at e1
  cases e1
  rw [← h.root] at E
  simp only [RBT.clear, bind_ok E] at he
  cases he
  exact ⟨I1, C.capacity, rfl⟩

theorem Tree.isNil_facts (t : Tree K V) :
    (t.isNil = true ↔ t.toList = []) ∧ (t.isNil = true ↔ t.depth = 0) := by
  cases t with
  | nil => simp [Tree.isNil, Tree.depth]
  | node => simp [Tree.isNil, Tree.depth]

theorem Tree.check_not_tooTall [LinearOrder K] :
    ∀ (t : Tree K V) (ld cd : Nat), Tree.check t ld cd ≠ .error (.invariant .tooTall) := by
  intro t
  induction t with
  | nil =>
    intro ld cd
    simp only [Tree.check]
    split_ifs <;> simp
  | node h l r c g red k v ihl ihr =>
    intro ld cd
    simp only [Tree.check]
    split
    · simp
    · split
      · simp
      · split
        · simp
        · cases hl : Tree.check l ld ((cd + if red = true then 0 else 1) % UINT32) with
          | error e =>
            have := ihl ld ((cd + if red = true then 0 else 1) % UINT32)
            rw [hl] at this
            simpa [Except.bind] using this
          | ok v1 =>
            simp only [Except.bind]
            exact ihr _ _

theorem empty_root [Inhabited K] [Inhabited V] {cap : Nat} {t : RBT K V}
    (h : empty cap = .ok t) : t.root = NULL_INDEX := by
  simp only [empty, construct] at h
  by_cases hc : cap = 0
  · subst hc
    simp [Arena.static0] at h
  · have h0 : (Arena.static0 : Arena K V).nTrees = 0 := rfl
    rw [if_pos h0, if_neg hc] at h
    cases h
    rfl

section Claims2
variable [Inhabited K] [Inhabited V] [LinearOrder K]

theorem Reach.removeAll_ok : ∀ (ks : List K) {t : RBT K V} {es : List (K × V)},
    Reach t es → ks.Perm (es.map Prod.fst) → ∃ t', t.removeAll ks = .ok t' ∧ Reach t' [] := by
  intro ks
  induction ks with
  | nil =>
    intro t es h hp
    have : es = [] := by
      have := hp.length_eq
      simp only [List.length_nil, List.length_map] at this
      exact List.length_eq_zero.1 this.symm
    subst this
    exact ⟨t, rfl, h⟩
  | cons k ks ih =>
    intro t es h hp
    have hk : k ∈ es.map Prod.fst := hp.subset (List.mem_cons_self _ _)
    obtain ⟨t1, e1, h1⟩ := h.remove_returns hk
    have hnd : (es.map Prod.fst).Nodup := by
      have := h.sorted
      have hs : (es.map Prod.fst).Sorted (· < ·) := by
        simpa [SortedK, List.Sorted, List.pairwise_map] using this
      exact hs.nodup
    have hp' : ks.Perm ((es.filter fun e => decide (e.1 ≠ k)).map Prod.fst) := by
      have hnk : (k :: ks).Nodup := (hp.nodup_iff).2 hnd
      obtain ⟨hk1, hk2⟩ := List.nodup_cons.1 hnk
      have hnd1 : ((es.filter fun e => decide (e.1 ≠ k)).map Prod.fst).Nodup := by
        have hs1 := h1.sorted
        have hs : ((es.filter fun e => decide (e.1 ≠ k)).map Prod.fst).Sorted (· < ·) := by
          simpa [SortedK, List.Sorted, List.pairwise_map] using hs1
        exact hs.nodup
      refine (List.perm_ext_iff_of_nodup hk2 hnd1).2 (fun x => ?_)
      constructor
      · intro hx
        have hx1 : x ∈ es.map Prod.fst := hp.subset (List.mem_cons_of_mem _ hx)
        obtain ⟨e, he, rfl⟩ := List.mem_map.1 hx1
        refine List.mem_map.2 ⟨e, List.mem_filter.2 ⟨he, ?_⟩, rfl⟩
        simp only [decide_eq_true_eq]
        rintro rfl
        exact hk1 hx
      · intro hx
        obtain ⟨e, he, rfl⟩ := List.mem_map.1 hx
        obtain ⟨he1, he2⟩ := List.mem_filter.1 he
        simp only [decide_eq_true_eq] at he2
        have := hp.symm.subset (List.mem_map.2 ⟨e, he1, rfl⟩)
        rcases List.mem_cons.1 this with h3 | h3
        · exact absurd h3 he2
        · exact h3
    obtain ⟨t', e', h'⟩ := ih h1 hp'
    exact ⟨t', by simp only [RBT.removeAll, e1]; exact e', h'⟩

/-- Claim C11: `map` with a visitor that only rewrites the value it is handed to `g k v`
returns; afterwards `search(k)` reads `g k x` for every entry `(k, x)` the tree held, the same
keys are found and not found as before, and the root, the links, colours, counts, heights,
keys, the free list head and the capacity are as before. -/
theorem map_rewrites_values {t : RBT K V} {es : List (K × V)} (h : Reach t es)
    (g : K → V → V) :
    ∃ t', t.map (fun (s : Unit) k v => (s, g k v)) () = .ok (t', ()) ∧
      (∀ k x, (k, x) ∈ es → ∃ i, t'.search k = .ok i ∧ t'.arena.values i = g k x) ∧
      (∀ k, t'.search k = .error .notFound ↔ t.search k = .error .notFound) ∧
      t'.root = t.root ∧ t'.arena.left = t.arena.left ∧ t'.arena.right = t.arena.right ∧
      t'.arena.counts = t.arena.counts ∧ t'.arena.heights = t.arena.heights ∧
      t'.arena.colors = t.arena.colors ∧ t'.arena.keys = t.arena.keys ∧
      t'.arena.capacity = t.arena.capacity ∧
      t'.arena.freeListHead = t.arena.freeListHead := by
  obtain ⟨t', e, hr⟩ := h.map_eq (fun (s : Unit) k v => (s, g k v)) ()
  rw [mapL_rewrite] at e hr
  simp only at e hr
  obtain ⟨tr, fl, I, rfl⟩ := h.inv
  refine ⟨t', e, fun k x hx => hr.lookup (List.mem_map.2 ⟨(k, x), hx, rfl⟩), fun k => ?_,
    I.map_columns e⟩
  have hkeys : (tr.toList.map fun e => (e.1, g e.1 e.2)).map Prod.fst = tr.toList.map Prod.fst := by
    simp [List.map_map, Function.comp_def]
  by_cases hk : k ∈ tr.toList.map Prod.fst
  · obtain ⟨⟨k', x⟩, hm, hkx⟩ := List.mem_map.1 hk
    simp only at hkx
    subst hkx
    obtain ⟨i, e1, -⟩ := h.lookup hm
    obtain ⟨j, e2, -⟩ := hr.lookup (List.mem_map.2 ⟨(k', x), hm, rfl⟩)
    rw [e1, e2]
    simp
  · rw [h.lookup_none hk, hr.lookup_none (by rw [hkeys]; exact hk)]

/-- Claim C12: `clear()` on a reachable tree returns; afterwards `isEmpty()` is true,
`size()` and `height()` are `0`, the capacity is the one before, every node that was reachable
from the old root is on the free list, and so is every slot that was on it before. -/
theorem clear_releases_nodes {t : RBT K V} {es : List (K × V)} (h : Reach t es) :
    ∃ t', t.clear = .ok t' ∧ t'.isEmpty = true ∧ t'.size = .ok 0 ∧ t'.height = .ok 0 ∧
      t'.arena.capacity = t.arena.capacity ∧
      (∀ i, t.arena.Reaches t.root i → t'.arena.OnFreeList t'.arena.freeListHead i) ∧
      (∀ i, t.arena.OnFreeList t.arena.freeListHead i →
        t'.arena.OnFreeList t'.arena.freeListHead i) := by
  obtain ⟨tr, fl, I, rfl⟩ := h.inv
  obtain ⟨t', e, -, -⟩ := I.clear
  obtain ⟨I', hc, hr⟩ := I.clear_facts e
  refine ⟨t', e, by simp [RBT.isEmpty, hr], I'.size_eq, I'.height_eq, hc, fun i hi => ?_,
    fun i hi => ?_⟩
  · rw [I.root, Heap.reaches_iff I.cap_le I.heap] at hi
    rw [FreeList.onFreeList_iff I'.cap_le _ _ I'.free]
    exact List.mem_append_left _ ((tr.freed_perm.mem_iff).2 hi)
  · rw [FreeList.onFreeList_iff I.cap_le _ _ I.free] at hi
    rw [FreeList.onFreeList_iff I'.cap_le _ _ I'.free]
    exact List.mem_append_right _ hi

/-- Claim C15: on a reachable tree `isEmpty()`, `size() == 0` and `height() == 0` are
equivalent (and hold exactly when the tree has no entry); a fresh tree satisfies them, a tree
just returned by `operator[]` does not, and removing the keys of the tree in any order
returns and leads to a tree that satisfies them. -/
theorem empty_size_height_equivalent {t : RBT K V} {es : List (K × V)} (h : Reach t es) :
    ((t.isEmpty = true ↔ t.size = .ok 0) ∧ (t.isEmpty = true ↔ t.height = .ok 0) ∧
      (t.isEmpty = true ↔ es = [])) ∧
    (∀ cap (t0 : RBT K V), empty cap = .ok t0 →
      t0.isEmpty = true ∧ t0.size = .ok 0 ∧ t0.height = .ok 0) ∧
    (∀ k i t', t.upsert k = .ok (i, t') →
      t'.isEmpty = false ∧ t'.size ≠ .ok 0 ∧ t'.height ≠ .ok 0) ∧
    (∀ ks : List K, ks.Perm (es.map Prod.fst) →
      ∃ t', t.removeAll ks = .ok t' ∧ t'.isEmpty = true ∧ t'.size = .ok 0 ∧
        t'.height = .ok 0) := by
  have key : ∀ {t : RBT K V} {es : List (K × V)}, Reach t es →
      (t.isEmpty = true ↔ t.size = .ok 0) ∧ (t.isEmpty = true ↔ t.height = .ok 0) ∧
      (t.isEmpty = true ↔ es = []) := by
    intro t es h
    obtain ⟨tr, fl, I, rfl⟩ := h.inv
    rw [I.isEmpty_eq, I.size_eq, I.height_eq]
    obtain ⟨h1, h2⟩ := tr.isNil_facts
    refine ⟨?_, ?_, h1⟩
    · rw [h1]; simp [List.length_eq_zero]
    · rw [h2]; simp
  refine ⟨key h, fun cap t0 he => ?_, fun k i t' he => ?_, fun ks hp => ?_⟩
  · have hroot := empty_root he
    simp [RBT.isEmpty, RBT.size, RBT.height, Arena.GET_COUNT, Arena.GET_HEIGHT, hroot]
  · have hr := Reach.upsert h he
    obtain ⟨k1, k2, k3⟩ := key hr
    have hne : insL k (t'.arena.values i) es ≠ [] := by
      intro hc
      have := hr.lookup_inv (h.upsert_search he)
      rw [hc] at this
      simp at this
    have he' : ¬ t'.isEmpty = true := fun hc => hne (k3.1 hc)
    exact ⟨by simpa using he', fun hc => he' (k1.2 hc), fun hc => he' (k2.2 hc)⟩
  · obtain ⟨t', e, hr⟩ := h.removeAll_ok ks hp
    obtain ⟨k1, k2, k3⟩ := key hr
    have := k3.2 rfl
    exact ⟨t', e, this, k1.1 this, k2.1 this⟩

/-- Claim C16: in a reachable tree every node reachable from the root stores
`count == 1 + count(left) + count(right)` and `height == 1 + max(height(left),
height(right))`, an absent child counting as `0`; and `size()` is the number of nodes
reachable from the root. -/
theorem counts_heights_consistent {t : RBT K V} {es : List (K × V)} (h : Reach t es) :
    (∀ i, t.arena.Reaches t.root i → t.arena.nodeConsistent i = true) ∧
    ∃ hs : List Nat, hs.Nodup ∧ (∀ i, i ∈ hs ↔ t.arena.Reaches t.root i) ∧
      t.size = .ok hs.length := by
  obtain ⟨tr, fl, I, rfl⟩ := h.inv
  refine ⟨fun i hi => ?_, tr.handles, I.nodup_tr, fun i => ?_, ?_⟩
  · rw [I.root, Heap.reaches_iff I.cap_le I.heap] at hi
    exact Heap.node_consistent I.cap_le I.heap I.cons i hi
  · rw [I.root, Heap.reaches_iff I.cap_le I.heap]
  · rw [I.size_eq, Tree.handles_length, Tree.size_eq_length]

end Claims2

/-- Claim C17, as the code has it: a tree that satisfies the colour invariants (no red right
child, no red node with a red left child, black root, equal black height on all paths) and
stores correct counts and heights (the count being a `uint32_t`) has
`height(root) <= 2*ceil(log2(count(root)+1))`.  In an arena that stores it, `isValidRBTree`
does not throw the too-tall error as long as `count(root)+1` is a `uint32_t` as well; for a
tree of `2^32-1` nodes the sum wraps to zero and `isValidRBTree` does not return normally. -/
theorem height_bound_of_invariants [LinearOrder K] (tr : Tree K V) (hok : tr.Ok)
    (hb : tr.isRed = false) (hc : tr.Cons) (hs : tr.cnt < UINT32) :
    tr.ht ≤ 2 * RBT.ceilLog2 (tr.cnt + 1) ∧
    ∀ t : RBT K V, Heap t.arena tr → t.root = tr.root → t.arena.capacity ≤ NULL_INDEX →
      tr.depth < t.fuel →
      (tr.cnt + 1 < UINT32 → t.isValidRBTree ≠ .error (.invariant .tooTall)) ∧
      (tr.cnt + 1 = UINT32 → t.isValidRBTree ≠ .ok ()) := by
  have hbound : tr.ht ≤ 2 * RBT.ceilLog2 (tr.cnt + 1) := by
    rw [hc.ht_eq, hc.cnt_eq]
    rw [hc.cnt_eq] at hs
    exact hok.height_bound hb (by omega)
  refine ⟨hbound, fun t hH hr hcap hf => ⟨fun hs1 => ?_, fun hs2 => ?_⟩⟩
  · simp only [RBT.isValidRBTree]
    split
    · simp [pure, Except.pure]
    · rw [hr, prvIsValid_heap hcap tr t.fuel NULL_INDEX 0 hH hf]
      cases hck : Tree.check tr NULL_INDEX 0 with
      | error e =>
        have := Tree.check_not_tooTall tr NULL_INDEX 0
        rw [hck] at this
        simpa [bind, Except.bind] using this
      | ok v =>
        rw [bind_ok rfl, bind_ok (getHeight_root hH hcap), bind_ok (getCount_root hH hcap)]
        have e4 : (tr.cnt + 1) % UINT32 = tr.cnt + 1 := Nat.mod_eq_of_lt hs1
        simp only [e4]
        rw [if_neg]
        · simp [pure, Except.pure]
        · intro hc'
          rcases hc' with hc' | hc'
          · omega
          · omega
  · have hne : t.root ≠ NULL_INDEX := by
      rw [hr]
      intro hn
      have := (Heap.root_null_iff hH hcap).1 hn
      rw [this] at hs2
      simp [Tree.cnt, UINT32] at hs2
    simp only [RBT.isValidRBTree, if_neg hne]
    rw [hr, prvIsValid_heap hcap tr t.fuel NULL_INDEX 0 hH hf]
    cases hck : Tree.check tr NULL_INDEX 0 with
    | error e => simp [bind, Except.bind]
    | ok v =>
      rw [bind_ok rfl, bind_ok (getHeight_root hH hcap), bind_ok (getCount_root hH hcap)]
      have e4 : (tr.cnt + 1) % UINT32 = 0 := by rw [hs2]; exact Nat.mod_self _
      simp only [e4, true_or, if_true]
      simp

/-- Claim C18: after every `operator[]` that returns, and after every `remove` that returns
and leaves a non-empty tree, the colour stored for the root is `NODE_BLACK` (so `IS_RED(root)`
is false): the red colouring of the root inside `remove` does not outlive the call. -/
theorem root_black_after_update [Inhabited K] [Inhabited V] [LinearOrder K] (t : RBT K V)
    (k : K) :
    (∀ i t', t.upsert k = .ok (i, t') →
      t'.arena.colors t'.root = NODE_BLACK ∧ t'.arena.IS_RED t'.root = .ok false) ∧
    (∀ t', t.remove k = .ok t' → t'.isEmpty = false →
      t'.arena.colors t'.root = NODE_BLACK ∧ t'.arena.IS_RED t'.root = .ok false) := by
  refine ⟨fun i t' he => ?_, fun t' he hn => ?_⟩
  · obtain ⟨h1, h2⟩ := RBT.upsert_root_black he
    exact ⟨h1, isRed_of_black h1 h2⟩
  · have hn' : t'.root ≠ NULL_INDEX := by simpa [RBT.isEmpty] using hn
    obtain ⟨h1, h2⟩ := RBT.remove_root_black he hn'
    exact ⟨h1, isRed_of_black h1 h2⟩

/-! ## What the validator looks at -/

theorem read_inv {α : Type} {a : Arena K V} {col : Nat → α} {i : Nat} {x : α}
    (h : a.read col i = .ok x) : x = col i ∧ i < a.capacity := by
  simp only [Arena.read] at h
  split at h
  · cases h; exact ⟨rfl, by assumption⟩
  · cases h

theorem leftNotLess_false [LinearOrder K] {a : Arena K V} {r : Nat}
    (h : a.leftNotLess r = .ok false) : a.left r ≠ NULL_INDEX → a.keys (a.left r) < a.keys r := by
  intro hn
  simp only [Arena.leftNotLess] at h
  obtain ⟨l, e1, h⟩ := bind_inv h
  obtain ⟨rfl, -⟩ := read_inv e1
  rw [if_pos hn] at h
  obtain ⟨kl, e2, h⟩ := bind_inv h
  obtain ⟨kr, e3, h⟩ := bind_inv h
  obtain ⟨rfl, -⟩ := read_inv e2
  obtain ⟨rfl, -⟩ := read_inv e3
  simp only [pure, Except.pure, Except.ok.injEq, decide_eq_false_iff_not, not_le] at h
  exact h

theorem rightNotLarger_false [LinearOrder K] {a : Arena K V} {r : Nat}
    (h : a.rightNotLarger r = .ok false) :
    a.right r ≠ NULL_INDEX → a.keys r < a.keys (a.right r) := by
  intro hn
  simp only [Arena.rightNotLarger] at h
  obtain ⟨l, e1, h⟩ := bind_inv h
  obtain ⟨rfl, -⟩ := read_inv e1
  rw [if_pos hn] at h
  obtain ⟨kl, e2, h⟩ := bind_inv h
  obtain ⟨kr, e3, h⟩ := bind_inv h
  obtain ⟨rfl, -⟩ := read_inv e2
  obtain ⟨rfl, -⟩ := read_inv e3
  simp only [pure, Except.pure, Except.ok.injEq, decide_eq_false_iff_not, not_le] at h
  exact h

theorem prvIsValid_local [LinearOrder K] (a : Arena K V) :
    ∀ (fuel r ld cd v : Nat), Arena.prvIsValid fuel a r ld cd = .ok v →
    ∀ h, a.Reaches r h → a.locallyOrdered h := by
  intro fuel
  induction fuel with
  | zero => intro r ld cd v he; simp [Arena.prvIsValid] at he
  | succ fuel ih =>
    intro r ld cd v he h hr
    have hne : r ≠ NULL_INDEX := by
      cases hr with
      | here hn => exact hn
      | left hn _ => exact hn
      | right hn _ => exact hn
    rw [Arena.prvIsValid, if_neg hne] at he
    obtain ⟨c1, -, he⟩ := bind_inv he
    cases c1 with
    | true => simp at he
    | false =>
      simp only [Bool.false_eq_true, if_false] at he
      obtain ⟨c2, e2, he⟩ := bind_inv he
      cases c2 with
      | true => simp at he
      | false =>
        simp only [Bool.false_eq_true, if_false] at he
        obtain ⟨c3, e3, he⟩ := bind_inv he
        cases c3 with
        | true => simp at he
        | false =>
          simp only [Bool.false_eq_true, if_false] at he
          obtain ⟨l, el, he⟩ := bind_inv he
          obtain ⟨d, -, he⟩ := bind_inv he
          obtain ⟨ld1, e4, he⟩ := bind_inv he
          obtain ⟨rt, er, he⟩ := bind_inv he
          obtain ⟨d2, -, he⟩ := bind_inv he
          obtain ⟨rfl, -⟩ := read_inv el
          obtain ⟨rfl, -⟩ := read_inv er
          cases hr with
          | here _ => exact ⟨leftNotLess_false e2, rightNotLarger_false e3⟩
          | left _ hl => exact ih _ _ _ _ e4 h hl
          | right _ hr' => exact ih _ _ _ _ he h hr'

theorem prvIsValid_columns [LinearOrder K] (a : Arena K V) (c g : Nat → Nat) (x : Nat → V)
    (n f : Nat) : ∀ (fuel r ld cd : Nat),
    Arena.prvIsValid fuel
        { a with counts := c, heights := g, values := x, nTrees := n, freeListHead := f }
        r ld cd =
      Arena.prvIsValid fuel a r ld cd := by
  intro fuel
  induction fuel with
  | zero => intro r ld cd; rfl
  | succ fuel ih =>
    intro r ld cd
    have e1 : Arena.redViolation
        { a with counts := c, heights := g, values := x, nTrees := n, freeListHead := f } r =
      a.redViolation r := rfl
    have e2 : Arena.leftNotLess
        { a with counts := c, heights := g, values := x, nTrees := n, freeListHead := f } r =
      a.leftNotLess r := rfl
    have e3 : Arena.rightNotLarger
        { a with counts := c, heights := g, values := x, nTrees := n, freeListHead := f } r =
      a.rightNotLarger r := rfl
    have e4 : ∀ d, Arena.childDepth
        { a with counts := c, heights := g, values := x, nTrees := n, freeListHead := f } r d =
      a.childDepth r d := fun _ => rfl
    have e5 : ∀ col : Nat → Nat, Arena.read
        { a with counts := c, heights := g, values := x, nTrees := n, freeListHead := f }
        col r =
      a.read col r := fun _ => rfl
    rw [Arena.prvIsValid, Arena.prvIsValid]
    simp only [e1, e2, e3, e4, e5, ih]

/-- Claim C19, as the code has it: `isValidRBTree` does not look at the counts and heights the
nodes store, except for the two numbers stored for the root that enter the too-tall test.  Two
states with the same root, links, colours, keys and capacity, and the same count and height
stored for the root, get the same verdict, whatever else they store; so a wrong count or
height below the root is never reported. -/
theorem validator_ignores_counts [LinearOrder K] (t t' : RBT K V) (hroot : t'.root = t.root)
    (hl : t'.arena.left = t.arena.left) (hr : t'.arena.right = t.arena.right)
    (hcol : t'.arena.colors = t.arena.colors) (hk : t'.arena.keys = t.arena.keys)
    (hcap : t'.arena.capacity = t.arena.capacity)
    (hc : t'.arena.counts t.root = t.arena.counts t.root)
    (hh : t'.arena.heights t.root = t.arena.heights t.root) :
    t'.isValidRBTree = t.isValidRBTree := by
  have ha : t'.arena = { t.arena with
      counts := t'.arena.counts, heights := t'.arena.heights, values := t'.arena.values,
      nTrees := t'.arena.nTrees, freeListHead := t'.arena.freeListHead } :=
    Arena.ext' hl hr rfl rfl hcol hk rfl rfl rfl hcap
  have e1 : ∀ ld cd, Arena.prvIsValid t'.fuel t'.arena t.root ld cd =
      Arena.prvIsValid t.fuel t.arena t.root ld cd := by
    intro ld cd
    have hfuel : t'.fuel = t.fuel := by simp only [RBT.fuel, hcap]
    rw [hfuel, ha]
    exact prvIsValid_columns t.arena _ _ _ _ _ _ _ _ _
  have e2 : t'.arena.GET_HEIGHT t.root = t.arena.GET_HEIGHT t.root := by
    simp only [Arena.GET_HEIGHT, Arena.read, hcap, hh]
  have e3 : t'.arena.GET_COUNT t.root = t.arena.GET_COUNT t.root := by
    simp only [Arena.GET_COUNT, Arena.read, hcap, hc]
  simp only [RBT.isValidRBTree, hroot, e1, e2, e3]

/-- Claim C19 fails on the code: in `miscounted` the root stores count `3` over children
that store `5` and `1`, and the right child stores height `9`, yet `isValidRBTree` returns
without throwing. -/
theorem validator_accepts_wrong_count :
    miscounted.isEmpty = false ∧
      miscounted.arena.Reaches miscounted.root miscounted.root ∧
      miscounted.arena.nodeConsistent miscounted.root = false ∧
      miscounted.arena.counts miscounted.root = 3 ∧
      miscounted.arena.GET_COUNT (miscounted.arena.left miscounted.root) = .ok 5 ∧
      miscounted.arena.GET_COUNT (miscounted.arena.right miscounted.root) = .ok 1 ∧
      miscounted.arena.GET_HEIGHT (miscounted.arena.right miscounted.root) = .ok 9 ∧
      miscounted.isValidRBTree = .ok () :=
  ⟨rfl, Arena.Reaches.here (by decide), rfl, rfl, rfl, rfl, rfl, rfl⟩

/-- Claim C20, as the code has it: `isValidRBTree` compares the key of a node with the keys
of its two children only.  When it returns without throwing, every node reachable from the
root has a smaller key in its left child and a larger key in its right child. -/
theorem validator_checks_children_only [LinearOrder K] (t : RBT K V)
    (h : t.isValidRBTree = .ok ()) :
    ∀ i, t.arena.Reaches t.root i → t.arena.locallyOrdered i := by
  intro i hi
  have hne : t.root ≠ NULL_INDEX := by
    cases hi with
    | here hn => exact hn
    | left hn _ => exact hn
    | right hn _ => exact hn
  simp only [RBT.isValidRBTree, if_neg hne] at h
  obtain ⟨v, e, -⟩ := bind_inv h
  exact prvIsValid_local t.arena _ _ _ _ _ e i hi

/-- Claim C20 fails on the code: in `misordered` the key `70` lies in the left subtree of the
root key `50`, two levels down, so the in-order key sequence `10 30 70 50 60 80 90` is not
increasing (and `search(70)` does not find the key), yet `isValidRBTree` returns without
throwing. -/
theorem validator_accepts_deep_disorder :
    misordered.isValidRBTree = .ok () ∧
      misordered.visited = .ok [10, 30, 70, 50, 60, 80, 90] ∧
      ¬ ([10, 30, 70, 50, 60, 80, 90] : List Nat).Sorted (· < ·) ∧
      misordered.arena.keys (misordered.arena.right (misordered.arena.left misordered.root)) = 70 ∧
      misordered.arena.keys misordered.root = 50 ∧
      misordered.search 70 = .error .notFound :=
  ⟨rfl, rfl, by decide, rfl, rfl, rfl⟩

theorem validator_ignores_counts_witness :
    (miscounted.root = run8.2.root ∧ miscounted.arena.left = run8.2.arena.left ∧
      miscounted.arena.right = run8.2.arena.right ∧
      miscounted.arena.colors = run8.2.arena.colors ∧
      miscounted.arena.keys = run8.2.arena.keys ∧
      miscounted.arena.capacity = run8.2.arena.capacity ∧
      miscounted.arena.counts run8.2.root = run8.2.arena.counts run8.2.root ∧
      miscounted.arena.heights run8.2.root = run8.2.arena.heights run8.2.root) ∧
      miscounted.isValidRBTree = run8.2.isValidRBTree :=
  ⟨⟨rfl, rfl, rfl, rfl, rfl, rfl, rfl, rfl⟩,
    validator_ignores_counts run8.2 miscounted rfl rfl rfl rfl rfl rfl rfl rfl⟩

theorem validator_checks_children_only_witness :
    misordered.isValidRBTree = .ok () ∧
      ∀ i, misordered.arena.Reaches misordered.root i → misordered.arena.locallyOrdered i :=
  ⟨rfl, validator_checks_children_only misordered rfl⟩

theorem map_rewrites_values_witness :
    Reach run8.2 [(1, 10), (2, 0), (3, 0)] ∧
      ∃ t', run8.2.map (fun (s : Unit) k v => (s, k + v)) () = .ok (t', ()) ∧
        (∀ k x, (k, x) ∈ [(1, 10), (2, 0), (3, 0)] →
          ∃ i, t'.search k = .ok i ∧ t'.arena.values i = k + x) ∧
        (∀ k, t'.search k = .error .notFound ↔ run8.2.search k = .error .notFound) ∧
        t'.root = run8.2.root ∧ t'.arena.left = run8.2.arena.left ∧
        t'.arena.right = run8.2.arena.right ∧ t'.arena.counts = run8.2.arena.counts ∧
        t'.arena.heights = run8.2.arena.heights ∧ t'.arena.colors = run8.2.arena.colors ∧
        t'.arena.keys = run8.2.arena.keys ∧ t'.arena.capacity = run8.2.arena.capacity ∧
        t'.arena.freeListHead = run8.2.arena.freeListHead :=
  ⟨run8_reach, map_rewrites_values run8_reach (fun k v => k + v)⟩

theorem clear_releases_nodes_witness :
    Reach run8.2 [(1, 10), (2, 0), (3, 0)] ∧
      ∃ t', run8.2.clear = .ok t' ∧ t'.isEmpty = true ∧ t'.size = .ok 0 ∧ t'.height = .ok 0 ∧
        t'.arena.capacity = run8.2.arena.capacity ∧
        (∀ i, run8.2.arena.Reaches run8.2.root i →
          t'.arena.OnFreeList t'.arena.freeListHead i) ∧
        (∀ i, run8.2.arena.OnFreeList run8.2.arena.freeListHead i →
          t'.arena.OnFreeList t'.arena.freeListHead i) :=
  ⟨run8_reach, clear_releases_nodes run8_reach⟩

theorem empty_size_height_equivalent_witness :
    Reach run8.2 [(1, 10), (2, 0), (3, 0)] ∧
      (run8.2.isEmpty = true ↔ run8.2.size = .ok 0) ∧
      (run8.2.isEmpty = true ↔ run8.2.height = .ok 0) ∧
      (∃ t', run8.2.removeAll [3, 1, 2] = .ok t' ∧ t'.isEmpty = true ∧ t'.size = .ok 0 ∧
        t'.height = .ok 0) :=
  ⟨run8_reach, (empty_size_height_equivalent run8_reach).1.1,
    (empty_size_height_equivalent run8_reach).1.2.1,
    (empty_size_height_equivalent run8_reach).2.2.2 [3, 1, 2] (by decide)⟩

theorem counts_heights_consistent_witness :
    Reach run8.2 [(1, 10), (2, 0), (3, 0)] ∧
      ((∀ i, run8.2.arena.Reaches run8.2.root i → run8.2.arena.nodeConsistent i = true) ∧
      ∃ hs : List Nat, hs.Nodup ∧ (∀ i, i ∈ hs ↔ run8.2.arena.Reaches run8.2.root i) ∧
        run8.2.size = .ok hs.length) :=
  ⟨run8_reach, counts_heights_consistent run8_reach⟩

theorem height_bound_of_invariants_witness :
    (shape2.Ok ∧ shape2.isRed = false ∧ shape2.Cons ∧ shape2.cnt < UINT32) ∧
      shape2.ht ≤ 2 * RBT.ceilLog2 (shape2.cnt + 1) ∧
      ∀ t : RBT Nat Nat, Heap t.arena shape2 → t.root = shape2.root →
        t.arena.capacity ≤ NULL_INDEX → shape2.depth < t.fuel →
        (shape2.cnt + 1 < UINT32 → t.isValidRBTree ≠ .error (.invariant .tooTall)) ∧
        (shape2.cnt + 1 = UINT32 → t.isValidRBTree ≠ .ok ()) :=
  have h1 : shape2.Ok := by simp [shape2, Tree.Ok, Tree.isRed, Tree.bh]
  have h2 : shape2.Cons := by simp [shape2, Tree.Cons, Tree.size, Tree.depth]
  have h3 : shape2.cnt < UINT32 := by decide
  ⟨⟨h1, rfl, h2, h3⟩, height_bound_of_invariants shape2 h1 rfl h2 h3⟩

theorem root_black_after_update_witness :
    (run2.upsert 2 = .ok (run7.1, run7.2) ∧ run7.2.arena.colors run7.2.root = NODE_BLACK ∧
      run7.2.arena.IS_RED run7.2.root = .ok false) ∧
    (run8.2.remove 2 = .ok run9 ∧ run9.isEmpty = false ∧
      run9.arena.colors run9.root = NODE_BLACK ∧ run9.arena.IS_RED run9.root = .ok false) :=
  ⟨⟨rfl, (root_black_after_update run2 2).1 run7.1 run7.2 rfl⟩,
    ⟨rfl, rfl, (root_black_after_update run8.2 2).2 run9 rfl rfl⟩⟩

/-! ## Two trees on one arena

A member function called on one object writes only cells of its own tree, cells of the free
list and cells the arena did not have before; the other tree owns none of these. -/

theorem Within.unchanged {S S' : List Nat} (a : Arena K V) (h : ∀ j, j ∈ S' → j ∈ S)
    (hl : S'.length = S.length) : Within S S' a a :=
  ⟨le_refl _, rfl, fun _ _ _ => Agree.rfl, fun j hj => Or.inl (h j hj), by rw [hl]⟩

theorem Frame.within {T S S' : List Nat} {a a' : Arena K V} (h : Frame T a a')
    (hT : ∀ i, i ∈ T → i ∈ S) (hS : ∀ j, j ∈ S' → j ∈ S) (hl : S'.length = S.length) :
    Within S S' a a' :=
  ⟨le_of_eq h.capacity.symm, h.nTrees, fun i _ hi => h.agree i (fun hm => hi (hT i hm)),
    fun j hj => Or.inl (hS j hj), by rw [hl, h.capacity]⟩

theorem Within.compose {S S1 S2 : List Nat} {a b c : Arena K V} (h1 : Within S S1 a b)
    (h2 : Within S1 S2 b c) : Within S S2 a c := by
  refine ⟨le_trans h1.cap_le h2.cap_le, h2.nTrees.trans h1.nTrees, fun i hi hS => ?_,
    fun j hj => ?_, ?_⟩
  · refine (h1.outside i hi hS).chain (h2.outside i (lt_of_lt_of_le hi h1.cap_le) ?_)
    intro hm
    rcases h1.inside i hm with hm | hm
    · exact hS hm
    · omega
  · rcases h2.inside j hj with hj | hj
    · exact h1.inside j hj
    · exact Or.inr (le_trans h1.cap_le hj)
  · have c1 := h1.count
    have c2 := h2.count
    omega

section Shared
variable [LinearOrder K] {a a' : Arena K V} {r b : Nat} {trA trA' trB : Tree K V}
  {fl fl' : List Nat}

/-- A tree that shares the arena with the tree a step worked on is left as it was. -/
theorem Inv.bystander (hB : Inv ({ arena := a, root := b } : RBT K V) trB fl)
    (hA' : Inv ({ arena := a', root := r } : RBT K V) trA' fl')
    (hW : Within (trA.handles ++ fl) (trA'.handles ++ fl') a a')
    (hd : ∀ i, i ∈ trA.handles → i ∉ trB.handles) :
    Inv ({ arena := a', root := b } : RBT K V) trB fl' ∧
      ∀ i, i ∈ trA'.handles → i ∉ trB.handles := by
  have hlt : ∀ i, i ∈ trB.handles → i < a.capacity := hB.heap.mem_lt
  have hout : ∀ i, i ∈ trB.handles → i ∉ trA.handles ++ fl := by
    intro i hi hm
    rcases List.mem_append.1 hm with hm | hm
    · exact hd i hm hi
    · exact hB.disjoint i hi hm
  have hnew : ∀ j, j ∈ trA'.handles ++ fl' → j ∉ trB.handles := by
    intro j hj hm
    rcases hW.inside j hj with hj | hj
    · exact hout j hm hj
    · have := hlt j hm
      omega
  refine ⟨⟨?_, hB.root, hA'.free, ?_, hA'.cap_pos, hA'.cap_le, hB.ok, hB.black, hB.bst,
    hB.cons⟩, fun i hi => hnew i (List.mem_append_left _ hi)⟩
  · exact hB.heap.agree hW.cap_le (fun i hi => hW.outside i (hlt i hi) (hout i hi))
  · rw [List.nodup_append]
    exact ⟨hB.nodup_tr, hA'.nodup_fl, fun j hj hf => hnew j (List.mem_append_right _ hf) hj⟩

end Shared

theorem Inv.upsert_absent_within [Inhabited K] [Inhabited V] [LinearOrder K] {t : RBT K V}
    {tr : Tree K V} {fl : List Nat} (h : Inv t tr fl) {k : K}
    (hk : k ∉ tr.toList.map Prod.fst)
    (hroom : t.arena.freeListHead ≠ NULL_INDEX ∨ 2 * t.arena.capacity < UINT32) :
    ∃ i t' tr' fl', t.upsert k = .ok (i, t') ∧ Inv t' tr' fl' ∧
      Within (tr.handles ++ fl) (tr'.handles ++ fl') t.arena t'.arena ∧
      tr'.toList = insL k (t'.arena.values i) tr.toList ∧
      ((∃ nh, fl = nh :: fl' ∧ t'.arena.capacity = t.arena.capacity) ∨
        (fl = [] ∧ t'.arena.capacity = 2 * t.arena.capacity ∧
          fl' = List.range' (t.arena.capacity + 1) (t.arena.capacity - 1))) := by
  have hroom' : fl ≠ [] ∨ (0 < t.arena.capacity ∧ 2 * t.arena.capacity < UINT32) := by
    rcases hroom with h1 | h1
    · left
      rintro rfl
      exact h1 h.free
    · exact Or.inr ⟨h.cap_pos, h1⟩
  obtain ⟨a0, nh, fl', E0, Al⟩ := prvAllocate_spec h.free h.nodup_fl h.cap_le hroom'
  have hlt := h.heap.mem_lt
  have hnh : nh ∉ tr.handles := by
    rcases Al.src with ⟨h1, -, -⟩ | ⟨-, h1, -, -⟩
    · exact fun hc => h.disjoint nh hc h1
    · rw [h1]; exact fun hc => lt_irrefl _ (hlt _ hc)
  have hcap : t.arena.capacity ≤ a0.capacity := by
    rcases Al.src with ⟨-, h1, -⟩ | ⟨-, -, h1, -⟩
    · exact le_of_eq h1.symm
    · rw [h1]; omega
  have H0 : Heap a0 tr := h.heap.agree hcap (fun j hj =>
    Al.agree j (hlt j hj) (by rintro rfl; exact hnh hj))
  have hfl' : ∀ j ∈ fl', j ∉ nh :: tr.handles := by
    intro j hj hm
    rcases List.mem_cons.1 hm with hm | hm
    · subst hm; exact Al.fresh hj
    · rcases Al.src with ⟨-, -, h1⟩ | ⟨-, -, -, h1⟩
      · exact h.disjoint j hm (by rw [h1]; exact List.mem_cons_of_mem _ hj)
      · rw [h1, List.mem_range'_1] at hj
        have := hlt j hm
        omega
  have hc0 : a0.capacity ≤ NULL_INDEX := Al.cap_null
  have hnone := Tree.search_none k tr h.bst hk
  obtain ⟨x, ex, ⟨nx, -, px, -⟩, lx⟩ := Tree.insert_ok nh (a0.values nh) k t.fuel tr h.depth_lt
    h.ok h.bst
  have hN : (nh :: tr.handles).Nodup := List.nodup_cons.2 ⟨hnh, h.nodup_tr⟩
  obtain ⟨a1, E1, H1, F1⟩ := prvInsert_heap k nh (a0.values nh) (q := a0.keys nh) h.cap_le hc0
    t.fuel tr x h.heap H0 hN (fun _ => ⟨E0, Al.node⟩) (fun hn => absurd hnone hn) ex
  have hsub := Tree.insert_subperm nh (a0.values nh) k t.fuel tr x ex
  have hNx : x.handles.Nodup := subperm_nodup hsub hN
  have hokx := px h.black
  have hsz : tr.size + 1 < UINT32 := by
    have h1 : (nh :: tr.handles).length ≤ a0.capacity :=
      nodup_length_le hN (fun j hj => by
        rcases List.mem_cons.1 hj with rfl | hj
        · exact Al.lt
        · exact Nat.lt_of_lt_of_le (hlt j hj) hcap)
    rw [List.length_cons, Tree.handles_length] at h1
    simp only [NULL_INDEX] at hc0
    simp only [UINT32]
    omega
  obtain ⟨cx, -⟩ := Tree.insert_cons nh (a0.values nh) k t.fuel tr x h.cons hsz ex
  have hroot := h.root
  cases x with
  | nil => exact absurd rfl nx
  | node hh l r c g red kr v =>
    obtain ⟨a2, E2, H2, F2⟩ := setColor_heap H1 (Tree.root_not_mem_left hNx)
      (Tree.root_not_mem_right hNx) false
    rw [colorCode_false] at E2
    simp only [Tree.root_node] at E1
    have hmemroot : hh ∈ nh :: tr.handles := hsub.subset (by simp [Tree.handles])
    have hI : Inv ({ arena := a2, root := hh } : RBT K V) (.node hh l r c g false kr v) fl' := by
      obtain ⟨o1, o2, o3, o4, o5⟩ := (Tree.ok_node ..).1 hokx
      refine ⟨H2, rfl, ?_, ?_, ?_, ?_, (Tree.ok_node ..).2 ⟨o1, (fun hf => by cases hf), o3, o4, o5⟩,
        rfl, ?_, cx.recolor _ _ _⟩
      · show FreeList a2 a2.freeListHead fl'
        rw [F2.freeListHead, F1.freeListHead]
        refine (Al.freelist.preserved F1 hfl').preserved F2 (fun j hj hm => ?_)
        simp only [List.mem_singleton] at hm
        subst hm
        exact hfl' j hj hmemroot
      · have h1 : ((Tree.node hh l r c g red kr v).handles ++ fl').Subperm
            ((nh :: tr.handles) ++ fl') := (List.subperm_append_right fl').2 hsub
        have h2 : ((nh :: tr.handles) ++ fl').Nodup := by
          rw [List.nodup_append]
          exact ⟨hN, Al.nodup, fun j hj hf => hfl' j hf hj⟩
        exact subperm_nodup h1 h2
      · show 0 < a2.capacity
        rw [F2.capacity, F1.capacity]; exact Nat.lt_of_le_of_lt (Nat.zero_le _) Al.lt
      · show a2.capacity ≤ NULL_INDEX
        rw [F2.capacity, F1.capacity]; exact Al.cap_null
      · show SortedK (Tree.node hh l r c g red kr v).toList
        rw [lx]; exact insL_sorted h.bst
    have hmem : (k, a0.values nh) ∈ (Tree.node hh l r c g false kr v).toList := by
      show (k, a0.values nh) ∈ (Tree.node hh l r c g red kr v).toList
      rw [lx]
      exact (insL_perm hk).symm.subset (List.mem_cons_self _ _)
    obtain ⟨i, es, -, -, -, hv⟩ := hI.search_present hmem
    have hnew : nh ∈ fl ∨ t.arena.capacity ≤ nh := by
      rcases Al.src with ⟨h1, -, -⟩ | ⟨-, h1, -, -⟩
      · exact Or.inl h1
      · exact Or.inr (le_of_eq h1.symm)
    have hlen : (Tree.node hh l r c g red kr v).handles.length = tr.handles.length + 1 := by
      rw [Tree.handles_length, Tree.handles_length, Tree.size_eq_length, Tree.size_eq_length, lx,
        insL_length hk]
    have hsrc : (∃ nh, fl = nh :: fl' ∧ a2.capacity = t.arena.capacity) ∨
        (fl = [] ∧ a2.capacity = 2 * t.arena.capacity ∧
          fl' = List.range' (t.arena.capacity + 1) (t.arena.capacity - 1)) := by
      rw [F2.capacity, F1.capacity]
      rcases Al.src with ⟨-, h1, h2⟩ | ⟨h1, -, h2, h3⟩
      · exact Or.inl ⟨nh, h2, h1⟩
      · exact Or.inr ⟨h1, h2, h3⟩
    refine ⟨i, { arena := a2, root := hh }, .node hh l r c g false kr v, fl', ?_, hI, ?_, ?_,
      hsrc⟩
    · simp only [RBT.upsert, hroot, bind_ok E1, bind_ok E2]
      have es' : Arena.searchLoop k (a2.capacity + 1) a2 hh = .ok i := es
      rw [bind_ok es']
      rfl
    · refine ⟨?_, ?_, fun j hj hS => ?_, fun j hj => ?_, ?_⟩
      · show t.arena.capacity ≤ a2.capacity
        rw [F2.capacity, F1.capacity]; exact hcap
      · show a2.nTrees = t.arena.nTrees
        rw [F2.nTrees, F1.nTrees, Al.nTrees]
      · have hj1 : j ∉ tr.handles := fun hm => hS (List.mem_append_left _ hm)
        have hj2 : j ∉ fl := fun hm => hS (List.mem_append_right _ hm)
        have hne : j ≠ nh := by
          rintro rfl
          rcases hnew with h1 | h1
          · exact hj2 h1
          · omega
        have hj3 : j ∉ nh :: tr.handles := by
          intro hm
          rcases List.mem_cons.1 hm with hm | hm
          · exact hne hm
          · exact hj1 hm
        refine ((Al.agree j hj hne).chain (F1.agree j hj3)).chain (F2.agree j ?_)
        intro hm
        simp only [List.mem_singleton] at hm
        subst hm
        exact hj3 hmemroot
      · rcases List.mem_append.1 hj with hj | hj
        · have hj' : j ∈ nh :: tr.handles := hsub.subset hj
          rcases List.mem_cons.1 hj' with rfl | hm
          · rcases hnew with h1 | h1
            · exact Or.inl (List.mem_append_right _ h1)
            · exact Or.inr h1
          · exact Or.inl (List.mem_append_left _ hm)
        · rcases Al.src with ⟨-, -, h1⟩ | ⟨-, -, -, h1⟩
          · exact Or.inl (List.mem_append_right _ (by rw [h1]; exact List.mem_cons_of_mem _ hj))
          · rw [h1, List.mem_range'_1] at hj
            exact Or.inr (by omega)
      · show ((Tree.node hh l r c g false kr v).handles ++ fl').length + t.arena.capacity =
          (tr.handles ++ fl).length + a2.capacity
        have hlen2 : (Tree.node hh l r c g false kr v).handles.length =
            tr.handles.length + 1 := hlen
        have hp := h.cap_pos
        rcases hsrc with ⟨n', h1, h2⟩ | ⟨h1, h2, h3⟩
        · rw [List.length_append, List.length_append, hlen2, h1, List.length_cons, h2]
          omega
        · rw [List.length_append, List.length_append, hlen2, h1, h3, List.length_range',
            List.length_nil, h2]
          omega
    · show (Tree.node hh l r c g red kr v).toList = _
      rw [lx, hv]

theorem Inv.upsert_within [Inhabited K] [Inhabited V] [LinearOrder K] {t t' : RBT K V}
    {tr : Tree K V} {fl : List Nat} (h : Inv t tr fl) {k : K} {i : Nat}
    (he : t.upsert k = .ok (i, t')) :
    ∃ tr' fl', Inv t' tr' fl' ∧
      Within (tr.handles ++ fl) (tr'.handles ++ fl') t.arena t'.arena := by
  by_cases hk : k ∈ tr.toList.map Prod.fst
  · obtain ⟨⟨k', x⟩, hx, hkx⟩ := List.mem_map.1 hk
    simp only at hkx
    subst hkx
    obtain ⟨j, e1, -⟩ := h.upsert_present hx
    rw [he] at e1
    simp only [Except.ok.injEq, Prod.mk.injEq] at e1
    obtain ⟨-, rfl⟩ := e1
    exact ⟨tr, fl, h, Within.unchanged _ (fun _ hj => hj) rfl⟩
  · by_cases hroom : t.arena.freeListHead ≠ NULL_INDEX ∨ 2 * t.arena.capacity < UINT32
    · obtain ⟨j, t1, tr1, fl1, e1, I1, W1, -⟩ := h.upsert_absent_within hk hroom
      rw [he] at e1
      simp only [Except.ok.injEq, Prod.mk.injEq] at e1
      obtain ⟨rfl, rfl⟩ := e1
      exact ⟨tr1, fl1, I1, W1⟩
    · rw [h.upsert_full hk hroom] at he
      cases he

theorem Inv.remove_present_within [LinearOrder K] {t : RBT K V} {tr : Tree K V} {fl : List Nat}
    (h : Inv t tr fl) {k : K} (hk : k ∈ tr.toList.map Prod.fst) :
    ∃ t' tr' n, t.remove k = .ok t' ∧ Inv t' tr' (n :: fl) ∧
      Within (tr.handles ++ fl) (tr'.handles ++ n :: fl) t.arena t'.arena ∧
      n ∈ tr.handles ∧ t'.arena.capacity = t.arena.capacity ∧
      tr'.toList = tr.toList.filter (fun e => decide (e.1 ≠ k)) := by
  obtain ⟨⟨k', x⟩, hx', hkx⟩ := List.mem_map.1 hk
  simp only at hkx
  have hx : (k, x) ∈ tr.toList := hkx ▸ hx'
  obtain ⟨i, es, -, -, -, -⟩ := h.search_present hx
  have hH := h.heap
  have hroot := h.root
  have hblack := h.black
  have hok := h.ok
  have hN := h.nodup_tr
  have hsz := h.size_le
  have hcons := h.cons
  have hbst := h.bst
  have hdis := h.disjoint
  cases tr with
  | nil => simp at hx
  | node hh l r c g red kr v =>
    simp only [Tree.isRed_node] at hblack
    subst hblack
    obtain ⟨hrr, -, hb, okl, okr⟩ := (Tree.ok_node ..).1 hok
    simp only [Tree.root_node] at hroot
    have hnl : hh ∉ l.handles := Tree.root_not_mem_left hN
    have hnr : hh ∉ r.handles := Tree.root_not_mem_right hN
    have Ec := rootIsTwoNode_heap hH (by simp) h.cap_le
    simp only [Tree.root_node, Tree.left_node, Tree.right_node, hrr, Bool.not_false,
      Bool.and_true] at Ec
    obtain ⟨a1, E1, H1, F1⟩ : ∃ a1, (if (!l.isRed) = true then
        t.arena.setColor hh NODE_RED else pure t.arena) = .ok a1 ∧
        Heap a1 (.node hh l r c g (!l.isRed) kr v) ∧ Frame [hh] t.arena a1 := by
      cases hl : l.isRed
      · obtain ⟨a1, e, H, F⟩ := setColor_heap hH hnl hnr true
        exact ⟨a1, by simpa [colorCode_true] using e, H, F⟩
      · exact ⟨t.arena, by simp; rfl, hH, Frame.refl _ _⟩
    have hc1 : a1.capacity ≤ NULL_INDEX := by rw [F1.capacity]; exact h.cap_le
    have hd : (Tree.node hh l r c g (!l.isRed) kr v).Del := by
      refine ⟨okl, okr, hb, ?_⟩
      cases hl : l.isRed
      · exact Or.inl ⟨rfl, rfl, hrr⟩
      · exact Or.inr (Or.inl ⟨rfl, rfl, hrr⟩)
    obtain ⟨t2, n, e2, ⟨ok2, -, -⟩, l2⟩ := Tree.remove_ok k t.fuel
      (.node hh l r c g (!l.isRed) kr v)
      (by simp only [RBT.fuel]; exact Nat.lt_succ_of_le hsz) hd
      (fun hr => by simp only [Tree.right_node] at hr; rw [hrr] at hr; cases hr) hbst hk
    obtain ⟨a2, E2, H2, F2⟩ := prvRemove_heap k t.fuel a1 _ t2 n H1 hN hc1 e2
    have hsub := Tree.remove_subperm k t.fuel _ t2 n e2
    have hsub' : (n :: t2.handles).Subperm (Tree.node hh l r c g false kr v).handles := hsub
    have hN2 := subperm_nodup hsub' hN
    rw [List.nodup_cons] at hN2
    have hmem : n ∈ (Tree.node hh l r c g false kr v).handles :=
      hsub'.subset (List.mem_cons_self _ _)
    have hsub2 : ∀ j ∈ t2.handles, j ∈ (Tree.node hh l r c g false kr v).handles :=
      fun j hj => hsub'.subset (List.mem_cons_of_mem _ hj)
    have hroot_mem : hh ∈ (Tree.node hh l r c g false kr v).handles := by simp [Tree.handles]
    have hfl2 : FreeList a2 a2.freeListHead fl := by
      rw [F2.freeListHead, F1.freeListHead]
      refine (h.free.preserved F1 ?_).preserved F2 ?_
      · intro j hj hm
        simp only [List.mem_singleton] at hm
        subst hm
        exact hdis _ hroot_mem hj
      · intro j hj hm
        exact hdis j hm hj
    have hn2 : n < a2.capacity := by
      rw [F2.capacity, F1.capacity]; exact hH.mem_lt n hmem
    obtain ⟨a3, E3, FL3, c3, n3, hfh, lf3, r3, cn3, ht3, co3, k3, v3⟩ :=
      prvFree_spec hfl2 hn2 (hdis n hmem)
    have H3 : Heap a3 t2 := by
      refine H2.agree (le_of_eq c3.symm) (fun j hj => ?_)
      have hne : j ≠ n := by rintro rfl; exact hN2.1 hj
      simp only [Agree, lf3, r3, cn3, ht3, co3, k3, v3, upd_ne _ _ hne, and_self]
    have hc3 : a3.capacity ≤ NULL_INDEX := by rw [c3, F2.capacity]; exact hc1
    have hnfl : ∀ j ∈ t2.handles, j ∉ n :: fl := by
      intro j hj hm
      rcases List.mem_cons.1 hm with hm | hm
      · subst hm; exact hN2.1 hj
      · exact hdis j (hsub2 j hj) hm
    have hnd : (t2.handles ++ n :: fl).Nodup := by
      have h1 : ((n :: t2.handles) ++ fl).Subperm
          ((Tree.node hh l r c g false kr v).handles ++ fl) :=
        (List.subperm_append_right fl).2 hsub'
      have h2 : ((n :: t2.handles) ++ fl).Nodup := by
        have h3 := h.nodup
        exact List.Nodup.sublist (List.Sublist.refl _) (by
          obtain ⟨w, hw, hs⟩ := h1
          exact (hw.nodup_iff).1 (h3.sublist hs))
      exact (List.perm_middle.nodup_iff).2 h2
    have hcons2 := (Tree.remove_cons k t.fuel (.node hh l r c g (!l.isRed) kr v) t2 n
      ⟨hcons.2.2.1, hcons.2.2.2⟩ (by
        have := h.size_lt
        have e : (Tree.node hh l r c g (!l.isRed) kr v).size =
          (Tree.node hh l r c g false kr v).size := rfl
        rw [e]; omega) e2).1
    have hbst2 : SortedK t2.toList := by rw [l2]; exact hbst.filter _
    have hcp : 0 < a3.capacity := by rw [c3, F2.capacity, F1.capacity]; exact h.cap_pos
    have hcl : a3.capacity ≤ NULL_INDEX := by rw [c3, F2.capacity, F1.capacity]; exact h.cap_le
    -- what the steps so far have written
    have W3 : Within ((Tree.node hh l r c g false kr v).handles ++ fl) (t2.handles ++ n :: fl)
        t.arena a3 := by
      refine ⟨?_, ?_, fun j _ hS => ?_, fun j hj => Or.inl ?_, ?_⟩
      · rw [c3, F2.capacity, F1.capacity]
      · rw [n3, F2.nTrees, F1.nTrees]
      · have hj1 : j ∉ (Tree.node hh l r c g false kr v).handles :=
          fun hm => hS (List.mem_append_left _ hm)
        have hne : j ≠ n := by rintro rfl; exact hj1 hmem
        have A1 : Agree t.arena a1 j := F1.agree j (by
          intro hm
          simp only [List.mem_singleton] at hm
          subst hm
          exact hj1 hroot_mem)
        have A2 : Agree a1 a2 j := F2.agree j hj1
        have A3 : Agree a2 a3 j := by
          simp only [Agree, lf3, r3, cn3, ht3, co3, k3, v3, upd_ne _ _ hne, and_self]
        exact (A1.chain A2).chain A3
      · rcases List.mem_append.1 hj with hj | hj
        · exact List.mem_append_left _ (hsub2 j hj)
        · rcases List.mem_cons.1 hj with rfl | hj
          · exact List.mem_append_left _ hmem
          · exact List.mem_append_right _ hj
      · have hl2 : t2.handles.length + 1 = (Tree.node hh l r c g false kr v).handles.length := by
          rw [Tree.handles_length, Tree.handles_length, Tree.size_eq_length,
            Tree.size_eq_length, l2]
          exact filter_length hbst hk
        rw [List.length_append, List.length_append, List.length_cons, c3, F2.capacity,
          F1.capacity]
        omega
    have hcap3 : a3.capacity = t.arena.capacity := by rw [c3, F2.capacity, F1.capacity]
    simp only [Tree.root_node] at E2
    rw [RBT.remove, es]
    simp only [hroot, bind_ok Ec, bind_ok E1, bind_ok E2, bind_ok E3]
    cases t2 with
    | nil =>
      refine ⟨{ arena := a3, root := NULL_INDEX }, .nil, n, ?_, ?_, W3, hmem, hcap3, l2⟩
      · simp only [Tree.root, ne_eq, not_true_eq_false, if_false]
        rfl
      · exact ⟨trivial, rfl, FL3, hnd, hcp, hcl, trivial, rfl, List.Pairwise.nil, trivial⟩
    | node h2 tl2 tr2 c2 g2 red2 k2 v2 =>
      have hne := H3.ne_null hc3
      have hN2' := hN2.2
      obtain ⟨a4, E4, H4, F4⟩ := setColor_heap H3 (Tree.root_not_mem_left hN2')
        (Tree.root_not_mem_right hN2') false
      rw [colorCode_false] at E4
      refine ⟨{ arena := a4, root := h2 }, .node h2 tl2 tr2 c2 g2 false k2 v2, n, ?_, ?_,
        ?_, hmem, F4.capacity.trans hcap3, l2⟩
      · simp only [Tree.root_node, ne_eq, hne, not_false_eq_true, if_true, bind_ok E4]
        rfl
      · obtain ⟨o1, o2, o3, o4, o5⟩ := (Tree.ok_node ..).1 ok2
        refine ⟨H4, rfl, ?_, hnd, by rw [F4.capacity]; exact hcp,
          by rw [F4.capacity]; exact hcl,
          (Tree.ok_node ..).2 ⟨o1, (fun hf => by cases hf), o3, o4, o5⟩, rfl, hbst2,
          hcons2.recolor _ _ _⟩
        rw [F4.freeListHead]
        refine FL3.preserved F4 (fun j hj hm => ?_)
        simp only [List.mem_singleton] at hm
        subst hm
        exact hnfl j (by simp [Tree.handles]) hj
      · refine W3.compose (F4.within (fun j hj => ?_) (fun j hj => hj) rfl)
        simp only [List.mem_singleton] at hj
        subst hj
        exact List.mem_append_left _ (by simp [Tree.handles])

section Within1
variable [LinearOrder K] {t t' : RBT K V} {tr : Tree K V} {fl : List Nat}

theorem Inv.remove_within (h : Inv t tr fl) {k : K} (he : t.remove k = .ok t') :
    ∃ tr' fl', Inv t' tr' fl' ∧
      Within (tr.handles ++ fl) (tr'.handles ++ fl') t.arena t'.arena := by
  by_cases hk : k ∈ tr.toList.map Prod.fst
  · obtain ⟨t1, tr1, n, e1, I1, W1, -⟩ := h.remove_present_within hk
    rw [he] at e1
    cases e1
    exact ⟨tr1, n :: fl, I1, W1⟩
  · rw [RBT.remove, h.search_absent hk] at he
    cases he

theorem Inv.write_within (h : Inv t tr fl) {k : K} {i : Nat} {x : V}
    (hs : t.search k = .ok i) (hw : t.write i x = .ok t') :
    Inv t' (Tree.put k x tr) fl ∧
      Within (tr.handles ++ fl) ((Tree.put k x tr).handles ++ fl) t.arena t'.arena := by
  have e : Tree.search k tr = some i := by
    rw [h.search_eq] at hs
    cases hh : Tree.search k tr with
    | none => rw [hh] at hs; cases hs
    | some j => rw [hh] at hs; cases hs; rfl
  have hm := Tree.search_mem k tr i e
  have hlt := h.heap.mem_lt i hm
  obtain ⟨t1, e1, I1, -⟩ := h.write x hs
  have e2 : t.write i x =
      .ok { t with arena := { t.arena with values := upd t.arena.values i x } } := by
    simp [RBT.write, Arena.setValue, hlt, bind, Except.bind, pure, Except.pure]
  rw [hw] at e1 e2
  cases e1
  refine ⟨I1, ?_⟩
  cases e2
  have f6 := (Tree.put_skel k x tr).facts.2.2.2.2.2.1
  refine ⟨le_refl _, rfl, fun j _ hS => ?_, fun j hj => Or.inl (by rw [f6] at hj; exact hj),
    by rw [f6]⟩
  have hne : j ≠ i := by rintro rfl; exact hS (List.mem_append_left _ hm)
  simp [Agree, upd, hne]

theorem Inv.prvClear_within (h : Inv t tr fl) :
    ∃ a', t.arena.prvClear t.fuel t.root = .ok a' ∧
      Inv ({ arena := a', root := NULL_INDEX } : RBT K V) .nil (tr.freed ++ fl) ∧
      Within (tr.handles ++ fl) (tr.freed ++ fl) t.arena a' := by
  obtain ⟨a', E, F, C, L⟩ := prvClear_heap tr t.fuel t.arena fl h.heap h.nodup h.free h.cap_le
    h.depth_lt
  rw [← h.root] at E
  have hp : (tr.freed ++ fl).Perm (tr.handles ++ fl) := (Tree.freed_perm tr).append_right fl
  refine ⟨a', E, ?_, ?_⟩
  · refine ⟨trivial, rfl, F, ?_, by rw [C.capacity]; exact h.cap_pos,
      by rw [C.capacity]; exact h.cap_le, trivial, rfl, List.Pairwise.nil, trivial⟩
    simp only [Tree.handles, List.nil_append]
    exact hp.nodup_iff.2 h.nodup
  · refine ⟨le_of_eq C.capacity.symm, C.nTrees, fun j _ hS => ?_,
      fun j hj => Or.inl (hp.subset hj), by rw [hp.length_eq, C.capacity]⟩
    have hj1 : j ∉ tr.handles := fun hm => hS (List.mem_append_left _ hm)
    simp only [Agree, L j hj1, C.right, C.counts, C.heights, C.colors, C.keys, C.values,
      and_self]

theorem Inv.clear_within (h : Inv t tr fl) (hc : t.clear = .ok t') :
    Inv t' .nil (tr.freed ++ fl) ∧
      Within (tr.handles ++ fl) ((Tree.nil : Tree K V).handles ++ (tr.freed ++ fl)) t.arena
        t'.arena := by
  obtain ⟨a', E, I, W⟩ := h.prvClear_within
  simp only [RBT.clear, bind_ok E] at hc
  cases hc
  exact ⟨I, W⟩

theorem Inv.map_within (h : Inv t tr fl) {σ : Type} {fp : σ → K → V → σ × V} {s s' : σ}
    (hm : t.map fp s = .ok (t', s')) :
    Inv t' (Tree.mapT fp tr s).1 fl ∧
      Within (tr.handles ++ fl) ((Tree.mapT fp tr s).1.handles ++ fl) t.arena t'.arena := by
  obtain ⟨a', E, -, F, -⟩ := prvMap_heap fp tr t.fuel t.arena s h.heap h.nodup_tr h.cap_le
    h.depth_lt
  rw [← h.root] at E
  obtain ⟨t1, e1, I1, -⟩ := h.map fp s
  rw [hm] at e1
  simp only [Except.ok.injEq, Prod.mk.injEq] at e1
  obtain ⟨rfl, -⟩ := e1
  refine ⟨I1, ?_⟩
  simp only [RBT.map, bind_ok E] at hm
  cases hm
  have f6 := (Tree.mapT_skel fp tr s).facts.2.2.2.2.2.1
  exact F.within (fun j hj => List.mem_append_left _ hj) (fun j hj => by rw [f6] at hj; exact hj)
    (by rw [f6])

theorem Inv.with_nTrees (h : Inv t tr fl) (n : Nat) :
    Inv ({ arena := { t.arena with nTrees := n }, root := t.root } : RBT K V) tr fl :=
  ⟨h.heap.agree (le_refl _) (fun _ _ => ⟨rfl, rfl, rfl, rfl, rfl, rfl, rfl⟩), h.root,
    FreeList.of_left_eq fl _ h.free (le_refl _) (fun _ _ => rfl), h.nodup, h.cap_pos, h.cap_le,
    h.ok, h.black, h.bst, h.cons⟩

theorem Inv.entries_toList (h : Inv t tr fl) : t.entries = .ok tr.toList := by
  obtain ⟨t', e, -⟩ := h.map (fun (s : List (K × V)) k v => (s ++ [(k, v)], v)) []
  simp only [RBT.entries, e, mapL_entries, List.nil_append]

/-- Two states that denote the same shape give the same answers. -/
theorem Inv.same_answers {fl' : List Nat} (h : Inv t tr fl) (h' : Inv t' tr fl') :
    t'.entries = t.entries ∧ t'.size = t.size ∧ t'.height = t.height ∧
      t'.isEmpty = t.isEmpty ∧
      ∀ q, t'.search q = t.search q ∧
        ∀ j, t.search q = .ok j → t'.arena.values j = t.arena.values j := by
  refine ⟨by rw [h.entries_toList, h'.entries_toList], by rw [h.size_eq, h'.size_eq],
    by rw [h.height_eq, h'.height_eq], by rw [h.isEmpty_eq, h'.isEmpty_eq], fun q => ?_⟩
  refine ⟨by rw [h.search_eq, h'.search_eq], fun j hj => ?_⟩
  rw [h.search_eq] at hj
  cases hh : Tree.search q tr with
  | none => rw [hh] at hj; cases hj
  | some i =>
    rw [hh] at hj
    have hij : i = j := by injection hj
    rw [← hij]
    exact (Heap.agree_both h.heap h'.heap i (Tree.search_mem q tr i hh)).2.2.2.2.2.2

/-- One step on the first object carries the invariant of the pair over. -/
theorem Inv2.step {s : Two K V} {trA trB trA' : Tree K V} {fl fl' : List Nat} {t' : RBT K V}
    (h : Inv2 s trA trB fl) (hI : Inv t' trA' fl')
    (hW : Within (trA.handles ++ fl) (trA'.handles ++ fl') s.arena t'.arena) :
    Inv2 (s.withA t') trA' trB fl' ∧ Inv (s.withA t').B trB fl' := by
  obtain ⟨I, d⟩ := Inv.bystander (a := s.arena) (b := s.rootB) (r := t'.root) h.invB hI hW
    h.disj
  exact ⟨⟨hI, I, d, hW.nTrees.trans h.live⟩, I⟩

end Within1

theorem empty_nTrees [Inhabited K] [Inhabited V] {cap : Nat} {t : RBT K V}
    (h : empty cap = .ok t) : t.arena.nTrees = 1 := by
  simp only [empty, construct] at h
  by_cases hc : cap = 0
  · subst hc
    simp [Arena.static0] at h
  · have h0 : (Arena.static0 : Arena K V).nTrees = 0 := rfl
    rw [if_pos h0, if_neg hc] at h
    cases h
    rfl

section Shared2
variable [Inhabited K] [Inhabited V] [LinearOrder K]

/-- A single tree keeps the instance counter at one. -/
theorem Reach.live {t : RBT K V} {es : List (K × V)} (h : Reach t es) :
    ∃ tr fl, Inv t tr fl ∧ t.arena.nTrees = 1 := by
  induction h with
  | @init cap a t hn hc he =>
    obtain ⟨t1, e1, I, -, -, h1, -⟩ := construct_inv (K := K) (V := V) hn
      (construct_pos hn he) hc
    rw [he] at e1
    cases e1
    exact ⟨_, _, I, h1⟩
  | @upsert t t' es k i _ he ih =>
    obtain ⟨tr, fl, I, hn⟩ := ih
    obtain ⟨tr', fl', I', W⟩ := I.upsert_within he
    exact ⟨tr', fl', I', W.nTrees.trans hn⟩
  | @write t t' es k i x _ hs hw ih =>
    obtain ⟨tr, fl, I, hn⟩ := ih
    obtain ⟨I', W⟩ := I.write_within hs hw
    exact ⟨_, _, I', W.nTrees.trans hn⟩
  | @remove t t' es k _ he ih =>
    obtain ⟨tr, fl, I, hn⟩ := ih
    obtain ⟨tr', fl', I', W⟩ := I.remove_within he
    exact ⟨tr', fl', I', W.nTrees.trans hn⟩
  | @clear t t' es _ he ih =>
    obtain ⟨tr, fl, I, hn⟩ := ih
    obtain ⟨I', W⟩ := I.clear_within he
    exact ⟨_, _, I', W.nTrees.trans hn⟩
  | @map σ t t' es fp s s' _ he ih =>
    obtain ⟨tr, fl, I, hn⟩ := ih
    obtain ⟨I', W⟩ := I.map_within he
    exact ⟨_, _, I', W.nTrees.trans hn⟩

theorem Reach2.inv2 {s : Two K V} (h : Reach2 s) : ∃ trA trB fl, Inv2 s trA trB fl := by
  induction h with
  | @init tA tB es capB hr hc =>
    obtain ⟨tr, fl, I, hn⟩ := hr.live
    simp only [construct, hn, if_neg (by decide : ¬ (1 : Nat) = 0)] at hc
    cases hc
    have I2 := I.with_nTrees ((1 + 1) % UINT32)
    refine ⟨tr, .nil, fl, I2, ?_, fun _ _ hm => by simp [Tree.handles] at hm, rfl⟩
    exact ⟨trivial, rfl, I2.free, by simpa [Tree.handles] using I2.nodup_fl, I2.cap_pos,
      I2.cap_le, trivial, rfl, List.Pairwise.nil, trivial⟩
  | @swap s _ ih =>
    obtain ⟨trA, trB, fl, I⟩ := ih
    exact ⟨trB, trA, fl, I.invB, I.invA, fun i hi hm => I.disj i hm hi, I.live⟩
  | @upsert s s' k i _ he ih =>
    obtain ⟨trA, trB, fl, I⟩ := ih
    simp only [Two.upsertA] at he
    cases hu : s.A.upsert k with
    | error e => rw [hu] at he; cases he
    | ok p =>
      rw [hu] at he
      cases he
      obtain ⟨tr', fl', I', W⟩ := I.invA.upsert_within
        (show s.A.upsert k = .ok (p.1, p.2) from hu)
      exact ⟨tr', trB, fl', (I.step I' W).1⟩
  | @write s s' k i x _ hs hw ih =>
    obtain ⟨trA, trB, fl, I⟩ := ih
    simp only [Two.writeA] at hw
    cases hu : s.A.write i x with
    | error e => rw [hu] at hw; cases hw
    | ok p =>
      rw [hu] at hw
      cases hw
      obtain ⟨I', W⟩ := I.invA.write_within hs hu
      exact ⟨_, trB, fl, (I.step I' W).1⟩
  | @remove s s' k _ he ih =>
    obtain ⟨trA, trB, fl, I⟩ := ih
    simp only [Two.removeA] at he
    cases hu : s.A.remove k with
    | error e => rw [hu] at he; cases he
    | ok p =>
      rw [hu] at he
      cases he
      obtain ⟨tr', fl', I', W⟩ := I.invA.remove_within hu
      exact ⟨tr', trB, fl', (I.step I' W).1⟩
  | @clear s s' _ he ih =>
    obtain ⟨trA, trB, fl, I⟩ := ih
    simp only [Two.clearA] at he
    cases hu : s.A.clear with
    | error e => rw [hu] at he; cases he
    | ok p =>
      rw [hu] at he
      cases he
      obtain ⟨I', W⟩ := I.invA.clear_within hu
      exact ⟨_, trB, _, (I.step I' W).1⟩
  | @map σ s s' fp x x' _ he ih =>
    obtain ⟨trA, trB, fl, I⟩ := ih
    simp only [Two.mapA] at he
    cases hu : s.A.map fp x with
    | error e => rw [hu] at he; cases he
    | ok p =>
      rw [hu] at he
      cases he
      obtain ⟨I', W⟩ := I.invA.map_within
        (show s.A.map fp x = .ok (p.1, p.2) from hu)
      exact ⟨_, trB, fl, (I.step I' W).1⟩

end Shared2

theorem RBT.destroy_live (t : RBT K V) {n : Nat}
    (hn : (t.arena.nTrees + UINT32 - 1) % UINT32 = n) (h0 : n ≠ 0) :
    t.destroy = Arena.prvClear t.fuel { t.arena with nTrees := n } t.root := by
  subst hn
  unfold RBT.destroy
  exact if_neg h0

section Isolation
variable [LinearOrder K]

theorem Inv.shows {t : RBT K V} {tr : Tree K V} {fl : List Nat} (h : Inv t tr fl) :
    t.Shows tr.toList tr.depth :=
  ⟨h.entries_toList, h.size_eq, h.height_eq⟩

theorem Inv2.destroy {s : Two K V} {trA trB : Tree K V} {fl : List Nat}
    (h : Inv2 s trA trB fl) : ∃ b, s.destroyA = .ok b ∧ Inv b trB (trA.freed ++ fl) := by
  have IA := h.invA.with_nTrees 1
  have IB := h.invB.with_nTrees 1
  obtain ⟨a', E, I', W⟩ := IA.prvClear_within
  have W' : Within (trA.handles ++ fl) ((Tree.nil : Tree K V).handles ++ (trA.freed ++ fl))
      { s.arena with nTrees := 1 } a' := W
  obtain ⟨I, -⟩ := Inv.bystander (a := { s.arena with nTrees := 1 }) (b := s.rootB)
    (r := NULL_INDEX) IB I' W' h.disj
  refine ⟨{ arena := a', root := s.rootB }, ?_, I⟩
  have e : (s.A.arena.nTrees + UINT32 - 1) % UINT32 = 1 := by
    show (s.arena.nTrees + UINT32 - 1) % UINT32 = 1
    rw [h.live]
    simp only [UINT32]
  have hd : s.A.destroy = .ok a' := by
    rw [RBT.destroy_live s.A e (by decide)]
    exact E
  rw [Two.destroyA, bind_ok hd]
  rfl

end Isolation

section Claims3
variable [Inhabited K] [Inhabited V] [LinearOrder K]

/-- Claim C14: in a program with two live trees on the shared arena, what the second tree
shows (the pairs `map` visits in order, `size()`, `height()`) and what `search` returns on it
are the same after any `operator[]` call that returns, any `remove` that returns and `clear()`
on the first tree, and after the destruction of the first tree; `clear()` and the destructor
do return.  The calls of `operator[]` include those that make the arena grow. -/
theorem shared_arena_isolation {s : Two K V} (h : Reach2 s) :
    ∃ es d, s.B.Shows es d ∧
      (∀ k i s', s.upsertA k = .ok (i, s') →
        s'.B.Shows es d ∧ ∀ q, s'.B.search q = s.B.search q ∧
          ∀ j, s.B.search q = .ok j → s'.arena.values j = s.arena.values j) ∧
      (∀ k s', s.removeA k = .ok s' →
        s'.B.Shows es d ∧ ∀ q, s'.B.search q = s.B.search q ∧
          ∀ j, s.B.search q = .ok j → s'.arena.values j = s.arena.values j) ∧
      (∃ s', s.clearA = .ok s' ∧
        s'.B.Shows es d ∧ ∀ q, s'.B.search q = s.B.search q ∧
          ∀ j, s.B.search q = .ok j → s'.arena.values j = s.arena.values j) ∧
      (∃ b, s.destroyA = .ok b ∧
        b.Shows es d ∧ ∀ q, b.search q = s.B.search q ∧
          ∀ j, s.B.search q = .ok j → b.arena.values j = s.arena.values j) := by
  obtain ⟨trA, trB, fl, I⟩ := h.inv2
  refine ⟨trB.toList, trB.depth, I.invB.shows, ?_, ?_, ?_, ?_⟩
  · intro k i s' he
    simp only [Two.upsertA] at he
    cases hu : s.A.upsert k with
    | error e => rw [hu] at he; cases he
    | ok p =>
      rw [hu] at he
      cases he
      obtain ⟨tr', fl', I', W⟩ := I.invA.upsert_within
        (show s.A.upsert k = .ok (p.1, p.2) from hu)
      have IB := (I.step I' W).2
      exact ⟨IB.shows, (I.invB.same_answers IB).2.2.2.2⟩
  · intro k s' he
    simp only [Two.removeA] at he
    cases hu : s.A.remove k with
    | error e => rw [hu] at he; cases he
    | ok p =>
      rw [hu] at he
      cases he
      obtain ⟨tr', fl', I', W⟩ := I.invA.remove_within hu
      have IB := (I.step I' W).2
      exact ⟨IB.shows, (I.invB.same_answers IB).2.2.2.2⟩
  · obtain ⟨t', e, -⟩ := I.invA.clear
    obtain ⟨I', W⟩ := I.invA.clear_within e
    have IB := (I.step I' W).2
    exact ⟨s.withA t', by simp only [Two.clearA, e], IB.shows,
      (I.invB.same_answers IB).2.2.2.2⟩
  · obtain ⟨b, e, IB⟩ := I.destroy
    exact ⟨b, e, IB.shows, (I.invB.same_answers IB).2.2.2.2⟩

end Claims3

theorem solo2_reach : Reach solo2 [(5, 50)] :=
  Reach.write (k := 5) (Reach.upsert (Reach.init (a := Arena.static0) rfl (by decide)
      (show construct Arena.static0 1 = .ok solo0 from rfl))
    (show solo0.upsert 5 = .ok (solo1.1, solo1.2) from rfl))
    (show solo1.2.search 5 = .ok solo1.1 from rfl)
    (show solo1.2.write solo1.1 50 = .ok solo2 from rfl)

theorem pair3_reach : Reach2 pair3 :=
  Reach2.swap (Reach2.write (k := 7) (Reach2.upsert (Reach2.swap
    (Reach2.init solo2_reach (show construct solo2.arena 8 = .ok second from rfl)))
    (show pair0.swap.upsertA 7 = .ok (pair1.1, pair1.2) from rfl))
    (show pair1.2.A.search 7 = .ok pair1.1 from rfl)
    (show pair1.2.writeA pair1.1 70 = .ok pair2 from rfl))

theorem shared_arena_isolation_witness :
    Reach2 pair3 ∧
      (∃ es d, pair3.B.Shows es d ∧
        (∀ k i s', pair3.upsertA k = .ok (i, s') →
          s'.B.Shows es d ∧ ∀ q, s'.B.search q = pair3.B.search q ∧
            ∀ j, pair3.B.search q = .ok j → s'.arena.values j = pair3.arena.values j) ∧
        (∀ k s', pair3.removeA k = .ok s' →
          s'.B.Shows es d ∧ ∀ q, s'.B.search q = pair3.B.search q ∧
            ∀ j, pair3.B.search q = .ok j → s'.arena.values j = pair3.arena.values j) ∧
        (∃ s', pair3.clearA = .ok s' ∧
          s'.B.Shows es d ∧ ∀ q, s'.B.search q = pair3.B.search q ∧
            ∀ j, pair3.B.search q = .ok j → s'.arena.values j = pair3.arena.values j) ∧
        (∃ b, pair3.destroyA = .ok b ∧
          b.Shows es d ∧ ∀ q, b.search q = pair3.B.search q ∧
            ∀ j, pair3.B.search q = .ok j → b.arena.values j = pair3.arena.values j)) ∧
      pair3.A.entries = .ok [(5, 50)] ∧ pair3.B.entries = .ok [(7, 70)] ∧
      pair3.arena.capacity = 2 ∧ pair3.arena.freeListHead = NULL_INDEX ∧
      (∃ i s', pair3.upsertA 6 = .ok (i, s') ∧ s'.arena.capacity = 4 ∧
        s'.A.entries = .ok [(5, 50), (6, 0)] ∧ s'.B.entries = .ok [(7, 70)]) ∧
      (∃ s', pair3.removeA 5 = .ok s' ∧ s'.A.entries = .ok [] ∧
        s'.B.entries = .ok [(7, 70)]) :=
  ⟨pair3_reach, shared_arena_isolation pair3_reach, rfl, rfl, rfl, rfl,
    ⟨_, _, rfl, rfl, rfl, rfl⟩, ⟨_, rfl, rfl, rfl⟩⟩

theorem isRed_inv {a : Arena K V} {n : Nat} {b : Bool} (h : a.IS_RED n = .ok b) :
    (b = true ↔ a.Red n) := by
  simp only [Arena.IS_RED] at h
  by_cases hn : n = NULL_INDEX
  · rw [if_pos hn] at h
    cases h
    simp [Arena.Red, hn]
  · rw [if_neg hn] at h
    obtain ⟨c, e, h⟩ := bind_inv h
    obtain ⟨rfl, -⟩ := read_inv e
    simp only [pure, Except.pure, Except.ok.injEq] at h
    subst h
    simp [Arena.Red, hn]

theorem redViolation_false {a : Arena K V} {r : Nat} (h : a.redViolation r = .ok false) :
    (a.Red r → ¬ a.Red (a.left r)) ∧ ¬ a.Red (a.right r) := by
  simp only [Arena.redViolation] at h
  obtain ⟨c, e1, h⟩ := bind_inv h
  obtain ⟨c1, e2, h⟩ := bind_inv h
  have hc := isRed_inv e1
  cases c1 with
  | true => simp [pure, Except.pure] at h
  | false =>
    simp only [Bool.false_eq_true, if_false] at h
    obtain ⟨rt, e3, h⟩ := bind_inv h
    obtain ⟨rfl, -⟩ := read_inv e3
    have hr := isRed_inv h
    refine ⟨fun hred => ?_, fun hx => by simpa using hr.2 hx⟩
    have hct : c = true := hc.2 hred
    subst hct
    simp only [if_true] at e2
    obtain ⟨l, e4, e2⟩ := bind_inv e2
    obtain ⟨rfl, -⟩ := read_inv e4
    have hl := isRed_inv e2
    exact fun hx => by simpa using hl.2 hx

theorem childDepth_inv {a : Arena K V} {r cd d : Nat} (hn : r ≠ NULL_INDEX)
    (h : a.childDepth r cd = .ok d) :
    d = (cd + if a.colors r = NODE_RED then 0 else 1) % UINT32 := by
  simp only [Arena.childDepth] at h
  obtain ⟨c, e, h⟩ := bind_inv h
  have hc := isRed_inv e
  simp only [pure, Except.pure, Except.ok.injEq] at h
  subst h
  by_cases hr : a.colors r = NODE_RED
  · have : c = true := hc.2 ⟨hn, hr⟩
    subst this
    simp [hr]
  · have : c = false := by
      cases c with
      | false => rfl
      | true => exact absurd (hc.1 rfl).2 hr
    subst this
    simp [hr]

theorem prvIsValid_colours [LinearOrder K] (a : Arena K V) :
    ∀ (fuel r ld cd v : Nat), Arena.prvIsValid fuel a r ld cd = .ok v →
    ∀ h, a.Reaches r h → (a.Red h → ¬ a.Red (a.left h)) ∧ ¬ a.Red (a.right h) := by
  intro fuel
  induction fuel with
  | zero => intro r ld cd v he; simp [Arena.prvIsValid] at he
  | succ fuel ih =>
    intro r ld cd v he h hr
    have hne : r ≠ NULL_INDEX := by
      cases hr with
      | here hn => exact hn
      | left hn _ => exact hn
      | right hn _ => exact hn
    rw [Arena.prvIsValid, if_neg hne] at he
    obtain ⟨c1, e1, he⟩ := bind_inv he
    cases c1 with
    | true => simp at he
    | false =>
      simp only [Bool.false_eq_true, if_false] at he
      obtain ⟨c2, e2, he⟩ := bind_inv he
      cases c2 with
      | true => simp at he
      | false =>
        simp only [Bool.false_eq_true, if_false] at he
        obtain ⟨c3, e3, he⟩ := bind_inv he
        cases c3 with
        | true => simp at he
        | false =>
          simp only [Bool.false_eq_true, if_false] at he
          obtain ⟨l, el, he⟩ := bind_inv he
          obtain ⟨d, -, he⟩ := bind_inv he
          obtain ⟨ld1, e4, he⟩ := bind_inv he
          obtain ⟨rt, er, he⟩ := bind_inv he
          obtain ⟨d2, -, he⟩ := bind_inv he
          obtain ⟨rfl, -⟩ := read_inv el
          obtain ⟨rfl, -⟩ := read_inv er
          cases hr with
          | here _ => exact redViolation_false e1
          | left _ hl => exact ih _ _ _ _ e4 h hl
          | right _ hr' => exact ih _ _ _ _ he h hr'

theorem prvIsValid_paths [LinearOrder K] (a : Arena K V) :
    ∀ (fuel r ld cd v : Nat), Arena.prvIsValid fuel a r ld cd = .ok v →
    cd + fuel ≤ NULL_INDEX →
    v ≠ NULL_INDEX ∧ (ld ≠ NULL_INDEX → v = ld) ∧ ∀ n, a.BlackPath r n → cd + n = v := by
  intro fuel
  induction fuel with
  | zero => intro r ld cd v he; simp [Arena.prvIsValid] at he
  | succ fuel ih =>
    intro r ld cd v he hb
    by_cases hne : r = NULL_INDEX
    · subst hne
      rw [Arena.prvIsValid, if_pos rfl] at he
      have hv : v = cd ∧ (ld ≠ NULL_INDEX → ld = cd) := by
        by_cases hl : ld = NULL_INDEX
        · simp only [hl, if_true, ne_eq, not_true_eq_false, if_false, pure, Except.pure,
            Except.ok.injEq] at he
          exact ⟨he.symm, fun hx => absurd hl hx⟩
        · simp only [hl, if_false] at he
          by_cases hx : ld = cd
          · simp only [hx, ne_eq, not_true_eq_false, if_false, pure, Except.pure,
              Except.ok.injEq] at he
            exact ⟨he.symm, fun _ => hx⟩
          · simp only [ne_eq, hx, not_false_eq_true, if_true] at he
            cases he
      obtain ⟨hv1, hv2⟩ := hv
      refine ⟨by omega, fun hl => by rw [hv1, hv2 hl], fun n hp => ?_⟩
      cases hp with
      | null => rw [hv1]; rfl
      | left hn _ => exact absurd rfl hn
      | right hn _ => exact absurd rfl hn
    · rw [Arena.prvIsValid, if_neg hne] at he
      obtain ⟨c1, e1, he⟩ := bind_inv he
      cases c1 with
      | true => simp at he
      | false =>
        simp only [Bool.false_eq_true, if_false] at he
        obtain ⟨c2, e2, he⟩ := bind_inv he
        cases c2 with
        | true => simp at he
        | false =>
          simp only [Bool.false_eq_true, if_false] at he
          obtain ⟨c3, e3, he⟩ := bind_inv he
          cases c3 with
          | true => simp at he
          | false =>
            simp only [Bool.false_eq_true, if_false] at he
            obtain ⟨l, el, he⟩ := bind_inv he
            obtain ⟨d, ed, he⟩ := bind_inv he
            obtain ⟨ld1, e4, he⟩ := bind_inv he
            obtain ⟨rt, er, he⟩ := bind_inv he
            obtain ⟨d2, ed2, he⟩ := bind_inv he
            obtain ⟨rfl, -⟩ := read_inv el
            obtain ⟨rfl, -⟩ := read_inv er
            have hd := childDepth_inv hne ed
            have hd2 := childDepth_inv hne ed2
            have hle : cd + (if a.colors r = NODE_RED then 0 else 1) + fuel ≤ NULL_INDEX := by
              split <;> omega
            have hmod : (cd + if a.colors r = NODE_RED then 0 else 1) % UINT32 =
                cd + if a.colors r = NODE_RED then 0 else 1 := by
              apply Nat.mod_eq_of_lt
              have : NULL_INDEX < UINT32 := by decide
              omega
            rw [hmod] at hd hd2
            subst hd
            subst hd2
            obtain ⟨n1, k1, p1⟩ := ih _ _ _ _ e4 hle
            obtain ⟨n2, k2, p2⟩ := ih _ _ _ _ he hle
            have h21 : v = ld1 := k2 n1
            refine ⟨n2, fun hl => by rw [h21]; exact k1 hl, fun n hp => ?_⟩
            cases hp with
            | null => exact absurd rfl hne
            | left _ hp' =>
              have := p1 _ hp'
              rw [h21]
              omega
            | right _ hp' =>
              have := p2 _ hp'
              omega

/-- Claim C21: when `isValidRBTree()` returns normally (on an arena of fewer than `0xffffffff`
slots), no red node reachable from the root has a red child on either side, no reachable node
has a red right child, and all paths from the root to a null link pass the same number of
black nodes. -/
theorem validator_colour_sound [LinearOrder K] (t : RBT K V)
    (hc : t.arena.capacity < NULL_INDEX) (h : t.isValidRBTree = .ok ()) :
    (∀ i, t.arena.Reaches t.root i →
      (t.arena.Red i → ¬ t.arena.Red (t.arena.left i) ∧ ¬ t.arena.Red (t.arena.right i)) ∧
      ¬ t.arena.Red (t.arena.right i)) ∧
    ∃ d, ∀ n, t.arena.BlackPath t.root n → n = d := by
  by_cases hne : t.root = NULL_INDEX
  · refine ⟨fun i hi => ?_, 0, fun n hp => ?_⟩
    · rw [hne] at hi
      cases hi with
      | here hn => exact absurd rfl hn
      | left hn _ => exact absurd rfl hn
      | right hn _ => exact absurd rfl hn
    · rw [hne] at hp
      cases hp with
      | null => rfl
      | left hn _ => exact absurd rfl hn
      | right hn _ => exact absurd rfl hn
  · simp only [RBT.isValidRBTree, if_neg hne] at h
    obtain ⟨v, e, -⟩ := bind_inv h
    refine ⟨fun i hi => ?_, v, fun n hp => ?_⟩
    · obtain ⟨h1, h2⟩ := prvIsValid_colours t.arena _ _ _ _ _ e i hi
      exact ⟨fun hr => ⟨h1 hr, h2⟩, h2⟩
    · have hb : 0 + t.fuel ≤ NULL_INDEX := by
        simp only [RBT.fuel]
        omega
      have := (prvIsValid_paths t.arena _ _ _ _ _ e hb).2.2 n hp
      omega

theorem validator_colour_sound_witness :
    run8.2.arena.capacity < NULL_INDEX ∧ run8.2.isValidRBTree = .ok () ∧
      ((∀ i, run8.2.arena.Reaches run8.2.root i →
        (run8.2.arena.Red i →
          ¬ run8.2.arena.Red (run8.2.arena.left i) ∧
          ¬ run8.2.arena.Red (run8.2.arena.right i)) ∧
        ¬ run8.2.arena.Red (run8.2.arena.right i)) ∧
      ∃ d, ∀ n, run8.2.arena.BlackPath run8.2.root n → n = d) :=
  ⟨by decide, rfl, validator_colour_sound run8.2 (by decide) rfl⟩

/-- Claim C22: with a non-empty free list (whose head is a slot of the arena) `prvAllocate`
returns the old head `h`, makes the old `left[h]` the new head, leaves
`left[h] == right[h] == NULL_INDEX`, `counts[h] == heights[h] == 1` and `colors[h] == NODE_RED`,
and changes neither the capacity nor any column at another handle (nor the key and value
stored at `h`). -/
theorem allocate_pops_free_list [Inhabited K] [Inhabited V] (a : Arena K V)
    (h0 : a.freeListHead ≠ NULL_INDEX) (h1 : a.freeListHead < a.capacity) :
    ∃ a', a.prvAllocate = .ok (a', a.freeListHead) ∧
      a'.freeListHead = a.left a.freeListHead ∧
      a'.left a.freeListHead = NULL_INDEX ∧ a'.right a.freeListHead = NULL_INDEX ∧
      a'.counts a.freeListHead = 1 ∧ a'.heights a.freeListHead = 1 ∧
      a'.colors a.freeListHead = NODE_RED ∧
      a'.capacity = a.capacity ∧ a'.nTrees = a.nTrees ∧
      a'.keys = a.keys ∧ a'.values = a.values ∧
      ∀ i, i ≠ a.freeListHead → Agree a a' i := by
  refine ⟨{ a with
      freeListHead := a.left a.freeListHead
      right := upd a.right a.freeListHead NULL_INDEX
      left := upd a.left a.freeListHead NULL_INDEX
      heights := upd a.heights a.freeListHead 1
      counts := upd a.counts a.freeListHead 1
      colors := upd a.colors a.freeListHead NODE_RED }, ?_, rfl, by simp, by simp, by simp,
    by simp, by simp, rfl, rfl, rfl, rfl, fun i hi => by simp [Agree, upd, hi]⟩
  simp only [Arena.prvAllocate, h0, if_false, bind, Except.bind, pure, Except.pure,
    Arena.read, h1, if_true, Arena.setRight, Arena.setLeft, Arena.setHeight,
    Arena.setCount, Arena.setColor]

theorem allocate_pops_free_list_witness :
    run0.arena.freeListHead ≠ NULL_INDEX ∧ run0.arena.freeListHead < run0.arena.capacity ∧
      ∃ a', run0.arena.prvAllocate = .ok (a', run0.arena.freeListHead) ∧
        a'.freeListHead = run0.arena.left run0.arena.freeListHead ∧
        a'.left run0.arena.freeListHead = NULL_INDEX ∧
        a'.right run0.arena.freeListHead = NULL_INDEX ∧
        a'.counts run0.arena.freeListHead = 1 ∧ a'.heights run0.arena.freeListHead = 1 ∧
        a'.colors run0.arena.freeListHead = NODE_RED ∧
        a'.capacity = run0.arena.capacity ∧ a'.nTrees = run0.arena.nTrees ∧
        a'.keys = run0.arena.keys ∧ a'.values = run0.arena.values ∧
        ∀ i, i ≠ run0.arena.freeListHead → Agree run0.arena a' i :=
  ⟨by decide, by decide, allocate_pops_free_list run0.arena (by decide) (by decide)⟩

/-- Claim C23, as the code has it: when the free list is empty and the capacity `c` is positive
and below `2^31` (so that `2*c` is a `uint32_t`), `prvAllocate` returns the handle `c`, the
capacity becomes `2*c`, every column is unchanged at every handle below `c`, the new slot is
initialised, and the free list afterwards runs through `c+1, ..., 2*c-1` in this order. -/
theorem allocate_doubles_capacity [Inhabited K] [Inhabited V] (a : Arena K V)
    (hf : a.freeListHead = NULL_INDEX) (h0 : 0 < a.capacity) (h2 : 2 * a.capacity < UINT32) :
    ∃ a', a.prvAllocate = .ok (a', a.capacity) ∧ a'.capacity = 2 * a.capacity ∧
      (∀ i, i < a.capacity → Agree a a' i) ∧
      FreeList a' a'.freeListHead (List.range' (a.capacity + 1) (a.capacity - 1)) ∧
      a'.left a.capacity = NULL_INDEX ∧ a'.right a.capacity = NULL_INDEX ∧
      a'.counts a.capacity = 1 ∧ a'.heights a.capacity = 1 ∧
      a'.colors a.capacity = NODE_RED := by
  have hc : a.capacity < NULL_INDEX := by
    simp only [UINT32] at h2
    simp only [NULL_INDEX]
    omega
  obtain ⟨a', nh, fl', e, Al⟩ := prvAllocate_spec (show FreeList a a.freeListHead []
    from hf) List.nodup_nil (le_of_lt hc) (Or.inr ⟨h0, h2⟩)
  rcases Al.src with ⟨h1, -⟩ | ⟨-, h1, h3, h4⟩
  · simp at h1
  · subst h1
    subst h4
    obtain ⟨-, n1, n2, n3, n4, n5, -⟩ := Al.node
    refine ⟨a', e, h3, fun i hi => Al.agree i hi (by omega), Al.freelist, n1, n2, n3, n4, ?_⟩
    rw [n5]
    rfl

theorem allocate_doubles_capacity_witness :
    solo2.arena.freeListHead = NULL_INDEX ∧ 0 < solo2.arena.capacity ∧
      2 * solo2.arena.capacity < UINT32 ∧
      ∃ a', solo2.arena.prvAllocate = .ok (a', solo2.arena.capacity) ∧
        a'.capacity = 2 * solo2.arena.capacity ∧
        (∀ i, i < solo2.arena.capacity → Agree solo2.arena a' i) ∧
        FreeList a' a'.freeListHead
          (List.range' (solo2.arena.capacity + 1) (solo2.arena.capacity - 1)) ∧
        a'.left solo2.arena.capacity = NULL_INDEX ∧
        a'.right solo2.arena.capacity = NULL_INDEX ∧
        a'.counts solo2.arena.capacity = 1 ∧ a'.heights solo2.arena.capacity = 1 ∧
        a'.colors solo2.arena.capacity = NODE_RED :=
  ⟨rfl, by decide, by decide,
    allocate_doubles_capacity solo2.arena rfl (by decide) (by decide)⟩

section Fill
variable [Inhabited K] [Inhabited V] [LinearOrder K]

/-- As many fresh keys as the free list has slots can be put into a tree without growing the
arena, and they use up that many slots. -/
theorem Inv.fill : ∀ (ks : List K) {t : RBT K V} {tr : Tree K V} {fl : List Nat},
    Reach t tr.toList → Inv t tr fl → (∀ k ∈ ks, k ∉ tr.toList.map Prod.fst) → ks.Nodup →
    ks.length ≤ fl.length →
    ∃ t' tr' fl', t.upsertAll ks = .ok t' ∧ Reach t' tr'.toList ∧ Inv t' tr' fl' ∧
      fl'.length + ks.length = fl.length ∧ t'.arena.capacity = t.arena.capacity ∧
      ∀ q, q ∈ tr'.toList.map Prod.fst → q ∈ ks ∨ q ∈ tr.toList.map Prod.fst := by
  intro ks
  induction ks with
  | nil => intro t tr fl hr I _ _ _; exact ⟨t, tr, fl, rfl, hr, I, rfl, rfl, fun _ h => Or.inr h⟩
  | cons k ks ih =>
    intro t tr fl hr I hk hn hl
    have hfl : fl ≠ [] := by
      rintro rfl
      simp at hl
    have hhead : t.arena.freeListHead ≠ NULL_INDEX := by
      cases fl with
      | nil => exact absurd rfl hfl
      | cons x xs =>
        obtain ⟨e1, e2, -⟩ := I.free
        have := I.cap_le
        omega
    have hk0 : k ∉ tr.toList.map Prod.fst := hk k (List.mem_cons_self _ _)
    obtain ⟨hk1, hn'⟩ := List.nodup_cons.1 hn
    obtain ⟨i, t1, tr1, fl1, e, I1, -, l1, hsrc⟩ := I.upsert_absent_within hk0 (Or.inl hhead)
    rcases hsrc with ⟨nh, h1, h2⟩ | ⟨h1, -⟩
    · have hr1 : Reach t1 tr1.toList := by
        rw [l1]
        exact Reach.upsert hr e
      obtain ⟨t', tr', fl', e', hr', I', hlen, hcap, hkeys⟩ := ih hr1 I1 (fun k' hk' hc => by
        rw [l1] at hc
        rcases insL_keys hc with rfl | hc
        · exact hk1 hk'
        · exact hk k' (List.mem_cons_of_mem _ hk') hc) hn' (by
          rw [h1] at hl
          simp only [List.length_cons] at hl
          omega)
      refine ⟨t', tr', fl', ?_, hr', I', ?_, hcap.trans h2, fun q hq => ?_⟩
      · simp only [RBT.upsertAll, e]
        exact e'
      · rw [h1]
        simp only [List.length_cons]
        omega
      · rcases hkeys q hq with hq | hq
        · exact Or.inl (List.mem_cons_of_mem _ hq)
        · rw [l1] at hq
          rcases insL_keys hq with rfl | hq
          · exact Or.inl (List.mem_cons_self _ _)
          · exact Or.inr hq
    · exact absurd h1 hfl

end Fill

/-- Claim C23 fails on the code: a tree constructed with `2^31` slots and filled with the keys
`0, ..., 2^31-1` is in a state with an empty free list and capacity `2^31`; there `2*capacity`
wraps to zero, the copy loop of `prvAllocate` runs past the new arrays, and so does the next
`operator[]` with a fresh key. -/
theorem allocate_fails_at_full_range :
    ∃ t0 t : RBT Nat Nat, empty 2147483648 = .ok t0 ∧
      t0.upsertAll (List.range 2147483648) = .ok t ∧
      t.arena.capacity = 2147483648 ∧ t.arena.freeListHead = NULL_INDEX ∧
      t.arena.prvAllocate = .error .undefinedBehaviour ∧
      t.upsert 2147483648 = .error .undefinedBehaviour := by
  obtain ⟨t0, e0, I0, -, hcap0⟩ := empty_inv (K := Nat) (V := Nat)
    (show 0 < 2147483648 from by decide) (by decide)
  have hr0 : Reach t0 (Tree.nil : Tree Nat Nat).toList :=
    Reach.init (a := Arena.static0) rfl (by decide) e0
  obtain ⟨t, tr, fl, e, hr, I, hlen, hcap, hkeys⟩ := I0.fill (List.range 2147483648) hr0
    (fun _ _ => by simp [Tree.toList]) (List.nodup_range _) (by simp)
  have hfl : fl = [] := by
    simp only [List.length_range, List.length_range'] at hlen
    exact List.length_eq_zero.1 (by omega)
  subst hfl
  have hhead : t.arena.freeListHead = NULL_INDEX := I.free
  have hc : t.arena.capacity = 2147483648 := hcap.trans hcap0
  have hroom : ¬ (t.arena.freeListHead ≠ NULL_INDEX ∨ 2 * t.arena.capacity < UINT32) := by
    simp only [not_or, not_not, not_lt, UINT32]
    exact ⟨hhead, by omega⟩
  have hk : (2147483648 : Nat) ∉ tr.toList.map Prod.fst := by
    intro hm
    rcases hkeys _ hm with hq | hq
    · exact absurd (List.mem_range.1 hq) (lt_irrefl _)
    · simp [Tree.toList] at hq
  refine ⟨t0, t, e0, e, hc, hhead, ?_, I.upsert_full hk hroom⟩
  have hg : t.arena.grow = .error .undefinedBehaviour := by
    simp only [Arena.grow]
    rw [if_pos]
    right
    simp only [UINT32]
    omega
  simp only [Arena.prvAllocate, hhead, if_true, bind_err hg]

theorem Heap.size_below {a : Arena K V} {t : Tree K V} (hH : Heap a t) (hN : t.handles.Nodup)
    (hc : a.capacity ≤ NULL_INDEX) : t.size < UINT32 := by
  have h1 := nodup_length_le hN hH.mem_lt
  rw [Tree.handles_length] at h1
  have : NULL_INDEX < UINT32 := by decide
  omega

theorem rotateLeft_facts {a : Arena K V} (hc : a.capacity ≤ NULL_INDEX)
    (h s : Nat) (l sl sr : Tree K V) (c g sc sg : Nat) (red sred : Bool) (k sk : K) (v sv : V)
    (hH : Heap a (.node h l (.node s sl sr sc sg sred sk sv) c g red k v))
    (hN : (Tree.node h l (.node s sl sr sc sg sred sk sv) c g red k v).handles.Nodup) :
    ∃ a' c1 g1 c2 g2, a.prvRotateLeft h = .ok (a', s) ∧
      Heap a' (.node s (.node h l sl c1 g1 true k v) sr c2 g2 red sk sv) ∧
      a'.left s = h ∧ a'.colors s = a.colors h ∧ a'.colors h = NODE_RED ∧
      (Tree.node s (.node h l sl c1 g1 true k v) sr c2 g2 red sk sv).toList =
        (Tree.node h l (.node s sl sr sc sg sred sk sv) c g red k v).toList ∧
      (l.Cons → sl.Cons → sr.Cons →
        a'.nodeConsistent h = true ∧ a'.nodeConsistent s = true ∧
        a'.counts s = l.size + sl.size + sr.size + 2) ∧
      ((Tree.node h l (.node s sl sr sc sg sred sk sv) c g red k v).Cons →
        a'.counts s = a.counts h) := by
  have hsz := hH.size_below hN hc
  simp only [Tree.size] at hsz
  obtain ⟨a', E, H', F⟩ := prvRotateLeft_heap hH hN hc
    (show (Tree.node h l (.node s sl sr sc sg sred sk sv) c g red k v).rotateLeft =
      some (Tree.mk s (Tree.mk h l sl true k v) sr red sk sv) from rfl)
  simp only [Tree.mk_eq, Tree.root_node] at E H'
  have hc' : a'.capacity ≤ NULL_INDEX := by rw [F.capacity]; exact hc
  have hcnt : ∀ hl : l.Cons, ∀ hsl : sl.Cons, ∀ hsr : sr.Cons,
      (Tree.node s (.node h l sl (Tree.mkCnt l sl) (Tree.mkHt l sl) true k v) sr
        (Tree.mkCnt (.node h l sl (Tree.mkCnt l sl) (Tree.mkHt l sl) true k v) sr)
        (Tree.mkHt (.node h l sl (Tree.mkCnt l sl) (Tree.mkHt l sl) true k v) sr)
        red sk sv).Cons := fun hl hsl hsr =>
    Tree.Cons.mk (Tree.Cons.mk hl hsl (by omega) h true k v) hsr
      (by simp only [Tree.size]; omega) s red sk sv
  refine ⟨a', _, _, _, _, E, H', ?_, ?_, ?_, ?_, ?_, ?_⟩
  · exact H'.2.1
  · rw [H'.2.2.2.2.2.1, hH.2.2.2.2.2.1]
  · rw [H'.2.2.2.2.2.2.2.2.1.2.2.2.2.2.1]
    rfl
  · simp [Tree.toList]
  · intro hl hsl hsr
    have hC := hcnt hl hsl hsr
    refine ⟨Heap.node_consistent hc' H' hC h (by simp [Tree.handles]),
      Heap.node_consistent hc' H' hC s (by simp [Tree.handles]), ?_⟩
    rw [H'.2.2.2.1, hC.1]
    simp only [Tree.size]
    omega
  · intro hC
    have hC' := hcnt hC.2.2.1 hC.2.2.2.2.2.1 hC.2.2.2.2.2.2
    rw [H'.2.2.2.1, hC'.1, hH.2.2.2.1, hC.1]
    simp only [Tree.size]
    omega

theorem rotateRight_facts {a : Arena K V} (hc : a.capacity ≤ NULL_INDEX)
    (h q : Nat) (ql qr r : Tree K V) (c g qc qg : Nat) (red qred : Bool) (k qk : K) (v qv : V)
    (hH : Heap a (.node h (.node q ql qr qc qg qred qk qv) r c g red k v))
    (hN : (Tree.node h (.node q ql qr qc qg qred qk qv) r c g red k v).handles.Nodup) :
    ∃ a' c1 g1 c2 g2, a.prvRotateRight h = .ok (a', q) ∧
      Heap a' (.node q ql (.node h qr r c1 g1 true k v) c2 g2 red qk qv) ∧
      a'.right q = h ∧ a'.colors q = a.colors h ∧ a'.colors h = NODE_RED ∧
      (Tree.node q ql (.node h qr r c1 g1 true k v) c2 g2 red qk qv).toList =
        (Tree.node h (.node q ql qr qc qg qred qk qv) r c g red k v).toList ∧
      (ql.Cons → qr.Cons → r.Cons →
        a'.nodeConsistent h = true ∧ a'.nodeConsistent q = true ∧
        a'.counts q = ql.size + qr.size + r.size + 2) ∧
      ((Tree.node h (.node q ql qr qc qg qred qk qv) r c g red k v).Cons →
        a'.counts q = a.counts h) := by
  have hsz := hH.size_below hN hc
  simp only [Tree.size] at hsz
  obtain ⟨a', E, H', F⟩ := prvRotateRight_heap hH hN hc
    (show (Tree.node h (.node q ql qr qc qg qred qk qv) r c g red k v).rotateRight =
      some (Tree.mk q ql (Tree.mk h qr r true k v) red qk qv) from rfl)
  simp only [Tree.mk_eq, Tree.root_node] at E H'
  have hc' : a'.capacity ≤ NULL_INDEX := by rw [F.capacity]; exact hc
  have hcnt : ∀ hl : ql.Cons, ∀ hsl : qr.Cons, ∀ hsr : r.Cons,
      (Tree.node q ql (.node h qr r (Tree.mkCnt qr r) (Tree.mkHt qr r) true k v)
        (Tree.mkCnt ql (.node h qr r (Tree.mkCnt qr r) (Tree.mkHt qr r) true k v))
        (Tree.mkHt ql (.node h qr r (Tree.mkCnt qr r) (Tree.mkHt qr r) true k v))
        red qk qv).Cons := fun hl hsl hsr =>
    Tree.Cons.mk hl (Tree.Cons.mk hsl hsr (by omega) h true k v)
      (by simp only [Tree.size]; omega) q red qk qv
  refine ⟨a', _, _, _, _, E, H', ?_, ?_, ?_, ?_, ?_, ?_⟩
  · exact H'.2.2.1
  · rw [H'.2.2.2.2.2.1, hH.2.2.2.2.2.1]
  · rw [H'.2.2.2.2.2.2.2.2.2.2.2.2.2.2.1]
    rfl
  · simp [Tree.toList]
  · intro hl hsl hsr
    have hC := hcnt hl hsl hsr
    refine ⟨Heap.node_consistent hc' H' hC h (by simp [Tree.handles]),
      Heap.node_consistent hc' H' hC q (by simp [Tree.handles]), ?_⟩
    rw [H'.2.2.2.1, hC.1]
    simp only [Tree.size]
    omega
  · intro hC
    have hC' := hcnt hC.2.2.1.2.2.1 hC.2.2.1.2.2.2 hC.2.2.2
    rw [H'.2.2.2.1, hC'.1, hH.2.2.2.1, hC.1]
    simp only [Tree.size]
    omega

/-- Claim C26, as the code has it: `prvRotateLeft(h)` on a node `h` with a right child `s`
returns `s`, now the root of the subtree with `h` as its left child and the old left subtree of
`s` as the right subtree of `h`; `s` has the colour `h` had and `h` is red; the in-order entries
are the same; when the three subtrees hanging below store correct counts and heights, `h` and
`s` store consistent counts and heights afterwards and `count(s)` is the number of nodes of the
subtree, which is `count(h)` before when the counts of `h` and `s` were consistent before as
well.  `prvRotateRight` mirrors this for a node with a left child. -/
theorem rotations_keep_order_and_counts (a : Arena K V) (hc : a.capacity ≤ NULL_INDEX) :
    (∀ (h s : Nat) (l sl sr : Tree K V) (c g sc sg : Nat) (red sred : Bool) (k sk : K)
      (v sv : V),
      Heap a (.node h l (.node s sl sr sc sg sred sk sv) c g red k v) →
      (Tree.node h l (.node s sl sr sc sg sred sk sv) c g red k v).handles.Nodup →
      ∃ a' c1 g1 c2 g2, a.prvRotateLeft h = .ok (a', s) ∧
        Heap a' (.node s (.node h l sl c1 g1 true k v) sr c2 g2 red sk sv) ∧
        a'.left s = h ∧ a'.colors s = a.colors h ∧ a'.colors h = NODE_RED ∧
        (Tree.node s (.node h l sl c1 g1 true k v) sr c2 g2 red sk sv).toList =
          (Tree.node h l (.node s sl sr sc sg sred sk sv) c g red k v).toList ∧
        (l.Cons → sl.Cons → sr.Cons →
          a'.nodeConsistent h = true ∧ a'.nodeConsistent s = true ∧
          a'.counts s = l.size + sl.size + sr.size + 2) ∧
        ((Tree.node h l (.node s sl sr sc sg sred sk sv) c g red k v).Cons →
          a'.counts s = a.counts h)) ∧
    (∀ (h q : Nat) (ql qr r : Tree K V) (c g qc qg : Nat) (red qred : Bool) (k qk : K)
      (v qv : V),
      Heap a (.node h (.node q ql qr qc qg qred qk qv) r c g red k v) →
      (Tree.node h (.node q ql qr qc qg qred qk qv) r c g red k v).handles.Nodup →
      ∃ a' c1 g1 c2 g2, a.prvRotateRight h = .ok (a', q) ∧
        Heap a' (.node q ql (.node h qr r c1 g1 true k v) c2 g2 red qk qv) ∧
        a'.right q = h ∧ a'.colors q = a.colors h ∧ a'.colors h = NODE_RED ∧
        (Tree.node q ql (.node h qr r c1 g1 true k v) c2 g2 red qk qv).toList =
          (Tree.node h (.node q ql qr qc qg qred qk qv) r c g red k v).toList ∧
        (ql.Cons → qr.Cons → r.Cons →
          a'.nodeConsistent h = true ∧ a'.nodeConsistent q = true ∧
          a'.counts q = ql.size + qr.size + r.size + 2) ∧
        ((Tree.node h (.node q ql qr qc qg qred qk qv) r c g red k v).Cons →
          a'.counts q = a.counts h)) :=
  ⟨fun h s l sl sr c g sc sg red sred k sk v sv hH hN =>
      rotateLeft_facts hc h s l sl sr c g sc sg red sred k sk v sv hH hN,
    fun h q ql qr r c g qc qg red qred k qk v qv hH hN =>
      rotateRight_facts hc h q ql qr r c g qc qg red qred k qk v qv hH hN⟩

theorem shape3_heap : Heap run8.2.arena shape3 :=
  ⟨by decide, rfl, rfl, rfl, rfl, rfl, rfl, rfl,
    ⟨by decide, rfl, rfl, rfl, rfl, rfl, rfl, rfl, trivial, trivial⟩,
    ⟨by decide, rfl, rfl, rfl, rfl, rfl, rfl, rfl, trivial, trivial⟩⟩

theorem rotations_keep_order_and_counts_witness :
    run8.2.arena.capacity ≤ NULL_INDEX ∧ Heap run8.2.arena shape3 ∧ shape3.handles.Nodup ∧
      shape3.Cons ∧
      (∃ a' c1 g1 c2 g2, run8.2.arena.prvRotateLeft 1 = .ok (a', 2) ∧
        Heap a' (.node 2 (.node 1 (.node 0 .nil .nil 1 1 false 1 10) .nil c1 g1 true 2 0) .nil
          c2 g2 false 3 0) ∧
        a'.left 2 = 1 ∧ a'.colors 2 = run8.2.arena.colors 1 ∧ a'.colors 1 = NODE_RED ∧
        (Tree.node 2 (.node 1 (.node 0 .nil .nil 1 1 false 1 10) .nil c1 g1 true 2 0) .nil
          c2 g2 false 3 0).toList = shape3.toList ∧
        a'.nodeConsistent 1 = true ∧ a'.nodeConsistent 2 = true ∧ a'.counts 2 = 3 ∧
        a'.counts 2 = run8.2.arena.counts 1) ∧
      (∃ a' c1 g1 c2 g2, run8.2.arena.prvRotateRight 1 = .ok (a', 0) ∧
        Heap a' (.node 0 .nil (.node 1 .nil (.node 2 .nil .nil 1 1 false 3 0) c1 g1 true 2 0)
          c2 g2 false 1 10) ∧
        a'.right 0 = 1 ∧ a'.colors 0 = run8.2.arena.colors 1 ∧ a'.colors 1 = NODE_RED ∧
        (Tree.node 0 .nil (.node 1 .nil (.node 2 .nil .nil 1 1 false 3 0) c1 g1 true 2 0)
          c2 g2 false 1 10).toList = shape3.toList ∧
        a'.nodeConsistent 1 = true ∧ a'.nodeConsistent 0 = true ∧ a'.counts 0 = 3 ∧
        a'.counts 0 = run8.2.arena.counts 1) := by
  have hc : run8.2.arena.capacity ≤ NULL_INDEX := by decide
  have hN : shape3.handles.Nodup := by decide
  have hC : shape3.Cons := by simp [shape3, Tree.Cons, Tree.size, Tree.depth]
  have hl : (Tree.node 0 .nil .nil 1 1 false 1 10 : Tree Nat Nat).Cons := hC.2.2.1
  have hr : (Tree.node 2 .nil .nil 1 1 false 3 0 : Tree Nat Nat).Cons := hC.2.2.2
  refine ⟨hc, shape3_heap, hN, hC, ?_, ?_⟩
  · obtain ⟨a', c1, g1, c2, g2, e, H, p1, p2, p3, p4, p5, p6⟩ :=
      (rotations_keep_order_and_counts run8.2.arena hc).1 1 2 _ _ _ _ _ _ _ _ _ _ _ _ _
        shape3_heap hN
    obtain ⟨q1, q2, q3⟩ := p5 hl trivial trivial
    exact ⟨a', c1, g1, c2, g2, e, H, p1, p2, p3, p4, q1, q2, q3, p6 hC⟩
  · obtain ⟨a', c1, g1, c2, g2, e, H, p1, p2, p3, p4, p5, p6⟩ :=
      (rotations_keep_order_and_counts run8.2.arena hc).2 1 0 _ _ _ _ _ _ _ _ _ _ _ _ _
        shape3_heap hN
    obtain ⟨q1, q2, q3⟩ := p5 trivial trivial hr
    exact ⟨a', c1, g1, c2, g2, e, H, p1, p2, p3, p4, q1, q2, q3, p6 hC⟩

/-- Claim C26 fails on the code: `t[2]` on the tree with the key 1 links the new node 1 below
the root 0 and calls `prvBalance`, which rotates the root to the left while the root still stores
the count 1.  The three subtrees hanging below are empty and the new node stores the right count
and height, yet `count(s)` after the rotation is 2 and `count(h)` before it is 1:
`prvRotateLeft` recomputes the counts with `prvAdjust`. -/
theorem rotateLeft_recomputes_count :
    Arena.prvInsert 2 run1.2.fuel run1.2.arena run1.2.root = midInsert.prvBalance 0 ∧
    midInsert.rightLeaning 0 = .ok true ∧
    Heap midInsert (.node 0 .nil (.node 1 .nil .nil 1 1 true 2 0) 1 1 false 1 0) ∧
    (Tree.nil : Tree Nat Nat).Cons ∧ (Tree.node 1 .nil .nil 1 1 true 2 0 : Tree Nat Nat).Cons ∧
    midInsert.nodeConsistent 1 = true ∧ midInsert.counts 0 = 1 ∧
    ∃ a', midInsert.prvRotateLeft 0 = .ok (a', 1) ∧ a'.counts 1 = 2 ∧
      a'.counts 1 ≠ midInsert.counts 0 := by
  refine ⟨rfl, rfl, ⟨by decide, rfl, rfl, rfl, rfl, rfl, rfl, rfl, trivial,
    ⟨by decide, rfl, rfl, rfl, rfl, rfl, rfl, rfl, trivial, trivial⟩⟩, ?_, ?_, rfl, rfl, ?_⟩
  · trivial
  · exact ⟨rfl, rfl, trivial, trivial⟩
  · obtain ⟨a', e⟩ : ∃ a', midInsert.prvRotateLeft 0 = .ok (a', 1) ∧ a'.counts 1 = 2 :=
      ⟨_, rfl, rfl⟩
    exact ⟨a', e.1, e.2, by rw [e.2]; decide⟩

theorem read_null {α : Type} (b : Arena K V) (hc : b.capacity ≤ NULL_INDEX) (col : Nat → α) :
    b.read col NULL_INDEX = .error .undefinedBehaviour := by
  simp only [Arena.read, if_neg (not_lt.2 hc)]

theorem flipColors_null (b : Arena K V) (hc : b.capacity ≤ NULL_INDEX) (r : Nat)
    (h : b.left r = NULL_INDEX ∨ b.right r = NULL_INDEX) :
    b.prvFlipColors r = .error .undefinedBehaviour := by
  by_cases hr : r < b.capacity
  · simp only [Arena.prvFlipColors, Arena.read, hr, if_true, bind_ok rfl, Arena.setColor]
    by_cases hl : b.left r = NULL_INDEX
    · rw [hl, if_neg (not_lt.2 hc)]
      rfl
    · have hrt : b.right r = NULL_INDEX := h.resolve_left hl
      by_cases hl2 : b.left r < b.capacity
      · simp only [hl2, if_true, bind_ok rfl, hr, hrt, if_neg (not_lt.2 hc)]
        rfl
      · simp only [hl2, if_false]
        rfl
  · simp only [Arena.prvFlipColors, Arena.read, hr, if_false]
    rfl

theorem rotateLeft_null (b : Arena K V) (hc : b.capacity ≤ NULL_INDEX) (r : Nat)
    (h : b.right r = NULL_INDEX) : b.prvRotateLeft r = .error .undefinedBehaviour := by
  by_cases hr : r < b.capacity
  · simp only [Arena.prvRotateLeft, Arena.read, hr, if_true, bind_ok rfl, h,
      if_neg (not_lt.2 hc)]
    rfl
  · simp only [Arena.prvRotateLeft, Arena.read, hr, if_false]
    rfl

theorem rotateRight_null (b : Arena K V) (hc : b.capacity ≤ NULL_INDEX) (r : Nat)
    (h : b.left r = NULL_INDEX) : b.prvRotateRight r = .error .undefinedBehaviour := by
  by_cases hr : r < b.capacity
  · simp only [Arena.prvRotateRight, Arena.read, hr, if_true, bind_ok rfl, h,
      if_neg (not_lt.2 hc)]
    rfl
  · simp only [Arena.prvRotateRight, Arena.read, hr, if_false]
    rfl

theorem leftTests_null (b : Arena K V) (hc : b.capacity ≤ NULL_INDEX) (r : Nat)
    (h : b.left r = NULL_INDEX) :
    b.leftIsTwoNode r = .error .undefinedBehaviour ∧
      b.leftLeftChildRed r = .error .undefinedBehaviour := by
  by_cases hr : r < b.capacity
  · constructor
    · simp only [Arena.leftIsTwoNode, Arena.read, hr, if_true, bind_ok rfl, h, Arena.IS_RED,
        Bool.false_eq_true, if_false, if_neg (not_lt.2 hc)]
      rfl
    · simp only [Arena.leftLeftChildRed, Arena.read, hr, if_true, bind_ok rfl, h,
        if_neg (not_lt.2 hc)]
      rfl
  · constructor
    · simp only [Arena.leftIsTwoNode, Arena.read, hr, if_false]
      rfl
    · simp only [Arena.leftLeftChildRed, Arena.read, hr, if_false]
      rfl

theorem rightTests_null (b : Arena K V) (hc : b.capacity ≤ NULL_INDEX) (r : Nat)
    (h : b.right r = NULL_INDEX) :
    b.rightIsTwoNode r = .error .undefinedBehaviour ∧
      b.rightLeftRed r = .error .undefinedBehaviour := by
  by_cases hr : r < b.capacity
  · constructor
    · simp only [Arena.rightIsTwoNode, Arena.read, hr, if_true, bind_ok rfl, h, Arena.IS_RED,
        Bool.false_eq_true, if_false, if_neg (not_lt.2 hc)]
      rfl
    · simp only [Arena.rightLeftRed, Arena.read, hr, if_true, bind_ok rfl, h,
        if_neg (not_lt.2 hc)]
      rfl
  · constructor
    · simp only [Arena.rightIsTwoNode, Arena.read, hr, if_false]
      rfl
    · simp only [Arena.rightLeftRed, Arena.read, hr, if_false]
      rfl

theorem write_null (b : Arena K V) (hc : b.capacity ≤ NULL_INDEX) :
    (∀ x, b.setLeft NULL_INDEX x = .error .undefinedBehaviour) ∧
    (∀ x, b.setRight NULL_INDEX x = .error .undefinedBehaviour) ∧
    (∀ x, b.setColor NULL_INDEX x = .error .undefinedBehaviour) ∧
    (∀ x, b.setCount NULL_INDEX x = .error .undefinedBehaviour) ∧
    (∀ x, b.setHeight NULL_INDEX x = .error .undefinedBehaviour) ∧
    (∀ x, b.setKey NULL_INDEX x = .error .undefinedBehaviour) ∧
    (∀ x, b.setValue NULL_INDEX x = .error .undefinedBehaviour) := by
  have hn : ¬ NULL_INDEX < b.capacity := not_lt.2 hc
  refine ⟨fun x => ?_, fun x => ?_, fun x => ?_, fun x => ?_, fun x => ?_, fun x => ?_,
    fun x => ?_⟩
  · simp only [Arena.setLeft, if_neg hn]
  · simp only [Arena.setRight, if_neg hn]
  · simp only [Arena.setColor, if_neg hn]
  · simp only [Arena.setCount, if_neg hn]
  · simp only [Arena.setHeight, if_neg hn]
  · simp only [Arena.setKey, if_neg hn]
  · simp only [Arena.setValue, if_neg hn]

/-- Claim C27: on a tree that satisfies the invariants, `remove(k)` of a key it contains
returns normally.  In the model every subscript at `NULL_INDEX` ends the run with
`undefinedBehaviour` instead: a read or write of any column there, `prvFlipColors` on a node
with a null child, `prvRotateLeft` / `prvRotateRight` on a node without the child to promote,
and the grandchild tests of `prvRemove`, `prvRemoveMin`, `prvMoveRedLeft` and `prvMoveRedRight`
on a node whose child is null.  So none of these happens during the call. -/
theorem remove_never_touches_null [LinearOrder K] {t : RBT K V} {tr : Tree K V}
    {fl : List Nat} (h : Inv t tr fl) {k : K} (hk : k ∈ tr.toList.map Prod.fst) :
    (∃ t', t.remove k = .ok t' ∧ t'.arena.capacity = t.arena.capacity) ∧
    ∀ b : Arena K V, b.capacity = t.arena.capacity →
      (∀ col : Nat → Nat, b.read col NULL_INDEX = .error .undefinedBehaviour) ∧
      (∀ col : Nat → K, b.read col NULL_INDEX = .error .undefinedBehaviour) ∧
      (∀ col : Nat → V, b.read col NULL_INDEX = .error .undefinedBehaviour) ∧
      ((∀ x, b.setLeft NULL_INDEX x = .error .undefinedBehaviour) ∧
        (∀ x, b.setRight NULL_INDEX x = .error .undefinedBehaviour) ∧
        (∀ x, b.setColor NULL_INDEX x = .error .undefinedBehaviour) ∧
        (∀ x, b.setCount NULL_INDEX x = .error .undefinedBehaviour) ∧
        (∀ x, b.setHeight NULL_INDEX x = .error .undefinedBehaviour) ∧
        (∀ x, b.setKey NULL_INDEX x = .error .undefinedBehaviour) ∧
        (∀ x, b.setValue NULL_INDEX x = .error .undefinedBehaviour)) ∧
      (∀ r, b.left r = NULL_INDEX ∨ b.right r = NULL_INDEX →
        b.prvFlipColors r = .error .undefinedBehaviour) ∧
      (∀ r, b.right r = NULL_INDEX → b.prvRotateLeft r = .error .undefinedBehaviour) ∧
      (∀ r, b.left r = NULL_INDEX → b.prvRotateRight r = .error .undefinedBehaviour) ∧
      (∀ r, b.left r = NULL_INDEX →
        b.leftIsTwoNode r = .error .undefinedBehaviour ∧
        b.leftLeftChildRed r = .error .undefinedBehaviour) ∧
      (∀ r, b.right r = NULL_INDEX →
        b.rightIsTwoNode r = .error .undefinedBehaviour ∧
        b.rightLeftRed r = .error .undefinedBehaviour) := by
  constructor
  · obtain ⟨t', tr', n, e, -, -, -, hcap, -⟩ := h.remove_present_within hk
    exact ⟨t', e, hcap⟩
  · intro b hb
    have hc : b.capacity ≤ NULL_INDEX := by rw [hb]; exact h.cap_le
    exact ⟨read_null b hc, read_null b hc, read_null b hc, write_null b hc,
      flipColors_null b hc, rotateLeft_null b hc, rotateRight_null b hc, leftTests_null b hc,
      rightTests_null b hc⟩

theorem remove_never_touches_null_witness :
    ∃ tr fl, Inv run8.2 tr fl ∧ 2 ∈ tr.toList.map Prod.fst ∧
      (∃ t', run8.2.remove 2 = .ok t' ∧ t'.arena.capacity = run8.2.arena.capacity) ∧
      ∀ b : Arena Nat Nat, b.capacity = run8.2.arena.capacity →
        (∀ col : Nat → Nat, b.read col NULL_INDEX = .error .undefinedBehaviour) ∧
        (∀ col : Nat → Nat, b.read col NULL_INDEX = .error .undefinedBehaviour) ∧
        (∀ col : Nat → Nat, b.read col NULL_INDEX = .error .undefinedBehaviour) ∧
        ((∀ x, b.setLeft NULL_INDEX x = .error .undefinedBehaviour) ∧
          (∀ x, b.setRight NULL_INDEX x = .error .undefinedBehaviour) ∧
          (∀ x, b.setColor NULL_INDEX x = .error .undefinedBehaviour) ∧
          (∀ x, b.setCount NULL_INDEX x = .error .undefinedBehaviour) ∧
          (∀ x, b.setHeight NULL_INDEX x = .error .undefinedBehaviour) ∧
          (∀ x, b.setKey NULL_INDEX x = .error .undefinedBehaviour) ∧
          (∀ x, b.setValue NULL_INDEX x = .error .undefinedBehaviour)) ∧
        (∀ r, b.left r = NULL_INDEX ∨ b.right r = NULL_INDEX →
          b.prvFlipColors r = .error .undefinedBehaviour) ∧
        (∀ r, b.right r = NULL_INDEX → b.prvRotateLeft r = .error .undefinedBehaviour) ∧
        (∀ r, b.left r = NULL_INDEX → b.prvRotateRight r = .error .undefinedBehaviour) ∧
        (∀ r, b.left r = NULL_INDEX →
          b.leftIsTwoNode r = .error .undefinedBehaviour ∧
          b.leftLeftChildRed r = .error .undefinedBehaviour) ∧
        (∀ r, b.right r = NULL_INDEX →
          b.rightIsTwoNode r = .error .undefinedBehaviour ∧
          b.rightLeftRed r = .error .undefinedBehaviour) := by
  obtain ⟨tr, fl, I, e⟩ := run8_reach.inv
  have hk : 2 ∈ tr.toList.map Prod.fst := by rw [e]; decide
  exact ⟨tr, fl, I, hk, remove_never_touches_null I hk⟩

theorem split_at_index {α : Type} : ∀ (l : List α) (i : Nat), i < l.length →
    ∃ pre x post, l = pre ++ x :: post ∧ pre.length = i := by
  intro l
  induction l with
  | nil => intro i h; simp at h
  | cons a l ih =>
    intro i h
    cases i with
    | zero => exact ⟨[], a, l, rfl, rfl⟩
    | succ i =>
      obtain ⟨pre, x, post, e, hl⟩ := ih i (by simpa using h)
      exact ⟨a :: pre, x, post, by rw [e]; rfl, by simp [hl]⟩

theorem getD_mid {α : Type} (pre post : List α) (x d : α) {i : Nat} (hi : pre.length = i) :
    (pre ++ x :: post).getD i d = x := by
  subst hi
  induction pre with
  | nil => rfl
  | cons a l ih => simpa using ih

theorem pairwise_disjoint_replace {pre post : List (Tree K V)} {x y : Tree K V}
    (h : (pre ++ x :: post).Pairwise (fun x y => List.Disjoint x.handles y.handles))
    (hy : ∀ z, z ∈ pre ∨ z ∈ post → List.Disjoint y.handles z.handles) :
    (pre ++ y :: post).Pairwise (fun x y => List.Disjoint x.handles y.handles) := by
  rw [List.pairwise_append, List.pairwise_cons] at h ⊢
  obtain ⟨h1, ⟨-, h3⟩, h4⟩ := h
  refine ⟨h1, ⟨fun z hz => hy z (Or.inr hz), h3⟩, fun a ha b hb => ?_⟩
  rcases List.mem_cons.1 hb with rfl | hb
  · exact (hy a (Or.inl ha)).symm
  · exact h4 a ha b (List.mem_cons_of_mem _ hb)

theorem pairwise_disjoint_at {pre post : List (Tree K V)} {x : Tree K V}
    (h : (pre ++ x :: post).Pairwise (fun x y => List.Disjoint x.handles y.handles))
    (z : Tree K V) (hz : z ∈ pre ∨ z ∈ post) : List.Disjoint x.handles z.handles := by
  rw [List.pairwise_append, List.pairwise_cons] at h
  obtain ⟨-, ⟨h2, -⟩, h4⟩ := h
  rcases hz with hz | hz
  · exact (h4 z hz x (List.mem_cons_self _ _)).symm
  · exact h2 z hz

section ForestSteps
variable [LinearOrder K]

/-- One step on one tree carries the invariant of the forest over. -/
theorem InvF.advance {s : Forest K V} {pre post : List (Tree K V)} {tr tr' : Tree K V}
    {fl fl' : List Nat} {t' : RBT K V} (h : InvF s (pre ++ tr :: post) fl)
    (hI : Inv t' tr' fl')
    (hW : Within (tr.handles ++ fl) (tr'.handles ++ fl') s.arena t'.arena) :
    InvF (s.put pre.length t') (pre ++ tr' :: post) fl' := by
  have hother : ∀ z, z ∈ pre ∨ z ∈ post →
      Inv ({ arena := t'.arena, root := z.root } : RBT K V) z fl' ∧
      List.Disjoint tr'.handles z.handles := by
    intro z hz
    have hzm : z ∈ pre ++ tr :: post := by
      rcases hz with hz | hz
      · exact List.mem_append_left _ hz
      · exact List.mem_append_right _ (List.mem_cons_of_mem _ hz)
    have hd := pairwise_disjoint_at h.pair z hz
    obtain ⟨I, d⟩ := Inv.bystander (a := s.arena) (b := z.root) (r := t'.root) (h.inv z hzm) hI
      hW (fun i hi hm => hd hi hm)
    exact ⟨I, fun i hi hm => d i hi hm⟩
  refine ⟨?_, ?_, ?_, ?_, by simp, ?_⟩
  · simp only [Forest.put, h.roots, List.map_append, List.map_cons]
    rw [← List.length_map pre Tree.root, List.set_append_right _ _ (le_refl _)]
    simp [hI.root]
  · intro z hz
    rcases List.mem_append.1 hz with hz | hz
    · exact (hother z (Or.inl hz)).1
    · rcases List.mem_cons.1 hz with rfl | hz
      · have : ({ arena := t'.arena, root := z.root } : RBT K V) = t' := by
          rw [← hI.root]
        show Inv ({ arena := t'.arena, root := z.root } : RBT K V) z fl'
        rw [this]
        exact hI
      · exact (hother z (Or.inr hz)).1
  · exact pairwise_disjoint_replace h.pair (fun z hz => (hother z hz).2)
  · show t'.arena.nTrees = _
    rw [hW.nTrees, h.live]
    simp
  · have c1 := h.count
    have c2 := hW.count
    simp only [List.map_append, List.map_cons, List.sum_append, List.sum_cons,
      List.length_append] at c1 c2 ⊢
    show _ = t'.arena.capacity
    omega

theorem InvF.pick {s : Forest K V} {trs : List (Tree K V)} {fl : List Nat} (h : InvF s trs fl)
    {i : Nat} (hi : i < s.roots.length) :
    ∃ pre tr post, trs = pre ++ tr :: post ∧ pre.length = i ∧ Inv (s.tree i) tr fl := by
  have hl : i < trs.length := by
    have := congrArg List.length h.roots
    simp only [List.length_map] at this
    omega
  obtain ⟨pre, tr, post, e, hp⟩ := split_at_index trs i hl
  refine ⟨pre, tr, post, e, hp, ?_⟩
  have hr : s.roots.getD i NULL_INDEX = tr.root := by
    rw [h.roots, e, List.map_append, List.map_cons]
    exact getD_mid _ _ _ _ (by rw [List.length_map, hp])
  have := h.inv tr (by rw [e]; simp)
  simp only [Forest.tree, hr]
  exact this

end ForestSteps

section ForestReach
variable [Inhabited K] [Inhabited V] [LinearOrder K]

theorem ReachF.invF {s : Forest K V} (h : ReachF s) : ∃ trs fl, InvF s trs fl := by
  induction h with
  | @first cap t hc he =>
    have h0 : 0 < cap := by
      rcases Nat.eq_zero_or_pos cap with rfl | h0
      · simp [empty, construct, Arena.static0] at he
      · exact h0
    obtain ⟨t1, e1, I, -, hcap⟩ := empty_inv (K := K) (V := V) h0 (le_of_lt hc)
    rw [he] at e1
    cases e1
    refine ⟨[.nil], List.range' 0 cap, ?_, ?_, by simp, empty_nTrees he, by simp, ?_⟩
    · simp [Tree.root, empty_root he]
    · intro tr htr
      simp only [List.mem_singleton] at htr
      subst htr
      have : ({ arena := t.arena, root := (Tree.nil : Tree K V).root } : RBT K V) = t := by
        rw [← I.root]
      show Inv ({ arena := t.arena, root := (Tree.nil : Tree K V).root } : RBT K V) _ _
      rw [this]
      exact I
    · simp [Tree.handles, hcap]
  | @another s cap t _ hb hc ih =>
    obtain ⟨trs, fl, I⟩ := ih
    have hlen : s.roots.length = trs.length := by rw [I.roots, List.length_map]
    have hne : s.arena.nTrees ≠ 0 := by
      rw [I.live]
      exact fun h0 => I.pos (List.length_eq_zero.1 h0)
    simp only [construct] at hc
    rw [if_neg hne] at hc
    have hmod : (s.arena.nTrees + 1) % UINT32 = trs.length + 1 := by
      rw [I.live]
      exact Nat.mod_eq_of_lt (by omega)
    rw [hmod] at hc
    cases hc
    obtain ⟨z, hz⟩ := List.exists_mem_of_ne_nil trs I.pos
    have Iz := (I.inv z hz).with_nTrees (trs.length + 1)
    refine ⟨trs ++ [.nil], fl, ?_, ?_, ?_, by simp, by simp, ?_⟩
    · simp [I.roots, Tree.root]
    · intro tr htr
      rcases List.mem_append.1 htr with htr | htr
      · exact (I.inv tr htr).with_nTrees (trs.length + 1)
      · simp only [List.mem_singleton] at htr
        subst htr
        exact ⟨trivial, rfl, Iz.free, by simpa [Tree.handles] using Iz.nodup_fl, Iz.cap_pos,
          Iz.cap_le, trivial, rfl, List.Pairwise.nil, trivial⟩
    · rw [List.pairwise_append]
      refine ⟨I.pair, List.pairwise_singleton _ _, fun a _ b hb' => ?_⟩
      simp only [List.mem_singleton] at hb'
      subst hb'
      intro i _ hi
      simp [Tree.handles] at hi
    · have := I.count
      simp only [List.map_append, List.sum_append, List.map_cons, List.map_nil, List.sum_cons,
        List.sum_nil, Tree.handles, List.length_nil]
      show _ = s.arena.capacity
      omega
  | @upsert s i k j t' _ hi he ih =>
    obtain ⟨trs, fl, I⟩ := ih
    obtain ⟨pre, tr, post, e, hp, It⟩ := I.pick hi
    subst e
    subst hp
    obtain ⟨tr', fl', I', W⟩ := It.upsert_within he
    exact ⟨_, fl', I.advance I' W⟩
  | @write s i k j x t' _ hi hs hw ih =>
    obtain ⟨trs, fl, I⟩ := ih
    obtain ⟨pre, tr, post, e, hp, It⟩ := I.pick hi
    subst e
    subst hp
    obtain ⟨I', W⟩ := It.write_within hs hw
    exact ⟨_, fl, I.advance I' W⟩
  | @remove s i k t' _ hi he ih =>
    obtain ⟨trs, fl, I⟩ := ih
    obtain ⟨pre, tr, post, e, hp, It⟩ := I.pick hi
    subst e
    subst hp
    obtain ⟨tr', fl', I', W⟩ := It.remove_within he
    exact ⟨_, fl', I.advance I' W⟩
  | @clear s i t' _ hi he ih =>
    obtain ⟨trs, fl, I⟩ := ih
    obtain ⟨pre, tr, post, e, hp, It⟩ := I.pick hi
    subst e
    subst hp
    obtain ⟨I', W⟩ := It.clear_within he
    exact ⟨_, _, I.advance I' W⟩
  | @map σ s i fp x x' t' _ hi he ih =>
    obtain ⟨trs, fl, I⟩ := ih
    obtain ⟨pre, tr, post, e, hp, It⟩ := I.pick hi
    subst e
    subst hp
    obtain ⟨I', W⟩ := It.map_within he
    exact ⟨_, fl, I.advance I' W⟩

end ForestReach

theorem prvAllocate_full [Inhabited K] [Inhabited V] {a : Arena K V}
    (hf : a.freeListHead = NULL_INDEX) (hc : a.capacity ≤ NULL_INDEX)
    (h2 : ¬ 2 * a.capacity < UINT32) : a.prvAllocate = .error .undefinedBehaviour := by
  have hg : a.grow = .error .undefinedBehaviour := by
    simp only [Arena.grow]
    rw [if_pos]
    right
    simp only [NULL_INDEX] at hc
    simp only [UINT32] at h2 ⊢
    omega
  simp only [Arena.prvAllocate, hf, if_true, bind_err hg]

section ForestFacts
variable [LinearOrder K]

theorem InvF.free {s : Forest K V} {trs : List (Tree K V)} {fl : List Nat} (h : InvF s trs fl) :
    FreeList s.arena s.arena.freeListHead fl ∧ fl.Nodup ∧ s.arena.capacity ≤ NULL_INDEX := by
  obtain ⟨z, hz⟩ := List.exists_mem_of_ne_nil trs h.pos
  have I := h.inv z hz
  exact ⟨I.free, I.nodup_fl, I.cap_le⟩

theorem InvF.partition {s : Forest K V} {trs : List (Tree K V)} {fl : List Nat}
    (h : InvF s trs fl) :
    ((trs.map Tree.handles).flatten ++ fl).Perm (List.range s.arena.capacity) := by
  obtain ⟨hF, hN, -⟩ := h.free
  have hnd : ((trs.map Tree.handles).flatten ++ fl).Nodup := by
    rw [List.nodup_append]
    refine ⟨?_, hN, ?_⟩
    · rw [List.nodup_flatten]
      refine ⟨?_, ?_⟩
      · intro l hl
        obtain ⟨tr, htr, rfl⟩ := List.mem_map.1 hl
        exact (h.inv tr htr).nodup_tr
      · rw [List.pairwise_map]
        exact h.pair
    · intro x hx hfl
      obtain ⟨l, hl, hxl⟩ := List.mem_flatten.1 hx
      obtain ⟨tr, htr, rfl⟩ := List.mem_map.1 hl
      exact (h.inv tr htr).disjoint x hxl hfl
  have hb : ∀ x ∈ (trs.map Tree.handles).flatten ++ fl, x < s.arena.capacity := by
    intro x hx
    rcases List.mem_append.1 hx with hx | hx
    · obtain ⟨l, hl, hxl⟩ := List.mem_flatten.1 hx
      obtain ⟨tr, htr, rfl⟩ := List.mem_map.1 hl
      exact (h.inv tr htr).heap.mem_lt x hxl
    · exact FreeList.lt_capacity fl _ hF x hx
  have hs : ((trs.map Tree.handles).flatten ++ fl).Subperm (List.range s.arena.capacity) :=
    List.subperm_of_subset hnd (fun x hx => List.mem_range.2 (hb x hx))
  refine hs.perm_of_length_le ?_
  rw [List.length_range, List.length_append, List.length_flatten, List.map_map, ← h.count]
  rfl

end ForestFacts

section Partition
variable [Inhabited K] [Inhabited V] [LinearOrder K]

/-- Claim C28: in every state reached by constructing trees on the arena and calling
`operator[]`, `remove`, `clear` (and writes through references and `map`) on them, the free
list followed through `left` from `freeListHead` is a finite list `fl` without repetition, the
sets of nodes reachable from the roots are given by lists `hss` that are pairwise disjoint, and
these lists followed by `fl` are a rearrangement of `0, ..., capacity-1`; `prvAllocate` never
returns a node that is reachable from a root, and a `remove` that returns puts exactly one
node, taken from the tree it was called on, in front of the free list. -/
theorem arena_is_partitioned {s : Forest K V} (h : ReachF s) :
    ∃ (fl : List Nat) (hss : List (List Nat)),
      FreeList s.arena s.arena.freeListHead fl ∧ fl.Nodup ∧
      (∀ x, s.arena.OnFreeList s.arena.freeListHead x ↔ x ∈ fl) ∧
      List.Forall₂ (fun r hs => ∀ x, s.arena.Reaches r x ↔ x ∈ hs) s.roots hss ∧
      hss.Pairwise List.Disjoint ∧ (∀ hs ∈ hss, List.Disjoint hs fl) ∧
      (hss.flatten ++ fl).Perm (List.range s.arena.capacity) ∧
      (∀ a' x, s.arena.prvAllocate = .ok (a', x) → ∀ r ∈ s.roots, ¬ s.arena.Reaches r x) ∧
      (∀ i k t', i < s.roots.length → (s.tree i).remove k = .ok t' →
        ∃ n, FreeList t'.arena t'.arena.freeListHead (n :: fl) ∧
          s.arena.Reaches (s.tree i).root n ∧ ¬ t'.arena.Reaches t'.root n) := by
  obtain ⟨trs, fl, I⟩ := h.invF
  obtain ⟨hF, hN, hcl⟩ := I.free
  have hreach : ∀ tr ∈ trs, ∀ x, s.arena.Reaches tr.root x ↔ x ∈ tr.handles :=
    fun tr htr x => Heap.reaches_iff (I.inv tr htr).cap_le (I.inv tr htr).heap x
  refine ⟨fl, trs.map Tree.handles, hF, hN,
    FreeList.onFreeList_iff hcl fl _ hF, ?_, ?_, ?_, I.partition, ?_, ?_⟩
  · rw [I.roots, List.forall₂_map_left_iff, List.forall₂_map_right_iff, List.forall₂_same]
    exact hreach
  · rw [List.pairwise_map]
    exact I.pair
  · intro hs hhs
    obtain ⟨tr, htr, rfl⟩ := List.mem_map.1 hhs
    exact fun x hx hfl => (I.inv tr htr).disjoint x hx hfl
  · intro a' x he r hr hx
    rw [I.roots] at hr
    obtain ⟨tr, htr, rfl⟩ := List.mem_map.1 hr
    have It := I.inv tr htr
    have hxm : x ∈ tr.handles := (hreach tr htr x).1 hx
    have hroom : fl ≠ [] ∨ (0 < s.arena.capacity ∧ 2 * s.arena.capacity < UINT32) := by
      by_cases hfl : fl = []
      · right
        refine ⟨It.cap_pos, ?_⟩
        by_contra h2
        subst hfl
        rw [prvAllocate_full (show s.arena.freeListHead = NULL_INDEX from hF) hcl h2] at he
        cases he
      · exact Or.inl hfl
    obtain ⟨a0, nh, fl', e0, Al⟩ := prvAllocate_spec hF hN hcl hroom
    rw [he] at e0
    simp only [Except.ok.injEq, Prod.mk.injEq] at e0
    obtain ⟨-, rfl⟩ := e0
    rcases Al.src with ⟨h1, -⟩ | ⟨-, h1, -⟩
    · exact It.disjoint x hxm h1
    · have hlt : x < s.arena.capacity := It.heap.mem_lt x hxm
      omega
  · intro i k t' hi he
    obtain ⟨pre, tr, post, e, hp, It⟩ := I.pick hi
    by_cases hk : k ∈ tr.toList.map Prod.fst
    · obtain ⟨t1, tr', n, e1, I1, -, hn, -, -⟩ := It.remove_present_within hk
      rw [he] at e1
      cases e1
      refine ⟨n, I1.free, ?_, ?_⟩
      · rw [It.root]
        exact (Heap.reaches_iff It.cap_le It.heap n).2 hn
      · rw [I1.root, Heap.reaches_iff I1.cap_le I1.heap n]
        exact fun hm => I1.disjoint n hm (List.mem_cons_self _ _)
    · rw [RBT.remove, It.search_absent hk] at he
      cases he

end Partition

theorem wood_reach : ReachF wood :=
  ReachF.upsert (i := 1) (k := 2) (ReachF.upsert (i := 0) (k := 1)
    (ReachF.another (@ReachF.first Nat Nat _ _ _ 4 run0 (by decide) rfl) (by decide)
      (show construct run0.arena 4 = .ok twin from rfl))
    (by decide) (show (wood0.tree 0).upsert 1 = .ok (wood1.1, wood1.2) from rfl))
    (by decide) (show ((wood0.put 0 wood1.2).tree 1).upsert 2 = .ok (wood2.1, wood2.2) from rfl)

theorem arena_is_partitioned_witness :
    ReachF wood ∧ wood.roots = [0, 1] ∧ wood.arena.capacity = 4 ∧
      wood.arena.freeListHead = 2 ∧
      ∃ (fl : List Nat) (hss : List (List Nat)),
        FreeList wood.arena wood.arena.freeListHead fl ∧ fl.Nodup ∧
        (∀ x, wood.arena.OnFreeList wood.arena.freeListHead x ↔ x ∈ fl) ∧
        List.Forall₂ (fun r hs => ∀ x, wood.arena.Reaches r x ↔ x ∈ hs) wood.roots hss ∧
        hss.Pairwise List.Disjoint ∧ (∀ hs ∈ hss, List.Disjoint hs fl) ∧
        (hss.flatten ++ fl).Perm (List.range wood.arena.capacity) ∧
        (∀ a' x, wood.arena.prvAllocate = .ok (a', x) →
          ∀ r ∈ wood.roots, ¬ wood.arena.Reaches r x) ∧
        (∀ i k t', i < wood.roots.length → (wood.tree i).remove k = .ok t' →
          ∃ n, FreeList t'.arena t'.arena.freeListHead (n :: fl) ∧
            wood.arena.Reaches (wood.tree i).root n ∧ ¬ t'.arena.Reaches t'.root n) :=
  ⟨wood_reach, rfl, rfl, rfl, arena_is_partitioned wood_reach⟩

/-! ## The sorted list: counts, order and ranks -/

theorem list_bind_ok {α β : Type} {x : Except ListErr α} {f : α → Except ListErr β} {v : α}
    (h : x = .ok v) : (x >>= f) = f v := by
  subst h; rfl

theorem list_bind_err {α β : Type} {x : Except ListErr α} {f : α → Except ListErr β}
    {e : ListErr} (h : x = .error e) : (x >>= f) = .error e := by
  subst h; rfl

theorem list_bind_inv {α β : Type} {x : Except ListErr α} {f : α → Except ListErr β} {v : β}
    (h : (x >>= f) = .ok v) : ∃ u, x = .ok u ∧ f u = .ok v := by
  cases x with
  | error e => cases h
  | ok u => exact ⟨u, rfl, h⟩

theorem add32_ok {x y : Int} (h1 : INT32_MIN ≤ x + y) (h2 : x + y ≤ INT32_MAX) :
    TreeNode.add32 x y = .ok (x + y) := by
  simp only [TreeNode.add32]
  rw [if_pos ⟨h1, h2⟩]

theorem add32_inv {x y z : Int} (h : TreeNode.add32 x y = .ok z) :
    z = x + y ∧ INT32_MIN ≤ x + y ∧ x + y ≤ INT32_MAX := by
  simp only [TreeNode.add32] at h
  by_cases hc : INT32_MIN ≤ x + y ∧ x + y ≤ INT32_MAX
  · rw [if_pos hc] at h
    cases h
    exact ⟨rfl, hc⟩
  · rw [if_neg hc] at h
    cases h

theorem TreeNode.height_lt {α : Type} {d : α} {c g : Int} {l r : TreeNode α}
    (h : (TreeNode.node d c g l r).Wf) :
    0 ≤ g ∧ g < c ∧ c = ((TreeNode.node d c g l r).prvTraverse.length : Int) := by
  simp only [TreeNode.Wf] at h
  simp only [TreeNode.prvTraverse, List.length_append, List.length_cons]
  push_cast
  omega

theorem TreeNode.wf_node {α : Type} {d : α} {c g : Int} {l r : TreeNode α} :
    (TreeNode.node d c g l r).Wf ↔
      c = (l.prvTraverse.length : Int) + (r.prvTraverse.length : Int) + 1 ∧ 0 ≤ g ∧ g < c ∧
        l.Wf ∧ r.Wf := Iff.rfl

theorem TreeNode.length_null {α : Type} :
    ((TreeNode.null : TreeNode α).prvTraverse.length : Int) = 0 := rfl

/-- With right counts below and room in an `int32_t`, `prvAdjust` returns and stores the right
count and height. -/
theorem TreeNode.prvAdjust_ok {α : Type} (d : α) (c g : Int) {l r : TreeNode α} (hl : l.Wf)
    (hr : r.Wf)
    (hb : (l.prvTraverse.length : Int) + (r.prvTraverse.length : Int) + 1 ≤ INT32_MAX) :
    ∃ c' g', (TreeNode.node d c g l r).prvAdjust = .ok (.node d c' g' l r) ∧
      (TreeNode.node d c' g' l r).Wf := by
  cases l with
  | null =>
    cases r with
    | null =>
      exact ⟨1, 0, rfl, by simp [TreeNode.Wf, TreeNode.prvTraverse]⟩
    | node rd rc rg rl rr =>
      obtain ⟨r1, r2, r3⟩ := TreeNode.height_lt hr
      rw [TreeNode.length_null] at hb
      have e1 : TreeNode.add32 1 rc = .ok (1 + rc) :=
        add32_ok (by simp only [INT32_MIN]; omega) (by omega)
      have e2 : TreeNode.add32 1 rg = .ok (1 + rg) :=
        add32_ok (by simp only [INT32_MIN]; omega) (by omega)
      refine ⟨1 + rc, if 1 + rg > 0 then 1 + rg else 0, ?_, ?_⟩
      · simp only [TreeNode.prvAdjust, pure, Except.pure, bind, Except.bind, e1, e2]
      · rw [TreeNode.wf_node]
        rw [TreeNode.length_null]
        refine ⟨by omega, ?_, ?_, trivial, hr⟩
        · split <;> omega
        · split <;> omega
  | node ld lc lg ll lr =>
    obtain ⟨l1, l2, l3⟩ := TreeNode.height_lt hl
    cases r with
    | null =>
      rw [TreeNode.length_null] at hb
      have e1 : TreeNode.add32 1 lc = .ok (1 + lc) :=
        add32_ok (by simp only [INT32_MIN]; omega) (by omega)
      have e2 : TreeNode.add32 1 lg = .ok (1 + lg) :=
        add32_ok (by simp only [INT32_MIN]; omega) (by omega)
      refine ⟨1 + lc, 1 + lg, ?_, ?_⟩
      · simp only [TreeNode.prvAdjust, pure, Except.pure, bind, Except.bind, e1, e2]
      · rw [TreeNode.wf_node]
        rw [TreeNode.length_null]
        refine ⟨by omega, by omega, by omega, hl, trivial⟩
    | node rd rc rg rl rr =>
      obtain ⟨r1, r2, r3⟩ := TreeNode.height_lt hr
      have e1 : TreeNode.add32 1 lc = .ok (1 + lc) :=
        add32_ok (by simp only [INT32_MIN]; omega) (by omega)
      have e2 : TreeNode.add32 1 lg = .ok (1 + lg) :=
        add32_ok (by simp only [INT32_MIN]; omega) (by omega)
      have e3 : TreeNode.add32 (1 + lc) rc = .ok (1 + lc + rc) :=
        add32_ok (by simp only [INT32_MIN]; omega) (by omega)
      have e4 : TreeNode.add32 1 rg = .ok (1 + rg) :=
        add32_ok (by simp only [INT32_MIN]; omega) (by omega)
      refine ⟨1 + lc + rc, if 1 + rg > 1 + lg then 1 + rg else 1 + lg, ?_, ?_⟩
      · simp only [TreeNode.prvAdjust, pure, Except.pure, bind, Except.bind, e1, e2, e3, e4]
      · rw [TreeNode.wf_node]
        refine ⟨by omega, ?_, ?_, hl, hr⟩
        · split <;> omega
        · split <;> omega

theorem TreeNode.traverse_node {α : Type} {d : α} {c g : Int} {l r : TreeNode α} :
    (TreeNode.node d c g l r).prvTraverse = l.prvTraverse ++ d :: r.prvTraverse := rfl

/-- With room for one more node, `prvInsert` returns. -/
theorem TreeNode.prvInsert_ok {α : Type} [LinearOrder α] (v : α) : ∀ (t : TreeNode α),
    t.Wf → (t.prvTraverse.length : Int) + 1 ≤ INT32_MAX →
    ∃ t', TreeNode.prvInsert v t = .ok t' ∧ t'.Wf ∧
      t'.prvTraverse.length = t.prvTraverse.length + 1 := by
  intro t
  induction t with
  | null =>
    intro _ _
    exact ⟨_, rfl, by simp [TreeNode.Wf, TreeNode.prvTraverse], rfl⟩
  | node d c g l r ihl ihr =>
    intro hw hb
    rw [TreeNode.wf_node] at hw
    obtain ⟨-, -, -, hwl, hwr⟩ := hw
    rw [TreeNode.traverse_node, List.length_append, List.length_cons] at hb
    push_cast at hb
    simp only [TreeNode.prvInsert]
    by_cases hv : v < d
    · rw [if_pos hv]
      obtain ⟨l', e1, wl', n1⟩ := ihl hwl (by omega)
      obtain ⟨c', g', e2, hw'⟩ := TreeNode.prvAdjust_ok d c g wl' hwr (by
        rw [n1]
        push_cast
        omega)
      refine ⟨_, ?_, hw', ?_⟩
      · rw [list_bind_ok e1]
        exact e2
      · simp only [TreeNode.traverse_node, List.length_append, List.length_cons, n1]
        omega
    · rw [if_neg hv]
      obtain ⟨r', e1, wr', n1⟩ := ihr hwr (by omega)
      obtain ⟨c', g', e2, hw'⟩ := TreeNode.prvAdjust_ok d c g hwl wr' (by
        rw [n1]
        push_cast
        omega)
      refine ⟨_, ?_, hw', ?_⟩
      · rw [list_bind_ok e1]
        exact e2
      · simp only [TreeNode.traverse_node, List.length_append, List.length_cons, n1]
        omega

theorem TreeNode.indexLoop_node {α : Type} (pos : Int) (d : α) (c g : Int) (l r : TreeNode α)
    (skipped : Int) :
    TreeNode.indexLoop pos (.node d c g l r) skipped =
      (TreeNode.add32 skipped l.countOr0 >>= fun s =>
        if s = pos then pure d
        else if s > pos then TreeNode.indexLoop pos l skipped
        else TreeNode.add32 l.countOr0 1 >>= fun e =>
          TreeNode.add32 skipped e >>= fun k => TreeNode.indexLoop pos r k) := by
  cases l <;> rfl

theorem TreeNode.indexRef_node {α : Type} (pos : Int) (d : α) (c g : Int) (l r : TreeNode α)
    (skipped : Int) :
    TreeNode.indexRef pos (.node d c g l r) skipped =
      (TreeNode.add32 skipped l.countOr0 >>= fun s =>
        if s = pos then pure []
        else if s > pos then TreeNode.indexRef pos l skipped >>= fun p => pure (false :: p)
        else TreeNode.add32 l.countOr0 1 >>= fun e =>
          TreeNode.add32 skipped e >>= fun k =>
            TreeNode.indexRef pos r k >>= fun p => pure (true :: p)) := by
  cases l <;> rfl

/-- The value `operator[]` returns is the one read through the reference it returns. -/
theorem TreeNode.indexLoop_reads_ref {α : Type} (pos : Int) : ∀ (t : TreeNode α)
    (skipped : Int), TreeNode.indexLoop pos t skipped =
      (TreeNode.indexRef pos t skipped >>= fun p =>
        match t.datumAt p with
        | some x => pure x
        | none => .error .undefinedBehaviour) := by
  intro t
  induction t with
  | null => intro _; rfl
  | node d c g l r ihl ihr =>
    intro skipped
    have hl : ∀ s, TreeNode.indexLoop pos l s =
        ((TreeNode.indexRef pos l s >>= fun p => pure (false :: p)) >>= fun p =>
          match (TreeNode.node d c g l r).datumAt p with
          | some x => pure x
          | none => .error .undefinedBehaviour) := by
      intro s
      rw [ihl s]
      cases TreeNode.indexRef pos l s <;> rfl
    have hr : ∀ s, TreeNode.indexLoop pos r s =
        ((TreeNode.indexRef pos r s >>= fun p => pure (true :: p)) >>= fun p =>
          match (TreeNode.node d c g l r).datumAt p with
          | some x => pure x
          | none => .error .undefinedBehaviour) := by
      intro s
      rw [ihr s]
      cases TreeNode.indexRef pos r s <;> rfl
    rw [TreeNode.indexLoop_node, TreeNode.indexRef_node]
    cases TreeNode.add32 skipped l.countOr0 with
    | error e => rfl
    | ok s =>
      show (if s = pos then pure d
        else if s > pos then TreeNode.indexLoop pos l skipped
        else TreeNode.add32 l.countOr0 1 >>= fun e =>
          TreeNode.add32 skipped e >>= fun k => TreeNode.indexLoop pos r k) =
        ((if s = pos then pure []
        else if s > pos then TreeNode.indexRef pos l skipped >>= fun p => pure (false :: p)
        else TreeNode.add32 l.countOr0 1 >>= fun e =>
          TreeNode.add32 skipped e >>= fun k =>
            TreeNode.indexRef pos r k >>= fun p => pure (true :: p)) >>= fun p =>
          match (TreeNode.node d c g l r).datumAt p with
          | some x => pure x
          | none => .error .undefinedBehaviour)
      by_cases c1 : s = pos
      · rw [if_pos c1, if_pos c1]
        rfl
      · rw [if_neg c1, if_neg c1]
        by_cases c2 : s > pos
        · rw [if_pos c2, if_pos c2]
          exact hl skipped
        · rw [if_neg c2, if_neg c2]
          cases TreeNode.add32 l.countOr0 1 with
          | error e => rfl
          | ok e =>
            show (TreeNode.add32 skipped e >>= fun k => TreeNode.indexLoop pos r k) =
              ((TreeNode.add32 skipped e >>= fun k =>
                TreeNode.indexRef pos r k >>= fun p => pure (true :: p)) >>= fun p =>
                match (TreeNode.node d c g l r).datumAt p with
                | some x => pure x
                | none => .error .undefinedBehaviour)
            cases TreeNode.add32 skipped e with
            | error e => rfl
            | ok k => exact hr k

/-- The value `operator[]` returns is the one read through the reference it returns. -/
theorem elementAt_reads_refAt {α : Type} (t : SortedLinearList α) (pos : Int) :
    t.elementAt pos = (t.refAt pos >>= fun key =>
      match TreeNode.read key t.root with
      | some x => pure x
      | none => .error .undefinedBehaviour) := by
  simp only [SortedLinearList.elementAt, SortedLinearList.refAt]
  cases hr : t.root with
  | null => rfl
  | node d c g l r =>
    simp only []
    by_cases hc : pos < 0 ∨ pos ≥ c
    · simp only [if_pos hc]
      rfl
    · simp only [if_neg hc]
      rw [TreeNode.indexLoop_reads_ref]
      cases TreeNode.indexRef pos (.node d c g l r) 0 <;> rfl

/-! ## The sorted list: what every built list satisfies -/

section ListFacts
variable {α : Type} [LinearOrder α] {t t' : SortedLinearList α}

theorem ListInv.size_is_length (h : ListInv t) : t.size = (t.traverse.length : Int) := by
  have hw := h.wf
  simp only [SortedLinearList.size, SortedLinearList.traverse]
  cases hr : t.root with
  | null => rfl
  | node d c g l r =>
    rw [hr] at hw
    exact (TreeNode.height_lt hw).2.2

theorem ListInv.insert_returns (h : ListInv t) (hs : t.size < INT32_MAX) (v : α) :
    ∃ t', t.insert v = .ok t' := by
  rw [h.size_is_length] at hs
  obtain ⟨r, e, -, -⟩ := TreeNode.prvInsert_ok v t.root h.wf (by
    simp only [SortedLinearList.traverse] at hs
    omega)
  refine ⟨{ root := r }, ?_⟩
  simp only [SortedLinearList.insert]
  rw [list_bind_ok e]
  rfl

theorem Built.insertAll (vs : List α) : ∀ {t t' : SortedLinearList α}, Built t →
    SortedLinearList.insertAll vs t = .ok t' → Built t' := by
  induction vs with
  | nil =>
    intro t t' h e
    cases e
    exact h
  | cons v vs ih =>
    intro t t' h e
    simp only [SortedLinearList.insertAll] at e
    obtain ⟨t1, e1, e2⟩ := list_bind_inv e
    exact ih (Built.insert h e1) e2

end ListFacts

section ListClaims
variable {α : Type} [LinearOrder α]

end ListClaims

/-- A tree constructed with `n` slots and filled with the keys `0, ..., n-1` by `operator[]`:
every call returns, and the tree holds `n` entries. -/
theorem filled_tree_reach (n : Nat) (h0 : 0 < n) (h1 : n ≤ NULL_INDEX) :
    ∃ (t0 t : RBT Nat Nat) (tr : Tree Nat Nat) (fl : List Nat),
      empty n = .ok t0 ∧ t0.upsertAll (List.range n) = .ok t ∧
      Reach t tr.toList ∧ Inv t tr fl ∧ tr.size = n := by
  obtain ⟨t0, e0, I0, -, -⟩ := empty_inv (K := Nat) (V := Nat) h0 h1
  have hr0 : Reach t0 (Tree.nil : Tree Nat Nat).toList :=
    Reach.init (a := Arena.static0) rfl h1 e0
  have hab : ∀ k ∈ List.range n, k ∉ (Tree.nil : Tree Nat Nat).toList.map Prod.fst :=
    fun _ _ => by simp [Tree.toList]
  obtain ⟨t, _, _, e, _⟩ := Inv.fill (List.range n) hr0 I0 hab (List.nodup_range n)
    (by rw [List.length_range, List.length_range'])
  obtain ⟨es, hr, hl⟩ := Reach.upsertAll_size (List.range n) hr0 hab (List.nodup_range n) e
  obtain ⟨tr, fl, I, rfl⟩ := hr.inv
  refine ⟨t0, t, tr, fl, e0, e, hr, I, ?_⟩
  rw [Tree.size_eq_length, hl, List.length_range]
  simp [Tree.toList]

/-- Claim C1 fails on the code: a tree constructed with `0xffffffff` slots and filled with the
keys `0, ..., 2^32-2` by `operator[]` calls that all return holds `2^32-1` entries; on it
`GET_COUNT(root)+1` wraps to zero and `isValidRBTree` throws the too-tall error. -/
theorem validator_throws_on_full_tree :
    ∃ t0 t : RBT Nat Nat, empty 4294967295 = .ok t0 ∧
      t0.upsertAll (List.range 4294967295) = .ok t ∧ t.size = .ok 4294967295 ∧
      t.isValidRBTree = .error (.invariant .tooTall) := by
  obtain ⟨t0, t, tr, fl, e0, e, -, I, hs⟩ :=
    filled_tree_reach 4294967295 (Nat.lt_of_sub_eq_succ rfl) (Nat.le_refl _)
  refine ⟨t0, t, e0, e, ?_, I.too_tall (hs.symm ▸ rfl)⟩
  rw [I.size_eq, ← Tree.size_eq_length, hs]

/-- Claim C17 fails on the code: the tree of `2^32-1` nodes that `2^32-1` calls of `operator[]`
build in an arena of `0xffffffff` slots satisfies the colour invariants, has a black root and
stores correct counts and heights, and its height is at most `2*ceil(log2(count+1))`; but
`isValidRBTree` computes `count+1` in `uint32_t`, gets zero, and throws the too-tall error. -/
theorem too_tall_fires_on_full_tree :
    ∃ (t : RBT Nat Nat) (tr : Tree Nat Nat), tr.Ok ∧ tr.isRed = false ∧ tr.Cons ∧
      Heap t.arena tr ∧ t.root = tr.root ∧ t.arena.capacity ≤ NULL_INDEX ∧ tr.depth < t.fuel ∧
      tr.cnt = 4294967295 ∧ tr.ht ≤ 2 * RBT.ceilLog2 (tr.cnt + 1) ∧
      t.isValidRBTree = .error (.invariant .tooTall) := by
  obtain ⟨t0, t, tr, fl, -, -, -, I, hs⟩ :=
    filled_tree_reach 4294967295 (Nat.lt_of_sub_eq_succ rfl) (Nat.le_refl _)
  have hs1 : tr.size + 1 = UINT32 := hs.symm ▸ rfl
  refine ⟨t, tr, I.ok, I.black, I.cons, I.heap, I.root, I.cap_le, I.depth_lt, ?_, ?_,
    I.too_tall hs1⟩
  · rw [I.cons.cnt_eq, hs]
  · rw [I.cons.ht_eq, I.cons.cnt_eq]
    exact I.ok.height_bound I.black (le_of_eq hs1)

end RedBlackTree
